import Mathlib

/-!
# Narwhal consensus core: a shallow embedding and its verified properties

The definitions follow `include/narwhal/*.hpp`, `src/consensus.cpp`, `src/crypto.cpp` and
the load generator of `src/primary.cpp`.

* Machine integers are natural numbers; every operation of the source that can
  leave the range of its C++ type carries an explicit `% 2 ^ 64` (`Round`,
  `uint64_t`) or `% 2 ^ 32` (`Stake`).
* `std::array<uint8_t, N>` is a list of `N` bytes; comparison is lexicographic,
  as `operator<` of `std::array`.
* `std::map` and `std::unordered_map` are association lists holding at most one
  entry per key. The list order stands for the iteration order.
* `crypto::Hash::compute` is a parameter `H`: the cryptographic hash is an
  external collaborator of the consensus core.
* `std::sort` by round is a parameter `S` that meets the contract of `std::sort`.
* Arguments passed by non-const reference (`dag`, `state`, the member data of an
  engine) are handed back in the result.
* Loops whose termination depends on the data take a `fuel` argument and return
  `none` when it is exhausted; `none` also stands for the undefined `round % 0`
  of `select_anchor`.
* The driver is run on the list of the certificates it receives from
  `rx_primary` before the channel is closed; a channel it sends to is the list of
  the certificates sent.
-/

namespace narwhal

/-! ## crypto.hpp -/

abbrev Byte := Fin 256

/-- The type `std::array<uint8_t, n>`. -/
abbrev Bytes (n : Nat) := { l : List Byte // l.length = n }

abbrev Digest := Bytes 32
abbrev PublicKey := Bytes 32
abbrev Signature := Bytes 64

/-- The type of `crypto::Hash::compute`. -/
abbrev HashFn := List Byte → Digest

/-! ## Association lists for `std::map` and `std::unordered_map` -/

/-- The lookup `m.find(k)`: the value stored under `k`, if any. -/
def lookup {κ α : Type} [DecidableEq κ] : List (κ × α) → κ → Option α
  | [], _ => none
  | (k', v) :: t, k => if k' = k then some v else lookup t k

/-- The assignment `m[k] = v` on a `std::unordered_map`: the entry of `k` is
replaced where it stands, a new key is added at the end. -/
def assign {κ α : Type} [DecidableEq κ] : List (κ × α) → κ → α → List (κ × α)
  | [], k, v => [(k, v)]
  | (k', v') :: t, k, v => if k' = k then (k, v) :: t else (k', v') :: assign t k v

/-- The assignment `m[k] = v` on a `std::map`: entries stay in ascending key
order. -/
def assignOrd {κ α : Type} [LinearOrder κ] : List (κ × α) → κ → α → List (κ × α)
  | [], k, v => [(k, v)]
  | (k', v') :: t, k, v =>
    if k = k' then (k, v) :: t
    else if k < k' then (k, v) :: (k', v') :: t
    else (k', v') :: assignOrd t k v

/-! ## serializable.hpp -/

namespace Packer

/-- The function `Packer::pack_u64`: eight bytes, least significant first. -/
def pack_u64 (buf : List Byte) (val : Nat) : List Byte :=
  (List.range 8).foldl (fun b i => b ++ [Fin.ofNat ((val >>> (i * 8)) &&& 0xFF)]) buf

/-- The function `Packer::pack_bytes`, called with a whole array. -/
def pack_bytes (buf : List Byte) (val : List Byte) : List Byte :=
  buf ++ val

end Packer

/-! ## config.hpp -/

structure Authority where
  stake : Nat
  primary_address : String
  worker_address : String
deriving DecidableEq

/-- The class `config::Committee`; `authorities` is a `std::map`, its entries
are held in ascending key order. -/
structure Committee where
  authorities : List (PublicKey × Authority)
deriving DecidableEq

namespace Committee

def total_stake (c : Committee) : Nat :=
  c.authorities.foldl (fun total p => (total + p.2.stake) % 2 ^ 32) 0

def quorum_threshold (c : Committee) : Nat :=
  (c.total_stake * 2) % 2 ^ 32 / 3 + 1

def validity_threshold (c : Committee) : Nat :=
  (c.total_stake + 2 ^ 32 - 1) % 2 ^ 32 / 3 + 1

def size (c : Committee) : Nat :=
  c.authorities.length

def get_stake (c : Committee) (name : PublicKey) : Nat :=
  match lookup c.authorities name with
  | some a => a.stake
  | none => 0

end Committee

/-! ## consensus_engines.hpp: headers and certificates -/

/-- The struct `Header`; `payload` lists the entries of the
`std::unordered_map` in iteration order. -/
structure Header where
  author : PublicKey
  round : Nat
  parents : List Digest
  payload : List (Digest × Nat)
deriving DecidableEq

structure Certificate where
  header : Header
  votes : List (PublicKey × Signature)
deriving DecidableEq

def Header.serialize (h : Header) : List Byte :=
  let buf : List Byte := []
  let buf := Packer.pack_bytes buf h.author.val
  let buf := Packer.pack_u64 buf h.round
  let buf := Packer.pack_u64 buf h.parents.length
  let buf := h.parents.foldl (fun b p => Packer.pack_bytes b p.val) buf
  let buf := Packer.pack_u64 buf h.payload.length
  let buf := h.payload.foldl
    (fun b p => Packer.pack_u64 (Packer.pack_bytes b p.1.val) p.2) buf
  buf

namespace Certificate

def origin (c : Certificate) : PublicKey := c.header.author

def round (c : Certificate) : Nat := c.header.round

def serialize (c : Certificate) : List Byte :=
  let buf := c.header.serialize
  let buf := Packer.pack_u64 buf c.votes.length
  let buf := c.votes.foldl
    (fun b v => Packer.pack_bytes (Packer.pack_bytes b v.1.val) v.2.val) buf
  buf

def digest (H : HashFn) (c : Certificate) : Digest :=
  H c.header.serialize

end Certificate

/-- One entry set of a round: `author → (digest, certificate)`. -/
abbrev RoundMap := List (PublicKey × (Digest × Certificate))

/-- The type `dag_t`: `round → author → (digest, certificate)`. -/
abbrev dag_t := List (Nat × RoundMap)

instance : DecidableEq RoundMap := inferInstance

instance : DecidableEq dag_t := inferInstance

structure State where
  last_committed_round : Nat
  last_committed : List (PublicKey × Nat)
  dag : dag_t
deriving DecidableEq

/-! ## consensus.cpp: state -/

namespace State

/-- The constructor `State::State(genesis_certs)`. -/
def init (H : HashFn) (genesis_certs : List Certificate) : State :=
  let acc := genesis_certs.foldl
    (fun (acc : RoundMap × List (PublicKey × Nat)) cert =>
      (assign acc.1 cert.origin (cert.digest H, cert), assign acc.2 cert.origin cert.round))
    ([], [])
  { last_committed_round := 0
    last_committed := acc.2
    dag := assignOrd [] 0 acc.1 }

/-- The method `State::update`. -/
def update (s : State) (certificate : Certificate) (gc_depth : Nat) : State :=
  let origin := certificate.origin
  let last_committed := assign s.last_committed origin
    (max ((lookup s.last_committed origin).getD 0) certificate.round)
  let max_round := last_committed.foldl (fun m p => max m p.2) 0
  { last_committed_round := max_round
    last_committed := last_committed
    dag := s.dag.filter (fun p => ¬ ((p.1 + gc_depth) % 2 ^ 64 < max_round)) }

end State

/-- The statement `state.dag[round][origin] = {digest, certificate}` of
`Consensus::run`. -/
def dag_insert (dag : dag_t) (round : Nat) (origin : PublicKey)
    (entry : Digest × Certificate) : dag_t :=
  assignOrd dag round (assign ((lookup dag round).getD []) origin entry)

/-- The function `Consensus::genesis`. -/
def Consensus.genesis (committee : Committee) : List Certificate :=
  committee.authorities.map (fun p =>
    { header := { author := p.1, round := 0, parents := [], payload := [] }, votes := [] })

/-- The stake of the certificates of one round that list `digest` among their
parents; every certificate counts once. This loop occurs in the three
engines. -/
def support (committee : Committee) (entries : Option RoundMap) (digest : Digest) : Nat :=
  match entries with
  | none => 0
  | some m =>
    m.foldl (fun stake p =>
      if digest ∈ p.2.2.header.parents then (stake + committee.get_stake p.2.2.origin) % 2 ^ 32
      else stake) 0

/-- The contract of `std::sort` with the comparator `a.round() < b.round()`:
the result is a rearrangement of the argument in non-decreasing round order.
The order of certificates of the same round is not specified. -/
structure RoundSorter where
  sort : List Certificate → List Certificate
  perm : ∀ l, (sort l).Perm l
  sorted : ∀ l, (sort l).Pairwise (fun a b => a.round ≤ b.round)

/-- A sort that keeps certificates of the same round in their given order. -/
def stableSorter : RoundSorter where
  sort l := l.insertionSort (fun a b => a.round ≤ b.round)
  perm l := List.perm_insertionSort _ l
  sorted l :=
    haveI : IsTotal Certificate (fun a b => a.round ≤ b.round) :=
      ⟨fun _ _ => Nat.le_total _ _⟩
    haveI : IsTrans Certificate (fun a b => a.round ≤ b.round) :=
      ⟨fun _ _ _ h1 h2 => Nat.le_trans h1 h2⟩
    List.sorted_insertionSort _ l

/-! ## consensus.cpp: Tusk -/

namespace TuskEngine

def leader (round : Nat) (dag : dag_t) (_committee : Committee) : Option (Digest × Certificate) :=
  match lookup dag round with
  | none => none
  | some m =>
    if m.isEmpty then none
    else
      let keys := (m.map Prod.fst).insertionSort (· ≤ ·)
      match keys[round % keys.length]? with
      | none => none
      | some leader_key => lookup m leader_key

/-- The `for` loop of `linked`, from round `r` down to `prev_round`; `none`
stands for the early `return false`. -/
def linked_loop (dag : dag_t) (prev_round : Nat) :
    Nat → List Certificate → Option (List Certificate)
  | 0, current_round => some current_round
  | r + 1, current_round =>
    if r + 1 > prev_round then
      match lookup dag r with
      | none => none
      | some m =>
        let next_parents := (m.filter (fun p =>
          current_round.any (fun curr => decide (p.2.1 ∈ curr.header.parents)))).map
            (fun p => p.2.2)
        if next_parents.isEmpty then none
        else linked_loop dag prev_round r next_parents
    else some current_round

def linked (H : HashFn) (leader prev_leader : Certificate) (dag : dag_t) : Bool :=
  match linked_loop dag prev_leader.round leader.round [leader] with
  | none => false
  | some current_round =>
    current_round.any (fun c => decide (c.digest H = prev_leader.digest H))

/-- The `for` loop of `order_leaders`; the counter `r` is a `uint64_t`, so
`r -= 2` wraps. -/
def order_leaders_loop (H : HashFn) (state : State) (dag : dag_t) (committee : Committee) :
    Nat → Nat → Certificate → List Certificate → Option (List Certificate)
  | 0, _, _, _ => none
  | fuel + 1, r, current, to_commit =>
    if r > state.last_committed_round then
      match leader r dag committee with
      | none => order_leaders_loop H state dag committee fuel ((r + 2 ^ 64 - 2) % 2 ^ 64)
          current to_commit
      | some prev =>
        let next :=
          if linked H current prev.2 dag then (prev.2, to_commit ++ [prev.2])
          else (current, to_commit)
        if r < 2 then some next.2
        else order_leaders_loop H state dag committee fuel ((r + 2 ^ 64 - 2) % 2 ^ 64)
          next.1 next.2
    else some to_commit

def order_leaders (H : HashFn) (fuel : Nat) (leader_cert : Certificate) (state : State)
    (dag : dag_t) (committee : Committee) : Option (List Certificate) :=
  order_leaders_loop H state dag committee fuel ((leader_cert.round + 2 ^ 64 - 2) % 2 ^ 64)
    leader_cert [leader_cert]

/-- The body of the loop over `x->header.parents` in `order_dag`: the entry of
`m` holding `p_digest` is pushed unless it was seen or is marked committed. -/
def visit_parent (state : State) (m : RoundMap) (acc : List Certificate × List Digest)
    (p_digest : Digest) : List Certificate × List Digest :=
  match m.find? (fun p => decide (p.2.1 = p_digest)) with
  | none => acc
  | some p =>
    let skip := decide (p_digest ∈ acc.2) ||
      decide (lookup state.last_committed p.2.2.origin = some p.2.2.round)
    if !skip then (p.2.2 :: acc.1, p_digest :: acc.2) else acc

/-- The `while` loop of `order_dag`; the head of `buffer` is `buffer.back()`. -/
def order_dag_loop (state : State) :
    Nat → List Certificate → List Digest → List Certificate → Option (List Certificate)
  | _, [], _, ordered => some ordered
  | 0, _ :: _, _, _ => none
  | fuel + 1, x :: buffer, seen, ordered =>
    let ordered := ordered ++ [x]
    if x.round = 0 then order_dag_loop state fuel buffer seen ordered
    else
      match lookup state.dag (x.round - 1) with
      | none => order_dag_loop state fuel buffer seen ordered
      | some m =>
        let acc := x.header.parents.foldl (visit_parent state m) (buffer, seen)
        order_dag_loop state fuel acc.1 acc.2 ordered

def order_dag (S : RoundSorter) (fuel : Nat) (leader : Certificate) (state : State) :
    Option (List Certificate) :=
  (order_dag_loop state fuel [leader] [] []).map S.sort

/-- The nested loop at the end of `process_round`: the concatenation of
`order_dag(l, state)` over the leaders. -/
def flatten_leaders (S : RoundSorter) (fuel : Nat) (state : State) :
    List Certificate → Option (List Certificate)
  | [] => some []
  | l :: ls =>
    match order_dag S fuel l state with
    | none => none
    | some xs =>
      match flatten_leaders S fuel state ls with
      | none => none
      | some rest => some (xs ++ rest)

/-- The method `TuskEngine::process_round`; `dag` and `state` are passed by
reference and handed back with the sequence. -/
def process_round (H : HashFn) (S : RoundSorter) (fuel : Nat) (round : Nat) (dag : dag_t)
    (state : State) (committee : Committee) : Option (List Certificate × dag_t × State) :=
  if round < 4 ∨ (round - 1) % 2 ≠ 0 then some ([], dag, state)
  else
    let r := round - 1
    let leader_round := r - 2
    if leader_round ≤ state.last_committed_round then some ([], dag, state)
    else
      match leader leader_round dag committee with
      | none => some ([], dag, state)
      | some (leader_digest, leader_cert) =>
        let stake := support committee (lookup dag (r - 1)) leader_digest
        if stake < committee.validity_threshold then some ([], dag, state)
        else
          match order_leaders H fuel leader_cert state dag committee with
          | none => none
          | some leaders =>
            match flatten_leaders S fuel state leaders.reverse with
            | none => none
            | some sequence => some (sequence, dag, state)

end TuskEngine

/-! ## consensus.cpp: Shoal++ -/

namespace ShoalPlusPlusEngine

/-- The read `reputation[pk]` of a `std::unordered_map`: an absent key is
entered with the value 0. -/
def touch (reputation : List (PublicKey × Nat)) (pk : PublicKey) : List (PublicKey × Nat) :=
  match lookup reputation pk with
  | some _ => reputation
  | none => assign reputation pk 0

/-- The second loop of `select_anchor`: the first candidate whose running
weight exceeds `choice`. -/
def pick (m : RoundMap) (choice : Nat) :
    List PublicKey → Nat → List (PublicKey × Nat) →
      Option (Digest × Certificate) × List (PublicKey × Nat)
  | [], _, reputation => (none, reputation)
  | pk :: rest, current, reputation =>
    let reputation := touch reputation pk
    let current := (current + ((lookup reputation pk).getD 0 + 1) % 2 ^ 64) % 2 ^ 64
    if current > choice then (lookup m pk, reputation)
    else pick m choice rest current reputation

/-- The method `select_anchor`, with the reputation map it reads and writes.
The outer `none` stands for the undefined `round % 0`. -/
def select_anchor (reputation : List (PublicKey × Nat)) (round : Nat) (dag : dag_t)
    (_committee : Committee) :
    Option (Option (Digest × Certificate) × List (PublicKey × Nat)) :=
  match lookup dag round with
  | none => some (none, reputation)
  | some m =>
    if m.isEmpty then some (none, reputation)
    else
      let candidates := (m.map Prod.fst).insertionSort (· ≤ ·)
      let acc := candidates.foldl
        (fun (acc : Nat × List (PublicKey × Nat)) pk =>
          let reputation := touch acc.2 pk
          ((acc.1 + ((lookup reputation pk).getD 0 + 1) % 2 ^ 64) % 2 ^ 64, reputation))
        (0, reputation)
      let total_reputation := acc.1
      if total_reputation = 0 then none
      else
        let choice := round % total_reputation
        some (pick m choice candidates 0 acc.2)

def update_reputation (reputation : List (PublicKey × Nat)) (committed : List Certificate) :
    List (PublicKey × Nat) :=
  let reputation := committed.foldl
    (fun rep cert =>
      assign rep cert.origin (((lookup rep cert.origin).getD 0 + 1) % 2 ^ 64))
    reputation
  if reputation.length > 100 then reputation.map (fun p => (p.1, p.2 / 2))
  else reputation

/-- The method `ShoalPlusPlusEngine::process_round`; the member `reputation`,
`dag` and `state` are handed back with the sequence. -/
def process_round (reputation : List (PublicKey × Nat)) (round : Nat) (dag : dag_t)
    (state : State) (committee : Committee) :
    Option (List Certificate × List (PublicKey × Nat) × dag_t × State) :=
  let leader_round := (round + 2 ^ 64 - 1) % 2 ^ 64
  if leader_round ≤ state.last_committed_round then some ([], reputation, dag, state)
  else
    match select_anchor reputation leader_round dag committee with
    | none => none
    | some (none, reputation) => some ([], reputation, dag, state)
    | some (some (anchor_digest, anchor_cert), reputation) =>
      let stake := support committee (lookup dag round) anchor_digest
      if stake < committee.validity_threshold then some ([], reputation, dag, state)
      else
        let sequence := [anchor_cert]
        let reputation := update_reputation reputation sequence
        some (sequence, reputation, dag, state)

end ShoalPlusPlusEngine

/-! ## consensus.cpp: Mysticeti -/

namespace MysticetiEngine

def get_leader (round : Nat) (committee : Committee) : Option PublicKey :=
  let keys := (committee.authorities.map Prod.fst).insertionSort (· ≤ ·)
  if keys.isEmpty then none
  else keys[round % keys.length]?

/-- The method `MysticetiEngine::process_round` of `consensus.cpp`. -/
def process_round (round : Nat) (dag : dag_t) (state : State) (committee : Committee) :
    List Certificate × dag_t × State :=
  if round < 3 then ([], dag, state)
  else
    let leader_round := round - 2
    if leader_round ≤ state.last_committed_round then ([], dag, state)
    else
      match get_leader leader_round committee with
      | none => ([], dag, state)
      | some leader_pk =>
        match lookup dag leader_round with
        | none => ([], dag, state)
        | some lm =>
          match lookup lm leader_pk with
          | none => ([], dag, state)
          | some (leader_digest, leader_cert) =>
            let votes := support committee (lookup dag (leader_round + 1)) leader_digest
            if votes < committee.validity_threshold then ([], dag, state)
            else ([leader_cert], dag, state)

end MysticetiEngine

/-! ## consensus.cpp: the driver -/

/-- The engine object owned by the driver: the class behind
`std::unique_ptr<ConsensusEngine>` with its member data. -/
inductive Engine where
  | tusk
  | shoal (reputation : List (PublicKey × Nat))
  | mysticeti
deriving DecidableEq

/-- The virtual call `engine->process_round(round, dag, state, committee)`. -/
def Engine.process_round (H : HashFn) (S : RoundSorter) (fuel : Nat) (engine : Engine)
    (round : Nat) (dag : dag_t) (state : State) (committee : Committee) :
    Option (List Certificate × Engine × dag_t × State) :=
  match engine with
  | .tusk =>
    (TuskEngine.process_round H S fuel round dag state committee).map
      (fun r => (r.1, Engine.tusk, r.2.1, r.2.2))
  | .shoal reputation =>
    (ShoalPlusPlusEngine.process_round reputation round dag state committee).map
      (fun r => (r.1, Engine.shoal r.2.1, r.2.2.1, r.2.2.2))
  | .mysticeti =>
    let r := MysticetiEngine.process_round round dag state committee
    some (r.1, Engine.mysticeti, r.2.1, r.2.2)

/-- What the driver owns while it runs: the state, the engine, and the
certificates sent so far on the two output channels. -/
structure Driver where
  state : State
  engine : Engine
  tx_primary : List Certificate
  tx_output : List Certificate
deriving DecidableEq

namespace Consensus

/-- The commit loop of `Consensus::run`: send on both channels, then update. -/
def commit (gc_depth : Nat) (d : Driver) (sequence : List Certificate) : Driver :=
  sequence.foldl
    (fun d cert =>
      { d with
        tx_primary := d.tx_primary ++ [cert]
        tx_output := d.tx_output ++ [cert]
        state := d.state.update cert gc_depth })
    d

/-- The insert step of `Consensus::run`:
`state.dag[round][certificate.origin()] = {certificate.digest(), certificate}`. -/
def insert (H : HashFn) (state : State) (certificate : Certificate) : State :=
  { state with
    dag := dag_insert state.dag certificate.round certificate.origin
      (certificate.digest H, certificate) }

/-- One pass through the body of the `while` loop of `Consensus::run` for a
received certificate. In the source `dag` is a reference to `state.dag`. -/
def step (H : HashFn) (S : RoundSorter) (fuel : Nat) (committee : Committee) (gc_depth : Nat)
    (d : Driver) (certificate : Certificate) : Option Driver :=
  let round := certificate.round
  let state := insert H d.state certificate
  match d.engine.process_round H S fuel round state.dag state committee with
  | none => none
  | some (sequence, engine, dag, state) =>
    some (commit gc_depth { d with state := { state with dag := dag }, engine := engine } sequence)

/-- The `while` loop of `Consensus::run` over the certificates received from
`rx_primary` until it is closed. -/
def run_loop (H : HashFn) (S : RoundSorter) (fuel : Nat) (committee : Committee)
    (gc_depth : Nat) : List Certificate → Driver → Option Driver
  | [], d => some d
  | certificate :: rest, d =>
    match step H S fuel committee gc_depth d certificate with
    | none => none
    | some d => run_loop H S fuel committee gc_depth rest d

/-- The method `Consensus::run` on the certificates `received`. -/
def run (H : HashFn) (S : RoundSorter) (fuel : Nat) (committee : Committee) (gc_depth : Nat)
    (engine : Engine) (received : List Certificate) : Option Driver :=
  run_loop H S fuel committee gc_depth received
    { state := State.init H (genesis committee), engine := engine,
      tx_primary := [], tx_output := [] }

end Consensus

/-! ## consensus_mysticeti.cpp -/

namespace consensus_mysticeti

namespace MysticetiEngine

def get_leader (round : Nat) (committee : Committee) : Option PublicKey :=
  let keys := (committee.authorities.map Prod.fst).insertionSort (· ≤ ·)
  if keys.isEmpty then none
  else keys[round % keys.length]?

/-- The method `MysticetiEngine::process_round` of `consensus_mysticeti.cpp`. -/
def process_round (round : Nat) (dag : dag_t) (state : State) (committee : Committee) :
    List Certificate × dag_t × State :=
  if round < 3 then ([], dag, state)
  else
    let leader_round := round - 2
    if leader_round ≤ state.last_committed_round then ([], dag, state)
    else
      match get_leader leader_round committee with
      | none => ([], dag, state)
      | some leader_pk =>
        match lookup dag leader_round with
        | none => ([], dag, state)
        | some lm =>
          match lookup lm leader_pk with
          | none => ([], dag, state)
          | some (leader_digest, leader_cert) =>
            let votes := support committee (lookup dag (leader_round + 1)) leader_digest
            if votes < committee.validity_threshold then ([], dag, state)
            else
              let sequence : List Certificate := [] ++ [leader_cert]
              (sequence, dag, state)

end MysticetiEngine

end consensus_mysticeti

/-! ## utils.hpp: Channel -/

namespace utils

/-- The data of a `Channel<T>` that its methods read and write under the mutex. -/
structure Channel (T : Type) where
  queue : List T
  closed : Bool

namespace Channel

/-- A channel as constructed: empty queue, `closed = false`. -/
def init {T : Type} : Channel T := { queue := [], closed := false }

def send {T : Type} (ch : Channel T) (value : T) : Channel T :=
  { ch with queue := ch.queue ++ [value] }

/-- The method `receive`, run on its own. The outer `none` stands for a call that
does not return: `cv.wait` waits while the queue is empty and the channel is not
closed. The inner value is the `std::optional` returned. -/
def receive {T : Type} (ch : Channel T) : Option (Option T × Channel T) :=
  if !ch.queue.isEmpty || ch.closed then
    if ch.queue.isEmpty && ch.closed then some (none, ch)
    else
      match ch.queue with
      | [] => none
      | value :: rest => some (some value, { ch with queue := rest })
  else none

def close {T : Type} (ch : Channel T) : Channel T :=
  { ch with closed := true }

end Channel

end utils

/-! ## async_network.hpp, async_network.cpp: MessageHeader -/

namespace network

/-- The type `enum class MessageType : uint8_t`: a value is its byte. -/
abbrev MessageType := Byte

namespace MessageType

def CERTIFICATE : MessageType := 0x01
def BATCH : MessageType := 0x02
def VOTE : MessageType := 0x03
def SYNC_REQUEST : MessageType := 0x04
def SYNC_RESPONSE : MessageType := 0x05

end MessageType

/-- The struct `MessageHeader`; `magic` and `length` are `uint32_t`. -/
structure MessageHeader where
  magic : Nat
  version : Byte
  type : MessageType
  length : Nat
deriving DecidableEq

namespace MessageHeader

def MAGIC : Nat := 0x4E415257

def VERSION : Byte := 0x01

/-- The conversion of an integer to `uint8_t` on assignment to `buffer[i]`. -/
def to_u8 (n : Nat) : Byte := ⟨n % 256, Nat.mod_lt _ (by decide)⟩

def serialize (h : MessageHeader) : List Byte :=
  [to_u8 ((h.magic >>> 24) &&& 0xFF), to_u8 ((h.magic >>> 16) &&& 0xFF),
    to_u8 ((h.magic >>> 8) &&& 0xFF), to_u8 (h.magic &&& 0xFF),
    h.version, h.type,
    to_u8 ((h.length >>> 24) &&& 0xFF), to_u8 ((h.length >>> 16) &&& 0xFF),
    to_u8 ((h.length >>> 8) &&& 0xFF), to_u8 (h.length &&& 0xFF)]

/-- The function `MessageHeader::deserialize`; `Except.error` stands for the
`std::runtime_error` thrown, with its message. -/
def deserialize (data : List Byte) : Except String MessageHeader :=
  if data.length < 10 then Except.error "Invalid header size"
  else
    let magic := ((data.getD 0 0).val <<< 24) ||| ((data.getD 1 0).val <<< 16)
      ||| ((data.getD 2 0).val <<< 8) ||| (data.getD 3 0).val
    if magic ≠ MAGIC then Except.error "Invalid magic number"
    else
      Except.ok
        { magic := magic, version := data.getD 4 0, type := data.getD 5 0,
          length := ((data.getD 6 0).val <<< 24) ||| ((data.getD 7 0).val <<< 16)
            ||| ((data.getD 8 0).val <<< 8) ||| (data.getD 9 0).val }

end MessageHeader

end network

/-! ## Definitions used to state the properties -/

/-- The sum of the stakes of a committee, without wrap-around. -/
def Committee.stake_sum (c : Committee) : Nat :=
  (c.authorities.map (fun p => p.2.stake)).sum

/-- The invariant of `std::map`: keys in strictly ascending order. -/
def Committee.WF (c : Committee) : Prop :=
  (c.authorities.map Prod.fst).Pairwise (· < ·)

/-- The stake of a set of authorities. -/
def Committee.stake_of (c : Committee) (Q : Finset PublicKey) : Nat :=
  ∑ pk ∈ Q, c.get_stake pk

/-- The set of the keys of a committee. -/
def Committee.keys (c : Committee) : Finset PublicKey :=
  (c.authorities.map Prod.fst).toFinset

/-- The public key whose first byte is `i` and whose other bytes are 0, as the
keys built in `primary.cpp`. -/
def key (i : Byte) : PublicKey := ⟨i :: List.replicate 31 0, rfl⟩

/-- The key of authority `i` in `primary.cpp`: `pk[0] = i`. -/
def key4 (i : Fin 4) : PublicKey := key (Fin.castLE (by decide) i)

/-- The authority records of `primary.cpp`, each of stake 100. -/
def authority4 (i : Fin 4) : Authority :=
  ⟨100,
    ["127.0.0.1:8000", "127.0.0.1:8001", "127.0.0.1:8002", "127.0.0.1:8003"].getD i.val "",
    ["127.0.0.1:9000", "127.0.0.1:9001", "127.0.0.1:9002", "127.0.0.1:9003"].getD i.val ""⟩

/-- The committee of `primary.cpp`: four authorities of stake 100. -/
def committee4 : Committee :=
  ⟨[(key4 0, authority4 0), (key4 1, authority4 1), (key4 2, authority4 2),
    (key4 3, authority4 3)]⟩

/-- The number `n` as eight little-endian bytes: byte `i` is `n / 256 ^ i` modulo 256. -/
def le64 (n : Nat) : List Byte :=
  (List.range 8).map (fun i => ⟨n / 256 ^ i % 256, Nat.mod_lt _ (by decide)⟩)

/-- The number that a list of bytes stands for when read least significant byte first. -/
def le_value : List Byte → Nat
  | [] => 0
  | b :: bs => b.val + 256 * le_value bs

/-- The ranges that the C++ types give the fields of a certificate: `uint64_t`
round, `size_t` element counts, `uint32_t` worker ids. -/
def Certificate.WF (c : Certificate) : Prop :=
  c.header.round < 2 ^ 64 ∧ c.header.parents.length < 2 ^ 64
    ∧ c.header.payload.length < 2 ^ 64 ∧ (∀ p ∈ c.header.payload, p.2 < 2 ^ 32)
    ∧ c.votes.length < 2 ^ 64

/-- The function `Hash::compute` of `crypto.cpp` when `USE_INTERNAL_MOCKS` is defined:
byte `i` of the data is folded into byte `i % 32` of the digest with exclusive or. -/
def Hash.compute_mock (data : List Byte) : Digest :=
  data.enum.foldl
    (fun (d : Digest) p =>
      ⟨d.val.set (p.1 % 32) (d.val.getD (p.1 % 32) 0 ^^^ p.2), by simp [d.property]⟩)
    ⟨List.replicate 32 0, rfl⟩

/-- A sample certificate: one parent, one payload entry, no votes. -/
def sample_cert : Certificate :=
  { header := { author := key 1, round := 3, parents := [key 7], payload := [(key 9, 5)] },
    votes := [] }

/-- The sample certificate with one vote added. -/
def sample_cert_voted : Certificate :=
  { sample_cert with votes := [(key 2, ⟨List.replicate 64 0, rfl⟩)] }

/-- The certificates that the load generator of `primary.cpp` sends for one
round: one for each authority, listing the digests of the round before. -/
def load_round (committee : Committee) (round : Nat) (previous_round_digests : List Digest) :
    List Certificate :=
  committee.authorities.map (fun p =>
    { header := { author := p.1, round := round, parents := previous_round_digests,
                  payload := [] },
      votes := [] })

/-- The loop of the load generator, run for `n` rounds from `round` on. -/
def load_loop (H : HashFn) (committee : Committee) :
    Nat → Nat → List Digest → List Certificate
  | 0, _, _ => []
  | n + 1, round, previous_round_digests =>
    let certs := load_round committee round previous_round_digests
    certs ++ load_loop H committee n (round + 1) (certs.map (Certificate.digest H))

/-- The certificates that the load generator of `primary.cpp` sends in its
first `n` rounds, in the order of sending. -/
def load_generator (H : HashFn) (committee : Committee) (n : Nat) : List Certificate :=
  load_loop H committee n 1 ((Consensus.genesis committee).map (Certificate.digest H))

/-- A stand-in for a collision-free hash on the certificates of the load
generator: the digest holds byte 0 of the author and the low byte of the round
(bytes 0 and 32 of the serialized header), so certificates that differ in
author or round have different digests. -/
def toyHash : HashFn := fun bytes =>
  ⟨bytes.getD 0 0 :: bytes.getD 32 0 :: List.replicate 30 0, rfl⟩

/-- The digest that `toyHash` gives the certificate of author `i` at round `r`. -/
def toy_digest (r i : Nat) : Digest :=
  ⟨Fin.ofNat i :: Fin.ofNat r :: List.replicate 30 0, rfl⟩

/-- The certificate that the load generator sends for author `i` at round `r ≤ n` when the
hash is `toyHash`; round 0 is genesis (see `load_generator_25`). -/
def toy_cert (n : Nat) (r : Fin (n + 1)) (i : Fin 4) : Certificate :=
  { header :=
      { author := key4 i, round := r.val,
        parents := if r.val = 0 then [] else (List.range 4).map (toy_digest (r.val - 1)),
        payload := [] },
    votes := [] }

/-- The first certificate that the load generator sends for round `n + 1` when the hash
is `toyHash`. -/
def toy_next (n : Nat) : Certificate :=
  { header :=
      { author := key4 0, round := n + 1, parents := (List.range 4).map (toy_digest n),
        payload := [] },
    votes := [] }

/-- The state of the driver after the insert step alone was applied to the first
`n` certificates of the load generator, starting from the genesis state. -/
def load_state (H : HashFn) (n : Nat) : State :=
  ((load_generator H committee4 (n / 4 + 1)).take n).foldl (Consensus.insert H)
    (State.init H (Consensus.genesis committee4))

/-- The value that `reputation[pk]` reads: 0 for an absent key. -/
def rep_val (reputation : List (PublicKey × Nat)) (pk : PublicKey) : Nat :=
  (lookup reputation pk).getD 0

/-- The fully connected DAG of the load generator, for any hash: authorities `k 0 < … < k 3`
of stake 100, certificates `c r i` of round `r ≤ n` and author `k i`, those of round 0 being
the genesis certificates and those of a later round listing the four digests of the round
before as parents, in the order of the authors; the digests are pairwise distinct. -/
structure FullDag (H : HashFn) (k : Fin 4 → PublicKey) (a : Fin 4 → Authority) (n : Nat)
    (c : Fin (n + 1) → Fin 4 → Certificate) : Prop where
  keys : StrictMono k
  stake : ∀ i, (a i).stake = 100
  genesis : [c 0 0, c 0 1, c 0 2, c 0 3]
    = Consensus.genesis ⟨[(k 0, a 0), (k 1, a 1), (k 2, a 2), (k 3, a 3)]⟩
  origin : ∀ r i, (c r i).origin = k i
  round : ∀ r i, (c r i).round = r.val
  parents : ∀ (r : Fin n) i, (c r.succ i).header.parents
    = [(c r.castSucc 0).digest H, (c r.castSucc 1).digest H,
       (c r.castSucc 2).digest H, (c r.castSucc 3).digest H]
  distinct : ∀ r i r' i', (c r i).digest H = (c r' i').digest H → r = r' ∧ i = i'

/-- The read `get(round, author)` of the DAG: the entry `dag[round][author]` when the
round and the author are present (`dag.find(round)`, then `find(author)`). -/
def dag_get (dag : dag_t) (round : Nat) (author : PublicKey) : Option (Digest × Certificate) :=
  (lookup dag round).bind (fun m => lookup m author)

/-- A sequence of `State::update` calls, each with its certificate and `gc_depth`. -/
def State.updates (s : State) (calls : List (Certificate × Nat)) : State :=
  calls.foldl (fun s p => s.update p.1 p.2) s

/-- A second certificate for round 1 of authority 0, next to `toy_cert 4 1 0`: the
same author and round, no parents. -/
def equivocation_cert : Certificate :=
  { header := { author := key4 0, round := 1, parents := [], payload := [] }, votes := [] }

/-- The certificates of the load generator for rounds 1 to 4 and the first of round 5,
without the round-2 certificate of authority 2, the authority `keys[2 mod 4]` of the
committee. -/
def leader_absent_certs : List Certificate :=
  [toy_cert 4 1 0, toy_cert 4 1 1, toy_cert 4 1 2, toy_cert 4 1 3,
    toy_cert 4 2 0, toy_cert 4 2 1, toy_cert 4 2 3,
    toy_cert 4 3 0, toy_cert 4 3 1, toy_cert 4 3 2, toy_cert 4 3 3,
    toy_cert 4 4 0, toy_cert 4 4 1, toy_cert 4 4 2, toy_cert 4 4 3, toy_next 4]

/-- The state of the driver after the insert step alone was applied to
`leader_absent_certs`, starting from the genesis state. -/
def leader_absent_state : State :=
  leader_absent_certs.foldl (Consensus.insert toyHash)
    (State.init toyHash (Consensus.genesis committee4))

/-- A state with rounds 149, 150 and 200 in the DAG and authority 0 committed up to
round 199. -/
def gc_state : State :=
  { last_committed_round := 199, last_committed := [(key4 0, 199), (key4 1, 198)],
    dag := [(149, []), (150, []), (200, [])] }

/-- A certificate of round 200 by authority 0. -/
def gc_cert : Certificate :=
  { header := { author := key4 0, round := 200, parents := [], payload := [] }, votes := [] }

/-- The stake behind `digest` in the entries of one round as a plain sum: every
certificate that lists `digest` among its parents counts once, with the stake of its
origin, which is 0 when the committee does not know the origin. -/
def support_stake (committee : Committee) (entries : Option RoundMap) (digest : Digest) : Nat :=
  (((entries.getD []).filter (fun p => decide (digest ∈ p.2.2.header.parents))).map
    (fun p => committee.get_stake p.2.2.origin)).sum

/-- The S3 setting: the certificates of the load generator for rounds 1 to 4 and the
first of round 5, where among the round-3 certificates only the one of authority 0
lists the round-2 certificate of authority 2, the leader, as a parent. -/
def weak_support_certs : List Certificate :=
  [toy_cert 4 1 0, toy_cert 4 1 1, toy_cert 4 1 2, toy_cert 4 1 3,
    toy_cert 4 2 0, toy_cert 4 2 1, toy_cert 4 2 2, toy_cert 4 2 3,
    toy_cert 4 3 0,
    { toy_cert 4 3 1 with
      header := { (toy_cert 4 3 1).header with
        parents := [toy_digest 2 0, toy_digest 2 1, toy_digest 2 3] } },
    { toy_cert 4 3 2 with
      header := { (toy_cert 4 3 2).header with
        parents := [toy_digest 2 0, toy_digest 2 1, toy_digest 2 3] } },
    { toy_cert 4 3 3 with
      header := { (toy_cert 4 3 3).header with
        parents := [toy_digest 2 0, toy_digest 2 1, toy_digest 2 3] } },
    toy_cert 4 4 0, toy_cert 4 4 1, toy_cert 4 4 2, toy_cert 4 4 3, toy_next 4]

/-- The state of the driver after the insert step alone was applied to
`weak_support_certs`, starting from the genesis state. -/
def weak_support_state : State :=
  weak_support_certs.foldl (Consensus.insert toyHash)
    (State.init toyHash (Consensus.genesis committee4))

/-- Every entry of the DAG is stored under the round of its certificate. -/
def DagRounds (dag : dag_t) : Prop :=
  ∀ r pk e, dag_get dag r pk = some e → e.2.round = r

/-- What holds of the driver between two received certificates when it runs the
Mysticeti engine: the entries of the DAG are stored under their own round,
`last_committed_round` is not above the largest value of `last_committed`, and the
certificates sent so far have strictly increasing rounds, none above
`last_committed_round`. -/
structure MysticetiInv (d : Driver) : Prop where
  engine : d.engine = Engine.mysticeti
  rounds : DagRounds d.state.dag
  lcr : d.state.last_committed_round
    ≤ d.state.last_committed.foldl (fun m p => max m p.2) 0
  increasing : (d.tx_output.map Certificate.round).Pairwise (· < ·)
  bound : ∀ c ∈ d.tx_output, c.round ≤ d.state.last_committed_round

/-- The sequences that the calls of `process_round` return during a run of the driver
on the certificates received, one for each certificate, in input order. -/
def Consensus.results (H : HashFn) (S : RoundSorter) (fuel : Nat) (committee : Committee)
    (gc_depth : Nat) : List Certificate → Driver → Option (List (List Certificate))
  | [], _ => some []
  | certificate :: rest, d =>
    match d.engine.process_round H S fuel certificate.round
        (Consensus.insert H d.state certificate).dag (Consensus.insert H d.state certificate)
        committee with
    | none => none
    | some out =>
      match Consensus.step H S fuel committee gc_depth d certificate with
      | none => none
      | some d2 => (Consensus.results H S fuel committee gc_depth rest d2).map
          (fun rs => out.1 :: rs)

/-- A call of a method of a channel. -/
inductive utils.Channel.Op (T : Type) where
  | send (value : T)
  | receive
  | close

/-- The values that a list of calls sends, in the order of the calls. -/
def utils.Channel.sent {T : Type} : List (utils.Channel.Op T) → List T
  | [] => []
  | .send value :: ops => value :: utils.Channel.sent ops
  | .receive :: ops => utils.Channel.sent ops
  | .close :: ops => utils.Channel.sent ops

/-- The calls `ops` made one after the other on the channel `ch`, with the values
that the calls of `receive` have returned so far, in order; a call of `receive` that
would wait is left out. -/
def utils.Channel.calls {T : Type} (ch : utils.Channel T) (received : List T) :
    List (utils.Channel.Op T) → utils.Channel T × List T
  | [] => (ch, received)
  | .send value :: ops => utils.Channel.calls (ch.send value) received ops
  | .close :: ops => utils.Channel.calls ch.close received ops
  | .receive :: ops =>
    match ch.receive with
    | some (some value, ch2) => utils.Channel.calls ch2 (received ++ [value]) ops
    | some (none, ch2) => utils.Channel.calls ch2 received ops
    | none => utils.Channel.calls ch received ops

/-- A chain of `k` parent edges down from the certificate `a` at round `r` to `x`: each
step goes to a certificate that is an entry of the round directly below and whose
digest is listed among the parents of the certificate above. -/
def ParentPath (H : HashFn) (dag : dag_t) : Nat → Nat → Certificate → Certificate → Prop
  | 0, _, a, x => a = x
  | k + 1, r, a, x =>
    ∃ m pk d b, lookup dag (r - 1) = some m ∧ (pk, (d, b)) ∈ m
      ∧ b.digest H ∈ a.header.parents ∧ ParentPath H dag k (r - 1) b x

/-- Every entry of the DAG holds the digest of its certificate. -/
def DagDigests (H : HashFn) (dag : dag_t) : Prop :=
  ∀ r m, lookup dag r = some m → ∀ p ∈ m, p.2.1 = p.2.2.digest H

/-- The leaders that the loop of `order_leaders` adds when it runs over the even rounds
`2 * j`, `2 * (j - 1)`, …, 2 with `current` as the most recently kept leader. -/
def leader_chain (H : HashFn) (state : State) (dag : dag_t) (committee : Committee) :
    Nat → Certificate → List Certificate
  | 0, _ => []
  | j + 1, current =>
    if 2 * (j + 1) > state.last_committed_round then
      match TuskEngine.leader (2 * (j + 1)) dag committee with
      | none => leader_chain H state dag committee j current
      | some prev =>
        if TuskEngine.linked H current prev.2 dag then
          prev.2 :: leader_chain H state dag committee j prev.2
        else leader_chain H state dag committee j current
    else []

/-- The state of the load generator run after the round-2 leader was committed:
`last_committed_round` is 2. -/
def stale_state : State := (load_state toyHash 17).update (toy_cert 4 2 2) 50

/-- A state whose DAG holds, under round 2 and authority 2, the genesis certificate of
authority 2: an entry that is not stored under the round of its certificate. -/
def misfiled_state : State :=
  { load_state toyHash 17 with
    dag := dag_insert (load_state toyHash 17).dag 2 (key4 2) (toy_digest 0 2, toy_cert 4 0 2) }

/-- A committee of one authority of stake 2^31. -/
def heavy_committee : Committee := ⟨[(key 0, ⟨2 ^ 31, "127.0.0.1:8000", "127.0.0.1:9000"⟩)]⟩

/-- Every entry of the DAG is stored under the round and the origin of its certificate
and holds the digest of its certificate. -/
def DagEntries (H : HashFn) (dag : dag_t) : Prop :=
  ∀ r m, lookup dag r = some m →
    ∀ p ∈ m, p.2.2.round = r ∧ p.2.2.origin = p.1 ∧ p.2.1 = p.2.2.digest H

/-- A step that the driver takes on its state: the insert step for a received
certificate, or `State::update` for a committed one. -/
inductive StateOp where
  | insert (certificate : Certificate)
  | update (certificate : Certificate) (gc_depth : Nat)

/-- The state after the steps `ops`, taken in order. -/
def State.apply (H : HashFn) (s : State) (ops : List StateOp) : State :=
  ops.foldl
    (fun s op =>
      match op with
      | .insert certificate => Consensus.insert H s certificate
      | .update certificate gc_depth => s.update certificate gc_depth)
    s

/-- The number of entries of the DAG, over all its rounds. -/
def dag_size (dag : dag_t) : Nat :=
  (dag.map (fun p => p.2.length)).sum

/-- The digests stored in the entries of the DAG, round by round. -/
def dag_digests (dag : dag_t) : List Digest :=
  dag.flatMap (fun p => p.2.map (fun e => e.2.1))

/-- Every entry of a round map of the DAG holds a certificate of that round. -/
def DagKeyed (dag : dag_t) : Prop :=
  ∀ r m, lookup dag r = some m → ∀ p ∈ m, p.2.2.round = r

/-- A state whose DAG has one entry, stored under round 1, with a certificate that gives
round 2 and lists the digest of its own entry as parent: a cycle of parent digests. -/
def cycle_state : State :=
  { last_committed_round := 0, last_committed := [],
    dag := [(1, [(key4 0, (toy_digest 2 0,
      { header := { author := key4 0, round := 2, parents := [toy_digest 2 0], payload := [] },
        votes := [] }))])] }

/-- The certificate of the entry of `cycle_state`. -/
def cycle_cert : Certificate :=
  { header := { author := key4 0, round := 2, parents := [toy_digest 2 0], payload := [] },
    votes := [] }

/-- No value of `last_committed` is above `last_committed_round`. -/
def LcBound (s : State) : Prop :=
  ∀ p ∈ s.last_committed, p.2 ≤ s.last_committed_round

/-- The `for` loop of `order_leaders` as in `TuskEngine.order_leaders_loop`, recording in
`trace` each value of the counter `r` for which the body of the loop was entered. -/
def order_leaders_trace (H : HashFn) (state : State) (dag : dag_t) (committee : Committee) :
    Nat → Nat → Certificate → List Certificate → List Nat →
      Option (List Certificate × List Nat)
  | 0, _, _, _, _ => none
  | fuel + 1, r, current, to_commit, trace =>
    if r > state.last_committed_round then
      match TuskEngine.leader r dag committee with
      | none => order_leaders_trace H state dag committee fuel ((r + 2 ^ 64 - 2) % 2 ^ 64)
          current to_commit (trace ++ [r])
      | some prev =>
        let next :=
          if TuskEngine.linked H current prev.2 dag then (prev.2, to_commit ++ [prev.2])
          else (current, to_commit)
        if r < 2 then some (next.2, trace ++ [r])
        else order_leaders_trace H state dag committee fuel ((r + 2 ^ 64 - 2) % 2 ^ 64)
          next.1 next.2 (trace ++ [r])
    else some (to_commit, trace)

/-- The first key of `keys` whose running weight sum, started at `running`, strictly
exceeds `choice`. -/
def first_exceeding (weight : PublicKey → Nat) : List PublicKey → Nat → Nat → Option PublicKey
  | [], _, _ => none
  | pk :: rest, running, choice =>
    if running + weight pk > choice then some pk
    else first_exceeding weight rest (running + weight pk) choice

/-- A reputation map in which the weights of the four authorities of the load generator
sum to 2^64. -/
def heavy_reputation : List (PublicKey × Nat) := [(key4 0, 2 ^ 64 - 4)]

/-- A parent edge that `order_dag` follows from `x` to `c`: `x` is above round 0, the round
directly below `x` holds an entry with a digest listed among the parents of `x` and with
the certificate `c`, and `c` is not marked committed (`last_committed[origin] ≠ round`). -/
def ParentEdge (state : State) (x c : Certificate) : Prop :=
  x.round ≠ 0 ∧ ∃ m, lookup state.dag (x.round - 1) = some m
    ∧ ∃ p ∈ m, p.2.1 ∈ x.header.parents ∧ p.2.2 = c
      ∧ lookup state.last_committed c.origin ≠ some c.round

/-- The digests of the DAG are distinct: two entries hold the same digest exactly when
they hold the same certificate. -/
def DagDistinct (dag : dag_t) : Prop :=
  ∀ r1 m1 r2 m2, lookup dag r1 = some m1 → lookup dag r2 = some m2 →
    ∀ p ∈ m1, ∀ q ∈ m2, (p.2.1 = q.2.1 ↔ p.2.2 = q.2.2)

/-- The certificates stored in the entries of the DAG, round by round. -/
def dag_certificates (dag : dag_t) : List Certificate :=
  dag.flatMap (fun p => p.2.map (fun e => e.2.2))

/-- What holds each time the `while` loop of `order_dag(L, state)` tests its condition:
the certificates in `ordered` and `buffer` are distinct, they are `L` and certificates
reached from `L` by parent edges, `seen` holds exactly the digests of those other than
`L`, and every parent edge from a certificate of `ordered` ends in `ordered` or
`buffer`. -/
structure DfsInv (state : State) (L : Certificate) (buffer : List Certificate)
    (seen : List Digest) (ordered : List Certificate) : Prop where
  nodup : (ordered ++ buffer).Nodup
  seen_nodup : seen.Nodup
  leader_mem : L ∈ ordered ++ buffer
  sound : ∀ c ∈ ordered ++ buffer, c = L ∨ Relation.TransGen (ParentEdge state) L c
  seen_of : ∀ c ∈ ordered ++ buffer, c ≠ L →
    ∃ r m p, lookup state.dag r = some m ∧ p ∈ m ∧ p.2.2 = c ∧ p.2.1 ∈ seen
  of_seen : ∀ d ∈ seen, ∀ r m p, lookup state.dag r = some m → p ∈ m → p.2.1 = d →
    p.2.2 ∈ ordered ++ buffer
  closed : ∀ x ∈ ordered, ∀ c, ParentEdge state x c → c ∈ ordered ++ buffer

/-- A certificate with two payload entries, in the iteration order of its payload map. -/
def payload_cert : Certificate :=
  { header := { author := key 1, round := 3, parents := [],
                payload := [(key 9, 5), (key 8, 6)] },
    votes := [] }

/-- The certificate `payload_cert` with a payload map that holds the same two entries and
iterates over them in the other order. -/
def payload_cert_swapped : Certificate :=
  { header := { author := key 1, round := 3, parents := [],
                payload := [(key 8, 6), (key 9, 5)] },
    votes := [] }

/-- A state whose DAG is not keyed by round: `dag[2]` holds, under authority 0, the
round-1 certificate of that authority, and `dag[3]` holds two certificates that list its
digest as parent; nothing is committed. -/
def odd_leader_state : State :=
  { last_committed_round := 0, last_committed := [],
    dag := [(2, [(key4 0, (toy_digest 1 0, toy_cert 4 1 0))]),
            (3, [(key4 0, (toy_digest 3 0,
                    { header := { author := key4 0, round := 3, parents := [toy_digest 1 0],
                                  payload := [] }, votes := [] })),
                 (key4 1, (toy_digest 3 1,
                    { header := { author := key4 1, round := 3, parents := [toy_digest 1 0],
                                  payload := [] }, votes := [] }))])] }

/-- Certificates of the load generator in an order of arrival in which the driver commits
nothing: rounds 1, 3, 4, 6 and 7, then round 5; no certificate of round 2 arrives. -/
def sparse_certs : List Certificate :=
  [toy_cert 7 1 0, toy_cert 7 1 1, toy_cert 7 1 2, toy_cert 7 1 3,
    toy_cert 7 3 0, toy_cert 7 3 1, toy_cert 7 3 2, toy_cert 7 3 3,
    toy_cert 7 4 0, toy_cert 7 4 1, toy_cert 7 4 2, toy_cert 7 4 3,
    toy_cert 7 6 0, toy_cert 7 6 1, toy_cert 7 6 2, toy_cert 7 6 3,
    toy_cert 7 7 0, toy_cert 7 7 1, toy_cert 7 7 2, toy_cert 7 7 3,
    toy_cert 7 5 0, toy_cert 7 5 1, toy_cert 7 5 2, toy_cert 7 5 3]

/-- The state of the driver after the insert step was applied to `sparse_certs`, starting
from the genesis state. -/
def sparse_state : State :=
  sparse_certs.foldl (Consensus.insert toyHash) (State.init toyHash (Consensus.genesis committee4))

/-! ## Properties -/

theorem foldl_stake_eq (l : List (PublicKey × Authority)) (acc : Nat)
    (h : acc + (l.map (fun p => p.2.stake)).sum < 2 ^ 32) :
    l.foldl (fun total p => (total + p.2.stake) % 2 ^ 32) acc
      = acc + (l.map (fun p => p.2.stake)).sum := by
  induction l generalizing acc with
  | nil => simp
  | cons p t ih =>
    simp only [List.map_cons, List.sum_cons, List.foldl_cons] at h ⊢
    have h1 : (acc + p.2.stake) % 2 ^ 32 = acc + p.2.stake := Nat.mod_eq_of_lt (by omega)
    rw [h1, ih _ (by omega)]
    omega

theorem total_stake_eq_sum (c : Committee) (h : c.stake_sum < 2 ^ 32) :
    c.total_stake = c.stake_sum := by
  unfold Committee.total_stake Committee.stake_sum
  rw [foldl_stake_eq _ _ (by simpa [Committee.stake_sum] using h)]
  simp

theorem committee_thresholds (c : Committee) (h1 : 1 ≤ c.stake_sum)
    (h2 : 2 * c.stake_sum < 2 ^ 32) :
    c.total_stake = c.stake_sum
    ∧ c.quorum_threshold = 2 * c.stake_sum / 3 + 1
    ∧ c.validity_threshold = (c.stake_sum - 1) / 3 + 1 := by
  have ht := total_stake_eq_sum c (by omega)
  refine ⟨ht, ?_, ?_⟩
  · unfold Committee.quorum_threshold
    rw [ht, Nat.mod_eq_of_lt (by omega), Nat.mul_comm]
  · unfold Committee.validity_threshold
    rw [ht]
    have : (c.stake_sum + 2 ^ 32 - 1) % 2 ^ 32 = c.stake_sum - 1 := by omega
    rw [this]

theorem lookup_eq_none_of_not_mem {κ α : Type} [DecidableEq κ] (l : List (κ × α)) (k : κ)
    (h : k ∉ l.map Prod.fst) : lookup l k = none := by
  induction l with
  | nil => rfl
  | cons p t ih =>
    obtain ⟨k', v⟩ := p
    simp only [List.map_cons, List.mem_cons, not_or] at h
    simp only [lookup]
    rw [if_neg (fun e => h.1 e.symm)]
    exact ih h.2

theorem sum_get_stake_keys (l : List (PublicKey × Authority))
    (hn : (l.map Prod.fst).Nodup) :
    ((l.map Prod.fst).map (fun pk => Committee.get_stake ⟨l⟩ pk)).sum
      = (l.map (fun p => p.2.stake)).sum := by
  induction l with
  | nil => rfl
  | cons p t ih =>
    obtain ⟨k, a⟩ := p
    simp only [List.map_cons, List.nodup_cons] at hn
    simp only [List.map_cons, List.sum_cons, List.map_map]
    have hk : Committee.get_stake ⟨(k, a) :: t⟩ k = a.stake := by
      simp [Committee.get_stake, lookup]
    have ht : ∀ x ∈ t, Committee.get_stake ⟨(k, a) :: t⟩ x.1 = Committee.get_stake ⟨t⟩ x.1 := by
      intro x hx
      have hne : k ≠ x.1 := by
        intro e
        exact hn.1 (e ▸ List.mem_map_of_mem Prod.fst hx)
      simp [Committee.get_stake, lookup, hne]
    rw [hk, ← ih hn.2, List.map_map]
    congr 1
    exact congrArg List.sum (List.map_congr_left ht)

theorem stake_of_keys (c : Committee) (hwf : c.WF) : c.stake_of c.keys = c.stake_sum := by
  have hn : (c.authorities.map Prod.fst).Nodup :=
    (List.Pairwise.imp (fun h => ne_of_lt h) hwf)
  unfold Committee.stake_of Committee.keys Committee.stake_sum
  rw [List.sum_toFinset _ hn]
  exact sum_get_stake_keys c.authorities hn

theorem get_stake_eq_zero (c : Committee) (pk : PublicKey) (h : pk ∉ c.keys) :
    c.get_stake pk = 0 := by
  unfold Committee.get_stake
  rw [lookup_eq_none_of_not_mem]
  simpa [Committee.keys] using h

theorem stake_of_le (c : Committee) (hwf : c.WF) (Q : Finset PublicKey) :
    c.stake_of Q ≤ c.stake_sum := by
  rw [← stake_of_keys c hwf]
  unfold Committee.stake_of
  have h1 : ∑ pk ∈ Q, c.get_stake pk = ∑ pk ∈ Q ∩ c.keys, c.get_stake pk := by
    symm
    apply Finset.sum_subset Finset.inter_subset_left
    intro x hx hnx
    apply get_stake_eq_zero
    intro hk
    exact hnx (Finset.mem_inter.mpr ⟨hx, hk⟩)
  rw [h1]
  exact Finset.sum_le_sum_of_subset Finset.inter_subset_right

theorem stake_of_inter (c : Committee) (hwf : c.WF) (Q1 Q2 : Finset PublicKey) :
    c.stake_of Q1 + c.stake_of Q2 ≤ c.stake_sum + c.stake_of (Q1 ∩ Q2) := by
  have h : ∑ pk ∈ Q1 ∪ Q2, c.get_stake pk + ∑ pk ∈ Q1 ∩ Q2, c.get_stake pk
      = ∑ pk ∈ Q1, c.get_stake pk + ∑ pk ∈ Q2, c.get_stake pk := Finset.sum_union_inter
  have hu := stake_of_le c hwf (Q1 ∪ Q2)
  unfold Committee.stake_of at *
  omega

/-- C6: in a committee (keys distinct, as in a `std::map`) whose stakes sum to
S with 1 ≤ S and 2·S < 2^32, two sets of authorities of stake at least
`quorum_threshold()` each meet in a set of stake at least
`validity_threshold()`; in a committee of four authorities, of equal stake or
not, two sets of three authorities share at least two. -/
theorem quorum_intersection (c : Committee) (hwf : c.WF) (h1 : 1 ≤ c.stake_sum)
    (h2 : 2 * c.stake_sum < 2 ^ 32) (Q1 Q2 : Finset PublicKey) :
    (c.quorum_threshold ≤ c.stake_of Q1 → c.quorum_threshold ≤ c.stake_of Q2 →
      c.validity_threshold ≤ c.stake_of (Q1 ∩ Q2))
    ∧ (c.authorities.length = 4 →
        Q1 ⊆ c.keys → Q2 ⊆ c.keys → Q1.card = 3 → Q2.card = 3 → 2 ≤ (Q1 ∩ Q2).card) := by
  obtain ⟨_, hq, hv⟩ := committee_thresholds c h1 h2
  constructor
  · intro hq1 hq2
    have hi := stake_of_inter c hwf Q1 Q2
    rw [hq] at hq1 hq2
    rw [hv]
    omega
  · intro hlen hs1 hs2 hc1 hc2
    have hk : c.keys.card ≤ 4 := by
      unfold Committee.keys
      refine le_trans (List.toFinset_card_le _) ?_
      simp [hlen]
    have hu : (Q1 ∪ Q2).card ≤ 4 :=
      le_trans (Finset.card_le_card (Finset.union_subset hs1 hs2)) hk
    have := Finset.card_union_add_card_inter Q1 Q2
    omega

theorem quorum_intersection_witness :
    (committee4.WF ∧ 1 ≤ committee4.stake_sum ∧ 2 * committee4.stake_sum < 2 ^ 32
      ∧ committee4.quorum_threshold ≤ committee4.stake_of {key4 0, key4 1, key4 2}
      ∧ committee4.quorum_threshold ≤ committee4.stake_of {key4 1, key4 2, key4 3})
    ∧ committee4.validity_threshold
        ≤ committee4.stake_of ({key4 0, key4 1, key4 2} ∩ {key4 1, key4 2, key4 3})
    ∧ 2 ≤ (({key4 0, key4 1, key4 2} : Finset PublicKey) ∩ {key4 1, key4 2, key4 3}).card :=
  ⟨⟨by unfold Committee.WF; decide, by decide, by decide, by decide, by decide⟩,
    (quorum_intersection committee4 (by unfold Committee.WF; decide) (by decide) (by decide)
      {key4 0, key4 1, key4 2} {key4 1, key4 2, key4 3}).1 (by decide) (by decide),
    (quorum_intersection committee4 (by unfold Committee.WF; decide) (by decide) (by decide)
      {key4 0, key4 1, key4 2} {key4 1, key4 2, key4 3}).2 (by decide) (by decide) (by decide)
      (by decide) (by decide)⟩

/-- C7: when the stakes of a committee sum to S with 1 ≤ S and 2·S < 2^32,
`total_stake()` is S, `quorum_threshold()` is ⌊2·S/3⌋ + 1 and
`validity_threshold()` is ⌊(S − 1)/3⌋ + 1; four stakes of 100 give validity 134
and quorum 267. -/
theorem thresholds_of_stake_sum (c : Committee) (h1 : 1 ≤ c.stake_sum)
    (h2 : 2 * c.stake_sum < 2 ^ 32) :
    c.total_stake = c.stake_sum
    ∧ c.quorum_threshold = 2 * c.stake_sum / 3 + 1
    ∧ c.validity_threshold = (c.stake_sum - 1) / 3 + 1
    ∧ (c.authorities.map (fun p => p.2.stake) = [100, 100, 100, 100] →
        c.validity_threshold = 134 ∧ c.quorum_threshold = 267) := by
  obtain ⟨ht, hq, hv⟩ := committee_thresholds c h1 h2
  refine ⟨ht, hq, hv, ?_⟩
  intro hst
  have hs : c.stake_sum = 400 := by
    unfold Committee.stake_sum
    rw [hst]
    rfl
  rw [hq, hv, hs]
  constructor <;> rfl

theorem thresholds_of_stake_sum_witness :
    (1 ≤ committee4.stake_sum ∧ 2 * committee4.stake_sum < 2 ^ 32)
    ∧ committee4.total_stake = 400
    ∧ committee4.validity_threshold = 134 ∧ committee4.quorum_threshold = 267 :=
  ⟨⟨by decide, by decide⟩,
    (thresholds_of_stake_sum committee4 (by decide) (by decide)).1,
    (thresholds_of_stake_sum committee4 (by decide) (by decide)).2.2.2 (by decide)⟩

theorem pack_u64_eq (buf : List Byte) (val : Nat) :
    Packer.pack_u64 buf val = buf ++ le64 val := by
  have hb : ∀ i : Nat, (Fin.ofNat ((val >>> (i * 8)) &&& 0xFF) : Byte)
      = ⟨val / 256 ^ i % 256, Nat.mod_lt _ (by decide)⟩ := by
    intro i
    apply Fin.ext
    have h255 : (0xFF : Nat) = 2 ^ 8 - 1 := by norm_num
    simp only [Fin.ofNat, h255, Nat.and_pow_two_sub_one_eq_mod, Nat.shiftRight_eq_div_pow]
    have : (2 : Nat) ^ (i * 8) = 256 ^ i := by
      rw [Nat.mul_comm, pow_mul]; norm_num
    rw [this]
    omega
  simp only [Packer.pack_u64, hb, le64]
  simp [List.range_succ]

theorem le64_length (n : Nat) : (le64 n).length = 8 := by simp [le64]

theorem le_value_le64 (n : Nat) : le_value (le64 n) = n % 2 ^ 64 := by
  simp only [le64, List.range_succ, List.range_zero, List.nil_append, List.cons_append,
    List.map_cons, List.map_nil, le_value]
  omega

theorem le64_inj {a b : Nat} (ha : a < 2 ^ 64) (hb : b < 2 ^ 64) (h : le64 a = le64 b) :
    a = b := by
  have := congrArg le_value h
  rw [le_value_le64, le_value_le64, Nat.mod_eq_of_lt ha, Nat.mod_eq_of_lt hb] at this
  exact this

theorem foldl_pack {α : Type} (f : α → List Byte) (l : List α) (buf : List Byte) :
    l.foldl (fun b p => b ++ f p) buf = buf ++ (l.map f).flatten := by
  induction l generalizing buf with
  | nil => simp
  | cons x t ih => simp [ih, List.append_assoc]

theorem header_serialize_eq (h : Header) :
    h.serialize = h.author.val ++ le64 h.round ++ le64 h.parents.length
      ++ (h.parents.map (fun p => p.val)).flatten ++ le64 h.payload.length
      ++ (h.payload.map (fun p => p.1.val ++ le64 p.2)).flatten := by
  simp only [Header.serialize, Packer.pack_bytes, pack_u64_eq, List.nil_append]
  rw [foldl_pack (fun p : Digest => p.val)]
  have : (fun (b : List Byte) (p : Digest × Nat) => b ++ p.1.val ++ le64 p.2)
      = (fun b p => b ++ (p.1.val ++ le64 p.2)) := by
    funext b p; simp
  rw [this, foldl_pack (fun p : Digest × Nat => p.1.val ++ le64 p.2)]

theorem certificate_serialize_eq (c : Certificate) :
    c.serialize = c.header.serialize ++ le64 c.votes.length
      ++ (c.votes.map (fun v => v.1.val ++ v.2.val)).flatten := by
  simp only [Certificate.serialize, Packer.pack_bytes, pack_u64_eq]
  have : (fun (b : List Byte) (v : PublicKey × Signature) => b ++ v.1.val ++ v.2.val)
      = (fun b v => b ++ (v.1.val ++ v.2.val)) := by
    funext b v; simp
  rw [this, foldl_pack (fun v : PublicKey × Signature => v.1.val ++ v.2.val)]

theorem length_join_blocks {α : Type} (f : α → List Byte) (n : Nat) (l : List α)
    (h : ∀ x ∈ l, (f x).length = n) : ((l.map f).flatten).length = n * l.length := by
  induction l with
  | nil => simp
  | cons x t ih =>
    simp only [List.map_cons, List.flatten_cons, List.length_append, List.length_cons]
    rw [h x (List.mem_cons_self _ _), ih (fun y hy => h y (List.mem_cons_of_mem _ hy))]
    ring

theorem header_serialize_length (h : Header) :
    h.serialize.length = 56 + 32 * h.parents.length + 40 * h.payload.length := by
  rw [header_serialize_eq]
  simp only [List.length_append, le64_length]
  rw [length_join_blocks (fun p : Digest => p.val) 32 _ (fun x _ => x.property),
    length_join_blocks (fun p : Digest × Nat => p.1.val ++ le64 p.2) 40 _
      (fun x _ => by simp [le64_length, x.1.property])]
  rw [h.author.property]
  omega

theorem certificate_serialize_length (c : Certificate) :
    c.serialize.length
      = 64 + 32 * c.header.parents.length + 40 * c.header.payload.length
        + 96 * c.votes.length := by
  rw [certificate_serialize_eq]
  simp only [List.length_append, le64_length, header_serialize_length]
  rw [length_join_blocks (fun v : PublicKey × Signature => v.1.val ++ v.2.val) 96 _
      (fun x _ => by simp [x.1.property, x.2.property])]
  omega

theorem flatten_blocks_inj {α : Type} (f : α → List Byte) (n : Nat)
    (l1 l2 : List α) (hlen : l1.length = l2.length)
    (h1 : ∀ x ∈ l1, (f x).length = n) (h2 : ∀ x ∈ l2, (f x).length = n)
    (hf : ∀ x ∈ l1, ∀ y ∈ l2, f x = f y → x = y)
    (h : (l1.map f).flatten = (l2.map f).flatten) : l1 = l2 := by
  induction l1 generalizing l2 with
  | nil =>
    cases l2 with
    | nil => rfl
    | cons y t => simp at hlen
  | cons x t ih =>
    cases l2 with
    | nil => simp at hlen
    | cons y t2 =>
      simp only [List.map_cons, List.flatten_cons] at h
      have hx := h1 x (List.mem_cons_self _ _)
      have hy := h2 y (List.mem_cons_self _ _)
      obtain ⟨hxy, hrest⟩ := List.append_inj h (by rw [hx, hy])
      have e := hf x (List.mem_cons_self _ _) y (List.mem_cons_self _ _) hxy
      have et := ih t2 (by simpa using hlen)
        (fun z hz => h1 z (List.mem_cons_of_mem _ hz))
        (fun z hz => h2 z (List.mem_cons_of_mem _ hz))
        (fun a ha b hb => hf a (List.mem_cons_of_mem _ ha) b (List.mem_cons_of_mem _ hb))
        hrest
      rw [e, et]

theorem header_serialize_inj (a b : Header)
    (ha : a.round < 2 ^ 64 ∧ a.parents.length < 2 ^ 64 ∧ a.payload.length < 2 ^ 64
      ∧ ∀ p ∈ a.payload, p.2 < 2 ^ 32)
    (hb : b.round < 2 ^ 64 ∧ b.parents.length < 2 ^ 64 ∧ b.payload.length < 2 ^ 64
      ∧ ∀ p ∈ b.payload, p.2 < 2 ^ 32)
    (ra rb : List Byte) (h : a.serialize ++ ra = b.serialize ++ rb) :
    a = b ∧ ra = rb := by
  rw [header_serialize_eq, header_serialize_eq] at h
  simp only [List.append_assoc] at h
  obtain ⟨hauth, h⟩ := List.append_inj h (by rw [a.author.property, b.author.property])
  obtain ⟨hround, h⟩ := List.append_inj h (by rw [le64_length, le64_length])
  obtain ⟨hk, h⟩ := List.append_inj h (by rw [le64_length, le64_length])
  have hk := le64_inj ha.2.1 hb.2.1 hk
  obtain ⟨hpar, h⟩ := List.append_inj h (by
    rw [length_join_blocks (fun p : Digest => p.val) 32 _ (fun x _ => x.property),
      length_join_blocks (fun p : Digest => p.val) 32 _ (fun x _ => x.property), hk])
  obtain ⟨hm, h⟩ := List.append_inj h (by rw [le64_length, le64_length])
  have hm := le64_inj ha.2.2.1 hb.2.2.1 hm
  have hlen40 : ∀ x : Digest × Nat, (x.1.val ++ le64 x.2).length = 40 := by
    intro x; simp [le64_length, x.1.property]
  obtain ⟨hpay, h⟩ := List.append_inj h (by
    rw [length_join_blocks (fun p : Digest × Nat => p.1.val ++ le64 p.2) 40 _
        (fun x _ => hlen40 x),
      length_join_blocks (fun p : Digest × Nat => p.1.val ++ le64 p.2) 40 _
        (fun x _ => hlen40 x), hm])
  have e1 : a.author = b.author := Subtype.ext hauth
  have e2 : a.round = b.round := le64_inj ha.1 hb.1 hround
  have e3 : a.parents = b.parents :=
    flatten_blocks_inj (fun p : Digest => p.val) 32 _ _ hk (fun x _ => x.property)
      (fun x _ => x.property) (fun x _ y _ hxy => Subtype.ext hxy) hpar
  have e4 : a.payload = b.payload :=
    flatten_blocks_inj (fun p : Digest × Nat => p.1.val ++ le64 p.2) 40 _ _ hm
      (fun x _ => hlen40 x) (fun x _ => hlen40 x)
      (fun x hx y hy hxy => by
        obtain ⟨hd, hw⟩ := List.append_inj hxy (by rw [x.1.property, y.1.property])
        have hw2 := le64_inj (lt_trans (ha.2.2.2 x hx) (by norm_num))
          (lt_trans (hb.2.2.2 y hy) (by norm_num)) hw
        exact Prod.ext (Subtype.ext hd) hw2)
      hpay
  refine ⟨?_, h⟩
  cases a; cases b
  simp only [Header.mk.injEq]
  exact ⟨e1, e2, e3, e4⟩

theorem certificate_serialize_inj (c1 c2 : Certificate) (h1 : c1.WF) (h2 : c2.WF)
    (h : c1.serialize = c2.serialize) : c1 = c2 := by
  rw [certificate_serialize_eq, certificate_serialize_eq] at h
  simp only [List.append_assoc] at h
  obtain ⟨hh, h⟩ := header_serialize_inj c1.header c2.header
    ⟨h1.1, h1.2.1, h1.2.2.1, h1.2.2.2.1⟩ ⟨h2.1, h2.2.1, h2.2.2.1, h2.2.2.2.1⟩ _ _ h
  obtain ⟨hv, h⟩ := List.append_inj h (by rw [le64_length, le64_length])
  have hv := le64_inj h1.2.2.2.2 h2.2.2.2.2 hv
  have hlen96 : ∀ x : PublicKey × Signature, (x.1.val ++ x.2.val).length = 96 := by
    intro x; simp [x.1.property, x.2.property]
  have e : c1.votes = c2.votes :=
    flatten_blocks_inj (fun v : PublicKey × Signature => v.1.val ++ v.2.val) 96 _ _ hv
      (fun x _ => hlen96 x) (fun x _ => hlen96 x)
      (fun x _ y _ hxy => by
        obtain ⟨hp, hs⟩ := List.append_inj hxy (by rw [x.1.property, y.1.property])
        exact Prod.ext (Subtype.ext hp) (Subtype.ext hs))
      h
  cases c1; cases c2
  simp only [Certificate.mk.injEq]
  exact ⟨hh, e⟩

set_option maxRecDepth 20000 in
theorem payload_digest_ne :
    payload_cert.digest Hash.compute_mock ≠ payload_cert_swapped.digest Hash.compute_mock := by
  decide

/-- C8 (counterexample): two certificates with the same author, round and parents whose
payload maps hold the same two entries, `(key 9, 5)` and `(key 8, 6)`, and iterate over
them in opposite orders. `Header::serialize` writes the entries in iteration order, so the
serialized headers differ, and so do the digests that `Hash::compute` of `crypto.cpp`
(with `USE_INTERNAL_MOCKS`) gives them. -/
theorem digest_payload_order :
    payload_cert.header.author = payload_cert_swapped.header.author
    ∧ payload_cert.header.round = payload_cert_swapped.header.round
    ∧ payload_cert.header.parents = payload_cert_swapped.header.parents
    ∧ payload_cert.header.payload.Perm payload_cert_swapped.header.payload
    ∧ (payload_cert.header.payload.map Prod.fst).Nodup
    ∧ (∀ k, lookup payload_cert.header.payload k = lookup payload_cert_swapped.header.payload k)
    ∧ payload_cert.votes = payload_cert_swapped.votes
    ∧ payload_cert.header.serialize ≠ payload_cert_swapped.header.serialize
    ∧ payload_cert.digest Hash.compute_mock
        ≠ payload_cert_swapped.digest Hash.compute_mock := by
  refine ⟨rfl, rfl, rfl, by decide, by decide, ?_, rfl, ?_, payload_digest_ne⟩
  · intro k
    simp only [payload_cert, payload_cert_swapped, lookup]
    by_cases h9 : key 9 = k
    · have h8 : key 8 ≠ k := by
        rw [← h9]
        decide
      rw [if_pos h9, if_neg h8, if_pos h9]
    · rw [if_neg h9, if_neg h9]
  · intro h
    exact payload_digest_ne (congrArg Hash.compute_mock h)

/-- C8 (amended): the digest of a certificate is the hash of its serialized header, so
certificates that agree on author, round, parents and the payload entries in their
iteration order have the same digest whatever their votes; so do two certificates without
parents and payload with the same author and round. The serialized header determines the
header with its payload order: on certificates whose fields are in the range of their C++
types, two headers serialize to the same bytes only if they are equal, payload order
included. -/
theorem digest_of_header (H : HashFn) (c1 c2 : Certificate) :
    c1.digest H = H c1.header.serialize
    ∧ (c1.header.author = c2.header.author → c1.header.round = c2.header.round →
        c1.header.parents = c2.header.parents → c1.header.payload = c2.header.payload →
        c1.digest H = c2.digest H)
    ∧ (∀ (a : PublicKey) (r : Nat) (v1 v2 : List (PublicKey × Signature)),
        Certificate.digest H ⟨⟨a, r, [], []⟩, v1⟩ = Certificate.digest H ⟨⟨a, r, [], []⟩, v2⟩)
    ∧ (c1.WF → c2.WF →
        (c1.header.serialize = c2.header.serialize ↔ c1.header = c2.header)) := by
  refine ⟨rfl, ?_, fun _ _ _ _ => rfl, ?_⟩
  · intro ha hr hp hq
    have e : c1.header = c2.header := by
      cases h1 : c1.header
      cases h2 : c2.header
      simp only [h1, h2] at ha hr hp hq
      simp only [Header.mk.injEq]
      exact ⟨ha, hr, hp, hq⟩
    simp only [Certificate.digest, e]
  · intro h1 h2
    constructor
    · intro h
      exact (header_serialize_inj c1.header c2.header ⟨h1.1, h1.2.1, h1.2.2.1, h1.2.2.2.1⟩
        ⟨h2.1, h2.2.1, h2.2.2.1, h2.2.2.2.1⟩ [] [] (by rw [List.append_nil, List.append_nil, h])).1
    · intro h
      rw [h]

theorem digest_of_header_witness :
    sample_cert.votes ≠ sample_cert_voted.votes
    ∧ sample_cert.digest Hash.compute_mock = sample_cert_voted.digest Hash.compute_mock :=
  ⟨by decide,
    (digest_of_header Hash.compute_mock sample_cert sample_cert_voted).2.1 rfl rfl rfl rfl⟩

/-- C9: `Header::serialize()` is the author, the round as 8 little-endian
bytes, the number of parents as 8 little-endian bytes, the parent digests in
order, the number of payload entries as 8 little-endian bytes and the entries as
(digest, worker id as 8 little-endian bytes); `Certificate::serialize()` adds the
number of votes as 8 little-endian bytes and the votes as (key, signature). Its
length is 64 + 32·k + 40·m + 96·v, so it is never empty. -/
theorem wire_format (c : Certificate) :
    c.header.serialize
      = c.header.author.val ++ le64 c.header.round ++ le64 c.header.parents.length
        ++ (c.header.parents.map (fun p => p.val)).flatten ++ le64 c.header.payload.length
        ++ (c.header.payload.map (fun p => p.1.val ++ le64 p.2)).flatten
    ∧ c.serialize
      = c.header.serialize ++ le64 c.votes.length
        ++ (c.votes.map (fun v => v.1.val ++ v.2.val)).flatten
    ∧ (∀ n : Nat, (le64 n).length = 8 ∧ le_value (le64 n) = n % 2 ^ 64)
    ∧ c.header.author.val.length = 32
    ∧ (∀ p ∈ c.header.parents, p.val.length = 32)
    ∧ (∀ p ∈ c.header.payload, p.1.val.length = 32)
    ∧ (∀ v ∈ c.votes, v.1.val.length = 32 ∧ v.2.val.length = 64)
    ∧ c.serialize.length
      = 64 + 32 * c.header.parents.length + 40 * c.header.payload.length
        + 96 * c.votes.length
    ∧ c.serialize ≠ [] := by
  refine ⟨header_serialize_eq _, certificate_serialize_eq _,
    fun n => ⟨le64_length n, le_value_le64 n⟩, c.header.author.property,
    fun p _ => p.property, fun p _ => p.1.property,
    fun v _ => ⟨v.1.property, v.2.property⟩, certificate_serialize_length _, ?_⟩
  intro h
  have := certificate_serialize_length c
  rw [h, List.length_nil] at this
  omega

/-- C10: on certificates whose fields are in the range of their C++ types,
`Certificate::serialize` is injective: equal bytes give the same author, round,
parents, payload entries and votes. Hence a deserializer that inverts it
exists. -/
theorem certificate_serialize_reversible (c1 c2 : Certificate) (h1 : c1.WF) (h2 : c2.WF) :
    (c1.serialize = c2.serialize ↔ c1 = c2)
    ∧ ∃ deserialize : List Byte → Option Certificate,
        ∀ c : Certificate, c.WF → deserialize c.serialize = some c := by
  constructor
  · exact ⟨certificate_serialize_inj c1 c2 h1 h2, fun e => by rw [e]⟩
  · classical
    refine ⟨fun b => if h : ∃ c : Certificate, c.WF ∧ c.serialize = b
        then some (Classical.choose h) else none, ?_⟩
    intro c hc
    have hex : ∃ c' : Certificate, c'.WF ∧ c'.serialize = c.serialize := ⟨c, hc, rfl⟩
    show (if h : ∃ c' : Certificate, c'.WF ∧ c'.serialize = c.serialize
        then some (Classical.choose h) else none) = some c
    rw [dif_pos hex]
    have hs := Classical.choose_spec hex
    exact congrArg some (certificate_serialize_inj _ _ hs.1 hc hs.2)

theorem certificate_serialize_reversible_witness :
    (sample_cert.WF ∧ sample_cert_voted.WF)
    ∧ sample_cert ≠ sample_cert_voted
    ∧ sample_cert.serialize ≠ sample_cert_voted.serialize :=
  ⟨⟨by unfold Certificate.WF; decide, by unfold Certificate.WF; decide⟩, by decide,
    fun e => absurd
      ((certificate_serialize_reversible sample_cert sample_cert_voted
        (by unfold Certificate.WF; decide) (by unfold Certificate.WF; decide)).1.mp e)
      (by decide)⟩

theorem tusk_frame (H : HashFn) (S : RoundSorter) (fuel round : Nat) (dag : dag_t)
    (state : State) (committee : Committee) (out : List Certificate × dag_t × State)
    (h : TuskEngine.process_round H S fuel round dag state committee = some out) :
    out.2 = (dag, state) := by
  unfold TuskEngine.process_round at h
  dsimp only at h
  split at h
  · cases h; rfl
  split at h
  · cases h; rfl
  split at h
  · cases h; rfl
  split at h
  · cases h; rfl
  split at h
  · cases h
  split at h
  · cases h
  cases h; rfl

theorem shoal_frame (reputation : List (PublicKey × Nat)) (round : Nat) (dag : dag_t)
    (state : State) (committee : Committee)
    (out : List Certificate × List (PublicKey × Nat) × dag_t × State)
    (h : ShoalPlusPlusEngine.process_round reputation round dag state committee = some out) :
    out.2.2 = (dag, state) := by
  unfold ShoalPlusPlusEngine.process_round at h
  dsimp only at h
  split at h
  · cases h; rfl
  split at h
  · cases h
  · cases h; rfl
  split at h
  · cases h; rfl
  cases h; rfl

theorem mysticeti_frame (round : Nat) (dag : dag_t) (state : State) (committee : Committee) :
    (MysticetiEngine.process_round round dag state committee).2 = (dag, state) := by
  unfold MysticetiEngine.process_round
  dsimp only
  repeat' split
  all_goals rfl

theorem engine_frame (H : HashFn) (S : RoundSorter) (fuel : Nat) (engine : Engine)
    (round : Nat) (dag : dag_t) (state : State) (committee : Committee)
    (out : List Certificate × Engine × dag_t × State)
    (h : Engine.process_round H S fuel engine round dag state committee = some out) :
    out.2.2 = (dag, state) := by
  cases engine with
  | tusk =>
    simp only [Engine.process_round, Option.map_eq_some'] at h
    obtain ⟨r, hr, rfl⟩ := h
    exact tusk_frame H S fuel round dag state committee r hr
  | shoal reputation =>
    simp only [Engine.process_round, Option.map_eq_some'] at h
    obtain ⟨r, hr, rfl⟩ := h
    exact shoal_frame reputation round dag state committee r hr
  | mysticeti =>
    simp only [Engine.process_round, Option.some.injEq] at h
    rw [← h]
    exact mysticeti_frame round dag state committee

theorem commit_state (gc_depth : Nat) (sequence : List Certificate) (d : Driver) :
    (Consensus.commit gc_depth d sequence).state
        = sequence.foldl (fun s x => s.update x gc_depth) d.state
    ∧ (Consensus.commit gc_depth d sequence).tx_output = d.tx_output ++ sequence
    ∧ (Consensus.commit gc_depth d sequence).tx_primary = d.tx_primary ++ sequence
    ∧ (Consensus.commit gc_depth d sequence).engine = d.engine := by
  induction sequence generalizing d with
  | nil => simp [Consensus.commit]
  | cons x t ih =>
    have := ih { d with tx_primary := d.tx_primary ++ [x], tx_output := d.tx_output ++ [x],
                        state := d.state.update x gc_depth }
    simp only [Consensus.commit, List.foldl_cons] at this ⊢
    simpa using this

theorem lookup_assign {κ α : Type} [DecidableEq κ] (l : List (κ × α)) (k k' : κ) (v : α) :
    lookup (assign l k v) k' = if k = k' then some v else lookup l k' := by
  induction l with
  | nil => simp [assign, lookup]
  | cons p t ih =>
    obtain ⟨k0, v0⟩ := p
    by_cases h0 : k0 = k
    · subst h0
      by_cases h1 : k0 = k' <;> simp [assign, lookup, h1]
    · by_cases h1 : k0 = k'
      · subst h1
        have : ¬ k = k0 := fun e => h0 e.symm
        simp [assign, lookup, h0, this]
      · simp [assign, lookup, h0, h1, ih]

theorem rep_val_touch (reputation : List (PublicKey × Nat)) (pk pk' : PublicKey) :
    rep_val (ShoalPlusPlusEngine.touch reputation pk) pk' = rep_val reputation pk' := by
  unfold ShoalPlusPlusEngine.touch
  split
  · rfl
  · rename_i hnone
    unfold rep_val
    rw [lookup_assign]
    split
    · rename_i e
      subst e
      rw [hnone]
      rfl
    · rfl

theorem total_congr (candidates : List PublicKey) (r1 r2 : List (PublicKey × Nat)) (t : Nat)
    (h : ∀ pk, rep_val r1 pk = rep_val r2 pk) :
    (candidates.foldl
        (fun (acc : Nat × List (PublicKey × Nat)) pk =>
          ((acc.1 + ((lookup (ShoalPlusPlusEngine.touch acc.2 pk) pk).getD 0 + 1) % 2 ^ 64)
              % 2 ^ 64, ShoalPlusPlusEngine.touch acc.2 pk)) (t, r1)).1
      = (candidates.foldl
        (fun (acc : Nat × List (PublicKey × Nat)) pk =>
          ((acc.1 + ((lookup (ShoalPlusPlusEngine.touch acc.2 pk) pk).getD 0 + 1) % 2 ^ 64)
              % 2 ^ 64, ShoalPlusPlusEngine.touch acc.2 pk)) (t, r2)).1
    ∧ ∀ pk, rep_val (candidates.foldl
        (fun (acc : Nat × List (PublicKey × Nat)) pk =>
          ((acc.1 + ((lookup (ShoalPlusPlusEngine.touch acc.2 pk) pk).getD 0 + 1) % 2 ^ 64)
              % 2 ^ 64, ShoalPlusPlusEngine.touch acc.2 pk)) (t, r1)).2 pk
      = rep_val (candidates.foldl
        (fun (acc : Nat × List (PublicKey × Nat)) pk =>
          ((acc.1 + ((lookup (ShoalPlusPlusEngine.touch acc.2 pk) pk).getD 0 + 1) % 2 ^ 64)
              % 2 ^ 64, ShoalPlusPlusEngine.touch acc.2 pk)) (t, r2)).2 pk := by
  induction candidates generalizing r1 r2 t with
  | nil => exact ⟨rfl, h⟩
  | cons x rest ih =>
    simp only [List.foldl_cons]
    have hx : (lookup (ShoalPlusPlusEngine.touch r1 x) x).getD 0
        = (lookup (ShoalPlusPlusEngine.touch r2 x) x).getD 0 := by
      have h1 := rep_val_touch r1 x x
      have h2 := rep_val_touch r2 x x
      unfold rep_val at h1 h2
      rw [h1, h2]
      exact h x
    rw [hx]
    exact ih _ _ _ (fun pk => by rw [rep_val_touch, rep_val_touch]; exact h pk)

theorem pick_congr (m : RoundMap) (choice : Nat) (candidates : List PublicKey) (current : Nat)
    (r1 r2 : List (PublicKey × Nat)) (h : ∀ pk, rep_val r1 pk = rep_val r2 pk) :
    (ShoalPlusPlusEngine.pick m choice candidates current r1).1
      = (ShoalPlusPlusEngine.pick m choice candidates current r2).1
    ∧ ∀ pk, rep_val (ShoalPlusPlusEngine.pick m choice candidates current r1).2 pk
      = rep_val (ShoalPlusPlusEngine.pick m choice candidates current r2).2 pk := by
  induction candidates generalizing r1 r2 current with
  | nil => exact ⟨rfl, h⟩
  | cons x rest ih =>
    simp only [ShoalPlusPlusEngine.pick]
    have hx : (lookup (ShoalPlusPlusEngine.touch r1 x) x).getD 0
        = (lookup (ShoalPlusPlusEngine.touch r2 x) x).getD 0 := by
      have h1 := rep_val_touch r1 x x
      have h2 := rep_val_touch r2 x x
      unfold rep_val at h1 h2
      rw [h1, h2]
      exact h x
    rw [hx]
    split
    · exact ⟨rfl, fun pk => by rw [rep_val_touch, rep_val_touch]; exact h pk⟩
    · exact ih _ _ _ (fun pk => by rw [rep_val_touch, rep_val_touch]; exact h pk)

theorem total_rep (candidates : List PublicKey) (r : List (PublicKey × Nat)) (t : Nat)
    (pk : PublicKey) :
    rep_val (candidates.foldl
        (fun (acc : Nat × List (PublicKey × Nat)) pk =>
          ((acc.1 + ((lookup (ShoalPlusPlusEngine.touch acc.2 pk) pk).getD 0 + 1) % 2 ^ 64)
              % 2 ^ 64, ShoalPlusPlusEngine.touch acc.2 pk)) (t, r)).2 pk
      = rep_val r pk := by
  induction candidates generalizing r t with
  | nil => rfl
  | cons x rest ih =>
    simp only [List.foldl_cons]
    rw [ih, rep_val_touch]

theorem pick_rep (m : RoundMap) (choice : Nat) (candidates : List PublicKey) (current : Nat)
    (r : List (PublicKey × Nat)) (pk : PublicKey) :
    rep_val (ShoalPlusPlusEngine.pick m choice candidates current r).2 pk = rep_val r pk := by
  induction candidates generalizing r current with
  | nil => rfl
  | cons x rest ih =>
    simp only [ShoalPlusPlusEngine.pick]
    split
    · exact rep_val_touch r x pk
    · rw [ih, rep_val_touch]

/-- The anchor chosen by `select_anchor` depends on the reputation map only through the
values it holds; the map it leaves behind holds the same values. -/
theorem select_anchor_congr (r1 r2 : List (PublicKey × Nat)) (round : Nat) (dag : dag_t)
    (committee : Committee) (h : ∀ pk, rep_val r1 pk = rep_val r2 pk) :
    (ShoalPlusPlusEngine.select_anchor r1 round dag committee).map Prod.fst
      = (ShoalPlusPlusEngine.select_anchor r2 round dag committee).map Prod.fst := by
  unfold ShoalPlusPlusEngine.select_anchor
  split
  · rfl
  · dsimp only
    split
    · rfl
    · rename_i m _ _
      have ht := total_congr ((m.map Prod.fst).insertionSort (· ≤ ·)) r1 r2 0 h
      rw [ht.1]
      split
      · rfl
      · simp only [Option.map_some']
        exact congrArg some (pick_congr m _ _ 0 _ _ ht.2).1

theorem select_anchor_rep (r : List (PublicKey × Nat)) (round : Nat) (dag : dag_t)
    (committee : Committee) (out : Option (Digest × Certificate) × List (PublicKey × Nat))
    (h : ShoalPlusPlusEngine.select_anchor r round dag committee = some out) (pk : PublicKey) :
    rep_val out.2 pk = rep_val r pk := by
  unfold ShoalPlusPlusEngine.select_anchor at h
  split at h
  · cases h; rfl
  · dsimp only at h
    split at h
    · cases h; rfl
    · split at h
      · cases h
      · cases h
        rw [pick_rep, total_rep]

/-- The sequence returned by the Shoal++ engine depends on its reputation map only through
the values it holds. -/
theorem shoal_congr (r1 r2 : List (PublicKey × Nat)) (round : Nat) (dag : dag_t)
    (state : State) (committee : Committee) (h : ∀ pk, rep_val r1 pk = rep_val r2 pk) :
    (ShoalPlusPlusEngine.process_round r1 round dag state committee).map (fun o => o.1)
      = (ShoalPlusPlusEngine.process_round r2 round dag state committee).map (fun o => o.1) := by
  unfold ShoalPlusPlusEngine.process_round
  dsimp only
  split
  · rfl
  · have hs := select_anchor_congr r1 r2 ((round + 2 ^ 64 - 1) % 2 ^ 64) dag committee h
    cases h1 : ShoalPlusPlusEngine.select_anchor r1 ((round + 2 ^ 64 - 1) % 2 ^ 64) dag committee
      with
    | none =>
      rw [h1] at hs
      cases h2 : ShoalPlusPlusEngine.select_anchor r2 ((round + 2 ^ 64 - 1) % 2 ^ 64) dag
          committee with
      | none => rfl
      | some o2 => rw [h2] at hs; cases hs
    | some o1 =>
      rw [h1] at hs
      cases h2 : ShoalPlusPlusEngine.select_anchor r2 ((round + 2 ^ 64 - 1) % 2 ^ 64) dag
          committee with
      | none => rw [h2] at hs; cases hs
      | some o2 =>
        rw [h2] at hs
        simp only [Option.map_some', Option.some.injEq] at hs
        obtain ⟨a1, q1⟩ := o1
        obtain ⟨a2, q2⟩ := o2
        simp only at hs
        subst hs
        cases a1 with
        | none => rfl
        | some p =>
          obtain ⟨d, c⟩ := p
          dsimp only
          split <;> rfl

/-- A call of the Shoal++ engine that commits nothing leaves the reputation values as they
were. -/
theorem shoal_empty_rep (r : List (PublicKey × Nat)) (round : Nat) (dag : dag_t)
    (state : State) (committee : Committee)
    (out : List Certificate × List (PublicKey × Nat) × dag_t × State)
    (h : ShoalPlusPlusEngine.process_round r round dag state committee = some out)
    (hempty : out.1 = []) (pk : PublicKey) : rep_val out.2.1 pk = rep_val r pk := by
  unfold ShoalPlusPlusEngine.process_round at h
  dsimp only at h
  split at h
  · cases h; rfl
  split at h
  · cases h
  · rename_i hsel
    cases h
    exact select_anchor_rep _ _ _ _ _ hsel pk
  · rename_i hsel
    split at h
    · cases h
      exact select_anchor_rep _ _ _ _ _ hsel pk
    · cases h
      simp at hempty

theorem order_leaders_loop_succ (H : HashFn) (state : State) (dag : dag_t) (committee : Committee)
    (fuel r : Nat) (current : Certificate) (to_commit : List Certificate) :
    TuskEngine.order_leaders_loop H state dag committee (fuel + 1) r current to_commit
      = if r > state.last_committed_round then
          match TuskEngine.leader r dag committee with
          | none => TuskEngine.order_leaders_loop H state dag committee fuel
              ((r + 2 ^ 64 - 2) % 2 ^ 64) current to_commit
          | some prev =>
            let next :=
              if TuskEngine.linked H current prev.2 dag then (prev.2, to_commit ++ [prev.2])
              else (current, to_commit)
            if r < 2 then some next.2
            else TuskEngine.order_leaders_loop H state dag committee fuel
              ((r + 2 ^ 64 - 2) % 2 ^ 64) next.1 next.2
        else some to_commit := rfl

theorem order_dag_loop_nil (state : State) (fuel : Nat) (seen : List Digest)
    (ordered : List Certificate) :
    TuskEngine.order_dag_loop state fuel [] seen ordered = some ordered := by
  cases fuel <;> rfl

theorem order_dag_loop_succ (state : State) (fuel : Nat) (x : Certificate)
    (buffer : List Certificate) (seen : List Digest) (ordered : List Certificate) :
    TuskEngine.order_dag_loop state (fuel + 1) (x :: buffer) seen ordered
      = if x.round = 0 then TuskEngine.order_dag_loop state fuel buffer seen (ordered ++ [x])
        else
          match lookup state.dag (x.round - 1) with
          | none => TuskEngine.order_dag_loop state fuel buffer seen (ordered ++ [x])
          | some m =>
            TuskEngine.order_dag_loop state fuel
              (x.header.parents.foldl (TuskEngine.visit_parent state m) (buffer, seen)).1
              (x.header.parents.foldl (TuskEngine.visit_parent state m) (buffer, seen)).2
              (ordered ++ [x]) := rfl

/-- A sorted rearrangement of a list whose head has the strictly largest round ends in that head. -/
theorem sort_max_last (S : RoundSorter) (x : Certificate) (xs : List Certificate)
    (h : ∀ y ∈ xs, y.round < x.round) :
    ∃ l, l.Perm xs ∧ S.sort (x :: xs) = l ++ [x] := by
  have hp := S.perm (x :: xs)
  have hs := S.sorted (x :: xs)
  have hx : x ∈ S.sort (x :: xs) := hp.symm.subset (List.mem_cons_self _ _)
  obtain ⟨l1, l2, e⟩ := List.append_of_mem hx
  rw [e] at hp hs
  have hp2 : (l1 ++ l2).Perm xs := by
    have : (x :: (l1 ++ l2)).Perm (x :: xs) := List.perm_middle.symm.trans hp
    exact List.Perm.cons_inv this
  have hl2 : l2 = [] := by
    cases l2 with
    | nil => rfl
    | cons y t =>
      exfalso
      have hy : y ∈ xs := hp2.subset (by simp)
      have h1 := h y hy
      rw [List.pairwise_append] at hs
      have h2 := (List.pairwise_cons.mp hs.2.1).1 y (List.mem_cons_self _ _)
      omega
  subst hl2
  exact ⟨l1, by simpa using hp2, e⟩

/-- C1 (Tusk happy path, S1): four authorities of stake 100 with keys
`k 0 < k 1 < k 2 < k 3`; the state is built from genesis and holds, by the insert
step of the driver, certificates `c r i` (round `r` from 1 to 4, author `k i`)
that list the four digests of the round before as parents, and one round-5
certificate; the digests are pairwise distinct (`FullDag`). Then
`process_round(5, …)` with fuel at least 5 returns exactly five certificates: the
four round-1 certificates in some order, followed by the round-2 certificate of
`k 2`, the key `keys[2 mod 4]`. -/
theorem tusk_happy_path (H : HashFn) (S : RoundSorter) (fuel : Nat)
    (k : Fin 4 → PublicKey) (a : Fin 4 → Authority)
    (c : Fin 5 → Fin 4 → Certificate) (c5 : Certificate)
    (h : FullDag H k a 4 c) (h5 : c5.round = 5) :
    ∃ l, l.Perm [c 1 0, c 1 1, c 1 2, c 1 3]
      ∧ TuskEngine.process_round H S (fuel + 5) 5
          (([c 1 0, c 1 1, c 1 2, c 1 3, c 2 0, c 2 1, c 2 2, c 2 3,
             c 3 0, c 3 1, c 3 2, c 3 3, c 4 0, c 4 1, c 4 2, c 4 3, c5].foldl
            (Consensus.insert H)
              (State.init H (Consensus.genesis
                ⟨[(k 0, a 0), (k 1, a 1), (k 2, a 2), (k 3, a 3)]⟩))).dag)
          ([c 1 0, c 1 1, c 1 2, c 1 3, c 2 0, c 2 1, c 2 2, c 2 3,
             c 3 0, c 3 1, c 3 2, c 3 3, c 4 0, c 4 1, c 4 2, c 4 3, c5].foldl
            (Consensus.insert H)
              (State.init H (Consensus.genesis
                ⟨[(k 0, a 0), (k 1, a 1), (k 2, a 2), (k 3, a 3)]⟩)))
          ⟨[(k 0, a 0), (k 1, a 1), (k 2, a 2), (k 3, a 3)]⟩
        = some (l ++ [c 2 2],
            ([c 1 0, c 1 1, c 1 2, c 1 3, c 2 0, c 2 1, c 2 2, c 2 3,
             c 3 0, c 3 1, c 3 2, c 3 3, c 4 0, c 4 1, c 4 2, c 4 3, c5].foldl
              (Consensus.insert H)
              (State.init H (Consensus.genesis
                ⟨[(k 0, a 0), (k 1, a 1), (k 2, a 2), (k 3, a 3)]⟩))).dag,
            [c 1 0, c 1 1, c 1 2, c 1 3, c 2 0, c 2 1, c 2 2, c 2 3,
             c 3 0, c 3 1, c 3 2, c 3 3, c 4 0, c 4 1, c 4 2, c 4 3, c5].foldl
              (Consensus.insert H)
              (State.init H (Consensus.genesis
                ⟨[(k 0, a 0), (k 1, a 1), (k 2, a 2), (k 3, a 3)]⟩))) := by
  obtain ⟨hk, ha, hgen, horigin, hround, hparents, hdistinct⟩ := h
  have hD : ∀ r i r' i', ((c r i).digest H = (c r' i').digest H) ↔ (r = r' ∧ i = i') :=
    fun r i r' i' => ⟨hdistinct r i r' i', fun h => by rw [h.1, h.2]⟩
  have hkeq : ∀ i j, (k i = k j) ↔ i = j := fun i j => hk.injective.eq_iff
  have hkle : ∀ i j, (k i ≤ k j) ↔ i ≤ j := fun i j => hk.le_iff_le
  have hr0 : ∀ i, (c 0 i).header.round = 0 := fun i => hround 0 i
  have hr1 : ∀ i, (c 1 i).header.round = 1 := fun i => hround 1 i
  have hr2 : ∀ i, (c 2 i).header.round = 2 := fun i => hround 2 i
  have hr3 : ∀ i, (c 3 i).header.round = 3 := fun i => hround 3 i
  have hr4 : ∀ i, (c 4 i).header.round = 4 := fun i => hround 4 i
  have ho : ∀ r i, (c r i).header.author = k i := horigin
  have hp1 := hparents 0
  have hp2 := hparents 1
  have hp3 := hparents 2
  simp only [Fin.succ_zero_eq_one, Fin.castSucc_zero, Fin.succ_one_eq_two, Fin.castSucc_one] at hp1 hp2
  have e23 : Fin.succ (2 : Fin 4) = (3 : Fin 5) := rfl
  have e22 : Fin.castSucc (2 : Fin 4) = (2 : Fin 5) := rfl
  rw [e23, e22] at hp3
  -- the state after the seventeen inserts
  have hstate : ([c 1 0, c 1 1, c 1 2, c 1 3, c 2 0, c 2 1, c 2 2, c 2 3,
             c 3 0, c 3 1, c 3 2, c 3 3, c 4 0, c 4 1, c 4 2, c 4 3, c5].foldl
            (Consensus.insert H)
            (State.init H (Consensus.genesis ⟨[(k 0, a 0), (k 1, a 1), (k 2, a 2), (k 3, a 3)]⟩)))
      = { last_committed_round := 0
          last_committed := [(k 0, 0), (k 1, 0), (k 2, 0), (k 3, 0)]
          dag := [(0, [(k 0, ((c 0 0).digest H, c 0 0)), (k 1, ((c 0 1).digest H, c 0 1)),
                       (k 2, ((c 0 2).digest H, c 0 2)), (k 3, ((c 0 3).digest H, c 0 3))]),
                  (1, [(k 0, ((c 1 0).digest H, c 1 0)), (k 1, ((c 1 1).digest H, c 1 1)),
                       (k 2, ((c 1 2).digest H, c 1 2)), (k 3, ((c 1 3).digest H, c 1 3))]),
                  (2, [(k 0, ((c 2 0).digest H, c 2 0)), (k 1, ((c 2 1).digest H, c 2 1)),
                       (k 2, ((c 2 2).digest H, c 2 2)), (k 3, ((c 2 3).digest H, c 2 3))]),
                  (3, [(k 0, ((c 3 0).digest H, c 3 0)), (k 1, ((c 3 1).digest H, c 3 1)),
                       (k 2, ((c 3 2).digest H, c 3 2)), (k 3, ((c 3 3).digest H, c 3 3))]),
                  (4, [(k 0, ((c 4 0).digest H, c 4 0)), (k 1, ((c 4 1).digest H, c 4 1)),
                       (k 2, ((c 4 2).digest H, c 4 2)), (k 3, ((c 4 3).digest H, c 4 3))]),
                  (5, [(c5.origin, (c5.digest H, c5))])] } := by
    have h5r : c5.header.round = 5 := h5
    rw [← hgen]
    simp [State.init, Consensus.insert, dag_insert, assign, assignOrd, lookup,
      Certificate.round, Certificate.origin, hr0, hr1, hr2, hr3, hr4, ho, hkeq, h5r]
  generalize hfold : ([c 1 0, c 1 1, c 1 2, c 1 3, c 2 0, c 2 1, c 2 2, c 2 3,
             c 3 0, c 3 1, c 3 2, c 3 3, c 4 0, c 4 1, c 4 2, c 4 3, c5].foldl
            (Consensus.insert H)
            (State.init H (Consensus.genesis ⟨[(k 0, a 0), (k 1, a 1), (k 2, a 2), (k 3, a 3)]⟩)))
      = st at hstate ⊢
  have hst := hstate.symm
  have hlcr : st.last_committed_round = 0 := by rw [← hst]
  have hlc : ∀ i, lookup st.last_committed (k i) = some 0 := by
    intro i
    rw [← hst]
    fin_cases i <;> simp [lookup, hkeq]
  have hdag0 : lookup st.dag 0
      = some [(k 0, ((c 0 0).digest H, c 0 0)), (k 1, ((c 0 1).digest H, c 0 1)),
              (k 2, ((c 0 2).digest H, c 0 2)), (k 3, ((c 0 3).digest H, c 0 3))] := by
    rw [← hst]; simp [lookup]
  have hdag1 : lookup st.dag 1
      = some [(k 0, ((c 1 0).digest H, c 1 0)), (k 1, ((c 1 1).digest H, c 1 1)),
              (k 2, ((c 1 2).digest H, c 1 2)), (k 3, ((c 1 3).digest H, c 1 3))] := by
    rw [← hst]; simp [lookup]
  have hdag2 : lookup st.dag 2
      = some [(k 0, ((c 2 0).digest H, c 2 0)), (k 1, ((c 2 1).digest H, c 2 1)),
              (k 2, ((c 2 2).digest H, c 2 2)), (k 3, ((c 2 3).digest H, c 2 3))] := by
    rw [← hst]; simp [lookup]
  have hdag3 : lookup st.dag 3
      = some [(k 0, ((c 3 0).digest H, c 3 0)), (k 1, ((c 3 1).digest H, c 3 1)),
              (k 2, ((c 3 2).digest H, c 3 2)), (k 3, ((c 3 3).digest H, c 3 3))] := by
    rw [← hst]; simp [lookup]
  clear hst hstate hfold
  obtain ⟨l, hl, hsort⟩ := sort_max_last S (c 2 2) [c 1 3, c 1 2, c 1 1, c 1 0] (by
    intro y hy
    simp only [List.mem_cons, List.mem_singleton, List.not_mem_nil, or_false] at hy
    rcases hy with rfl | rfl | rfl | rfl <;> simp [Certificate.round, hr1, hr2])
  refine ⟨l, hl.trans ?_, ?_⟩
  · exact (List.reverse_perm [c 1 0, c 1 1, c 1 2, c 1 3])
  have hlr : (Certificate.round (c 2 2) + 2 ^ 64 - 2) % 2 ^ 64 = 0 := by
    simp [Certificate.round, hr2]
  have hval : Committee.validity_threshold ⟨[(k 0, a 0), (k 1, a 1), (k 2, a 2), (k 3, a 3)]⟩
      = 134 := by
    simp [Committee.validity_threshold, Committee.total_stake, ha]
  have hgs : ∀ i, Committee.get_stake ⟨[(k 0, a 0), (k 1, a 1), (k 2, a 2), (k 3, a 3)]⟩ (k i)
      = 100 := by
    intro i
    fin_cases i <;> simp [Committee.get_stake, lookup, hkeq, ha]
  have hleader : TuskEngine.leader 2 st.dag
      ⟨[(k 0, a 0), (k 1, a 1), (k 2, a 2), (k 3, a 3)]⟩ = some ((c 2 2).digest H, c 2 2) := by
    simp [TuskEngine.leader, hdag2, lookup, List.insertionSort, List.orderedInsert, hkle, hkeq]
  have hsupport : support ⟨[(k 0, a 0), (k 1, a 1), (k 2, a 2), (k 3, a 3)]⟩ (lookup st.dag 3)
      ((c 2 2).digest H) = 400 := by
    simp [hdag3, support, hp3, hD, Certificate.origin, ho, hgs]
  have horder : TuskEngine.order_leaders H (fuel + 5) (c 2 2) st st.dag
      ⟨[(k 0, a 0), (k 1, a 1), (k 2, a 2), (k 3, a 3)]⟩ = some [c 2 2] := by
    have hfuel : fuel + 5 = (fuel + 4) + 1 := rfl
    rw [TuskEngine.order_leaders, hlr, hfuel, order_leaders_loop_succ, hlcr]
    simp
  have hdfs : TuskEngine.order_dag_loop st (fuel + 5) [c 2 2] [] []
      = some [c 2 2, c 1 3, c 1 2, c 1 1, c 1 0] := by
    have h5 : fuel + 5 = (fuel + 4) + 1 := rfl
    have h4 : fuel + 4 = (fuel + 3) + 1 := rfl
    have h3 : fuel + 3 = (fuel + 2) + 1 := rfl
    have h2 : fuel + 2 = (fuel + 1) + 1 := rfl
    rw [h5, order_dag_loop_succ]
    simp [Certificate.round, Certificate.origin, hr0, hr1, hr2, ho, hp1, hp2, hD, hlc,
      hdag0, hdag1, TuskEngine.visit_parent]
    rw [h4, order_dag_loop_succ]
    simp [Certificate.round, Certificate.origin, hr0, hr1, hr2, ho, hp1, hp2, hD, hlc,
      hdag0, hdag1, TuskEngine.visit_parent]
    rw [h3, order_dag_loop_succ]
    simp [Certificate.round, Certificate.origin, hr0, hr1, hr2, ho, hp1, hp2, hD, hlc,
      hdag0, hdag1, TuskEngine.visit_parent]
    rw [h2, order_dag_loop_succ]
    simp [Certificate.round, Certificate.origin, hr0, hr1, hr2, ho, hp1, hp2, hD, hlc,
      hdag0, hdag1, TuskEngine.visit_parent]
    rw [order_dag_loop_succ]
    simp [Certificate.round, Certificate.origin, hr0, hr1, hr2, ho, hp1, hp2, hD, hlc,
      hdag0, hdag1, TuskEngine.visit_parent, order_dag_loop_nil]
  have hr2c : ¬ (5 < 4 ∨ (5 - 1) % 2 ≠ 0) := by decide
  simp only [TuskEngine.process_round]
  rw [if_neg hr2c]
  have e2 : 5 - 1 - 2 = 2 := rfl
  have e3 : 5 - 1 - 1 = 3 := rfl
  simp only [e2, e3, hlcr, hleader, hsupport, hval, horder, List.reverse_singleton,
    TuskEngine.flatten_leaders, TuskEngine.order_dag, hdfs, Option.map_some', hsort]
  simp

theorem run_loop_append (H : HashFn) (S : RoundSorter) (fuel : Nat) (committee : Committee)
    (gc_depth : Nat) (l1 l2 : List Certificate) (d : Driver) :
    Consensus.run_loop H S fuel committee gc_depth (l1 ++ l2) d
      = (Consensus.run_loop H S fuel committee gc_depth l1 d).bind
          (Consensus.run_loop H S fuel committee gc_depth l2) := by
  induction l1 generalizing d with
  | nil => rfl
  | cons x t ih =>
    simp only [List.cons_append, Consensus.run_loop]
    cases Consensus.step H S fuel committee gc_depth d x with
    | none => rfl
    | some d2 => exact ih d2

theorem run_loop_singleton (H : HashFn) (S : RoundSorter) (fuel : Nat) (committee : Committee)
    (gc_depth : Nat) (x : Certificate) (d : Driver) :
    Consensus.run_loop H S fuel committee gc_depth [x] d
      = Consensus.step H S fuel committee gc_depth d x := by
  simp only [Consensus.run_loop]
  cases Consensus.step H S fuel committee gc_depth d x <;> rfl

/-- The rounds for which the Tusk engine returns at once: below 4, even, or with a leader
round that is not above the last committed round. -/
theorem tusk_idle (H : HashFn) (S : RoundSorter) (fuel round : Nat) (dag : dag_t)
    (state : State) (committee : Committee)
    (h : round < 4 ∨ (round - 1) % 2 ≠ 0 ∨ round - 1 - 2 ≤ state.last_committed_round) :
    TuskEngine.process_round H S fuel round dag state committee = some ([], dag, state) := by
  unfold TuskEngine.process_round
  by_cases h1 : round < 4 ∨ (round - 1) % 2 ≠ 0
  · rw [if_pos h1]
  · rw [if_neg h1]
    have h2 : round - 1 - 2 ≤ state.last_committed_round := by
      rcases h with h | h | h
      · exact absurd (Or.inl h) h1
      · exact absurd (Or.inr h) h1
      · exact h
    dsimp only
    rw [if_pos h2]

theorem step_tusk (H : HashFn) (S : RoundSorter) (fuel : Nat) (committee : Committee)
    (gc_depth : Nat) (d : Driver) (certificate : Certificate) (sequence : List Certificate)
    (he : d.engine = Engine.tusk)
    (h : TuskEngine.process_round H S fuel certificate.round
        (Consensus.insert H d.state certificate).dag (Consensus.insert H d.state certificate)
        committee
      = some (sequence, (Consensus.insert H d.state certificate).dag,
          Consensus.insert H d.state certificate)) :
    Consensus.step H S fuel committee gc_depth d certificate
      = some (Consensus.commit gc_depth
          { d with state := Consensus.insert H d.state certificate } sequence) := by
  unfold Consensus.step
  dsimp only
  rw [he]
  simp only [Engine.process_round, h, Option.map_some']

theorem run_idle (H : HashFn) (S : RoundSorter) (fuel : Nat) (committee : Committee)
    (gc_depth : Nat) (certs : List Certificate) (d : Driver) (he : d.engine = Engine.tusk)
    (h : ∀ x ∈ certs, x.round < 4 ∨ (x.round - 1) % 2 ≠ 0
      ∨ x.round - 1 - 2 ≤ d.state.last_committed_round) :
    Consensus.run_loop H S fuel committee gc_depth certs d
      = some { d with state := certs.foldl (Consensus.insert H) d.state } := by
  induction certs generalizing d with
  | nil => rfl
  | cons x t ih =>
    have hx := h x (List.mem_cons_self _ _)
    have hs := step_tusk H S fuel committee gc_depth d x [] he
      (tusk_idle H S fuel _ _ _ committee hx)
    simp only [Consensus.run_loop, hs, Consensus.commit, List.foldl_nil, List.foldl_cons]
    exact ih _ he (fun y hy => h y (List.mem_cons_of_mem _ hy))

theorem tusk_load_run (H : HashFn) (fuel : Nat) (k : Fin 4 → PublicKey) (a : Fin 4 → Authority)
    (c : Fin 7 → Fin 4 → Certificate) (c7 : Certificate) (h : FullDag H k a 6 c)
    (h7 : c7.round = 7) :
    (Consensus.run H stableSorter (fuel + 13)
        ⟨[(k 0, a 0), (k 1, a 1), (k 2, a 2), (k 3, a 3)]⟩ 50 Engine.tusk
        [c 1 0, c 1 1, c 1 2, c 1 3, c 2 0, c 2 1, c 2 2, c 2 3, c 3 0, c 3 1, c 3 2, c 3 3,
          c 4 0, c 4 1, c 4 2, c 4 3, c 5 0, c 5 1, c 5 2, c 5 3, c 6 0, c 6 1, c 6 2, c 6 3,
          c7]).map (fun d => d.tx_output)
      = some [c 1 3, c 1 2, c 1 1, c 1 0, c 2 2, c 0 3, c 0 2, c 0 1, c 0 0, c 1 2,
          c 2 3, c 2 1, c 2 0, c 3 3, c 3 2, c 3 1, c 3 0, c 4 0] := by
  obtain ⟨hk, ha, hgen, horigin, hround, hparents, hdistinct⟩ := h
  have hD : ∀ r i r' i', ((c r i).digest H = (c r' i').digest H) ↔ (r = r' ∧ i = i') :=
    fun r i r' i' => ⟨hdistinct r i r' i', fun h => by rw [h.1, h.2]⟩
  have hkeq : ∀ i j, (k i = k j) ↔ i = j := fun i j => hk.injective.eq_iff
  have hkle : ∀ i j, (k i ≤ k j) ↔ i ≤ j := fun i j => hk.le_iff_le
  have hr0 : ∀ i, (c 0 i).header.round = 0 := fun i => hround 0 i
  have hr1 : ∀ i, (c 1 i).header.round = 1 := fun i => hround 1 i
  have hr2 : ∀ i, (c 2 i).header.round = 2 := fun i => hround 2 i
  have hr3 : ∀ i, (c 3 i).header.round = 3 := fun i => hround 3 i
  have hr4 : ∀ i, (c 4 i).header.round = 4 := fun i => hround 4 i
  have hr5 : ∀ i, (c 5 i).header.round = 5 := fun i => hround 5 i
  have hr6 : ∀ i, (c 6 i).header.round = 6 := fun i => hround 6 i
  have hr7 : c7.header.round = 7 := h7
  have ho : ∀ r i, (c r i).header.author = k i := horigin
  have hp1 : ∀ i, (c 1 i).header.parents = [(c 0 0).digest H, (c 0 1).digest H,
      (c 0 2).digest H, (c 0 3).digest H] := hparents 0
  have hp2 : ∀ i, (c 2 i).header.parents = [(c 1 0).digest H, (c 1 1).digest H,
      (c 1 2).digest H, (c 1 3).digest H] := hparents 1
  have hp3 : ∀ i, (c 3 i).header.parents = [(c 2 0).digest H, (c 2 1).digest H,
      (c 2 2).digest H, (c 2 3).digest H] := hparents 2
  have hp4 : ∀ i, (c 4 i).header.parents = [(c 3 0).digest H, (c 3 1).digest H,
      (c 3 2).digest H, (c 3 3).digest H] := hparents 3
  have hp5 : ∀ i, (c 5 i).header.parents = [(c 4 0).digest H, (c 4 1).digest H,
      (c 4 2).digest H, (c 4 3).digest H] := hparents 4
  have hval : Committee.validity_threshold ⟨[(k 0, a 0), (k 1, a 1), (k 2, a 2), (k 3, a 3)]⟩
      = 134 := by
    simp [Committee.validity_threshold, Committee.total_stake, ha]
  have hgs : ∀ i, Committee.get_stake ⟨[(k 0, a 0), (k 1, a 1), (k 2, a 2), (k 3, a 3)]⟩ (k i)
      = 100 := by
    intro i
    fin_cases i <;> simp [Committee.get_stake, lookup, hkeq, ha]
  -- the first sixteen certificates are only inserted
  have hsplit : [c 1 0, c 1 1, c 1 2, c 1 3, c 2 0, c 2 1, c 2 2, c 2 3, c 3 0, c 3 1, c 3 2,
      c 3 3, c 4 0, c 4 1, c 4 2, c 4 3, c 5 0, c 5 1, c 5 2, c 5 3, c 6 0, c 6 1, c 6 2,
      c 6 3, c7]
      = [c 1 0, c 1 1, c 1 2, c 1 3, c 2 0, c 2 1, c 2 2, c 2 3, c 3 0, c 3 1, c 3 2,
          c 3 3, c 4 0, c 4 1, c 4 2, c 4 3]
        ++ ([c 5 0] ++ ([c 5 1, c 5 2, c 5 3, c 6 0, c 6 1, c 6 2, c 6 3] ++ [c7])) := rfl
  unfold Consensus.run
  rw [hsplit, run_loop_append, run_idle _ _ _ _ _ _ _ rfl (by
    intro x hx
    simp only [List.mem_cons, List.mem_singleton, List.not_mem_nil, or_false] at hx
    rcases hx with rfl | rfl | rfl | rfl | rfl | rfl | rfl | rfl | rfl | rfl | rfl | rfl
      | rfl | rfl | rfl | rfl <;> simp [Certificate.round, hr1, hr2, hr3, hr4])]
  simp only [Option.some_bind]
  obtain ⟨m0, hm0⟩ : ∃ m : RoundMap, m = [(k 0, ((c 0 0).digest H, c 0 0)), (k 1, ((c 0 1).digest H, c 0 1)),
      (k 2, ((c 0 2).digest H, c 0 2)), (k 3, ((c 0 3).digest H, c 0 3))] := ⟨_, rfl⟩
  obtain ⟨m1, hm1⟩ : ∃ m : RoundMap, m = [(k 0, ((c 1 0).digest H, c 1 0)), (k 1, ((c 1 1).digest H, c 1 1)),
      (k 2, ((c 1 2).digest H, c 1 2)), (k 3, ((c 1 3).digest H, c 1 3))] := ⟨_, rfl⟩
  obtain ⟨m2, hm2⟩ : ∃ m : RoundMap, m = [(k 0, ((c 2 0).digest H, c 2 0)), (k 1, ((c 2 1).digest H, c 2 1)),
      (k 2, ((c 2 2).digest H, c 2 2)), (k 3, ((c 2 3).digest H, c 2 3))] := ⟨_, rfl⟩
  obtain ⟨m3, hm3⟩ : ∃ m : RoundMap, m = [(k 0, ((c 3 0).digest H, c 3 0)), (k 1, ((c 3 1).digest H, c 3 1)),
      (k 2, ((c 3 2).digest H, c 3 2)), (k 3, ((c 3 3).digest H, c 3 3))] := ⟨_, rfl⟩
  obtain ⟨m4, hm4⟩ : ∃ m : RoundMap, m = [(k 0, ((c 4 0).digest H, c 4 0)), (k 1, ((c 4 1).digest H, c 4 1)),
      (k 2, ((c 4 2).digest H, c 4 2)), (k 3, ((c 4 3).digest H, c 4 3))] := ⟨_, rfl⟩
  obtain ⟨m5, hm5⟩ : ∃ m : RoundMap, m = [(k 0, ((c 5 0).digest H, c 5 0)), (k 1, ((c 5 1).digest H, c 5 1)),
      (k 2, ((c 5 2).digest H, c 5 2)), (k 3, ((c 5 3).digest H, c 5 3))] := ⟨_, rfl⟩
  obtain ⟨m6, hm6⟩ : ∃ m : RoundMap, m = [(k 0, ((c 6 0).digest H, c 6 0)), (k 1, ((c 6 1).digest H, c 6 1)),
      (k 2, ((c 6 2).digest H, c 6 2)), (k 3, ((c 6 3).digest H, c 6 3))] := ⟨_, rfl⟩
  have hst16 : ([c 1 0, c 1 1, c 1 2, c 1 3, c 2 0, c 2 1, c 2 2, c 2 3, c 3 0, c 3 1, c 3 2,
          c 3 3, c 4 0, c 4 1, c 4 2, c 4 3].foldl (Consensus.insert H)
        (State.init H (Consensus.genesis ⟨[(k 0, a 0), (k 1, a 1), (k 2, a 2), (k 3, a 3)]⟩)))
      = { last_committed_round := 0
          last_committed := [(k 0, 0), (k 1, 0), (k 2, 0), (k 3, 0)]
          dag := [(0, m0), (1, m1), (2, m2), (3, m3), (4, m4)] } := by
    rw [← hgen, hm0, hm1, hm2, hm3, hm4]
    simp [State.init, Consensus.insert, dag_insert, assign, assignOrd, lookup,
      Certificate.round, Certificate.origin, hr0, hr1, hr2, hr3, hr4, hr5, hr6, hr7, ho, hkeq]
  rw [hst16, run_loop_append]
  -- the first certificate of round 5 commits the leader of round 2
  have hst17 : Consensus.insert H
        { last_committed_round := 0
          last_committed := [(k 0, 0), (k 1, 0), (k 2, 0), (k 3, 0)]
          dag := [(0, m0), (1, m1), (2, m2), (3, m3), (4, m4)] } (c 5 0)
      = { last_committed_round := 0
          last_committed := [(k 0, 0), (k 1, 0), (k 2, 0), (k 3, 0)]
          dag := [(0, m0), (1, m1), (2, m2), (3, m3), (4, m4),
                  (5, [(k 0, ((c 5 0).digest H, c 5 0))])] } := by
    simp [State.init, Consensus.insert, dag_insert, assign, assignOrd, lookup,
      Certificate.round, Certificate.origin, hr0, hr1, hr2, hr3, hr4, hr5, hr6, hr7, ho, hkeq]
  have hcall5 : TuskEngine.process_round H stableSorter (fuel + 13) 5
        [(0, m0), (1, m1), (2, m2), (3, m3), (4, m4), (5, [(k 0, ((c 5 0).digest H, c 5 0))])]
        { last_committed_round := 0
          last_committed := [(k 0, 0), (k 1, 0), (k 2, 0), (k 3, 0)]
          dag := [(0, m0), (1, m1), (2, m2), (3, m3), (4, m4),
                  (5, [(k 0, ((c 5 0).digest H, c 5 0))])] } ⟨[(k 0, a 0), (k 1, a 1), (k 2, a 2), (k 3, a 3)]⟩
      = some ([c 1 3, c 1 2, c 1 1, c 1 0, c 2 2],
          [(0, m0), (1, m1), (2, m2), (3, m3), (4, m4), (5, [(k 0, ((c 5 0).digest H, c 5 0))])],
          { last_committed_round := 0
            last_committed := [(k 0, 0), (k 1, 0), (k 2, 0), (k 3, 0)]
            dag := [(0, m0), (1, m1), (2, m2), (3, m3), (4, m4),
                  (5, [(k 0, ((c 5 0).digest H, c 5 0))])] }) := by
    generalize hst : (⟨0, [(k 0, 0), (k 1, 0), (k 2, 0), (k 3, 0)],
        [(0, m0), (1, m1), (2, m2), (3, m3), (4, m4),
          (5, [(k 0, ((c 5 0).digest H, c 5 0))])]⟩ : State) = st
    have hdag : st.dag = [(0, m0), (1, m1), (2, m2), (3, m3), (4, m4),
        (5, [(k 0, ((c 5 0).digest H, c 5 0))])] := by rw [← hst]
    rw [← hdag]
    have hlcr : st.last_committed_round = 0 := by rw [← hst]
    have hlc : ∀ i, lookup st.last_committed (k i) = some 0 := by
      intro i
      rw [← hst]
      fin_cases i <;> simp [lookup, hkeq]
    have hdag0 : lookup st.dag 0 = some m0 := by rw [hdag]; simp [lookup]
    have hdag1 : lookup st.dag 1 = some m1 := by rw [hdag]; simp [lookup]
    have hdag2 : lookup st.dag 2 = some m2 := by rw [hdag]; simp [lookup]
    have hdag3 : lookup st.dag 3 = some m3 := by rw [hdag]; simp [lookup]
    clear hst hdag
    have hlr : (Certificate.round (c 2 2) + 2 ^ 64 - 2) % 2 ^ 64 = 0 := by
      simp [Certificate.round, hr2]
    have hleader : TuskEngine.leader 2 st.dag
        ⟨[(k 0, a 0), (k 1, a 1), (k 2, a 2), (k 3, a 3)]⟩
        = some ((c 2 2).digest H, c 2 2) := by
      simp [TuskEngine.leader, hdag2, hm2, lookup, List.insertionSort, List.orderedInsert,
        hkle, hkeq]
    have hsupport : support ⟨[(k 0, a 0), (k 1, a 1), (k 2, a 2), (k 3, a 3)]⟩
        (lookup st.dag 3) ((c 2 2).digest H) = 400 := by
      simp [hdag3, hm3, support, hp3, hD, Certificate.origin, ho, hgs]
    have horder : TuskEngine.order_leaders H (fuel + 13) (c 2 2) st st.dag
        ⟨[(k 0, a 0), (k 1, a 1), (k 2, a 2), (k 3, a 3)]⟩ = some [c 2 2] := by
      have hfuel : fuel + 13 = (fuel + 12) + 1 := rfl
      rw [TuskEngine.order_leaders, hlr, hfuel, order_leaders_loop_succ, hlcr]
      simp
    have hdfs : TuskEngine.order_dag_loop st (fuel + 13) [c 2 2] [] []
        = some [c 2 2, c 1 3, c 1 2, c 1 1, c 1 0] := by
      have e13 : fuel + 13 = (fuel + 12) + 1 := rfl
      have e12 : fuel + 12 = (fuel + 11) + 1 := rfl
      have e11 : fuel + 11 = (fuel + 10) + 1 := rfl
      have e10 : fuel + 10 = (fuel + 9) + 1 := rfl
      have e9 : fuel + 9 = (fuel + 8) + 1 := rfl
      rw [e13, order_dag_loop_succ]
      simp [Certificate.round, Certificate.origin, hr0, hr1, hr2, ho, hp1, hp2, hD, hlc,
        hdag0, hdag1, hm0, hm1, TuskEngine.visit_parent]
      rw [e12, order_dag_loop_succ]
      simp [Certificate.round, Certificate.origin, hr0, hr1, hr2, ho, hp1, hp2, hD, hlc,
        hdag0, hdag1, hm0, hm1, TuskEngine.visit_parent]
      rw [e11, order_dag_loop_succ]
      simp [Certificate.round, Certificate.origin, hr0, hr1, hr2, ho, hp1, hp2, hD, hlc,
        hdag0, hdag1, hm0, hm1, TuskEngine.visit_parent]
      rw [e10, order_dag_loop_succ]
      simp [Certificate.round, Certificate.origin, hr0, hr1, hr2, ho, hp1, hp2, hD, hlc,
        hdag0, hdag1, hm0, hm1, TuskEngine.visit_parent]
      rw [e9, order_dag_loop_succ]
      simp [Certificate.round, Certificate.origin, hr0, hr1, hr2, ho, hp1, hp2, hD, hlc,
        hdag0, hdag1, hm0, hm1, TuskEngine.visit_parent, order_dag_loop_nil]
    have hsort : stableSorter.sort [c 2 2, c 1 3, c 1 2, c 1 1, c 1 0]
        = [c 1 3, c 1 2, c 1 1, c 1 0, c 2 2] := by
      simp [stableSorter, List.insertionSort, List.orderedInsert, Certificate.round, hr1, hr2]
    have hr2c : ¬ (5 < 4 ∨ (5 - 1) % 2 ≠ 0) := by decide
    simp only [TuskEngine.process_round]
    rw [if_neg hr2c]
    have e2 : 5 - 1 - 2 = 2 := rfl
    have e3 : 5 - 1 - 1 = 3 := rfl
    simp only [e2, e3, hlcr, hleader, hsupport, hval, horder, List.reverse_singleton,
      TuskEngine.flatten_leaders, TuskEngine.order_dag, hdfs, Option.map_some', hsort]
    simp
  have hstep5 : Consensus.step H stableSorter (fuel + 13) ⟨[(k 0, a 0), (k 1, a 1), (k 2, a 2), (k 3, a 3)]⟩ 50
        { state := { last_committed_round := 0
                     last_committed := [(k 0, 0), (k 1, 0), (k 2, 0), (k 3, 0)]
                     dag := [(0, m0), (1, m1), (2, m2), (3, m3), (4, m4)] },
          engine := Engine.tusk, tx_primary := [], tx_output := [] } (c 5 0)
      = some
        { state := { last_committed_round := 2
                     last_committed := [(k 0, 1), (k 1, 1), (k 2, 2), (k 3, 1)]
                     dag := [(0, m0), (1, m1), (2, m2), (3, m3), (4, m4),
                       (5, [(k 0, ((c 5 0).digest H, c 5 0))])] },
          engine := Engine.tusk,
          tx_primary := [c 1 3, c 1 2, c 1 1, c 1 0, c 2 2],
          tx_output := [c 1 3, c 1 2, c 1 1, c 1 0, c 2 2] } := by
    have hr : (c 5 0).round = 5 := hr5 0
    rw [step_tusk H stableSorter (fuel + 13) _ 50 _ (c 5 0) [c 1 3, c 1 2, c 1 1, c 1 0, c 2 2]
      rfl (by rw [hst17, hr]; exact hcall5)]
    rw [hst17]
    simp [Consensus.commit, State.update, assign, lookup, Certificate.round,
      Certificate.origin, hr1, hr2, ho, hkeq]
  rw [run_loop_singleton, hstep5]
  simp only [Option.some_bind]
  clear hstep5 hcall5 hst17 hst16
  -- the other certificates of round 5 and those of round 6 are only inserted
  rw [run_loop_append, run_idle _ _ _ _ _ _ _ rfl (by
    intro x hx
    simp only [List.mem_cons, List.mem_singleton, List.not_mem_nil, or_false] at hx
    rcases hx with rfl | rfl | rfl | rfl | rfl | rfl | rfl <;>
      simp [Certificate.round, hr5, hr6])]
  simp only [Option.some_bind]
  have hst24 : ([c 5 1, c 5 2, c 5 3, c 6 0, c 6 1, c 6 2, c 6 3].foldl (Consensus.insert H)
        { last_committed_round := 2
          last_committed := [(k 0, 1), (k 1, 1), (k 2, 2), (k 3, 1)]
          dag := [(0, m0), (1, m1), (2, m2), (3, m3), (4, m4),
                       (5, [(k 0, ((c 5 0).digest H, c 5 0))])] })
      = { last_committed_round := 2
          last_committed := [(k 0, 1), (k 1, 1), (k 2, 2), (k 3, 1)]
          dag := [(0, m0), (1, m1), (2, m2), (3, m3), (4, m4), (5, m5), (6, m6)] } := by
    rw [hm5, hm6]
    simp [State.init, Consensus.insert, dag_insert, assign, assignOrd, lookup,
      Certificate.round, Certificate.origin, hr0, hr1, hr2, hr3, hr4, hr5, hr6, hr7, ho, hkeq]
  rw [hst24]
  have hst25 : Consensus.insert H
        { last_committed_round := 2
          last_committed := [(k 0, 1), (k 1, 1), (k 2, 2), (k 3, 1)]
          dag := [(0, m0), (1, m1), (2, m2), (3, m3), (4, m4), (5, m5), (6, m6)] } c7
      = { last_committed_round := 2
          last_committed := [(k 0, 1), (k 1, 1), (k 2, 2), (k 3, 1)]
          dag := [(0, m0), (1, m1), (2, m2), (3, m3), (4, m4), (5, m5), (6, m6),
                  (7, [(c7.origin, (c7.digest H, c7))])] } := by
    simp [State.init, Consensus.insert, dag_insert, assign, assignOrd, lookup,
      Certificate.round, Certificate.origin, hr0, hr1, hr2, hr3, hr4, hr5, hr6, hr7, ho, hkeq]
  have hcall7 : TuskEngine.process_round H stableSorter (fuel + 13) 7
        [(0, m0), (1, m1), (2, m2), (3, m3), (4, m4), (5, m5), (6, m6),
          (7, [(c7.origin, (c7.digest H, c7))])]
        (⟨2, [(k 0, 1), (k 1, 1), (k 2, 2), (k 3, 1)],
        [(0, m0), (1, m1), (2, m2), (3, m3), (4, m4), (5, m5), (6, m6),
          (7, [(c7.origin, (c7.digest H, c7))])]⟩ : State) ⟨[(k 0, a 0), (k 1, a 1), (k 2, a 2), (k 3, a 3)]⟩
      = some ([c 0 3, c 0 2, c 0 1, c 0 0, c 1 2, c 2 3, c 2 1, c 2 0, c 3 3, c 3 2, c 3 1, c 3 0, c 4 0],
          [(0, m0), (1, m1), (2, m2), (3, m3), (4, m4), (5, m5), (6, m6),
          (7, [(c7.origin, (c7.digest H, c7))])],
          (⟨2, [(k 0, 1), (k 1, 1), (k 2, 2), (k 3, 1)],
        [(0, m0), (1, m1), (2, m2), (3, m3), (4, m4), (5, m5), (6, m6),
          (7, [(c7.origin, (c7.digest H, c7))])]⟩ : State)) := by
    generalize hst : (⟨2, [(k 0, 1), (k 1, 1), (k 2, 2), (k 3, 1)],
        [(0, m0), (1, m1), (2, m2), (3, m3), (4, m4), (5, m5), (6, m6),
          (7, [(c7.origin, (c7.digest H, c7))])]⟩ : State) = st
    have hdag : st.dag = [(0, m0), (1, m1), (2, m2), (3, m3), (4, m4), (5, m5), (6, m6),
          (7, [(c7.origin, (c7.digest H, c7))])] := by rw [← hst]
    rw [← hdag]
    have hlcr : st.last_committed_round = 2 := by rw [← hst]
    have hlc0 : lookup st.last_committed (k 0) = some 1 := by rw [← hst]; simp [lookup, hkeq]
    have hlc1 : lookup st.last_committed (k 1) = some 1 := by rw [← hst]; simp [lookup, hkeq]
    have hlc2 : lookup st.last_committed (k 2) = some 2 := by rw [← hst]; simp [lookup, hkeq]
    have hlc3 : lookup st.last_committed (k 3) = some 1 := by rw [← hst]; simp [lookup, hkeq]
    have hdag0 : lookup st.dag 0 = some m0 := by rw [hdag]; simp [lookup]
    have hdag1 : lookup st.dag 1 = some m1 := by rw [hdag]; simp [lookup]
    have hdag2 : lookup st.dag 2 = some m2 := by rw [hdag]; simp [lookup]
    have hdag3 : lookup st.dag 3 = some m3 := by rw [hdag]; simp [lookup]
    have hdag4 : lookup st.dag 4 = some m4 := by rw [hdag]; simp [lookup]
    have hdag5 : lookup st.dag 5 = some m5 := by rw [hdag]; simp [lookup]
    clear hst hdag
    have hlr : (Certificate.round (c 4 0) + 2 ^ 64 - 2) % 2 ^ 64 = 2 := by
      simp [Certificate.round, hr4]
    have hleader : TuskEngine.leader 4 st.dag ⟨[(k 0, a 0), (k 1, a 1), (k 2, a 2), (k 3, a 3)]⟩
        = some ((c 4 0).digest H, c 4 0) := by
      simp [TuskEngine.leader, hdag4, hm4, lookup, List.insertionSort, List.orderedInsert,
        hkle, hkeq]
    have hsupport : support ⟨[(k 0, a 0), (k 1, a 1), (k 2, a 2), (k 3, a 3)]⟩
        (lookup st.dag 5) ((c 4 0).digest H) = 400 := by
      simp [hdag5, hm5, support, hp5, hD, Certificate.origin, ho, hgs]
    have horder : TuskEngine.order_leaders H (fuel + 13) (c 4 0) st st.dag
        ⟨[(k 0, a 0), (k 1, a 1), (k 2, a 2), (k 3, a 3)]⟩ = some [c 4 0] := by
      have hfuel : fuel + 13 = (fuel + 12) + 1 := rfl
      rw [TuskEngine.order_leaders, hlr, hfuel, order_leaders_loop_succ, hlcr]
      simp
    have hdfs : TuskEngine.order_dag_loop st (fuel + 13) [c 4 0] [] []
        = some [c 4 0, c 3 3, c 2 3, c 1 2, c 0 3, c 0 2, c 0 1, c 0 0, c 2 1, c 2 0, c 3 2, c 3 1, c 3 0] := by
      rw [show fuel + 13 = (fuel + 12) + 1 from rfl, order_dag_loop_succ]
      simp [Certificate.round, Certificate.origin, hr0, hr1, hr2, hr3, hr4, ho, hp1, hp2, hp3, hp4,
        hD, hlc0, hlc1, hlc2, hlc3, hdag0, hdag1, hdag2, hdag3, hm0, hm1, hm2, hm3,
        TuskEngine.visit_parent, order_dag_loop_nil]
      rw [show fuel + 12 = (fuel + 11) + 1 from rfl, order_dag_loop_succ]
      simp [Certificate.round, Certificate.origin, hr0, hr1, hr2, hr3, hr4, ho, hp1, hp2, hp3, hp4,
        hD, hlc0, hlc1, hlc2, hlc3, hdag0, hdag1, hdag2, hdag3, hm0, hm1, hm2, hm3,
        TuskEngine.visit_parent, order_dag_loop_nil]
      rw [show fuel + 11 = (fuel + 10) + 1 from rfl, order_dag_loop_succ]
      simp [Certificate.round, Certificate.origin, hr0, hr1, hr2, hr3, hr4, ho, hp1, hp2, hp3, hp4,
        hD, hlc0, hlc1, hlc2, hlc3, hdag0, hdag1, hdag2, hdag3, hm0, hm1, hm2, hm3,
        TuskEngine.visit_parent, order_dag_loop_nil]
      rw [show fuel + 10 = (fuel + 9) + 1 from rfl, order_dag_loop_succ]
      simp [Certificate.round, Certificate.origin, hr0, hr1, hr2, hr3, hr4, ho, hp1, hp2, hp3, hp4,
        hD, hlc0, hlc1, hlc2, hlc3, hdag0, hdag1, hdag2, hdag3, hm0, hm1, hm2, hm3,
        TuskEngine.visit_parent, order_dag_loop_nil]
      rw [show fuel + 9 = (fuel + 8) + 1 from rfl, order_dag_loop_succ]
      simp [Certificate.round, Certificate.origin, hr0, hr1, hr2, hr3, hr4, ho, hp1, hp2, hp3, hp4,
        hD, hlc0, hlc1, hlc2, hlc3, hdag0, hdag1, hdag2, hdag3, hm0, hm1, hm2, hm3,
        TuskEngine.visit_parent, order_dag_loop_nil]
      rw [show fuel + 8 = (fuel + 7) + 1 from rfl, order_dag_loop_succ]
      simp [Certificate.round, Certificate.origin, hr0, hr1, hr2, hr3, hr4, ho, hp1, hp2, hp3, hp4,
        hD, hlc0, hlc1, hlc2, hlc3, hdag0, hdag1, hdag2, hdag3, hm0, hm1, hm2, hm3,
        TuskEngine.visit_parent, order_dag_loop_nil]
      rw [show fuel + 7 = (fuel + 6) + 1 from rfl, order_dag_loop_succ]
      simp [Certificate.round, Certificate.origin, hr0, hr1, hr2, hr3, hr4, ho, hp1, hp2, hp3, hp4,
        hD, hlc0, hlc1, hlc2, hlc3, hdag0, hdag1, hdag2, hdag3, hm0, hm1, hm2, hm3,
        TuskEngine.visit_parent, order_dag_loop_nil]
      rw [show fuel + 6 = (fuel + 5) + 1 from rfl, order_dag_loop_succ]
      simp [Certificate.round, Certificate.origin, hr0, hr1, hr2, hr3, hr4, ho, hp1, hp2, hp3, hp4,
        hD, hlc0, hlc1, hlc2, hlc3, hdag0, hdag1, hdag2, hdag3, hm0, hm1, hm2, hm3,
        TuskEngine.visit_parent, order_dag_loop_nil]
      rw [show fuel + 5 = (fuel + 4) + 1 from rfl, order_dag_loop_succ]
      simp [Certificate.round, Certificate.origin, hr0, hr1, hr2, hr3, hr4, ho, hp1, hp2, hp3, hp4,
        hD, hlc0, hlc1, hlc2, hlc3, hdag0, hdag1, hdag2, hdag3, hm0, hm1, hm2, hm3,
        TuskEngine.visit_parent, order_dag_loop_nil]
      rw [show fuel + 4 = (fuel + 3) + 1 from rfl, order_dag_loop_succ]
      simp [Certificate.round, Certificate.origin, hr0, hr1, hr2, hr3, hr4, ho, hp1, hp2, hp3, hp4,
        hD, hlc0, hlc1, hlc2, hlc3, hdag0, hdag1, hdag2, hdag3, hm0, hm1, hm2, hm3,
        TuskEngine.visit_parent, order_dag_loop_nil]
      rw [show fuel + 3 = (fuel + 2) + 1 from rfl, order_dag_loop_succ]
      simp [Certificate.round, Certificate.origin, hr0, hr1, hr2, hr3, hr4, ho, hp1, hp2, hp3, hp4,
        hD, hlc0, hlc1, hlc2, hlc3, hdag0, hdag1, hdag2, hdag3, hm0, hm1, hm2, hm3,
        TuskEngine.visit_parent, order_dag_loop_nil]
      rw [show fuel + 2 = (fuel + 1) + 1 from rfl, order_dag_loop_succ]
      simp [Certificate.round, Certificate.origin, hr0, hr1, hr2, hr3, hr4, ho, hp1, hp2, hp3, hp4,
        hD, hlc0, hlc1, hlc2, hlc3, hdag0, hdag1, hdag2, hdag3, hm0, hm1, hm2, hm3,
        TuskEngine.visit_parent, order_dag_loop_nil]
      rw [order_dag_loop_succ]
      simp [Certificate.round, Certificate.origin, hr0, hr1, hr2, hr3, hr4, ho, hp1, hp2, hp3, hp4,
        hD, hlc0, hlc1, hlc2, hlc3, hdag0, hdag1, hdag2, hdag3, hm0, hm1, hm2, hm3,
        TuskEngine.visit_parent, order_dag_loop_nil]
    have hsort : stableSorter.sort [c 4 0, c 3 3, c 2 3, c 1 2, c 0 3, c 0 2, c 0 1, c 0 0, c 2 1, c 2 0, c 3 2, c 3 1, c 3 0]
        = [c 0 3, c 0 2, c 0 1, c 0 0, c 1 2, c 2 3, c 2 1, c 2 0, c 3 3, c 3 2, c 3 1, c 3 0, c 4 0] := by
      simp [stableSorter, List.insertionSort, List.orderedInsert, Certificate.round,
        hr0, hr1, hr2, hr3, hr4]
    have hr2c : ¬ (7 < 4 ∨ (7 - 1) % 2 ≠ 0) := by decide
    simp only [TuskEngine.process_round]
    rw [if_neg hr2c]
    have e2 : 7 - 1 - 2 = 4 := rfl
    have e3 : 7 - 1 - 1 = 5 := rfl
    simp only [e2, e3, hlcr, hleader, hsupport, hval, horder, List.reverse_singleton,
      TuskEngine.flatten_leaders, TuskEngine.order_dag, hdfs, Option.map_some', hsort]
    simp
  rw [run_loop_singleton]
  have hr : c7.round = 7 := h7
  rw [step_tusk H stableSorter (fuel + 13) _ 50 _ c7 [c 0 3, c 0 2, c 0 1, c 0 0, c 1 2, c 2 3, c 2 1, c 2 0, c 3 3, c 3 2, c 3 1, c 3 0, c 4 0]
      rfl (by rw [hst25, hr]; exact hcall7)]
  simp only [Option.map_some', (commit_state _ _ _).2.1, List.cons_append, List.nil_append]

theorem key4_strictMono : StrictMono key4 := by
  intro a b h
  revert a b
  decide

theorem toy_digest_inj (r i r2 i2 : Nat) (hr : r < 256) (hi : i < 256) (hr2 : r2 < 256)
    (hi2 : i2 < 256) (h : toy_digest r i = toy_digest r2 i2) : r = r2 ∧ i = i2 := by
  simp only [toy_digest, Subtype.mk.injEq, List.cons.injEq, Fin.ofNat, Fin.mk.injEq] at h
  omega

theorem toy_digest_4 : ∀ r i, (toy_cert 4 r i).digest toyHash = toy_digest r.val i.val := by
  decide

theorem toy_digest_6 : ∀ r i, (toy_cert 6 r i).digest toyHash = toy_digest r.val i.val := by
  decide

theorem load_fullDag_4 : FullDag toyHash key4 authority4 4 (toy_cert 4) where
  keys := key4_strictMono
  stake := by decide
  genesis := by decide
  origin := by decide
  round := by decide
  parents := by
    simp only [toy_digest_4]
    decide
  distinct := by
    intro r i r2 i2 h
    rw [toy_digest_4, toy_digest_4] at h
    have := toy_digest_inj _ _ _ _ (by omega) (by omega) (by omega) (by omega) h
    exact ⟨Fin.ext this.1, Fin.ext this.2⟩

theorem load_fullDag_6 : FullDag toyHash key4 authority4 6 (toy_cert 6) where
  keys := key4_strictMono
  stake := by decide
  genesis := by decide
  origin := by decide
  round := by decide
  parents := by
    simp only [toy_digest_6]
    decide
  distinct := by
    intro r i r2 i2 h
    rw [toy_digest_6, toy_digest_6] at h
    have := toy_digest_inj _ _ _ _ (by omega) (by omega) (by omega) (by omega) h
    exact ⟨Fin.ext this.1, Fin.ext this.2⟩

theorem load_generator_17 :
    [toy_cert 4 1 0, toy_cert 4 1 1, toy_cert 4 1 2,
      toy_cert 4 1 3, toy_cert 4 2 0, toy_cert 4 2 1,
      toy_cert 4 2 2, toy_cert 4 2 3, toy_cert 4 3 0,
      toy_cert 4 3 1, toy_cert 4 3 2, toy_cert 4 3 3,
      toy_cert 4 4 0, toy_cert 4 4 1, toy_cert 4 4 2,
      toy_cert 4 4 3, toy_next 4]
      = (load_generator toyHash committee4 5).take 17 := by
  decide

theorem load_generator_25 :
    [toy_cert 6 1 0, toy_cert 6 1 1, toy_cert 6 1 2,
      toy_cert 6 1 3, toy_cert 6 2 0, toy_cert 6 2 1,
      toy_cert 6 2 2, toy_cert 6 2 3, toy_cert 6 3 0,
      toy_cert 6 3 1, toy_cert 6 3 2, toy_cert 6 3 3,
      toy_cert 6 4 0, toy_cert 6 4 1, toy_cert 6 4 2,
      toy_cert 6 4 3, toy_cert 6 5 0, toy_cert 6 5 1,
      toy_cert 6 5 2, toy_cert 6 5 3, toy_cert 6 6 0,
      toy_cert 6 6 1, toy_cert 6 6 2, toy_cert 6 6 3,
      toy_next 6]
      = (load_generator toyHash committee4 7).take 25 := by
  decide

theorem tusk_happy_path_witness :
    (FullDag toyHash key4 authority4 4 (toy_cert 4) ∧ (toy_next 4).round = 5)
    ∧ ∃ l, l.Perm [toy_cert 4 1 0, toy_cert 4 1 1, toy_cert 4 1 2,
          toy_cert 4 1 3]
      ∧ TuskEngine.process_round toyHash stableSorter 5 5 (load_state toyHash 17).dag
          (load_state toyHash 17) committee4
        = some (l ++ [toy_cert 4 2 2], (load_state toyHash 17).dag,
            load_state toyHash 17) :=
  ⟨⟨load_fullDag_4, by decide⟩,
    by
      have h := tusk_happy_path toyHash stableSorter 0 key4 authority4 (toy_cert 4)
        (toy_next 4) load_fullDag_4 (by decide)
      rw [load_generator_17] at h
      exact h⟩

/-- C3 (failing input): on the same run, for any hash that gives the certificates
pairwise distinct digests, the round-1 certificate of the third authority is
delivered twice: at position 1 by the call for round 5 and at position 9 by the
call for round 7. -/
theorem tusk_load_run_duplicate (H : HashFn) (fuel : Nat) (k : Fin 4 → PublicKey)
    (a : Fin 4 → Authority) (c : Fin 7 → Fin 4 → Certificate) (c7 : Certificate)
    (h : FullDag H k a 6 c) (h7 : c7.round = 7) :
    ∃ d, Consensus.run H stableSorter (fuel + 13)
        ⟨[(k 0, a 0), (k 1, a 1), (k 2, a 2), (k 3, a 3)]⟩ 50 Engine.tusk
        [c 1 0, c 1 1, c 1 2, c 1 3, c 2 0, c 2 1, c 2 2, c 2 3, c 3 0, c 3 1, c 3 2, c 3 3,
          c 4 0, c 4 1, c 4 2, c 4 3, c 5 0, c 5 1, c 5 2, c 5 3, c 6 0, c 6 1, c 6 2, c 6 3,
          c7] = some d
      ∧ d.tx_output[1]? = some (c 1 2)
      ∧ d.tx_output[9]? = some (c 1 2)
      ∧ ¬ (d.tx_output.map (Certificate.digest H)).Nodup := by
  have hrun := tusk_load_run H fuel k a c c7 h h7
  simp only [Option.map_eq_some'] at hrun
  obtain ⟨d, hd, hout⟩ := hrun
  refine ⟨d, hd, ?_⟩
  rw [hout]
  refine ⟨rfl, rfl, ?_⟩
  intro hn
  have h1 := List.Nodup.of_map _ hn
  simp at h1

theorem tusk_load_run_duplicate_witness :
    (FullDag toyHash key4 authority4 6 (toy_cert 6) ∧ (toy_next 6).round = 7)
    ∧ ∃ d, Consensus.run toyHash stableSorter 13 committee4 50 Engine.tusk
        ((load_generator toyHash committee4 7).take 25) = some d
      ∧ d.tx_output[1]? = some (toy_cert 6 1 2)
      ∧ d.tx_output[9]? = some (toy_cert 6 1 2)
      ∧ ¬ (d.tx_output.map (Certificate.digest toyHash)).Nodup :=
  ⟨⟨load_fullDag_6, by decide⟩,
    by
      have h := tusk_load_run_duplicate toyHash 0 key4 authority4 (toy_cert 6)
        (toy_next 6) load_fullDag_6 (by decide)
      rw [load_generator_25] at h
      exact h⟩

theorem load_shoal_first_call :
    Engine.process_round toyHash stableSorter 0 (Engine.shoal []) 5
        (load_state toyHash 20).dag (load_state toyHash 20) committee4
      = some ([toy_cert 4 4 0],
          Engine.shoal [(key4 0, 1), (key4 1, 0), (key4 2, 0), (key4 3, 0)],
          (load_state toyHash 20).dag, load_state toyHash 20) := by
  decide

theorem load_shoal_second_call :
    Engine.process_round toyHash stableSorter 0
        (Engine.shoal [(key4 0, 1), (key4 1, 0), (key4 2, 0), (key4 3, 0)]) 5
        (load_state toyHash 20).dag (load_state toyHash 20) committee4
      = some ([toy_cert 4 4 3],
          Engine.shoal [(key4 0, 1), (key4 1, 0), (key4 2, 0), (key4 3, 1)],
          (load_state toyHash 20).dag, load_state toyHash 20) := by
  decide

theorem load_shoal_idle_call :
    Engine.process_round toyHash stableSorter 0 (Engine.shoal []) 5
        (load_state toyHash 17).dag (load_state toyHash 17) committee4
      = some ([], Engine.shoal [(key4 0, 0), (key4 1, 0), (key4 2, 0), (key4 3, 0)],
          (load_state toyHash 17).dag, load_state toyHash 17) := by
  decide

theorem load_tusk_call :
    Engine.process_round toyHash stableSorter 5 Engine.tusk 5
        (load_state toyHash 17).dag (load_state toyHash 17) committee4
      = some ([toy_cert 4 1 3, toy_cert 4 1 2, toy_cert 4 1 1,
            toy_cert 4 1 0, toy_cert 4 2 2],
          Engine.tusk, (load_state toyHash 17).dag, load_state toyHash 17) := by
  decide

/-- C4 (counterexample): with the five rounds of the load generator in the DAG and
nothing committed, the Shoal++ engine called for round 5 returns the round-4
certificate of author 0; called again with the same arguments it returns the
round-4 certificate of author 3, because the first call raised the reputation of
author 0. -/
theorem shoal_repeat_differs :
    ∃ seq1 engine1 seq2 engine2,
      Engine.process_round toyHash stableSorter 0 (Engine.shoal []) 5
          (load_state toyHash 20).dag (load_state toyHash 20) committee4
        = some (seq1, engine1, (load_state toyHash 20).dag, load_state toyHash 20)
      ∧ Engine.process_round toyHash stableSorter 0 engine1 5
          (load_state toyHash 20).dag (load_state toyHash 20) committee4
        = some (seq2, engine2, (load_state toyHash 20).dag, load_state toyHash 20)
      ∧ seq1 = [toy_cert 4 4 0] ∧ seq2 = [toy_cert 4 4 3] ∧ seq1 ≠ seq2 :=
  ⟨_, _, _, _, load_shoal_first_call, load_shoal_second_call, rfl, rfl, by decide⟩

/-- C4 (amended): a second call of `process_round` on the same engine object with the
same `(dag, state, committee, round)` returns the same sequence as the first for
the Tusk and the Mysticeti engine, and for the Shoal++ engine when the first
call committed nothing; the sequence of the Shoal++ engine is determined by the
arguments and the values in its reputation map. -/
theorem process_round_repeat (H : HashFn) (S : RoundSorter) (fuel : Nat) (engine : Engine)
    (round : Nat) (dag : dag_t) (state : State) (committee : Committee)
    (out : List Certificate × Engine × dag_t × State)
    (h : Engine.process_round H S fuel engine round dag state committee = some out)
    (hshoal : ∀ reputation, engine = Engine.shoal reputation → out.1 = []) :
    (∃ out2, Engine.process_round H S fuel out.2.1 round dag state committee = some out2
      ∧ out2.1 = out.1)
    ∧ ∀ r1 r2 : List (PublicKey × Nat), (∀ pk, rep_val r1 pk = rep_val r2 pk) →
        (Engine.process_round H S fuel (Engine.shoal r1) round dag state committee).map
            (fun o => o.1)
          = (Engine.process_round H S fuel (Engine.shoal r2) round dag state committee).map
            (fun o => o.1) := by
  constructor
  · cases engine with
    | tusk =>
      have he : out.2.1 = Engine.tusk := by
        simp only [Engine.process_round, Option.map_eq_some'] at h
        obtain ⟨r, _, rfl⟩ := h
        rfl
      rw [he]
      exact ⟨out, h, rfl⟩
    | mysticeti =>
      have he : out.2.1 = Engine.mysticeti := by
        simp only [Engine.process_round, Option.some.injEq] at h
        rw [← h]
      rw [he]
      exact ⟨out, h, rfl⟩
    | shoal reputation =>
      have hempty := hshoal reputation rfl
      simp only [Engine.process_round, Option.map_eq_some'] at h
      obtain ⟨r, hr, rfl⟩ := h
      have hrep := shoal_empty_rep reputation round dag state committee r hr hempty
      have hc := shoal_congr r.2.1 reputation round dag state committee hrep
      rw [hr] at hc
      simp only [Option.map_some', Option.map_eq_some'] at hc
      obtain ⟨r2, hr2, e2⟩ := hc
      refine ⟨(r2.1, Engine.shoal r2.2.1, r2.2.2.1, r2.2.2.2), ?_, e2⟩
      simp only [Engine.process_round, hr2, Option.map_some']
  · intro r1 r2 hv
    have hc := shoal_congr r1 r2 round dag state committee hv
    simp only [Engine.process_round, Option.map_map]
    exact hc

theorem process_round_repeat_witness :
    (Engine.process_round toyHash stableSorter 5 Engine.tusk 5
        (load_state toyHash 17).dag (load_state toyHash 17) committee4
      = some ([toy_cert 4 1 3, toy_cert 4 1 2, toy_cert 4 1 1,
            toy_cert 4 1 0, toy_cert 4 2 2],
          Engine.tusk, (load_state toyHash 17).dag, load_state toyHash 17)
      ∧ ∃ out2, Engine.process_round toyHash stableSorter 5 Engine.tusk 5
          (load_state toyHash 17).dag (load_state toyHash 17) committee4 = some out2
        ∧ out2.1 = [toy_cert 4 1 3, toy_cert 4 1 2, toy_cert 4 1 1,
            toy_cert 4 1 0, toy_cert 4 2 2])
    ∧ (Engine.process_round toyHash stableSorter 0 (Engine.shoal []) 5
        (load_state toyHash 17).dag (load_state toyHash 17) committee4
      = some ([], Engine.shoal [(key4 0, 0), (key4 1, 0), (key4 2, 0), (key4 3, 0)],
          (load_state toyHash 17).dag, load_state toyHash 17)
      ∧ ∃ out2, Engine.process_round toyHash stableSorter 0
          (Engine.shoal [(key4 0, 0), (key4 1, 0), (key4 2, 0), (key4 3, 0)]) 5
          (load_state toyHash 17).dag (load_state toyHash 17) committee4 = some out2
        ∧ out2.1 = []) :=
  ⟨⟨load_tusk_call,
    (process_round_repeat toyHash stableSorter 5 Engine.tusk 5 (load_state toyHash 17).dag
      (load_state toyHash 17) committee4 _ load_tusk_call
      (fun _ e => by cases e)).1⟩,
   ⟨load_shoal_idle_call,
    (process_round_repeat toyHash stableSorter 0 (Engine.shoal []) 5
      (load_state toyHash 17).dag (load_state toyHash 17) committee4 _ load_shoal_idle_call
      (fun _ _ => rfl)).1⟩⟩

theorem step_state (H : HashFn) (S : RoundSorter) (fuel : Nat) (committee : Committee)
    (gc_depth : Nat) (d : Driver) (certificate : Certificate) (d2 : Driver)
    (h : Consensus.step H S fuel committee gc_depth d certificate = some d2) :
    ∃ sequence engine,
      Engine.process_round H S fuel d.engine certificate.round
          (Consensus.insert H d.state certificate).dag (Consensus.insert H d.state certificate)
          committee
        = some (sequence, engine, (Consensus.insert H d.state certificate).dag,
            Consensus.insert H d.state certificate)
      ∧ d2.state = sequence.foldl (fun s x => s.update x gc_depth)
          (Consensus.insert H d.state certificate)
      ∧ d2.tx_output = d.tx_output ++ sequence
      ∧ d2.tx_primary = d.tx_primary ++ sequence
      ∧ d2.engine = engine := by
  unfold Consensus.step at h
  dsimp only at h
  split at h
  · cases h
  · rename_i _ sequence engine dag state hp
    have hf := engine_frame H S fuel _ _ _ _ _ _ hp
    simp only [Prod.mk.injEq] at hf
    obtain ⟨hd, hs⟩ := hf
    subst hs
    subst hd
    simp only [Option.some.injEq] at h
    subst h
    have hc := commit_state gc_depth sequence
      { d with state := Consensus.insert H d.state certificate, engine := engine }
    exact ⟨sequence, engine, hp, hc.1, hc.2.1, hc.2.2.1, hc.2.2.2⟩

/-- C5: whatever the engine, a call of `process_round` that returns hands back the DAG
and the State (`last_committed_round`, `last_committed`, `dag`) it was given; in
the driver the state after one received certificate is the inserted state with
`State::update` applied for each returned certificate, in order. -/
theorem process_round_frame (H : HashFn) (S : RoundSorter) (fuel : Nat) (engine : Engine)
    (round : Nat) (dag : dag_t) (state : State) (committee : Committee)
    (out : List Certificate × Engine × dag_t × State)
    (h : Engine.process_round H S fuel engine round dag state committee = some out) :
    out.2.2.1 = dag ∧ out.2.2.2 = state
    ∧ out.2.2.2.last_committed_round = state.last_committed_round
    ∧ out.2.2.2.last_committed = state.last_committed
    ∧ out.2.2.2.dag = state.dag
    ∧ ∀ (gc_depth : Nat) (d : Driver) (certificate : Certificate) (d2 : Driver),
        Consensus.step H S fuel committee gc_depth d certificate = some d2 →
        ∃ sequence : List Certificate,
          d2.state = sequence.foldl (fun s x => s.update x gc_depth)
            (Consensus.insert H d.state certificate) := by
  have hf := engine_frame H S fuel engine round dag state committee out h
  simp only [Prod.ext_iff] at hf
  obtain ⟨hd, hs⟩ := hf
  refine ⟨hd, hs, by rw [hs], by rw [hs], by rw [hs], ?_⟩
  intro gc_depth d certificate d2 hstep
  obtain ⟨sequence, _, _, hst, _⟩ := step_state H S fuel committee gc_depth d certificate d2 hstep
  exact ⟨sequence, hst⟩

theorem process_round_frame_witness :
    ∃ out, Engine.process_round toyHash stableSorter 0 (Engine.shoal []) 5
        (load_state toyHash 20).dag (load_state toyHash 20) committee4 = some out
      ∧ out.1 = [toy_cert 4 4 0]
      ∧ out.2.1 = Engine.shoal [(key4 0, 1), (key4 1, 0), (key4 2, 0), (key4 3, 0)]
      ∧ out.2.2.1 = (load_state toyHash 20).dag ∧ out.2.2.2 = load_state toyHash 20 :=
  ⟨_, load_shoal_first_call, rfl, rfl,
    (process_round_frame toyHash stableSorter 0 (Engine.shoal []) 5 (load_state toyHash 20).dag
      (load_state toyHash 20) committee4 _ load_shoal_first_call).1,
    (process_round_frame toyHash stableSorter 0 (Engine.shoal []) 5 (load_state toyHash 20).dag
      (load_state toyHash 20) committee4 _ load_shoal_first_call).2.1⟩

theorem lookup_assignOrd {κ α : Type} [DecidableEq κ] [LinearOrder κ] (l : List (κ × α))
    (k k' : κ) (v : α) :
    lookup (assignOrd l k v) k' = if k = k' then some v else lookup l k' := by
  induction l with
  | nil => simp [assignOrd, lookup]
  | cons p t ih =>
    obtain ⟨k0, v0⟩ := p
    unfold assignOrd
    by_cases h : k = k0
    · subst h
      rw [if_pos rfl]
      by_cases h1 : k = k' <;> simp [lookup, h1]
    · rw [if_neg h]
      by_cases h2 : k < k0
      · rw [if_pos h2]
        by_cases h1 : k = k' <;> simp [lookup, h1]
      · rw [if_neg h2]
        simp only [lookup, ih]
        by_cases h3 : k0 = k'
        · have h4 : ¬ k = k' := fun e => h (e.trans h3.symm)
          simp [h3, h4]
        · simp [h3]

theorem dag_get_insert (H : HashFn) (state : State) (certificate : Certificate) (round : Nat)
    (author : PublicKey) :
    dag_get (Consensus.insert H state certificate).dag round author
      = if certificate.round = round ∧ certificate.origin = author
        then some (certificate.digest H, certificate)
        else dag_get state.dag round author := by
  unfold dag_get Consensus.insert dag_insert
  simp only [lookup_assignOrd]
  by_cases hr : certificate.round = round
  · subst hr
    rw [if_pos rfl]
    simp only [Option.some_bind, lookup_assign, true_and]
    by_cases ha : certificate.origin = author
    · rw [if_pos ha, if_pos ha]
    · rw [if_neg ha, if_neg ha]
      cases lookup state.dag certificate.round <;> rfl
  · rw [if_neg hr, if_neg (fun h => hr h.1)]

theorem fold_max_le (l : List (PublicKey × Nat)) (m b : Nat) :
    l.foldl (fun m p => max m p.2) m ≤ b ↔ m ≤ b ∧ ∀ p ∈ l, p.2 ≤ b := by
  induction l generalizing m with
  | nil => simp
  | cons x t ih =>
    simp only [List.foldl_cons, ih, List.mem_cons, forall_eq_or_imp, max_le_iff]
    tauto

theorem fold_max_attained (l : List (PublicKey × Nat)) (m : Nat) :
    l.foldl (fun m p => max m p.2) m = m
      ∨ ∃ p ∈ l, p.2 = l.foldl (fun m p => max m p.2) m := by
  induction l generalizing m with
  | nil => exact Or.inl rfl
  | cons x t ih =>
    simp only [List.foldl_cons, List.mem_cons]
    rcases ih (max m x.2) with h | ⟨p, hp, he⟩
    · rw [h]
      rcases le_total m x.2 with h1 | h1
      · exact Or.inr ⟨x, Or.inl rfl, (max_eq_right h1).symm⟩
      · exact Or.inl (max_eq_left h1)
    · exact Or.inr ⟨p, Or.inr hp, he⟩

theorem mem_of_lookup {κ α : Type} [DecidableEq κ] (l : List (κ × α)) (k : κ) (v : α)
    (h : lookup l k = some v) : (k, v) ∈ l := by
  induction l with
  | nil => cases h
  | cons p t ih =>
    obtain ⟨k0, v0⟩ := p
    unfold lookup at h
    by_cases h0 : k0 = k
    · rw [if_pos h0] at h
      cases h
      rw [h0]
      exact List.mem_cons_self _ _
    · rw [if_neg h0] at h
      exact List.mem_cons_of_mem _ (ih h)

theorem lookup_of_mem {κ α : Type} [DecidableEq κ] (l : List (κ × α)) (k : κ) (v : α)
    (hnd : (l.map Prod.fst).Nodup) (h : (k, v) ∈ l) : lookup l k = some v := by
  induction l with
  | nil => cases h
  | cons p t ih =>
    obtain ⟨k0, v0⟩ := p
    simp only [List.map_cons, List.nodup_cons, List.mem_map, not_exists, not_and] at hnd
    unfold lookup
    rcases List.mem_cons.mp h with h1 | h1
    · cases h1
      rw [if_pos rfl]
    · have h0 : ¬ k0 = k := fun e => hnd.1 (k, v) h1 e.symm
      rw [if_neg h0]
      exact ih hnd.2 h1

theorem assign_keys {κ α : Type} [DecidableEq κ] (l : List (κ × α)) (k : κ) (v : α) :
    (assign l k v).map Prod.fst
      = if k ∈ l.map Prod.fst then l.map Prod.fst else l.map Prod.fst ++ [k] := by
  induction l with
  | nil => simp [assign]
  | cons p t ih =>
    obtain ⟨k0, v0⟩ := p
    unfold assign
    by_cases h0 : k0 = k
    · subst h0
      simp
    · have h1 : ¬ k = k0 := fun e => h0 e.symm
      rw [if_neg h0]
      simp only [List.map_cons, ih, List.mem_cons, h1, false_or]
      split <;> simp

theorem assign_keys_nodup {κ α : Type} [DecidableEq κ] (l : List (κ × α)) (k : κ) (v : α)
    (hnd : (l.map Prod.fst).Nodup) : ((assign l k v).map Prod.fst).Nodup := by
  rw [assign_keys]
  split
  · exact hnd
  · rename_i h
    exact List.Nodup.append hnd (List.nodup_singleton k) (by simpa using h)

theorem assign_ne_nil {κ α : Type} [DecidableEq κ] (l : List (κ × α)) (k : κ) (v : α) :
    (k, v) ∈ assign l k v := by
  induction l with
  | nil => simp [assign]
  | cons p t ih =>
    obtain ⟨k0, v0⟩ := p
    unfold assign
    by_cases h0 : k0 = k
    · rw [if_pos h0]
      exact List.mem_cons_self _ _
    · rw [if_neg h0]
      exact List.mem_cons_of_mem _ ih

theorem updates_append (s : State) (l1 l2 : List (Certificate × Nat)) :
    s.updates (l1 ++ l2) = (s.updates l1).updates l2 := by
  simp only [State.updates, List.foldl_append]

theorem update_lcr_eq (s : State) (c : Certificate) (gc_depth : Nat) :
    (s.update c gc_depth).last_committed_round
      = (s.update c gc_depth).last_committed.foldl (fun m p => max m p.2) 0 := rfl

theorem update_lookup_ge (s : State) (c : Certificate) (gc_depth : Nat) (a : PublicKey)
    (v : Nat) (h : lookup s.last_committed a = some v) :
    ∃ v2, lookup (s.update c gc_depth).last_committed a = some v2 ∧ v ≤ v2 := by
  simp only [State.update, lookup_assign]
  by_cases ha : c.origin = a
  · rw [if_pos ha, ha, h]
    exact ⟨_, rfl, le_max_left _ _⟩
  · rw [if_neg ha]
    exact ⟨v, h, le_refl v⟩

theorem assign_mem_ge (l : List (PublicKey × Nat)) (k : PublicKey) (r : Nat)
    (p : PublicKey × Nat) (hp : p ∈ l) :
    ∃ q ∈ assign l k (max ((lookup l k).getD 0) r), p.2 ≤ q.2 := by
  induction l with
  | nil => cases hp
  | cons x t ih =>
    obtain ⟨k0, v0⟩ := x
    unfold assign lookup
    by_cases h0 : k0 = k
    · rw [if_pos h0, if_pos h0]
      rcases List.mem_cons.mp hp with h1 | h1
      · subst h1
        exact ⟨_, List.mem_cons_self _ _, le_max_left _ _⟩
      · exact ⟨p, List.mem_cons_of_mem _ h1, le_refl _⟩
    · rw [if_neg h0, if_neg h0]
      rcases List.mem_cons.mp hp with h1 | h1
      · subst h1
        exact ⟨_, List.mem_cons_self _ _, le_refl _⟩
      · obtain ⟨q, hq, hle⟩ := ih h1
        exact ⟨q, List.mem_cons_of_mem _ hq, hle⟩

/-- The invariant that the driver keeps: `last_committed_round` is not above the
maximum of the values of `last_committed`. -/
theorem update_lcr_mono (s : State) (c : Certificate) (gc_depth : Nat)
    (h : s.last_committed_round ≤ s.last_committed.foldl (fun m p => max m p.2) 0) :
    s.last_committed_round ≤ (s.update c gc_depth).last_committed_round := by
  refine le_trans h ?_
  rw [fold_max_le]
  refine ⟨Nat.zero_le _, ?_⟩
  intro p hp
  obtain ⟨q, hq, hle⟩ := assign_mem_ge s.last_committed c.origin c.round p hp
  exact le_trans hle (((fold_max_le _ 0 _).mp (le_refl _)).2 q hq)

theorem updates_invariant (H : HashFn) (genesis_certs : List Certificate)
    (calls : List (Certificate × Nat)) :
    ((State.init H genesis_certs).updates calls).last_committed_round
      ≤ ((State.init H genesis_certs).updates calls).last_committed.foldl
          (fun m p => max m p.2) 0 := by
  induction calls using List.reverseRecOn with
  | nil => exact Nat.zero_le _
  | append_singleton l x _ =>
    rw [updates_append]
    exact le_of_eq rfl

theorem lookup_filter {κ α : Type} [DecidableEq κ] (l : List (κ × α)) (q : κ → Bool) (k : κ) :
    lookup (l.filter (fun p => q p.1)) k = if q k then lookup l k else none := by
  induction l with
  | nil => simp [lookup]
  | cons p t ih =>
    obtain ⟨k0, v0⟩ := p
    by_cases h0 : k0 = k
    · subst h0
      cases hq : q k0
      · simp [List.filter_cons, hq, ih]
      · simp [List.filter_cons, hq, lookup]
    · cases hq : q k0
      · simp [List.filter_cons, hq, ih, lookup, h0]
      · simp [List.filter_cons, hq, ih, lookup, h0]

theorem update_dag_eq (s : State) (c : Certificate) (gc_depth : Nat)
    (h : ∀ p ∈ s.dag, p.1 + gc_depth < 2 ^ 64) :
    (s.update c gc_depth).dag
      = s.dag.filter
          (fun p => decide ((s.update c gc_depth).last_committed_round ≤ p.1 + gc_depth)) := by
  unfold State.update
  dsimp only
  apply List.filter_congr
  intro p hp
  rw [Nat.mod_eq_of_lt (h p hp)]
  simp

theorem assign_assign {κ α : Type} [DecidableEq κ] (l : List (κ × α)) (k : κ) (v w : α) :
    assign (assign l k v) k w = assign l k w := by
  induction l with
  | nil => simp [assign]
  | cons p t ih =>
    obtain ⟨k0, v0⟩ := p
    by_cases h0 : k0 = k
    · simp [assign, h0]
    · simp [assign, h0, ih]

theorem assign_append {κ α : Type} [DecidableEq κ] (l : List (κ × α)) (k : κ) (v : α)
    (h : k ∉ l.map Prod.fst) : assign l k v = l ++ [(k, v)] := by
  induction l with
  | nil => rfl
  | cons p t ih =>
    obtain ⟨k0, v0⟩ := p
    simp only [List.map_cons, List.mem_cons, not_or] at h
    unfold assign
    rw [if_neg (fun e => h.1 e.symm), ih h.2]
    rfl

theorem init_fold (H : HashFn) (certs : List Certificate)
    (hnd : (certs.map Certificate.origin).Nodup) :
    certs.foldl
        (fun (acc : RoundMap × List (PublicKey × Nat)) cert =>
          (assign acc.1 cert.origin (cert.digest H, cert),
            assign acc.2 cert.origin cert.round))
        ([], [])
      = (certs.map (fun c => (c.origin, (c.digest H, c))),
          certs.map (fun c => (c.origin, c.round))) := by
  induction certs using List.reverseRecOn with
  | nil => rfl
  | append_singleton l x ih =>
    rw [List.map_append, List.nodup_append] at hnd
    have hx : x.origin ∉ l.map Certificate.origin := by
      intro hmem
      exact hnd.2.2 hmem (by simp)
    rw [List.foldl_append, ih hnd.1]
    simp only [List.foldl_cons, List.foldl_nil, List.map_append, List.map_cons, List.map_nil]
    rw [assign_append, assign_append]
    · simpa [List.map_map, Function.comp_def] using hx
    · simpa [List.map_map, Function.comp_def] using hx

theorem genesis_origins (committee : Committee) :
    (Consensus.genesis committee).map Certificate.origin
      = committee.authorities.map Prod.fst := by
  simp [Consensus.genesis, List.map_map, Function.comp_def, Certificate.origin]

theorem init_genesis (H : HashFn) (committee : Committee) (hwf : committee.WF) :
    State.init H (Consensus.genesis committee)
      = ⟨0, (Consensus.genesis committee).map (fun c => (c.origin, c.round)),
          [(0, (Consensus.genesis committee).map (fun c => (c.origin, (c.digest H, c))))]⟩ := by
  have hnd : ((Consensus.genesis committee).map Certificate.origin).Nodup := by
    rw [genesis_origins]
    exact (List.Pairwise.imp (fun h => ne_of_lt h) hwf)
  unfold State.init
  dsimp only
  rw [init_fold H _ hnd]
  rfl

theorem dag_get_inserts (H : HashFn) (state : State) (received : List Certificate)
    (round : Nat) (author : PublicKey) :
    dag_get (received.foldl (Consensus.insert H) state).dag round author
      = match received.reverse.find? (fun c => decide (c.round = round ∧ c.origin = author)) with
        | some c => some (c.digest H, c)
        | none => dag_get state.dag round author := by
  induction received using List.reverseRecOn with
  | nil => rfl
  | append_singleton l x ih =>
    rw [List.foldl_append, List.reverse_append]
    simp only [List.foldl_cons, List.foldl_nil, List.reverse_singleton, List.singleton_append,
      List.find?_cons]
    rw [dag_get_insert]
    by_cases hx : x.round = round ∧ x.origin = author
    · rw [if_pos hx, decide_eq_true hx]
    · rw [if_neg hx, decide_eq_false hx]
      exact ih

set_option maxRecDepth 20000 in
theorem equivocation_digest_ne :
    equivocation_cert.digest Hash.compute_mock ≠ (toy_cert 4 1 0).digest Hash.compute_mock := by
  decide

theorem load_run_gc0 :
    (Consensus.run toyHash stableSorter 5 committee4 0 Engine.tusk
        ((load_generator toyHash committee4 5).take 17)).map
      (fun d => (d.state.last_committed_round, lookup d.state.dag 1,
        lookup (Consensus.insert toyHash d.state (toy_cert 4 1 0)).dag 1))
      = some (2, none, some [(key4 0, (toy_digest 1 0, toy_cert 4 1 0))]) := by
  decide

/-- C11: for a committee (a `std::map`, keys ascending), `Consensus::genesis` returns one
certificate per authority in ascending key order, each of round 0 without parents,
payload or votes; the State built from them has `last_committed_round = 0`,
`last_committed[pk] = 0` for the authorities of the committee and for no other key,
and a DAG whose only round is 0, where the entry of the author of every genesis
certificate is the digest of that certificate with the certificate, and no other
key has an entry. -/
theorem genesis_state (H : HashFn) (committee : Committee) (hwf : committee.WF) :
    (Consensus.genesis committee).map Certificate.origin = committee.authorities.map Prod.fst
    ∧ ((Consensus.genesis committee).map Certificate.origin).Pairwise (· < ·)
    ∧ (∀ c ∈ Consensus.genesis committee,
        c.round = 0 ∧ c.header.parents = [] ∧ c.header.payload = [] ∧ c.votes = [])
    ∧ (State.init H (Consensus.genesis committee)).last_committed_round = 0
    ∧ (∀ pk, lookup (State.init H (Consensus.genesis committee)).last_committed pk
        = if pk ∈ committee.keys then some 0 else none)
    ∧ (State.init H (Consensus.genesis committee)).dag.map Prod.fst = [0]
    ∧ (∀ c ∈ Consensus.genesis committee,
        dag_get (State.init H (Consensus.genesis committee)).dag 0 c.origin
          = some (c.digest H, c))
    ∧ (∀ pk, pk ∉ committee.keys →
        dag_get (State.init H (Consensus.genesis committee)).dag 0 pk = none) := by
  have hnd : ((Consensus.genesis committee).map Certificate.origin).Nodup := by
    rw [genesis_origins]
    exact (List.Pairwise.imp (fun h => ne_of_lt h) hwf)
  have hfields : ∀ c ∈ Consensus.genesis committee,
      c.round = 0 ∧ c.header.parents = [] ∧ c.header.payload = [] ∧ c.votes = [] := by
    intro c hc
    simp only [Consensus.genesis, List.mem_map] at hc
    obtain ⟨p, _, rfl⟩ := hc
    exact ⟨rfl, rfl, rfl, rfl⟩
  rw [init_genesis H committee hwf]
  refine ⟨genesis_origins committee, ?_, hfields, rfl, ?_, rfl, ?_, ?_⟩
  · rw [genesis_origins]
    exact hwf
  · intro pk
    by_cases hpk : pk ∈ committee.keys
    · rw [if_pos hpk]
      simp only [Committee.keys, List.mem_toFinset, ← genesis_origins, List.mem_map] at hpk
      obtain ⟨c, hc, rfl⟩ := hpk
      apply lookup_of_mem
      · simpa [List.map_map, Function.comp_def] using hnd
      · have := (hfields c hc).1
        exact List.mem_map.mpr ⟨c, hc, by rw [this]⟩
    · rw [if_neg hpk]
      apply lookup_eq_none_of_not_mem
      simp only [Committee.keys, List.mem_toFinset, ← genesis_origins] at hpk
      simpa [List.map_map, Function.comp_def] using hpk
  · intro c hc
    simp only [dag_get, lookup, if_true, Option.some_bind]
    apply lookup_of_mem
    · simpa [List.map_map, Function.comp_def] using hnd
    · exact List.mem_map.mpr ⟨c, hc, rfl⟩
  · intro pk hpk
    simp only [dag_get, lookup, if_true, Option.some_bind]
    apply lookup_eq_none_of_not_mem
    simp only [Committee.keys, List.mem_toFinset, ← genesis_origins] at hpk
    simpa [List.map_map, Function.comp_def] using hpk

theorem genesis_state_witness :
    committee4.WF
    ∧ (Consensus.genesis committee4).map Certificate.origin = committee4.authorities.map Prod.fst
    ∧ (State.init toyHash (Consensus.genesis committee4)).last_committed_round = 0
    ∧ lookup (State.init toyHash (Consensus.genesis committee4)).last_committed (key4 3)
        = (if key4 3 ∈ committee4.keys then some 0 else none)
    ∧ (State.init toyHash (Consensus.genesis committee4)).dag.map Prod.fst = [0]
    ∧ dag_get (State.init toyHash (Consensus.genesis committee4)).dag 0 (toy_cert 4 0 3).origin
        = some ((toy_cert 4 0 3).digest toyHash, toy_cert 4 0 3) :=
  ⟨by unfold Committee.WF; decide,
    (genesis_state toyHash committee4 (by unfold Committee.WF; decide)).1,
    (genesis_state toyHash committee4 (by unfold Committee.WF; decide)).2.2.2.1,
    (genesis_state toyHash committee4 (by unfold Committee.WF; decide)).2.2.2.2.1 (key4 3),
    (genesis_state toyHash committee4 (by unfold Committee.WF; decide)).2.2.2.2.2.1,
    (genesis_state toyHash committee4 (by unfold Committee.WF; decide)).2.2.2.2.2.2.1
      (toy_cert 4 0 3) (by decide)⟩

/-- C12: `State::update(c, gc_depth)` sets `last_committed[c.origin]` to the maximum of
its previous value (0 when absent) and `c.round`, leaves the entry of every
other author as it was, and sets `last_committed_round` to the maximum of the values of
`last_committed` after that change: no value is above it and one entry has it (an
entry that is read back under its key when the keys of the map are distinct). -/
theorem update_last_committed (s : State) (c : Certificate) (gc_depth : Nat) :
    lookup (s.update c gc_depth).last_committed c.origin
      = some (max ((lookup s.last_committed c.origin).getD 0) c.round)
    ∧ (∀ a, a ≠ c.origin →
        lookup (s.update c gc_depth).last_committed a = lookup s.last_committed a)
    ∧ (∀ p ∈ (s.update c gc_depth).last_committed,
        p.2 ≤ (s.update c gc_depth).last_committed_round)
    ∧ (∀ a v, lookup (s.update c gc_depth).last_committed a = some v →
        v ≤ (s.update c gc_depth).last_committed_round)
    ∧ (∃ p ∈ (s.update c gc_depth).last_committed,
        p.2 = (s.update c gc_depth).last_committed_round)
    ∧ ((s.last_committed.map Prod.fst).Nodup →
        ∃ a, lookup (s.update c gc_depth).last_committed a
          = some (s.update c gc_depth).last_committed_round) := by
  have hle : ∀ p ∈ (s.update c gc_depth).last_committed,
      p.2 ≤ (s.update c gc_depth).last_committed_round := by
    intro p hp
    exact ((fold_max_le _ 0 _).mp (le_refl _)).2 p hp
  have hex : ∃ p ∈ (s.update c gc_depth).last_committed,
      p.2 = (s.update c gc_depth).last_committed_round := by
    rcases fold_max_attained (s.update c gc_depth).last_committed 0 with h | h
    · have hm := assign_ne_nil s.last_committed c.origin
        (max ((lookup s.last_committed c.origin).getD 0) c.round)
      refine ⟨_, hm, ?_⟩
      have h1 := hle _ hm
      have h2 : (s.update c gc_depth).last_committed_round = 0 := h
      rw [h2] at h1 ⊢
      exact Nat.le_zero.mp h1
    · exact h
  refine ⟨?_, ?_, hle, ?_, hex, ?_⟩
  · simp only [State.update, lookup_assign, if_true]
  · intro a ha
    simp only [State.update, lookup_assign]
    rw [if_neg (fun e => ha e.symm)]
  · intro a v h
    exact hle (a, v) (mem_of_lookup _ _ _ h)
  · intro hnd
    obtain ⟨p, hp, he⟩ := hex
    refine ⟨p.1, ?_⟩
    rw [← he]
    exact lookup_of_mem _ _ _ (assign_keys_nodup _ _ _ hnd) hp

theorem update_last_committed_witness :
    (gc_state.last_committed.map Prod.fst).Nodup
    ∧ lookup (gc_state.update gc_cert 50).last_committed gc_cert.origin
        = some (max ((lookup gc_state.last_committed gc_cert.origin).getD 0) gc_cert.round)
    ∧ (gc_state.update gc_cert 50).last_committed_round = 200
    ∧ ∃ a, lookup (gc_state.update gc_cert 50).last_committed a
        = some (gc_state.update gc_cert 50).last_committed_round :=
  ⟨by decide, (update_last_committed gc_state gc_cert 50).1, by decide,
    (update_last_committed gc_state gc_cert 50).2.2.2.2.2 (by decide)⟩

/-- C13: across any sequence of `State::update` calls from the genesis state, the value
`last_committed[A]` of an author A never decreases (an entry that is present
stays present with a value at least as large), and `last_committed_round` never
decreases: the state after the calls `calls` is compared with the state after any
further calls `later`. -/
theorem last_committed_monotone (H : HashFn) (committee : Committee)
    (calls later : List (Certificate × Nat)) :
    (∀ A v,
      lookup ((State.init H (Consensus.genesis committee)).updates calls).last_committed A
        = some v →
      ∃ v2, lookup ((State.init H (Consensus.genesis committee)).updates
          (calls ++ later)).last_committed A = some v2 ∧ v ≤ v2)
    ∧ ((State.init H (Consensus.genesis committee)).updates calls).last_committed_round
      ≤ ((State.init H (Consensus.genesis committee)).updates
          (calls ++ later)).last_committed_round := by
  induction later using List.reverseRecOn with
  | nil =>
    rw [List.append_nil]
    exact ⟨fun A v h => ⟨v, h, le_refl v⟩, le_refl _⟩
  | append_singleton l x ih =>
    rw [← List.append_assoc, updates_append _ (calls ++ l) [x]]
    constructor
    · intro A v h
      obtain ⟨v1, h1, hle1⟩ := ih.1 A v h
      obtain ⟨v2, h2, hle2⟩ := update_lookup_ge _ x.1 x.2 A v1 h1
      exact ⟨v2, h2, le_trans hle1 hle2⟩
    · exact le_trans ih.2
        (update_lcr_mono _ x.1 x.2 (updates_invariant H _ (calls ++ l)))

theorem last_committed_monotone_witness :
    lookup ((State.init toyHash (Consensus.genesis committee4)).updates
        [(toy_cert 4 1 0, 50)]).last_committed (key4 0) = some 1
    ∧ (∃ v2, lookup ((State.init toyHash (Consensus.genesis committee4)).updates
        ([(toy_cert 4 1 0, 50)] ++ [(toy_cert 4 2 0, 50), (toy_cert 4 1 0, 50)])).last_committed
          (key4 0) = some v2 ∧ 1 ≤ v2)
    ∧ ((State.init toyHash (Consensus.genesis committee4)).updates
        [(toy_cert 4 1 0, 50)]).last_committed_round
      ≤ ((State.init toyHash (Consensus.genesis committee4)).updates
        ([(toy_cert 4 1 0, 50)]
          ++ [(toy_cert 4 2 0, 50), (toy_cert 4 1 0, 50)])).last_committed_round :=
  ⟨by decide,
    (last_committed_monotone toyHash committee4 [(toy_cert 4 1 0, 50)]
      [(toy_cert 4 2 0, 50), (toy_cert 4 1 0, 50)]).1 (key4 0) 1 (by decide),
    (last_committed_monotone toyHash committee4 [(toy_cert 4 1 0, 50)]
      [(toy_cert 4 2 0, 50), (toy_cert 4 1 0, 50)]).2⟩

/-- C14: when `r + gc_depth` stays below 2^64 for the rounds `r` of the DAG, the DAG
after `State::update` is the DAG before it restricted to the rounds `r` with
`r + gc_depth ≥ last_committed_round` (the new value): those rounds keep their
entries, the others are gone, every round that remains satisfies the bound, and with
`gc_depth = 50` and `last_committed_round = 200` no round `r ≤ 149` remains. -/
theorem update_gc_bound (s : State) (c : Certificate) (gc_depth : Nat)
    (h : ∀ p ∈ s.dag, p.1 + gc_depth < 2 ^ 64) :
    (s.update c gc_depth).dag
      = s.dag.filter
          (fun p => decide ((s.update c gc_depth).last_committed_round ≤ p.1 + gc_depth))
    ∧ (∀ r, lookup (s.update c gc_depth).dag r
        = if (s.update c gc_depth).last_committed_round ≤ r + gc_depth
          then lookup s.dag r else none)
    ∧ (∀ p ∈ (s.update c gc_depth).dag,
        (s.update c gc_depth).last_committed_round ≤ p.1 + gc_depth)
    ∧ (gc_depth = 50 → (s.update c gc_depth).last_committed_round = 200 →
        ∀ p ∈ (s.update c gc_depth).dag, ¬ p.1 ≤ 149) := by
  have heq := update_dag_eq s c gc_depth h
  have hall : ∀ p ∈ (s.update c gc_depth).dag,
      (s.update c gc_depth).last_committed_round ≤ p.1 + gc_depth := by
    intro p hp
    rw [heq] at hp
    simpa using (List.mem_filter.mp hp).2
  refine ⟨heq, ?_, hall, ?_⟩
  · intro r
    rw [heq]
    have := lookup_filter s.dag
      (fun r => decide ((s.update c gc_depth).last_committed_round ≤ r + gc_depth)) r
    simpa using this
  · intro hg hl p hp
    have := hall p hp
    omega

theorem update_gc_bound_witness :
    (∀ p ∈ gc_state.dag, p.1 + 50 < 2 ^ 64)
    ∧ (gc_state.update gc_cert 50).last_committed_round = 200
    ∧ (gc_state.update gc_cert 50).dag = [(150, []), (200, [])]
    ∧ lookup (gc_state.update gc_cert 50).dag 149 = none
    ∧ ∀ p ∈ (gc_state.update gc_cert 50).dag, ¬ p.1 ≤ 149 :=
  ⟨by decide, by decide,
    (update_gc_bound gc_state gc_cert 50 (by decide)).1.trans (by decide),
    ((update_gc_bound gc_state gc_cert 50 (by decide)).2.1 149).trans (by decide),
    (update_gc_bound gc_state gc_cert 50 (by decide)).2.2.2 rfl (by decide)⟩

/-- C15: `State::update` is idempotent: a second `update(c, g)` right after the first
leaves `last_committed`, `last_committed_round` and the DAG as the first left them. -/
theorem update_idempotent (s : State) (c : Certificate) (g : Nat) :
    (s.update c g).update c g = s.update c g := by
  have hlc : (assign (assign s.last_committed c.origin
        (max ((lookup s.last_committed c.origin).getD 0) c.round)) c.origin
      (max ((lookup (assign s.last_committed c.origin
        (max ((lookup s.last_committed c.origin).getD 0) c.round)) c.origin).getD 0) c.round))
      = assign s.last_committed c.origin
        (max ((lookup s.last_committed c.origin).getD 0) c.round) := by
    rw [assign_assign, lookup_assign, if_pos rfl]
    simp
  unfold State.update
  dsimp only
  rw [hlc, List.filter_filter]
  simp

/-- C16: the insert step of the driver makes `dag[c.round][c.origin]` equal to
`(c.digest(), c)`, leaves the entry of every other (round, author) pair as it was
(present with the same value, or absent), leaves every other round as a whole as it
was, and does not change `last_committed` or `last_committed_round`. -/
theorem insert_sets_entry (H : HashFn) (state : State) (c : Certificate) :
    dag_get (Consensus.insert H state c).dag c.round c.origin = some (c.digest H, c)
    ∧ (∀ round author, ¬ (round = c.round ∧ author = c.origin) →
        dag_get (Consensus.insert H state c).dag round author = dag_get state.dag round author)
    ∧ (∀ round, round ≠ c.round →
        lookup (Consensus.insert H state c).dag round = lookup state.dag round)
    ∧ (Consensus.insert H state c).last_committed = state.last_committed
    ∧ (Consensus.insert H state c).last_committed_round = state.last_committed_round := by
  refine ⟨?_, ?_, ?_, rfl, rfl⟩
  · rw [dag_get_insert, if_pos ⟨rfl, rfl⟩]
  · intro round author h
    rw [dag_get_insert, if_neg]
    rintro ⟨h1, h2⟩
    exact h ⟨h1.symm, h2.symm⟩
  · intro round h
    unfold Consensus.insert dag_insert
    simp only [lookup_assignOrd]
    rw [if_neg (fun e => h e.symm)]

theorem insert_sets_entry_witness :
    dag_get (Consensus.insert toyHash (State.init toyHash (Consensus.genesis committee4))
        (toy_cert 4 1 0)).dag 1 (key4 0) = some ((toy_cert 4 1 0).digest toyHash, toy_cert 4 1 0)
    ∧ dag_get (Consensus.insert toyHash (State.init toyHash (Consensus.genesis committee4))
        (toy_cert 4 1 0)).dag 0 (key4 0)
      = dag_get (State.init toyHash (Consensus.genesis committee4)).dag 0 (key4 0)
    ∧ dag_get (State.init toyHash (Consensus.genesis committee4)).dag 0 (key4 0)
      = some ((toy_cert 4 0 0).digest toyHash, toy_cert 4 0 0) :=
  ⟨(insert_sets_entry toyHash (State.init toyHash (Consensus.genesis committee4))
      (toy_cert 4 1 0)).1,
    (insert_sets_entry toyHash (State.init toyHash (Consensus.genesis committee4))
      (toy_cert 4 1 0)).2.1 0 (key4 0) (by decide),
    by decide⟩

/-- C17 (counterexample): from the genesis state of the committee of `primary.cpp`, with
the mock hash of `crypto.cpp`, the driver inserts a round-1 certificate of authority 0
with four parents and then a certificate of the same author and round without
parents, whose digest is another: `dag[1][author]` held the first and then holds the
second. -/
theorem insert_overwrites :
    dag_get (Consensus.insert Hash.compute_mock
        (State.init Hash.compute_mock (Consensus.genesis committee4)) (toy_cert 4 1 0)).dag
        1 (key4 0)
      = some ((toy_cert 4 1 0).digest Hash.compute_mock, toy_cert 4 1 0)
    ∧ equivocation_cert.origin = (toy_cert 4 1 0).origin
    ∧ equivocation_cert.round = (toy_cert 4 1 0).round
    ∧ equivocation_cert.digest Hash.compute_mock ≠ (toy_cert 4 1 0).digest Hash.compute_mock
    ∧ dag_get (Consensus.insert Hash.compute_mock
        (Consensus.insert Hash.compute_mock
          (State.init Hash.compute_mock (Consensus.genesis committee4)) (toy_cert 4 1 0))
        equivocation_cert).dag 1 (key4 0)
      = some (equivocation_cert.digest Hash.compute_mock, equivocation_cert)
    ∧ dag_get (Consensus.insert Hash.compute_mock
        (Consensus.insert Hash.compute_mock
          (State.init Hash.compute_mock (Consensus.genesis committee4)) (toy_cert 4 1 0))
        equivocation_cert).dag 1 (key4 0)
      ≠ some ((toy_cert 4 1 0).digest Hash.compute_mock, toy_cert 4 1 0) := by
  have h1 := dag_get_insert Hash.compute_mock
    (State.init Hash.compute_mock (Consensus.genesis committee4)) (toy_cert 4 1 0) 1 (key4 0)
  have h2 := dag_get_insert Hash.compute_mock
    (Consensus.insert Hash.compute_mock
      (State.init Hash.compute_mock (Consensus.genesis committee4)) (toy_cert 4 1 0))
    equivocation_cert 1 (key4 0)
  rw [if_pos (by decide)] at h1 h2
  have hd := equivocation_digest_ne
  refine ⟨h1, rfl, rfl, hd, h2, ?_⟩
  rw [h2]
  intro h
  simp only [Option.some.injEq, Prod.mk.injEq] at h
  exact hd h.1

/-- C17 (amended): the insert step is last-writer-wins. After any sequence of driver
inserts, `dag[r][author]` holds the last certificate of the sequence with that
author and round, with its digest, and what it held before when the sequence has
none; so a certificate in `dag[r][author]` stays in place as long as every
certificate inserted for the same (author, round) is that same certificate, and is
replaced by a certificate with another digest. -/
theorem insert_last_writer (H : HashFn) (state : State) (received : List Certificate)
    (round : Nat) (author : PublicKey) :
    dag_get (received.foldl (Consensus.insert H) state).dag round author
      = (match received.reverse.find?
            (fun c => decide (c.round = round ∧ c.origin = author)) with
        | some c => some (c.digest H, c)
        | none => dag_get state.dag round author)
    ∧ (∀ first : Certificate, dag_get state.dag round author = some (first.digest H, first) →
        (∀ c ∈ received, c.round = round → c.origin = author → c = first) →
        dag_get (received.foldl (Consensus.insert H) state).dag round author
          = some (first.digest H, first))
    ∧ (∀ c : Certificate, c.round = round → c.origin = author →
        dag_get (Consensus.insert H (received.foldl (Consensus.insert H) state) c).dag
          round author = some (c.digest H, c)) := by
  refine ⟨dag_get_inserts H state received round author, ?_, ?_⟩
  · intro first hfirst hall
    rw [dag_get_inserts]
    cases hf : received.reverse.find?
        (fun c => decide (c.round = round ∧ c.origin = author)) with
    | none => exact hfirst
    | some c =>
      have hp := List.find?_some hf
      have hm := List.mem_reverse.mp (List.mem_of_find?_eq_some hf)
      simp only [decide_eq_true_eq] at hp
      rw [hall c hm hp.1 hp.2]
  · intro c hr ha
    rw [dag_get_insert, if_pos ⟨hr, ha⟩]

theorem insert_last_writer_witness :
    dag_get (State.init toyHash (Consensus.genesis committee4)).dag 0 (key4 0)
        = some ((toy_cert 4 0 0).digest toyHash, toy_cert 4 0 0)
    ∧ dag_get ([toy_cert 4 1 0, toy_cert 4 0 0].foldl (Consensus.insert toyHash)
          (State.init toyHash (Consensus.genesis committee4))).dag 0 (key4 0)
        = some ((toy_cert 4 0 0).digest toyHash, toy_cert 4 0 0) :=
  ⟨by decide,
    (insert_last_writer toyHash (State.init toyHash (Consensus.genesis committee4))
      [toy_cert 4 1 0, toy_cert 4 0 0] 0 (key4 0)).2.1 (toy_cert 4 0 0) (by decide)
      (by decide)⟩

/-- C18 (counterexample): the driver with the Tusk engine and `gc_depth = 0` receives the
first 17 certificates of the load generator; it commits up to round 2 and prunes
rounds 0 and 1. Inserting the round-1 certificate of authority 0 again, with
`1 + gc_depth < last_committed_round`, creates `dag[1]` anew: the DAG is changed. -/
theorem gc_round_insert_changes :
    ∃ d, Consensus.run toyHash stableSorter 5 committee4 0 Engine.tusk
          ((load_generator toyHash committee4 5).take 17) = some d
      ∧ (toy_cert 4 1 0).round + 0 < d.state.last_committed_round
      ∧ lookup d.state.dag 1 = none
      ∧ lookup (Consensus.insert toyHash d.state (toy_cert 4 1 0)).dag 1
          = some [(key4 0, (toy_digest 1 0, toy_cert 4 1 0))]
      ∧ (Consensus.insert toyHash d.state (toy_cert 4 1 0)).dag ≠ d.state.dag := by
  have h := load_run_gc0
  cases hr : Consensus.run toyHash stableSorter 5 committee4 0 Engine.tusk
      ((load_generator toyHash committee4 5).take 17) with
  | none =>
    rw [hr] at h
    cases h
  | some d =>
    rw [hr] at h
    simp only [Option.map_some', Option.some.injEq, Prod.mk.injEq] at h
    obtain ⟨h1, h2, h3⟩ := h
    refine ⟨d, rfl, ?_, h2, h3, ?_⟩
    · rw [h1]
      decide
    · intro he
      rw [he, h2] at h3
      cases h3

/-- C18 (amended): an insert into a garbage-collected round is not ignored. For every
state and certificate c with `c.round + gc_depth < last_committed_round`, the insert
step sets `dag[c.round][c.origin] = (c.digest(), c)`, creating the round when it is
absent (it then holds this one entry), and leaves the other rounds as they were; the
round is removed again by the next `State::update` that does not lower
`last_committed_round`, when `c.round + gc_depth` is below 2^64. -/
theorem insert_gc_round (H : HashFn) (state : State) (c : Certificate) (gc_depth : Nat)
    (h : c.round + gc_depth < state.last_committed_round) :
    dag_get (Consensus.insert H state c).dag c.round c.origin = some (c.digest H, c)
    ∧ (lookup state.dag c.round = none →
        lookup (Consensus.insert H state c).dag c.round = some [(c.origin, (c.digest H, c))])
    ∧ (∀ round, round ≠ c.round →
        lookup (Consensus.insert H state c).dag round = lookup state.dag round)
    ∧ (∀ c2 : Certificate, c.round + gc_depth < 2 ^ 64 →
        state.last_committed_round
          ≤ ((Consensus.insert H state c).update c2 gc_depth).last_committed_round →
        lookup ((Consensus.insert H state c).update c2 gc_depth).dag c.round = none) := by
  refine ⟨?_, ?_, ?_, ?_⟩
  · rw [dag_get_insert, if_pos ⟨rfl, rfl⟩]
  · intro hn
    unfold Consensus.insert dag_insert
    simp only [lookup_assignOrd, if_true, hn, Option.getD_none, assign]
  · intro round hne
    unfold Consensus.insert dag_insert
    simp only [lookup_assignOrd]
    rw [if_neg (fun e => hne e.symm)]
  · intro c2 h64 hle
    have hlt : c.round + gc_depth
        < ((Consensus.insert H state c).update c2 gc_depth).last_committed_round :=
      lt_of_lt_of_le h hle
    have hf := lookup_filter (Consensus.insert H state c).dag
      (fun r => decide (¬ ((r + gc_depth) % 2 ^ 64
        < ((Consensus.insert H state c).update c2 gc_depth).last_committed_round))) c.round
    rw [Nat.mod_eq_of_lt h64] at hf
    simp only [hlt, not_true_eq_false, decide_False, Bool.false_eq_true, if_false] at hf
    exact hf

theorem insert_gc_round_witness :
    (toy_cert 4 1 0).round + 50 < (gc_state.update gc_cert 50).last_committed_round
    ∧ dag_get (Consensus.insert toyHash (gc_state.update gc_cert 50) (toy_cert 4 1 0)).dag
        1 (key4 0) = some ((toy_cert 4 1 0).digest toyHash, toy_cert 4 1 0)
    ∧ lookup (Consensus.insert toyHash (gc_state.update gc_cert 50) (toy_cert 4 1 0)).dag 1
        = some [(key4 0, ((toy_cert 4 1 0).digest toyHash, toy_cert 4 1 0))] :=
  ⟨by decide,
    (insert_gc_round toyHash (gc_state.update gc_cert 50) (toy_cert 4 1 0) 50 (by decide)).1,
    (insert_gc_round toyHash (gc_state.update gc_cert 50) (toy_cert 4 1 0) 50
      (by decide)).2.1 (by decide)⟩

/-- C19: `TuskEngine::process_round` returns the empty list, with the DAG and the state
as given, when `round < 4`, when `round` is even, or when
`round − 3 ≤ last_committed_round`; a call that returns a non-empty list has an odd
`round ≥ 5`, `round − 3` above `last_committed_round`, and a leader elected for
round `round − 3`. -/
theorem tusk_idle_rounds (H : HashFn) (S : RoundSorter) (fuel round : Nat) (dag : dag_t)
    (state : State) (committee : Committee) :
    (round < 4 ∨ round % 2 = 0 ∨ round - 3 ≤ state.last_committed_round →
      TuskEngine.process_round H S fuel round dag state committee = some ([], dag, state))
    ∧ (∀ sequence dag2 state2,
        TuskEngine.process_round H S fuel round dag state committee
          = some (sequence, dag2, state2) →
        sequence ≠ [] →
        5 ≤ round ∧ round % 2 = 1 ∧ state.last_committed_round < round - 3
          ∧ (TuskEngine.leader (round - 3) dag committee).isSome) := by
  constructor
  · intro h
    apply tusk_idle
    rcases h with h | h | h
    · exact Or.inl h
    · by_cases h4 : round < 4
      · exact Or.inl h4
      · exact Or.inr (Or.inl (by omega))
    · exact Or.inr (Or.inr (by omega))
  · intro sequence dag2 state2 h hne
    have hnot : ¬ (round < 4 ∨ (round - 1) % 2 ≠ 0
        ∨ round - 1 - 2 ≤ state.last_committed_round) := by
      intro hidle
      rw [tusk_idle H S fuel round dag state committee hidle] at h
      simp only [Option.some.injEq, Prod.mk.injEq] at h
      exact hne h.1.symm
    simp only [not_or, not_lt, not_le, ne_eq, not_not] at hnot
    obtain ⟨h4, hodd, hlcr⟩ := hnot
    have e3 : round - 1 - 2 = round - 3 := by omega
    rw [e3] at hlcr
    refine ⟨by omega, by omega, hlcr, ?_⟩
    cases hl : TuskEngine.leader (round - 3) dag committee with
    | some l => rfl
    | none =>
      exfalso
      unfold TuskEngine.process_round at h
      rw [if_neg (by omega)] at h
      dsimp only at h
      rw [e3, if_neg (by omega), hl] at h
      simp only [Option.some.injEq, Prod.mk.injEq] at h
      exact hne h.1.symm

theorem tusk_idle_rounds_witness :
    TuskEngine.process_round toyHash stableSorter 5 4 (load_state toyHash 16).dag
        (load_state toyHash 16) committee4
      = some ([], (load_state toyHash 16).dag, load_state toyHash 16)
    ∧ (5 ≤ 5 ∧ 5 % 2 = 1 ∧ (load_state toyHash 17).last_committed_round < 5 - 3
      ∧ (TuskEngine.leader (5 - 3) (load_state toyHash 17).dag committee4).isSome) :=
  ⟨(tusk_idle_rounds toyHash stableSorter 5 4 (load_state toyHash 16).dag
      (load_state toyHash 16) committee4).1 (Or.inr (Or.inl rfl)),
    (tusk_idle_rounds toyHash stableSorter 5 5 (load_state toyHash 17).dag
      (load_state toyHash 17) committee4).2
      [toy_cert 4 1 3, toy_cert 4 1 2, toy_cert 4 1 1, toy_cert 4 1 0, toy_cert 4 2 2]
      (load_state toyHash 17).dag (load_state toyHash 17) (by decide)
      (List.cons_ne_nil _ _)⟩

/-- C20 (failing input): the S1 setting without the round-2 certificate of authority 2,
the authority `keys[2 mod 4]` of the committee. `dag[2]` holds three certificates;
`leader` sorts the three keys present and elects `keys[2 mod 3]`, authority 3, whose
round-2 certificate is listed by the four round-3 certificates; so `process_round(5)`
returns five certificates, the causal past of that certificate, not the empty list,
and the driver that commits them raises `last_committed_round` from 0 to 2. -/
theorem tusk_leader_absent :
    dag_get leader_absent_state.dag 2 (key4 2) = none
    ∧ (lookup leader_absent_state.dag 2).map (fun m => m.map Prod.fst)
        = some [key4 0, key4 1, key4 3]
    ∧ TuskEngine.leader 2 leader_absent_state.dag committee4
        = some (toy_digest 2 3, toy_cert 4 2 3)
    ∧ leader_absent_state.last_committed_round = 0
    ∧ TuskEngine.process_round toyHash stableSorter 5 5 leader_absent_state.dag
        leader_absent_state committee4
      = some ([toy_cert 4 1 3, toy_cert 4 1 2, toy_cert 4 1 1, toy_cert 4 1 0,
            toy_cert 4 2 3], leader_absent_state.dag, leader_absent_state)
    ∧ (Consensus.run toyHash stableSorter 5 committee4 50 Engine.tusk
          leader_absent_certs).map (fun d => (d.tx_output, d.state.last_committed_round))
      = some ([toy_cert 4 1 3, toy_cert 4 1 2, toy_cert 4 1 1, toy_cert 4 1 0,
            toy_cert 4 2 3], 2) := by
  decide

theorem lookup_isSome_of_mem {κ α : Type} [DecidableEq κ] (l : List (κ × α)) (k : κ)
    (h : k ∈ l.map Prod.fst) : ∃ v, lookup l k = some v := by
  cases hl : lookup l k with
  | some v => exact ⟨v, rfl⟩
  | none =>
    exfalso
    induction l with
    | nil => cases h
    | cons p t ih =>
      obtain ⟨k0, v0⟩ := p
      unfold lookup at hl
      by_cases h0 : k0 = k
      · rw [if_pos h0] at hl
        cases hl
      · rw [if_neg h0] at hl
        simp only [List.map_cons, List.mem_cons] at h
        rcases h with h | h
        · exact h0 h.symm
        · exact ih h hl

theorem sorted_keys_unique (l keys : List PublicKey) (hperm : keys.Perm l)
    (hsorted : keys.Sorted (· ≤ ·)) : l.insertionSort (· ≤ ·) = keys :=
  List.eq_of_perm_of_sorted ((List.perm_insertionSort _ l).trans hperm.symm)
    (List.sorted_insertionSort _ l) hsorted

theorem support_fold_le (committee : Committee) (m : RoundMap) (digest : Digest) (acc : Nat) :
    m.foldl (fun stake p =>
        if digest ∈ p.2.2.header.parents
        then (stake + committee.get_stake p.2.2.origin) % 2 ^ 32 else stake) acc
      ≤ acc + ((m.filter (fun p => decide (digest ∈ p.2.2.header.parents))).map
          (fun p => committee.get_stake p.2.2.origin)).sum := by
  induction m generalizing acc with
  | nil => simp
  | cons p t ih =>
    simp only [List.foldl_cons, List.filter_cons]
    by_cases hp : digest ∈ p.2.2.header.parents
    · simp only [hp, if_true, decide_True, List.map_cons, List.sum_cons]
      refine le_trans (ih _) ?_
      have := Nat.mod_le (acc + committee.get_stake p.2.2.origin) (2 ^ 32)
      omega
    · simp only [hp, if_false, decide_False, Bool.false_eq_true]
      exact ih acc

theorem support_fold_eq (committee : Committee) (m : RoundMap) (digest : Digest) (acc : Nat)
    (h : acc + ((m.filter (fun p => decide (digest ∈ p.2.2.header.parents))).map
          (fun p => committee.get_stake p.2.2.origin)).sum < 2 ^ 32) :
    m.foldl (fun stake p =>
        if digest ∈ p.2.2.header.parents
        then (stake + committee.get_stake p.2.2.origin) % 2 ^ 32 else stake) acc
      = acc + ((m.filter (fun p => decide (digest ∈ p.2.2.header.parents))).map
          (fun p => committee.get_stake p.2.2.origin)).sum := by
  induction m generalizing acc with
  | nil => simp
  | cons p t ih =>
    simp only [List.foldl_cons, List.filter_cons] at h ⊢
    by_cases hp : digest ∈ p.2.2.header.parents
    · simp only [hp, if_true, decide_True, List.map_cons, List.sum_cons] at h ⊢
      rw [Nat.mod_eq_of_lt (by omega), ih _ (by omega)]
      omega
    · simp only [hp, if_false, decide_False, Bool.false_eq_true] at h ⊢
      exact ih acc h

/-- The stake counted in `Stake` arithmetic is at most the plain sum. -/
theorem support_le_stake (committee : Committee) (entries : Option RoundMap) (digest : Digest) :
    support committee entries digest ≤ support_stake committee entries digest := by
  cases entries with
  | none => exact Nat.le_refl _
  | some m =>
    have := support_fold_le committee m digest 0
    simpa [support, support_stake] using this

/-- The stake counted in `Stake` arithmetic is the plain sum when that is below 2^32. -/
theorem support_eq_stake (committee : Committee) (entries : Option RoundMap) (digest : Digest)
    (h : support_stake committee entries digest < 2 ^ 32) :
    support committee entries digest = support_stake committee entries digest := by
  cases entries with
  | none => rfl
  | some m =>
    have := support_fold_eq committee m digest 0 (by simpa [support_stake] using h)
    simpa [support, support_stake] using this

theorem tusk_weak_of_support (H : HashFn) (S : RoundSorter) (fuel round : Nat) (dag : dag_t)
    (state : State) (committee : Committee)
    (h : ∀ leader_digest leader_cert,
      TuskEngine.leader (round - 3) dag committee = some (leader_digest, leader_cert) →
      support committee (lookup dag (round - 2)) leader_digest < committee.validity_threshold) :
    TuskEngine.process_round H S fuel round dag state committee = some ([], dag, state) := by
  unfold TuskEngine.process_round
  split
  · rfl
  · dsimp only
    split
    · rfl
    · have e3 : round - 1 - 2 = round - 3 := by omega
      have e2 : round - 1 - 1 = round - 2 := by omega
      rw [e3, e2]
      cases hl : TuskEngine.leader (round - 3) dag committee with
      | none => rfl
      | some l =>
        obtain ⟨leader_digest, leader_cert⟩ := l
        dsimp only
        rw [if_pos (h leader_digest leader_cert hl)]

theorem weak_support_leader :
    TuskEngine.leader (5 - 3) weak_support_state.dag committee4
      = some (toy_digest 2 2, toy_cert 4 2 2) := by
  decide

theorem mysticeti_get_leader (round : Nat) (committee : Committee) (keys : List PublicKey)
    (hperm : keys.Perm (committee.authorities.map Prod.fst)) (hsorted : keys.Sorted (· ≤ ·)) :
    MysticetiEngine.get_leader round committee
      = if keys = [] then none else keys[round % keys.length]? := by
  unfold MysticetiEngine.get_leader
  dsimp only
  rw [sorted_keys_unique _ keys hperm hsorted]
  cases keys with
  | nil => rfl
  | cons k t => rfl

theorem mysticeti_same (round : Nat) (dag : dag_t) (state : State) (committee : Committee) :
    consensus_mysticeti.MysticetiEngine.process_round round dag state committee
      = MysticetiEngine.process_round round dag state committee := rfl

/-- The result of the Mysticeti engine: nothing, or the entry of the leader's key
at round `round − 2`, which is above `last_committed_round`. -/
theorem mysticeti_cases (round : Nat) (dag : dag_t) (state : State) (committee : Committee) :
    MysticetiEngine.process_round round dag state committee = ([], dag, state)
    ∨ ∃ k d c, 3 ≤ round ∧ state.last_committed_round < round - 2
        ∧ MysticetiEngine.get_leader (round - 2) committee = some k
        ∧ dag_get dag (round - 2) k = some (d, c)
        ∧ committee.validity_threshold ≤ support committee (lookup dag (round - 1)) d
        ∧ MysticetiEngine.process_round round dag state committee = ([c], dag, state) := by
  unfold MysticetiEngine.process_round
  by_cases h3 : round < 3
  · rw [if_pos h3]
    exact Or.inl rfl
  · rw [if_neg h3]
    dsimp only
    by_cases hl : round - 2 ≤ state.last_committed_round
    · rw [if_pos hl]
      exact Or.inl rfl
    · rw [if_neg hl]
      cases hk : MysticetiEngine.get_leader (round - 2) committee with
      | none => exact Or.inl rfl
      | some k =>
        dsimp only
        cases hm : lookup dag (round - 2) with
        | none => exact Or.inl rfl
        | some lm =>
          dsimp only
          cases he : lookup lm k with
          | none => exact Or.inl rfl
          | some e =>
            obtain ⟨d, c⟩ := e
            dsimp only
            have e1 : round - 2 + 1 = round - 1 := by omega
            rw [e1]
            by_cases hv : support committee (lookup dag (round - 1)) d
                < committee.validity_threshold
            · rw [if_pos hv]
              exact Or.inl rfl
            · rw [if_neg hv]
              refine Or.inr ⟨k, d, c, by omega, by omega, rfl, ?_, by omega, rfl⟩
              unfold dag_get
              rw [hm]
              exact he

theorem mem_assign {κ α : Type} [DecidableEq κ] (l : List (κ × α)) (k : κ) (v : α)
    (p : κ × α) (h : p ∈ assign l k v) : p ∈ l ∨ p = (k, v) := by
  induction l with
  | nil =>
    simp only [assign, List.mem_singleton] at h
    exact Or.inr h
  | cons x t ih =>
    obtain ⟨k0, v0⟩ := x
    unfold assign at h
    by_cases h0 : k0 = k
    · rw [if_pos h0] at h
      rcases List.mem_cons.mp h with h1 | h1
      · exact Or.inr h1
      · exact Or.inl (List.mem_cons_of_mem _ h1)
    · rw [if_neg h0] at h
      rcases List.mem_cons.mp h with h1 | h1
      · exact Or.inl (h1 ▸ List.mem_cons_self _ _)
      · rcases ih h1 with h2 | h2
        · exact Or.inl (List.mem_cons_of_mem _ h2)
        · exact Or.inr h2

theorem init_entries (H : HashFn) (certs : List Certificate)
    (acc : RoundMap × List (PublicKey × Nat)) (P : Digest × Certificate → Prop)
    (hacc : ∀ p ∈ acc.1, P p.2) (hcerts : ∀ c ∈ certs, P (c.digest H, c)) :
    ∀ p ∈ (certs.foldl
        (fun (acc : RoundMap × List (PublicKey × Nat)) cert =>
          (assign acc.1 cert.origin (cert.digest H, cert),
            assign acc.2 cert.origin cert.round)) acc).1, P p.2 := by
  induction certs generalizing acc with
  | nil => exact hacc
  | cons c t ih =>
    simp only [List.foldl_cons]
    apply ih
    · intro p hp
      rcases mem_assign _ _ _ _ hp with h | h
      · exact hacc p h
      · rw [h]
        exact hcerts c (List.mem_cons_self _ _)
    · exact fun x hx => hcerts x (List.mem_cons_of_mem _ hx)

theorem init_dagRounds (H : HashFn) (committee : Committee) :
    DagRounds (State.init H (Consensus.genesis committee)).dag := by
  intro r pk e he
  unfold State.init dag_get at he
  dsimp only at he
  simp only [assignOrd, lookup] at he
  by_cases hr : 0 = r
  · rw [if_pos hr, Option.some_bind] at he
    rw [← hr]
    refine init_entries H (Consensus.genesis committee) ([], [])
      (fun e => e.2.round = 0) (fun p hp => by cases hp) ?_ (pk, e) (mem_of_lookup _ _ _ he)
    intro c hc
    simp only [Consensus.genesis, List.mem_map] at hc
    obtain ⟨p, _, rfl⟩ := hc
    rfl
  · rw [if_neg hr] at he
    cases he

theorem insert_dagRounds (H : HashFn) (state : State) (certificate : Certificate)
    (h : DagRounds state.dag) : DagRounds (Consensus.insert H state certificate).dag := by
  intro r pk e he
  rw [dag_get_insert] at he
  by_cases hc : certificate.round = r ∧ certificate.origin = pk
  · rw [if_pos hc] at he
    cases he
    exact hc.1
  · rw [if_neg hc] at he
    exact h r pk e he

theorem dag_get_update (s : State) (c : Certificate) (gc_depth : Nat) (r : Nat)
    (pk : PublicKey) (e : Digest × Certificate)
    (h : dag_get (s.update c gc_depth).dag r pk = some e) : dag_get s.dag r pk = some e := by
  unfold dag_get at h ⊢
  have hf := lookup_filter s.dag
    (fun r => decide (¬ ((r + gc_depth) % 2 ^ 64
      < (s.update c gc_depth).last_committed_round))) r
  have hd : lookup (s.update c gc_depth).dag r
      = if decide (¬ ((r + gc_depth) % 2 ^ 64 < (s.update c gc_depth).last_committed_round))
          = true
        then lookup s.dag r else none := hf
  rw [hd] at h
  split at h
  · exact h
  · cases h

theorem update_dagRounds (s : State) (c : Certificate) (gc_depth : Nat)
    (h : DagRounds s.dag) : DagRounds (s.update c gc_depth).dag :=
  fun r pk e he => h r pk e (dag_get_update s c gc_depth r pk e he)

theorem update_lcr_ge_round (s : State) (c : Certificate) (gc_depth : Nat) :
    c.round ≤ (s.update c gc_depth).last_committed_round := by
  have hm := assign_ne_nil s.last_committed c.origin
    (max ((lookup s.last_committed c.origin).getD 0) c.round)
  have hle : ∀ p ∈ (s.update c gc_depth).last_committed,
      p.2 ≤ (s.update c gc_depth).last_committed_round :=
    fun p hp => ((fold_max_le _ 0 _).mp (le_refl _)).2 p hp
  exact le_trans (le_max_right _ _) (hle _ hm)

theorem mysticeti_step (H : HashFn) (S : RoundSorter) (fuel : Nat) (committee : Committee)
    (gc_depth : Nat) (d : Driver) (certificate : Certificate) (hinv : MysticetiInv d) :
    ∃ d2, Consensus.step H S fuel committee gc_depth d certificate = some d2
      ∧ MysticetiInv d2 := by
  have hins := insert_dagRounds H d.state certificate hinv.rounds
  unfold Consensus.step
  dsimp only
  rw [hinv.engine]
  simp only [Engine.process_round]
  rcases mysticeti_cases certificate.round (Consensus.insert H d.state certificate).dag
    (Consensus.insert H d.state certificate) committee
    with h0 | ⟨k, dg, c, h3, hl, hk, he, hv, hr⟩
  · rw [h0]
    refine ⟨_, rfl, ?_⟩
    simp only [Consensus.commit, List.foldl_nil]
    exact ⟨rfl, hins, hinv.lcr, hinv.increasing, hinv.bound⟩
  · rw [hr]
    refine ⟨_, rfl, ?_⟩
    have hround : c.round = certificate.round - 2 := hins _ _ _ he
    have hlt : d.state.last_committed_round < c.round := by
      rw [hround]
      exact hl
    simp only [Consensus.commit, List.foldl_cons, List.foldl_nil]
    refine ⟨rfl, update_dagRounds _ c gc_depth hins, le_of_eq rfl, ?_, ?_⟩
    · show ((d.tx_output ++ [c]).map Certificate.round).Pairwise (· < ·)
      rw [List.map_append, List.pairwise_append]
      refine ⟨hinv.increasing, List.pairwise_singleton _ _, ?_⟩
      intro a ha b hb
      simp only [List.map_cons, List.map_nil, List.mem_singleton] at hb
      obtain ⟨x, hx, rfl⟩ := List.mem_map.mp ha
      rw [hb]
      exact lt_of_le_of_lt (hinv.bound x hx) hlt
    · intro x hx
      show x.round ≤ ((Consensus.insert H d.state certificate).update c gc_depth).last_committed_round
      rcases List.mem_append.mp hx with h1 | h1
      · refine le_trans (hinv.bound x h1) ?_
        exact update_lcr_mono (Consensus.insert H d.state certificate) c gc_depth hinv.lcr
      · simp only [List.mem_singleton] at h1
        rw [h1]
        exact update_lcr_ge_round _ c gc_depth

theorem mysticeti_run_loop (H : HashFn) (S : RoundSorter) (fuel : Nat) (committee : Committee)
    (gc_depth : Nat) (received : List Certificate) (d : Driver) (hinv : MysticetiInv d) :
    ∃ d2, Consensus.run_loop H S fuel committee gc_depth received d = some d2
      ∧ MysticetiInv d2 := by
  induction received generalizing d with
  | nil => exact ⟨d, rfl, hinv⟩
  | cons x t ih =>
    obtain ⟨d1, h1, hinv1⟩ := mysticeti_step H S fuel committee gc_depth d x hinv
    obtain ⟨d2, h2, hinv2⟩ := ih d1 hinv1
    refine ⟨d2, ?_, hinv2⟩
    simp only [Consensus.run_loop, h1]
    exact h2

theorem total_eq_sum (candidates : List PublicKey) (r : List (PublicKey × Nat)) (t : Nat)
    (h : t + (candidates.map (fun pk => rep_val r pk + 1)).sum < 2 ^ 64) :
    (candidates.foldl
        (fun (acc : Nat × List (PublicKey × Nat)) pk =>
          ((acc.1 + ((lookup (ShoalPlusPlusEngine.touch acc.2 pk) pk).getD 0 + 1) % 2 ^ 64)
              % 2 ^ 64, ShoalPlusPlusEngine.touch acc.2 pk)) (t, r)).1
      = t + (candidates.map (fun pk => rep_val r pk + 1)).sum := by
  induction candidates generalizing r t with
  | nil => simp
  | cons x rest ih =>
    simp only [List.foldl_cons, List.map_cons, List.sum_cons] at h ⊢
    have hx : (lookup (ShoalPlusPlusEngine.touch r x) x).getD 0 = rep_val r x :=
      rep_val_touch r x x
    have hrest : (rest.map (fun pk => rep_val (ShoalPlusPlusEngine.touch r x) pk + 1))
        = rest.map (fun pk => rep_val r pk + 1) :=
      List.map_congr_left (fun pk _ => by rw [rep_val_touch])
    rw [hx, Nat.mod_eq_of_lt (by omega), Nat.mod_eq_of_lt (by omega), ih _ _ (by rw [hrest]; omega),
      hrest]
    omega

theorem run_loop_streams (H : HashFn) (S : RoundSorter) (fuel : Nat) (committee : Committee)
    (gc_depth : Nat) (received : List Certificate) (d d2 : Driver)
    (h : Consensus.run_loop H S fuel committee gc_depth received d = some d2) :
    ∃ rs, Consensus.results H S fuel committee gc_depth received d = some rs
      ∧ rs.length = received.length
      ∧ d2.tx_output = d.tx_output ++ rs.flatten
      ∧ d2.tx_primary = d.tx_primary ++ rs.flatten := by
  induction received generalizing d with
  | nil =>
    simp only [Consensus.run_loop, Option.some.injEq] at h
    subst h
    exact ⟨[], rfl, rfl, by simp, by simp⟩
  | cons x t ih =>
    simp only [Consensus.run_loop] at h
    cases hs : Consensus.step H S fuel committee gc_depth d x with
    | none =>
      rw [hs] at h
      cases h
    | some d1 =>
      rw [hs] at h
      obtain ⟨sequence, engine, hp, _, ho, hpr, _⟩ :=
        step_state H S fuel committee gc_depth d x d1 hs
      obtain ⟨rs, hrs, hlen, hout, hprim⟩ := ih d1 h
      refine ⟨sequence :: rs, ?_, ?_, ?_, ?_⟩
      · simp only [Consensus.results, hp, hs, hrs, Option.map_some']
      · simp only [List.length_cons, hlen]
      · rw [hout, ho, List.flatten_cons, List.append_assoc]
      · rw [hprim, hpr, List.flatten_cons, List.append_assoc]

theorem load_run_output :
    (Consensus.run toyHash stableSorter 5 committee4 50 Engine.tusk
        ((load_generator toyHash committee4 5).take 17)).map (fun d => d.tx_output)
      = some [toy_cert 4 1 3, toy_cert 4 1 2, toy_cert 4 1 1, toy_cert 4 1 0,
          toy_cert 4 2 2] := by
  decide

theorem load_run_results :
    Consensus.results toyHash stableSorter 5 committee4 50
        ((load_generator toyHash committee4 5).take 17)
        { state := State.init toyHash (Consensus.genesis committee4), engine := Engine.tusk,
          tx_primary := [], tx_output := [] }
      = some [[], [], [], [], [], [], [], [], [], [], [], [], [], [], [], [],
          [toy_cert 4 1 3, toy_cert 4 1 2, toy_cert 4 1 1, toy_cert 4 1 0, toy_cert 4 2 2]] := by
  decide

theorem channel_receive_cons {T : Type} (ch : utils.Channel T) (value : T) (rest : List T)
    (h : ch.queue = value :: rest) :
    ch.receive = some (some value, { queue := rest, closed := ch.closed }) := by
  unfold utils.Channel.receive
  rw [h]
  rfl

theorem channel_receive_nil {T : Type} (ch : utils.Channel T) (h : ch.queue = []) :
    ch.receive = if ch.closed then some (none, ch) else none := by
  unfold utils.Channel.receive
  rw [h]
  cases ch.closed <;> rfl

theorem channel_calls {T : Type} (ch : utils.Channel T) (received : List T)
    (ops : List (utils.Channel.Op T)) :
    (utils.Channel.calls ch received ops).2 ++ (utils.Channel.calls ch received ops).1.queue
      = received ++ ch.queue ++ utils.Channel.sent ops := by
  induction ops generalizing ch received with
  | nil => simp [utils.Channel.calls, utils.Channel.sent]
  | cons op ops ih =>
    cases op with
    | send value =>
      simp only [utils.Channel.calls, utils.Channel.sent]
      rw [ih]
      simp [utils.Channel.send]
    | close =>
      simp only [utils.Channel.calls, utils.Channel.sent]
      rw [ih]
      rfl
    | receive =>
      simp only [utils.Channel.calls, utils.Channel.sent]
      cases hq : ch.queue with
      | nil =>
        rw [channel_receive_nil ch hq]
        cases hc : ch.closed
        · simp only [Bool.false_eq_true, if_false]
          rw [ih, hq]
        · simp only [if_true]
          rw [ih, hq]
      | cons value rest =>
        rw [channel_receive_cons ch value rest hq]
        dsimp only
        rw [ih]
        simp

theorem be32_value (b0 b1 b2 b3 : Nat) (h1 : b1 < 256) (h2 : b2 < 256) (h3 : b3 < 256) :
    (b0 <<< 24) ||| (b1 <<< 16) ||| (b2 <<< 8) ||| b3
      = b0 * 2 ^ 24 + b1 * 2 ^ 16 + b2 * 2 ^ 8 + b3 := by
  have e3 : (b2 <<< 8) ||| b3 = 2 ^ 8 * b2 + b3 := by
    rw [Nat.shiftLeft_eq, Nat.mul_comm, ← Nat.mul_add_lt_is_or (by omega)]
  have e2 : (b1 <<< 16) ||| (2 ^ 8 * b2 + b3) = 2 ^ 16 * b1 + (2 ^ 8 * b2 + b3) := by
    rw [Nat.shiftLeft_eq, Nat.mul_comm, ← Nat.mul_add_lt_is_or (by omega)]
  have e1 : (b0 <<< 24) ||| (2 ^ 16 * b1 + (2 ^ 8 * b2 + b3))
      = 2 ^ 24 * b0 + (2 ^ 16 * b1 + (2 ^ 8 * b2 + b3)) := by
    rw [Nat.shiftLeft_eq, Nat.mul_comm, ← Nat.mul_add_lt_is_or (by omega)]
  rw [Nat.or_assoc, Nat.or_assoc, e3, e2, e1]
  omega

theorem be32_byte (x k : Nat) :
    network.MessageHeader.to_u8 ((x >>> k) &&& 0xFF)
      = network.MessageHeader.to_u8 (x / 2 ^ k) := by
  have h : (x >>> k) &&& 0xFF = (x >>> k) % 2 ^ 8 := Nat.and_pow_two_sub_one_eq_mod _ 8
  unfold network.MessageHeader.to_u8
  rw [Fin.mk.injEq, h, Nat.shiftRight_eq_div_pow]
  omega

theorem be32_low (x : Nat) :
    network.MessageHeader.to_u8 (x &&& 0xFF) = network.MessageHeader.to_u8 x := by
  have h : x &&& 0xFF = x % 2 ^ 8 := Nat.and_pow_two_sub_one_eq_mod _ 8
  unfold network.MessageHeader.to_u8
  rw [Fin.mk.injEq, h]
  omega

theorem header_serialize_bytes (h : network.MessageHeader) :
    h.serialize
      = [network.MessageHeader.to_u8 (h.magic / 2 ^ 24),
          network.MessageHeader.to_u8 (h.magic / 2 ^ 16),
          network.MessageHeader.to_u8 (h.magic / 2 ^ 8), network.MessageHeader.to_u8 h.magic,
          h.version, h.type,
          network.MessageHeader.to_u8 (h.length / 2 ^ 24),
          network.MessageHeader.to_u8 (h.length / 2 ^ 16),
          network.MessageHeader.to_u8 (h.length / 2 ^ 8),
          network.MessageHeader.to_u8 h.length] := by
  unfold network.MessageHeader.serialize
  simp only [be32_byte]
  rw [be32_low, be32_low]

theorem header_deserialize_eq (data : List Byte) (h10 : 10 ≤ data.length) :
    network.MessageHeader.deserialize data
      = if (data.getD 0 0).val * 2 ^ 24 + (data.getD 1 0).val * 2 ^ 16
            + (data.getD 2 0).val * 2 ^ 8 + (data.getD 3 0).val ≠ network.MessageHeader.MAGIC
        then Except.error "Invalid magic number"
        else Except.ok
          { magic := network.MessageHeader.MAGIC, version := data.getD 4 0,
            type := data.getD 5 0,
            length := (data.getD 6 0).val * 2 ^ 24 + (data.getD 7 0).val * 2 ^ 16
              + (data.getD 8 0).val * 2 ^ 8 + (data.getD 9 0).val } := by
  unfold network.MessageHeader.deserialize
  rw [if_neg (by omega)]
  dsimp only
  rw [be32_value _ _ _ _ (data.getD 1 0).isLt (data.getD 2 0).isLt (data.getD 3 0).isLt,
    be32_value _ _ _ _ (data.getD 7 0).isLt (data.getD 8 0).isLt (data.getD 9 0).isLt]
  split
  · rfl
  · rename_i hm
    simp only [ne_eq, not_not] at hm
    rw [hm]

theorem list_four (data : List Byte) (h : 10 ≤ data.length) :
    ∃ b0 b1 b2 b3 rest, data = b0 :: b1 :: b2 :: b3 :: rest := by
  rcases data with _ | ⟨b0, _ | ⟨b1, _ | ⟨b2, _ | ⟨b3, rest⟩⟩⟩⟩
  · simp at h
  · simp at h
  · simp at h
  · simp at h
  · exact ⟨b0, b1, b2, b3, rest, rfl⟩

theorem magic_bytes :
    (0x4E : Byte).val * 2 ^ 24 + (0x41 : Byte).val * 2 ^ 16 + (0x52 : Byte).val * 2 ^ 8
        + (0x57 : Byte).val = network.MessageHeader.MAGIC := rfl

theorem linked_loop_zero (dag : dag_t) (prev_round : Nat) (current : List Certificate) :
    TuskEngine.linked_loop dag prev_round 0 current = some current := rfl

theorem linked_loop_succ (dag : dag_t) (prev_round r : Nat) (current : List Certificate) :
    TuskEngine.linked_loop dag prev_round (r + 1) current
      = if r + 1 > prev_round then
          match lookup dag r with
          | none => none
          | some m =>
            if ((m.filter (fun p =>
                current.any (fun curr => decide (p.2.1 ∈ curr.header.parents)))).map
                  (fun p => p.2.2)).isEmpty then none
            else TuskEngine.linked_loop dag prev_round r
              ((m.filter (fun p =>
                current.any (fun curr => decide (p.2.1 ∈ curr.header.parents)))).map
                  (fun p => p.2.2))
        else some current := rfl

theorem linked_loop_path (H : HashFn) (dag : dag_t) (hwf : DagDigests H dag)
    (prev_round r : Nat) (current : List Certificate) (hr : prev_round ≤ r) (x : Certificate) :
    (∃ res, TuskEngine.linked_loop dag prev_round r current = some res ∧ x ∈ res)
      ↔ ∃ c ∈ current, ParentPath H dag (r - prev_round) r c x := by
  induction r generalizing current with
  | zero =>
    have h0 : prev_round = 0 := Nat.le_zero.mp hr
    subst h0
    rw [linked_loop_zero]
    simp only [Option.some.injEq, exists_eq_left', Nat.sub_self, ParentPath]
    constructor
    · intro h
      exact ⟨x, h, rfl⟩
    · rintro ⟨c, hc, rfl⟩
      exact hc
  | succ r ih =>
    rw [linked_loop_succ]
    by_cases hgt : r + 1 > prev_round
    · rw [if_pos hgt]
      have hk : r + 1 - prev_round = (r - prev_round) + 1 := by omega
      rw [hk]
      simp only [ParentPath, Nat.add_sub_cancel]
      cases hm : lookup dag r with
      | none =>
        dsimp only
        constructor
        · rintro ⟨_, h, _⟩
          cases h
        · rintro ⟨_, _, _, _, _, _, h, _⟩
          cases h
      | some m =>
        dsimp only
        have hnext : ∀ b, b ∈ (m.filter (fun p =>
              current.any (fun curr => decide (p.2.1 ∈ curr.header.parents)))).map
                (fun p => p.2.2)
            ↔ ∃ c ∈ current, ∃ pk d, (pk, (d, b)) ∈ m ∧ b.digest H ∈ c.header.parents := by
          intro b
          simp only [List.mem_map, List.mem_filter, List.any_eq_true, decide_eq_true_eq]
          constructor
          · rintro ⟨p, ⟨hp, c, hc, hd⟩, rfl⟩
            refine ⟨c, hc, p.1, p.2.1, hp, ?_⟩
            rw [← hwf r m hm p hp]
            exact hd
          · rintro ⟨c, hc, pk, d, hp, hd⟩
            refine ⟨(pk, (d, b)), ⟨hp, c, hc, ?_⟩, rfl⟩
            rw [hwf r m hm _ hp]
            exact hd
        by_cases hemp : ((m.filter (fun p =>
              current.any (fun curr => decide (p.2.1 ∈ curr.header.parents)))).map
                (fun p => p.2.2)).isEmpty = true
        · rw [if_pos hemp]
          have hnil := List.isEmpty_iff.mp hemp
          constructor
          · rintro ⟨_, h, _⟩
            cases h
          · rintro ⟨c, hc, m2, pk, d, b, hm2, hp, hd, _⟩
            cases hm2
            have hb := (hnext b).mpr ⟨c, hc, pk, d, hp, hd⟩
            rw [hnil] at hb
            cases hb
        · rw [if_neg hemp, ih _ (by omega)]
          constructor
          · rintro ⟨b, hb, hpath⟩
            obtain ⟨c, hc, pk, d, hp, hd⟩ := (hnext b).mp hb
            exact ⟨c, hc, m, pk, d, b, rfl, hp, hd, hpath⟩
          · rintro ⟨c, hc, m2, pk, d, b, hm2, hp, hd, hpath⟩
            cases hm2
            exact ⟨b, (hnext b).mpr ⟨c, hc, pk, d, hp, hd⟩, hpath⟩
    · rw [if_neg hgt]
      have hk : r + 1 - prev_round = 0 := by omega
      rw [hk]
      simp only [Option.some.injEq, exists_eq_left', ParentPath]
      constructor
      · intro h
        exact ⟨x, h, rfl⟩
      · rintro ⟨c, hc, rfl⟩
        exact hc

theorem leader_entry (r : Nat) (dag : dag_t) (committee : Committee)
    (e : Digest × Certificate) (h : TuskEngine.leader r dag committee = some e) :
    ∃ k, dag_get dag r k = some e := by
  unfold TuskEngine.leader at h
  cases hm : lookup dag r with
  | none =>
    rw [hm] at h
    cases h
  | some m =>
    rw [hm] at h
    dsimp only at h
    split at h
    · cases h
    · split at h
      · cases h
      · rename_i k _
        refine ⟨k, ?_⟩
        unfold dag_get
        rw [hm]
        exact h

theorem order_leaders_loop_chain (H : HashFn) (state : State) (dag : dag_t)
    (committee : Committee) (j fuel : Nat) (current : Certificate)
    (to_commit : List Certificate) (hj : 2 * j < 2 ^ 64) (hfuel : j < fuel) :
    TuskEngine.order_leaders_loop H state dag committee fuel (2 * j) current to_commit
      = some (to_commit ++ leader_chain H state dag committee j current) := by
  induction j generalizing fuel current to_commit with
  | zero =>
    obtain ⟨f, rfl⟩ : ∃ f, fuel = f + 1 := ⟨fuel - 1, by omega⟩
    rw [order_leaders_loop_succ]
    simp [leader_chain]
  | succ j ih =>
    obtain ⟨f, rfl⟩ : ∃ f, fuel = f + 1 := ⟨fuel - 1, by omega⟩
    rw [order_leaders_loop_succ]
    have hwrap : (2 * (j + 1) + 2 ^ 64 - 2) % 2 ^ 64 = 2 * j := by
      have e : 2 * (j + 1) + 2 ^ 64 - 2 = 2 * j + 2 ^ 64 := by omega
      rw [e, Nat.add_mod_right, Nat.mod_eq_of_lt (by omega)]
    unfold leader_chain
    by_cases hl : 2 * (j + 1) > state.last_committed_round
    · rw [if_pos hl, if_pos hl, hwrap]
      cases hlead : TuskEngine.leader (2 * (j + 1)) dag committee with
      | none =>
        dsimp only
        exact ih f current to_commit (by omega) (by omega)
      | some prev =>
        dsimp only
        rw [if_neg (by omega)]
        by_cases hlink : TuskEngine.linked H current prev.2 dag = true
        · rw [if_pos hlink, if_pos hlink]
          dsimp only
          rw [ih f prev.2 (to_commit ++ [prev.2]) (by omega) (by omega)]
          simp
        · rw [if_neg hlink, if_neg hlink]
          dsimp only
          exact ih f current to_commit (by omega) (by omega)
    · rw [if_neg hl, if_neg hl]
      simp

/-- What the loop of `order_leaders` adds below the kept leader `current`, in a DAG whose
entries are stored under their own round. -/
theorem leader_chain_spec (H : HashFn) (state : State) (dag : dag_t) (committee : Committee)
    (hdag : DagRounds dag) (j : Nat) (current : Certificate) (hcur : 2 * j < current.round) :
    (∀ c ∈ leader_chain H state dag committee j current,
      state.last_committed_round < c.round ∧ c.round ≤ 2 * j ∧ c.round % 2 = 0
        ∧ ∃ d, TuskEngine.leader c.round dag committee = some (d, c))
    ∧ ((leader_chain H state dag committee j current).map Certificate.round).Pairwise (· > ·)
    ∧ List.Chain (fun a b => TuskEngine.linked H a b dag = true) current
        (leader_chain H state dag committee j current)
    ∧ (∀ r d c, state.last_committed_round < r → r ≤ 2 * j → r % 2 = 0 →
        TuskEngine.leader r dag committee = some (d, c) →
        c ∈ leader_chain H state dag committee j current
          ∨ ∃ k ∈ current :: leader_chain H state dag committee j current,
              r < k.round
              ∧ (∀ k2 ∈ current :: leader_chain H state dag committee j current,
                  r < k2.round → k.round ≤ k2.round)
              ∧ TuskEngine.linked H k c dag = false) := by
  induction j generalizing current with
  | zero =>
    have e : leader_chain H state dag committee 0 current = [] := rfl
    rw [e]
    refine ⟨fun c hc => absurd hc (List.not_mem_nil c), List.Pairwise.nil, List.Chain.nil,
      fun r d c h1 h2 => ?_⟩
    exfalso
    omega
  | succ j ih =>
    unfold leader_chain
    by_cases hl : 2 * (j + 1) > state.last_committed_round
    · rw [if_pos hl]
      cases hlead : TuskEngine.leader (2 * (j + 1)) dag committee with
      | none =>
        dsimp only
        obtain ⟨ha, hb, hc, hd⟩ := ih current (by omega)
        refine ⟨fun c hc => ?_, hb, hc, ?_⟩
        · obtain ⟨h1, h2, h3, h4⟩ := ha c hc
          exact ⟨h1, by omega, h3, h4⟩
        · intro r d c h1 h2 h3 h4
          by_cases hr : r = 2 * (j + 1)
          · rw [hr, hlead] at h4
            cases h4
          · exact hd r d c h1 (by omega) h3 h4
      | some prev =>
        obtain ⟨pd, p⟩ := prev
        dsimp only
        obtain ⟨k0, hk0⟩ := leader_entry _ dag committee _ hlead
        have hpr : p.round = 2 * (j + 1) := hdag _ _ _ hk0
        by_cases hlink : TuskEngine.linked H current p dag = true
        · rw [if_pos hlink]
          obtain ⟨ha, hb, hc, hd⟩ := ih p (by omega)
          refine ⟨?_, ?_, List.Chain.cons hlink hc, ?_⟩
          · intro c hc
            rcases List.mem_cons.mp hc with h | h
            · rw [h, hpr]
              exact ⟨hl, Nat.le_refl _, by omega, pd, hlead⟩
            · obtain ⟨h1, h2, h3, h4⟩ := ha c h
              exact ⟨h1, by omega, h3, h4⟩
          · rw [List.map_cons, List.pairwise_cons]
            refine ⟨?_, hb⟩
            intro x hx
            obtain ⟨c, hc, rfl⟩ := List.mem_map.mp hx
            have := (ha c hc).2.1
            show p.round > c.round
            omega
          · intro r d c h1 h2 h3 h4
            by_cases hr : r = 2 * (j + 1)
            · rw [hr, hlead] at h4
              cases h4
              exact Or.inl (List.mem_cons_self _ _)
            · rcases hd r d c h1 (by omega) h3 h4 with h | ⟨k, hk, hk1, hk2, hk3⟩
              · exact Or.inl (List.mem_cons_of_mem _ h)
              · refine Or.inr ⟨k, List.mem_cons_of_mem _ hk, hk1, ?_, hk3⟩
                intro k2 hk2m hk2r
                rcases List.mem_cons.mp hk2m with h | h
                · have := hk2 p (List.mem_cons_self _ _) (by omega)
                  rw [h]
                  omega
                · exact hk2 k2 h hk2r
        · rw [if_neg hlink]
          obtain ⟨ha, hb, hc, hd⟩ := ih current (by omega)
          refine ⟨fun c hc => ?_, hb, hc, ?_⟩
          · obtain ⟨h1, h2, h3, h4⟩ := ha c hc
            exact ⟨h1, by omega, h3, h4⟩
          · intro r d c h1 h2 h3 h4
            by_cases hr : r = 2 * (j + 1)
            · rw [hr, hlead] at h4
              cases h4
              refine Or.inr ⟨current, List.mem_cons_self _ _, by omega, ?_, ?_⟩
              · intro k2 hk2m hk2r
                rcases List.mem_cons.mp hk2m with h | h
                · rw [h]
                · have := (ha k2 h).2.1
                  omega
              · simpa using hlink
            · exact hd r d c h1 (by omega) h3 h4
    · rw [if_neg hl]
      refine ⟨fun c hc => absurd hc (List.not_mem_nil c), List.Pairwise.nil, List.Chain.nil,
        fun r d c h1 h2 => ?_⟩
      exfalso
      omega

theorem inserts_dagRounds (H : HashFn) (state : State) (received : List Certificate)
    (h : DagRounds state.dag) : DagRounds (received.foldl (Consensus.insert H) state).dag := by
  induction received generalizing state with
  | nil => exact h
  | cons x t ih => exact ih _ (insert_dagRounds H state x h)

theorem load_dagRounds (H : HashFn) (n : Nat) : DagRounds (load_state H n).dag :=
  inserts_dagRounds H _ _ (init_dagRounds H committee4)

theorem init_dagDigests (H : HashFn) (committee : Committee) :
    DagDigests H (State.init H (Consensus.genesis committee)).dag := by
  intro r m hm p hp
  unfold State.init at hm
  dsimp only at hm
  simp only [assignOrd, lookup] at hm
  by_cases hr : 0 = r
  · rw [if_pos hr, Option.some.injEq] at hm
    subst hm
    have := init_entries H (Consensus.genesis committee) ([], [])
      (fun e => e.1 = e.2.digest H) (fun p hp => by cases hp) (fun c _ => rfl) p hp
    exact this
  · rw [if_neg hr] at hm
    cases hm

theorem insert_dagDigests (H : HashFn) (state : State) (certificate : Certificate)
    (h : DagDigests H state.dag) : DagDigests H (Consensus.insert H state certificate).dag := by
  intro r m hm p hp
  unfold Consensus.insert dag_insert at hm
  rw [lookup_assignOrd] at hm
  by_cases hr : certificate.round = r
  · rw [if_pos hr, Option.some.injEq] at hm
    subst hm
    rcases mem_assign _ _ _ _ hp with h1 | h1
    · cases hl : lookup state.dag certificate.round with
      | none =>
        rw [hl] at h1
        cases h1
      | some m0 =>
        rw [hl] at h1
        exact h _ m0 hl p h1
    · rw [h1]
  · rw [if_neg hr] at hm
    exact h r m hm p hp

theorem inserts_dagDigests (H : HashFn) (state : State) (received : List Certificate)
    (h : DagDigests H state.dag) :
    DagDigests H (received.foldl (Consensus.insert H) state).dag := by
  induction received generalizing state with
  | nil => exact h
  | cons x t ih => exact ih _ (insert_dagDigests H state x h)

theorem load_dagDigests (H : HashFn) (n : Nat) : DagDigests H (load_state H n).dag :=
  inserts_dagDigests H _ _ (init_dagDigests H committee4)

theorem mysticeti_load_run :
    (Consensus.run toyHash stableSorter 0 committee4 50 Engine.mysticeti
        ((load_generator toyHash committee4 5).take 17)).map (fun d => d.tx_output)
      = some [toy_cert 4 1 1, toy_cert 4 2 2, toy_cert 4 3 3] := by
  decide

/-- C21: when the stake of the certificates of `dag[round − 2]` that list the digest of
the leader elected for round `round − 3` among their parents is below
`validity_threshold()`, `TuskEngine::process_round` returns the empty list, with
the DAG and the state as given. The stake is the plain sum, every such
certificate counted once with the stake of its origin and 0 for an origin that the
committee does not know; the count of the code in `Stake` arithmetic is never above
it. -/
theorem tusk_insufficient_support (H : HashFn) (S : RoundSorter) (fuel round : Nat)
    (dag : dag_t) (state : State) (committee : Committee)
    (h : ∀ leader_digest leader_cert,
      TuskEngine.leader (round - 3) dag committee = some (leader_digest, leader_cert) →
      support_stake committee (lookup dag (round - 2)) leader_digest
        < committee.validity_threshold) :
    TuskEngine.process_round H S fuel round dag state committee = some ([], dag, state)
    ∧ (∀ pk, lookup committee.authorities pk = none → committee.get_stake pk = 0) := by
  refine ⟨?_, ?_⟩
  · apply tusk_weak_of_support
    intro leader_digest leader_cert hl
    exact lt_of_le_of_lt (support_le_stake _ _ _) (h leader_digest leader_cert hl)
  · intro pk hpk
    unfold Committee.get_stake
    rw [hpk]

theorem tusk_insufficient_support_witness :
    TuskEngine.leader (5 - 3) weak_support_state.dag committee4
        = some (toy_digest 2 2, toy_cert 4 2 2)
    ∧ support_stake committee4 (lookup weak_support_state.dag (5 - 2)) (toy_digest 2 2) = 100
    ∧ committee4.validity_threshold = 134
    ∧ TuskEngine.process_round toyHash stableSorter 5 5 weak_support_state.dag
        weak_support_state committee4
      = some ([], weak_support_state.dag, weak_support_state) :=
  ⟨weak_support_leader, by decide, by decide,
    (tusk_insufficient_support toyHash stableSorter 5 5 weak_support_state.dag
      weak_support_state committee4
      (fun leader_digest leader_cert hl => by
        rw [weak_support_leader] at hl
        cases hl
        decide)).1⟩

/-- C22: with `keys` the keys of the committee in ascending order and n their number,
`MysticetiEngine::process_round(round, …)` returns `[c]` exactly when `round ≥ 3`,
`round − 2 > last_committed_round`, the committee is not empty, `c` is the
certificate of the entry `dag[round − 2][keys[(round − 2) mod n]]`, and the stake of the
certificates of `dag[round − 1]` that list the digest of that entry among their
parents, counted in `Stake` arithmetic, reaches `validity_threshold()`; in every
other case it returns the empty list; the DAG and the state are handed back as
given. The count is the plain sum of the stakes when that is below 2^32. The
definition of `consensus_mysticeti.cpp` returns the same on every input. -/
theorem mysticeti_commit_rule (round : Nat) (dag : dag_t) (state : State)
    (committee : Committee) (keys : List PublicKey)
    (hperm : keys.Perm (committee.authorities.map Prod.fst)) (hsorted : keys.Sorted (· ≤ ·)) :
    (∀ c, MysticetiEngine.process_round round dag state committee = ([c], dag, state)
      ↔ 3 ≤ round ∧ state.last_committed_round < round - 2 ∧ committee.authorities ≠ []
        ∧ ∃ k d, keys[(round - 2) % keys.length]? = some k
          ∧ dag_get dag (round - 2) k = some (d, c)
          ∧ committee.validity_threshold ≤ support committee (lookup dag (round - 1)) d)
    ∧ ((¬ ∃ c, 3 ≤ round ∧ state.last_committed_round < round - 2
          ∧ committee.authorities ≠ []
          ∧ ∃ k d, keys[(round - 2) % keys.length]? = some k
            ∧ dag_get dag (round - 2) k = some (d, c)
            ∧ committee.validity_threshold ≤ support committee (lookup dag (round - 1)) d)
        → MysticetiEngine.process_round round dag state committee = ([], dag, state))
    ∧ (∀ d, support_stake committee (lookup dag (round - 1)) d < 2 ^ 32 →
        support committee (lookup dag (round - 1)) d
          = support_stake committee (lookup dag (round - 1)) d)
    ∧ consensus_mysticeti.MysticetiEngine.process_round round dag state committee
        = MysticetiEngine.process_round round dag state committee := by
  have hgl := mysticeti_get_leader (round - 2) committee keys hperm hsorted
  have hne : ∀ k, keys[(round - 2) % keys.length]? = some k →
      committee.authorities ≠ [] ∧ MysticetiEngine.get_leader (round - 2) committee = some k := by
    intro k hk
    have hk0 : keys ≠ [] := by
      intro e
      rw [e] at hk
      cases hk
    refine ⟨?_, ?_⟩
    · intro e
      rw [e] at hperm
      exact hk0 (List.Perm.eq_nil hperm)
    · rw [hgl, if_neg hk0]
      exact hk
  have hfwd : ∀ c, (3 ≤ round ∧ state.last_committed_round < round - 2
        ∧ committee.authorities ≠ []
        ∧ ∃ k d, keys[(round - 2) % keys.length]? = some k
          ∧ dag_get dag (round - 2) k = some (d, c)
          ∧ committee.validity_threshold ≤ support committee (lookup dag (round - 1)) d) →
      MysticetiEngine.process_round round dag state committee = ([c], dag, state) := by
    rintro c ⟨h3, hl, _, k, d, hk, he, hv⟩
    rcases mysticeti_cases round dag state committee with h | ⟨k2, d2, c2, _, _, hk2, he2, _, hr⟩
    · exfalso
      unfold MysticetiEngine.process_round at h
      rw [if_neg (by omega)] at h
      dsimp only at h
      rw [if_neg (by omega), (hne k hk).2] at h
      dsimp only at h
      unfold dag_get at he
      cases hm : lookup dag (round - 2) with
      | none =>
        rw [hm] at he
        cases he
      | some lm =>
        rw [hm] at he h
        simp only [Option.some_bind] at he
        dsimp only at h
        rw [he] at h
        dsimp only at h
        have e1 : round - 2 + 1 = round - 1 := by omega
        rw [e1, if_neg (by omega)] at h
        cases h
    · rw [(hne k hk).2] at hk2
      cases hk2
      rw [he] at he2
      cases he2
      exact hr
  refine ⟨?_, ?_, ?_, rfl⟩
  · intro c
    constructor
    · intro h
      rcases mysticeti_cases round dag state committee with h0 | ⟨k, d, c2, h3, hl, hk, he, hv, hr⟩
      · rw [h0] at h
        cases h
      · rw [hr] at h
        have hc : c2 = c := by
          simp only [Prod.mk.injEq, List.cons.injEq, and_true] at h
          exact h
        subst hc
        have hk0 : keys ≠ [] := by
          intro e
          rw [hgl, if_pos e] at hk
          cases hk
        rw [hgl, if_neg hk0] at hk
        exact ⟨h3, hl, (hne k hk).1, k, d, hk, he, hv⟩
    · exact hfwd c
  · intro hno
    rcases mysticeti_cases round dag state committee with h0 | ⟨k, d, c, h3, hl, hk, he, hv, _⟩
    · exact h0
    · exfalso
      have hk0 : keys ≠ [] := by
        intro e
        rw [hgl, if_pos e] at hk
        cases hk
      rw [hgl, if_neg hk0] at hk
      exact hno ⟨c, h3, hl, (hne k hk).1, k, d, hk, he, hv⟩
  · intro d hd
    exact support_eq_stake _ _ _ hd

theorem mysticeti_commit_rule_witness :
    ([key4 0, key4 1, key4 2, key4 3].Perm (committee4.authorities.map Prod.fst)
      ∧ [key4 0, key4 1, key4 2, key4 3].Sorted (· ≤ ·))
    ∧ MysticetiEngine.process_round 3 (load_state toyHash 9).dag (load_state toyHash 9)
        committee4
      = ([toy_cert 4 1 1], (load_state toyHash 9).dag, load_state toyHash 9) :=
  ⟨⟨by decide, by decide⟩,
    ((mysticeti_commit_rule 3 (load_state toyHash 9).dag (load_state toyHash 9) committee4
      [key4 0, key4 1, key4 2, key4 3] (by decide) (by decide)).1 (toy_cert 4 1 1)).mpr
      ⟨by decide, by decide, by decide, key4 1, toy_digest 1 1, by decide, by decide,
        by decide⟩⟩

/-- C23: a driver run with the Mysticeti engine from the genesis state returns for every
list of received certificates, and the rounds of the certificates it has delivered
to `tx_output`, the committed leaders, are strictly increasing in the order of
delivery; so no two of them have the same round. -/
theorem mysticeti_rounds_increase (H : HashFn) (S : RoundSorter) (fuel : Nat)
    (committee : Committee) (gc_depth : Nat) (received : List Certificate) :
    ∃ d, Consensus.run H S fuel committee gc_depth Engine.mysticeti received = some d
      ∧ (d.tx_output.map Certificate.round).Pairwise (· < ·)
      ∧ (d.tx_output.map Certificate.round).Nodup := by
  obtain ⟨d, hd, hinv⟩ := mysticeti_run_loop H S fuel committee gc_depth received
    { state := State.init H (Consensus.genesis committee), engine := Engine.mysticeti,
      tx_primary := [], tx_output := [] }
    ⟨rfl, init_dagRounds H committee, Nat.zero_le _, List.Pairwise.nil,
      fun c hc => by cases hc⟩
  exact ⟨d, hd, hinv.increasing, hinv.increasing.imp (fun h => ne_of_lt h)⟩

theorem mysticeti_rounds_increase_witness :
    ∃ d, Consensus.run toyHash stableSorter 0 committee4 50 Engine.mysticeti
          ((load_generator toyHash committee4 5).take 17) = some d
      ∧ d.tx_output = [toy_cert 4 1 1, toy_cert 4 2 2, toy_cert 4 3 3]
      ∧ (d.tx_output.map Certificate.round).Pairwise (· < ·) := by
  obtain ⟨d, hd, hp, _⟩ := mysticeti_rounds_increase toyHash stableSorter 0 committee4 50
    ((load_generator toyHash committee4 5).take 17)
  have ho := mysticeti_load_run
  rw [hd] at ho
  exact ⟨d, hd, Option.some.inj ho, hp⟩

/-- C25: for every engine and every list of received certificates on which the driver
run returns, the certificates sent to `tx_primary` are those sent to `tx_output`,
in the same order, and they are the concatenation of the results of the calls of
`process_round`, one call for each received certificate, in input order. -/
theorem streams_agree (H : HashFn) (S : RoundSorter) (fuel : Nat) (committee : Committee)
    (gc_depth : Nat) (engine : Engine) (received : List Certificate) (d : Driver)
    (h : Consensus.run H S fuel committee gc_depth engine received = some d) :
    d.tx_primary = d.tx_output
    ∧ ∃ rs, Consensus.results H S fuel committee gc_depth received
          { state := State.init H (Consensus.genesis committee), engine := engine,
            tx_primary := [], tx_output := [] } = some rs
        ∧ rs.length = received.length
        ∧ d.tx_output = rs.flatten := by
  obtain ⟨rs, hrs, hlen, hout, hprim⟩ :=
    run_loop_streams H S fuel committee gc_depth received _ d h
  simp only [List.nil_append] at hout hprim
  exact ⟨by rw [hout, hprim], rs, hrs, hlen, hout⟩

theorem streams_agree_witness :
    ∃ d, Consensus.run toyHash stableSorter 5 committee4 50 Engine.tusk
          ((load_generator toyHash committee4 5).take 17) = some d
      ∧ d.tx_primary = d.tx_output
      ∧ d.tx_output = [toy_cert 4 1 3, toy_cert 4 1 2, toy_cert 4 1 1, toy_cert 4 1 0,
          toy_cert 4 2 2]
      ∧ d.tx_output
        = ([[], [], [], [], [], [], [], [], [], [], [], [], [], [], [], [],
          [toy_cert 4 1 3, toy_cert 4 1 2, toy_cert 4 1 1, toy_cert 4 1 0,
            toy_cert 4 2 2]] : List (List Certificate)).flatten := by
  have ho := load_run_output
  cases hr : Consensus.run toyHash stableSorter 5 committee4 50 Engine.tusk
      ((load_generator toyHash committee4 5).take 17) with
  | none =>
    rw [hr] at ho
    cases ho
  | some d =>
    rw [hr] at ho
    simp only [Option.map_some', Option.some.injEq] at ho
    obtain ⟨h1, rs, hrs, _, h2⟩ := streams_agree toyHash stableSorter 5 committee4 50
      Engine.tusk ((load_generator toyHash committee4 5).take 17) d hr
    rw [load_run_results] at hrs
    cases hrs
    exact ⟨d, rfl, h1, ho, h2⟩

/-- C26: `Channel::receive`, run on its own on the state (queue, closed), returns
`nullopt` exactly when the queue is empty and the channel is closed, and then leaves
the state as it is; with a non-empty queue it returns the front value and removes
that value alone, closed or not; it waits exactly when the queue is empty and the
channel is open. The queue holds the values sent and not yet received in the order
of sending: after any calls on a new channel, the values received followed by the
queue are the values sent, in order. -/
theorem channel_receive_fifo {T : Type} (ch : utils.Channel T) :
    ((∃ ch2, ch.receive = some (none, ch2)) ↔ ch.queue = [] ∧ ch.closed = true)
    ∧ (∀ ch2, ch.receive = some (none, ch2) → ch2 = ch)
    ∧ (∀ value rest, ch.queue = value :: rest →
        ch.receive = some (some value, { queue := rest, closed := ch.closed }))
    ∧ (ch.receive = none ↔ ch.queue = [] ∧ ch.closed = false)
    ∧ (∀ ops : List (utils.Channel.Op T),
        (utils.Channel.calls utils.Channel.init [] ops).2
            ++ (utils.Channel.calls utils.Channel.init [] ops).1.queue
          = utils.Channel.sent ops) := by
  refine ⟨?_, ?_, channel_receive_cons ch, ?_, ?_⟩
  · cases hq : ch.queue with
    | nil =>
      rw [channel_receive_nil ch hq]
      cases ch.closed <;> simp
    | cons value rest =>
      rw [channel_receive_cons ch value rest hq]
      simp
  · intro ch2 h
    cases hq : ch.queue with
    | nil =>
      rw [channel_receive_nil ch hq] at h
      cases hc : ch.closed
      · rw [hc] at h
        cases h
      · rw [hc] at h
        simp only [if_true, Option.some.injEq, Prod.mk.injEq, true_and] at h
        exact h.symm
    | cons value rest =>
      rw [channel_receive_cons ch value rest hq] at h
      cases h
  · cases hq : ch.queue with
    | nil =>
      rw [channel_receive_nil ch hq]
      cases ch.closed <;> simp
    | cons value rest =>
      rw [channel_receive_cons ch value rest hq]
      simp
  · intro ops
    have := channel_calls (utils.Channel.init : utils.Channel T) [] ops
    simpa [utils.Channel.init] using this

theorem channel_receive_fifo_witness :
    (utils.Channel.receive ⟨[3, 5], true⟩ = some (some 3, ⟨[5], true⟩))
    ∧ (utils.Channel.receive (⟨[], true⟩ : utils.Channel Nat) = some (none, ⟨[], true⟩))
    ∧ (utils.Channel.calls (utils.Channel.init : utils.Channel Nat) []
        [.send 3, .send 5, .receive, .close, .send 7, .receive, .receive, .receive]).2
        = [3, 5, 7] :=
  ⟨(channel_receive_fifo (⟨[3, 5], true⟩ : utils.Channel Nat)).2.2.1 3 [5] rfl,
    by
      obtain ⟨ch2, h⟩ := (channel_receive_fifo (⟨[], true⟩ : utils.Channel Nat)).1.mpr ⟨rfl, rfl⟩
      have := (channel_receive_fifo (⟨[], true⟩ : utils.Channel Nat)).2.1 ch2 h
      rw [this] at h
      exact h,
    by decide⟩

/-- C27: for a `MessageHeader` h with the magic 0x4E415257 (and a `length` in the range
of `uint32_t`), `serialize(h)` is the 10 bytes 4E 41 52 57, the version, the type and
the length as 4 big-endian bytes, and `deserialize(serialize(h))` returns h.
`deserialize` throws "Invalid header size" on fewer than 10 bytes, throws "Invalid magic
number" on 10 or more bytes that do not start with 4E 41 52 57, and returns a
header in every other case. -/
theorem message_header_round_trip (h : network.MessageHeader)
    (hm : h.magic = network.MessageHeader.MAGIC) (hl : h.length < 2 ^ 32) :
    h.serialize.length = 10
    ∧ h.serialize
      = [0x4E, 0x41, 0x52, 0x57, h.version, h.type,
          network.MessageHeader.to_u8 (h.length / 2 ^ 24),
          network.MessageHeader.to_u8 (h.length / 2 ^ 16),
          network.MessageHeader.to_u8 (h.length / 2 ^ 8),
          network.MessageHeader.to_u8 h.length]
    ∧ network.MessageHeader.deserialize h.serialize = Except.ok h
    ∧ (∀ data : List Byte, data.length < 10 →
        network.MessageHeader.deserialize data = Except.error "Invalid header size")
    ∧ (∀ data : List Byte, 10 ≤ data.length → data.take 4 ≠ [0x4E, 0x41, 0x52, 0x57] →
        network.MessageHeader.deserialize data = Except.error "Invalid magic number")
    ∧ (∀ data : List Byte, 10 ≤ data.length → data.take 4 = [0x4E, 0x41, 0x52, 0x57] →
        ∃ h2, network.MessageHeader.deserialize data = Except.ok h2) := by
  have hbytes : h.serialize
      = [0x4E, 0x41, 0x52, 0x57, h.version, h.type,
          network.MessageHeader.to_u8 (h.length / 2 ^ 24),
          network.MessageHeader.to_u8 (h.length / 2 ^ 16),
          network.MessageHeader.to_u8 (h.length / 2 ^ 8),
          network.MessageHeader.to_u8 h.length] := by
    rw [header_serialize_bytes, hm]
    rfl
  refine ⟨rfl, hbytes, ?_, ?_, ?_, ?_⟩
  · rw [hbytes, header_deserialize_eq _ (by simp)]
    simp only [List.getD_cons_zero, List.getD_cons_succ]
    rw [if_neg (not_not.mpr magic_bytes)]
    have hlen : (network.MessageHeader.to_u8 (h.length / 2 ^ 24)).val * 2 ^ 24
        + (network.MessageHeader.to_u8 (h.length / 2 ^ 16)).val * 2 ^ 16
        + (network.MessageHeader.to_u8 (h.length / 2 ^ 8)).val * 2 ^ 8
        + (network.MessageHeader.to_u8 h.length).val = h.length := by
      simp only [network.MessageHeader.to_u8]
      omega
    rw [hlen, ← hm]
  · intro data hd
    unfold network.MessageHeader.deserialize
    rw [if_pos hd]
  · intro data hd hne
    rw [header_deserialize_eq data hd, if_pos]
    intro hmagic
    apply hne
    obtain ⟨b0, b1, b2, b3, rest, rfl⟩ := list_four data hd
    simp only [List.getD_cons_zero, List.getD_cons_succ, network.MessageHeader.MAGIC]
      at hmagic
    have h0 := b0.isLt
    have h1 := b1.isLt
    have h2 := b2.isLt
    have h3 := b3.isLt
    have e0 : b0 = 0x4E := Fin.ext (show b0.val = 0x4E by omega)
    have e1 : b1 = 0x41 := Fin.ext (show b1.val = 0x41 by omega)
    have e2 : b2 = 0x52 := Fin.ext (show b2.val = 0x52 by omega)
    have e3 : b3 = 0x57 := Fin.ext (show b3.val = 0x57 by omega)
    rw [e0, e1, e2, e3]
    rfl
  · intro data hd he
    rw [header_deserialize_eq data hd, if_neg]
    · exact ⟨_, rfl⟩
    · obtain ⟨b0, b1, b2, b3, rest, rfl⟩ := list_four data hd
      simp only [List.take, List.cons.injEq, and_true] at he
      obtain ⟨e0, e1, e2, e3⟩ := he
      rw [e0, e1, e2, e3]
      exact not_not.mpr magic_bytes

theorem message_header_round_trip_witness :
    ((⟨0x4E415257, 1, network.MessageType.VOTE, 77777⟩ : network.MessageHeader).magic
        = network.MessageHeader.MAGIC
      ∧ (⟨0x4E415257, 1, network.MessageType.VOTE, 77777⟩ : network.MessageHeader).length
        < 2 ^ 32)
    ∧ (⟨0x4E415257, 1, network.MessageType.VOTE, 77777⟩ : network.MessageHeader).serialize
        = [0x4E, 0x41, 0x52, 0x57, 1, 3, 0, 1, 0x2F, 0xD1]
    ∧ network.MessageHeader.deserialize [0x4E, 0x41, 0x52, 0x57, 1, 3, 0, 1, 0x2F, 0xD1]
        = Except.ok ⟨0x4E415257, 1, network.MessageType.VOTE, 77777⟩ :=
  ⟨⟨rfl, by decide⟩,
    (message_header_round_trip ⟨0x4E415257, 1, network.MessageType.VOTE, 77777⟩ rfl
      (by decide)).2.1.trans (by decide),
    (congrArg network.MessageHeader.deserialize
      ((message_header_round_trip ⟨0x4E415257, 1, network.MessageType.VOTE, 77777⟩ rfl
        (by decide)).2.1.trans (by decide))).symm.trans
      (message_header_round_trip ⟨0x4E415257, 1, network.MessageType.VOTE, 77777⟩ rfl
        (by decide)).2.2.1⟩

/-- C28: `TuskEngine::leader(L, dag)` returns nothing exactly when the DAG has no round L
or that round is empty; otherwise, with `keys` the keys present in `dag[L]` in
ascending order, it returns the entry stored under `keys[L mod |keys|]`, which
exists. The committee is not consulted. -/
theorem tusk_leader_election (L : Nat) (dag : dag_t) (committee : Committee) :
    (TuskEngine.leader L dag committee = none
      ↔ lookup dag L = none ∨ lookup dag L = some [])
    ∧ (∀ (m : RoundMap) (keys : List PublicKey), lookup dag L = some m → m ≠ [] →
        keys.Perm (m.map Prod.fst) → keys.Sorted (· ≤ ·) →
        ∃ k entry, keys[L % keys.length]? = some k ∧ lookup m k = some entry
          ∧ TuskEngine.leader L dag committee = some entry) := by
  have hsome : ∀ (m : RoundMap) (keys : List PublicKey), lookup dag L = some m → m ≠ [] →
      keys.Perm (m.map Prod.fst) → keys.Sorted (· ≤ ·) →
      ∃ k entry, keys[L % keys.length]? = some k ∧ lookup m k = some entry
        ∧ TuskEngine.leader L dag committee = some entry := by
    intro m keys hm hne hperm hsorted
    have hlen : keys.length = m.length := by rw [hperm.length_eq, List.length_map]
    have hpos : 0 < keys.length := by
      rw [hlen]
      exact List.length_pos.mpr hne
    have hidx : L % keys.length < keys.length := Nat.mod_lt _ hpos
    have hk : keys[L % keys.length]? = some (keys.get ⟨L % keys.length, hidx⟩) :=
      List.getElem?_eq_getElem hidx
    have hmem : keys.get ⟨L % keys.length, hidx⟩ ∈ m.map Prod.fst :=
      hperm.subset (List.get_mem _ _ _)
    obtain ⟨entry, hentry⟩ := lookup_isSome_of_mem m _ hmem
    refine ⟨_, entry, hk, hentry, ?_⟩
    unfold TuskEngine.leader
    rw [hm]
    have hemp : m.isEmpty = false := by
      cases m with
      | nil => exact absurd rfl hne
      | cons _ _ => rfl
    simp only [hemp, Bool.false_eq_true, if_false]
    rw [sorted_keys_unique _ keys hperm hsorted, hk]
    exact hentry
  refine ⟨?_, hsome⟩
  constructor
  · intro h
    cases hm : lookup dag L with
    | none => exact Or.inl rfl
    | some m =>
      right
      by_cases hne : m = []
      · rw [hne]
      · exfalso
        obtain ⟨_, entry, _, _, hl⟩ := hsome m ((m.map Prod.fst).insertionSort (· ≤ ·)) hm hne
          (List.perm_insertionSort _ _) (List.sorted_insertionSort _ _)
        rw [h] at hl
        cases hl
  · intro h
    unfold TuskEngine.leader
    rcases h with h | h
    · rw [h]
    · rw [h]
      rfl

theorem tusk_leader_election_witness :
    ∃ k entry, [key4 0, key4 1, key4 3][2 % [key4 0, key4 1, key4 3].length]? = some k
      ∧ k = key4 3
      ∧ TuskEngine.leader 2 leader_absent_state.dag committee4 = some entry
      ∧ entry = (toy_digest 2 3, toy_cert 4 2 3) := by
  obtain ⟨k, entry, hk, _, hl⟩ := (tusk_leader_election 2 leader_absent_state.dag committee4).2
    [(key4 0, (toy_digest 2 0, toy_cert 4 2 0)), (key4 1, (toy_digest 2 1, toy_cert 4 2 1)),
      (key4 3, (toy_digest 2 3, toy_cert 4 2 3))]
    [key4 0, key4 1, key4 3] (by decide) (by decide) (by decide) (by decide)
  refine ⟨k, entry, hk, ?_, hl, ?_⟩
  · have : [key4 0, key4 1, key4 3][2 % [key4 0, key4 1, key4 3].length]? = some (key4 3) := rfl
    rw [this] at hk
    exact (Option.some.inj hk).symm
  · have h2 : TuskEngine.leader 2 leader_absent_state.dag committee4
        = some (toy_digest 2 3, toy_cert 4 2 3) := by decide
    rw [h2] at hl
    exact (Option.some.inj hl).symm

/-- C29: in a DAG whose entries hold the digests of their certificates, for
certificates `cur` and `prev` with `cur.round ≥ prev.round`, `linked(cur, prev, dag)` is
true exactly when a chain of `cur.round − prev.round` parent edges leads from `cur`
to a certificate with the digest of `prev`, the i-th certificate of the chain being
an entry of `dag[cur.round − i]` whose digest is among the parents of the one
before; `linked(c, c, dag)` is true in every DAG. -/
theorem linked_is_reachability (H : HashFn) (dag : dag_t) (cur prev : Certificate)
    (hwf : DagDigests H dag) (hr : prev.round ≤ cur.round) :
    (TuskEngine.linked H cur prev dag = true
      ↔ ∃ last, ParentPath H dag (cur.round - prev.round) cur.round cur last
          ∧ last.digest H = prev.digest H)
    ∧ (∀ (dag2 : dag_t) (c : Certificate), TuskEngine.linked H c c dag2 = true) := by
  constructor
  · have hp := linked_loop_path H dag hwf prev.round cur.round [cur] hr
    unfold TuskEngine.linked
    cases hl : TuskEngine.linked_loop dag prev.round cur.round [cur] with
    | none =>
      simp only [Bool.false_eq_true, false_iff, not_exists, not_and]
      intro last hpath
      exfalso
      have := (hp last).mpr ⟨cur, List.mem_singleton.mpr rfl, hpath⟩
      rw [hl] at this
      obtain ⟨_, h, _⟩ := this
      cases h
    | some res =>
      simp only [List.any_eq_true, decide_eq_true_eq]
      constructor
      · rintro ⟨x, hx, hd⟩
        obtain ⟨c, hc, hpath⟩ := (hp x).mp ⟨res, hl, hx⟩
        rw [List.mem_singleton.mp hc] at hpath
        exact ⟨x, hpath, hd⟩
      · rintro ⟨last, hpath, hd⟩
        obtain ⟨res2, h2, hx⟩ := (hp last).mpr ⟨cur, List.mem_singleton.mpr rfl, hpath⟩
        rw [hl] at h2
        cases h2
        exact ⟨last, hx, hd⟩
  · intro dag2 c
    unfold TuskEngine.linked
    have hself : TuskEngine.linked_loop dag2 c.round c.round [c] = some [c] := by
      cases hc : c.round with
      | zero => rfl
      | succ r =>
        rw [linked_loop_succ, if_neg (by omega)]
    rw [hself]
    simp

theorem linked_is_reachability_witness :
    (DagDigests toyHash (load_state toyHash 17).dag
      ∧ (toy_cert 4 2 2).round ≤ (toy_cert 4 4 0).round)
    ∧ TuskEngine.linked toyHash (toy_cert 4 4 0) (toy_cert 4 2 2) (load_state toyHash 17).dag
        = true
    ∧ ∃ last, ParentPath toyHash (load_state toyHash 17).dag
          ((toy_cert 4 4 0).round - (toy_cert 4 2 2).round) (toy_cert 4 4 0).round
          (toy_cert 4 4 0) last
        ∧ last.digest toyHash = (toy_cert 4 2 2).digest toyHash :=
  ⟨⟨load_dagDigests toyHash 17, by decide⟩, by decide,
    (linked_is_reachability toyHash (load_state toyHash 17).dag (toy_cert 4 4 0)
      (toy_cert 4 2 2) (load_dagDigests toyHash 17) (by decide)).1.mp (by decide)⟩

/-- C30 (counterexample): `order_leaders` called with the round-2 certificate of authority 2
in the state where that leader is committed (`last_committed_round = 2`) returns the
list of that certificate alone, whose round 2 is even and is not above
`last_committed_round`; called with the round-4 certificate of authority 0 on a DAG
where `dag[2]` holds the genesis certificate of authority 2 under that authority, it
returns that genesis certificate after the leader, whose round 0 is not above
`last_committed_round` and which is not the elected leader of round 0. -/
theorem order_leaders_out_of_range :
    (TuskEngine.order_leaders toyHash 1 (toy_cert 4 2 2) stale_state stale_state.dag committee4
        = some [toy_cert 4 2 2]
      ∧ (toy_cert 4 2 2).round % 2 = 0
      ∧ ¬ ∀ c ∈ [toy_cert 4 2 2], stale_state.last_committed_round < c.round)
    ∧ (TuskEngine.order_leaders toyHash 3 (toy_cert 4 4 0) misfiled_state misfiled_state.dag
          committee4 = some [toy_cert 4 4 0, toy_cert 4 0 2]
      ∧ (toy_cert 4 4 0).round % 2 = 0
      ∧ ¬ misfiled_state.last_committed_round < (toy_cert 4 0 2).round
      ∧ (TuskEngine.leader (toy_cert 4 0 2).round misfiled_state.dag committee4).map Prod.snd
          ≠ some (toy_cert 4 0 2)) := by
  decide

/-- C30 (amended): for a leader certificate at an even round above
`last_committed_round` and a DAG whose entries are stored under the round of their
certificate, `order_leaders` returns (given fuel for half the leader's round in loop
passes) a list that starts with the given leader, whose rounds are strictly
decreasing, all above `last_committed_round` and all even, where every later
element is the elected leader of its round and is linked to the element just before
it; the elected leader of an even round between `last_committed_round` and the
leader's round that is not in the list is not linked to the most recently kept
leader, the element of smallest round above it. -/
theorem order_leaders_chain (H : HashFn) (fuel : Nat) (leader_cert : Certificate)
    (state : State) (dag : dag_t) (committee : Committee)
    (heven : leader_cert.round % 2 = 0)
    (hlcr : state.last_committed_round < leader_cert.round)
    (h64 : leader_cert.round < 2 ^ 64) (hdag : DagRounds dag) :
    ∃ rest,
      TuskEngine.order_leaders H (fuel + leader_cert.round / 2) leader_cert state dag committee
        = some (leader_cert :: rest)
      ∧ ((leader_cert :: rest).map Certificate.round).Pairwise (· > ·)
      ∧ (∀ c ∈ leader_cert :: rest,
          state.last_committed_round < c.round ∧ c.round % 2 = leader_cert.round % 2)
      ∧ (∀ c ∈ rest, ∃ d, TuskEngine.leader c.round dag committee = some (d, c))
      ∧ List.Chain' (fun a b => TuskEngine.linked H a b dag = true) (leader_cert :: rest)
      ∧ (∀ r d c, state.last_committed_round < r → r < leader_cert.round →
          r % 2 = leader_cert.round % 2 →
          TuskEngine.leader r dag committee = some (d, c) →
          c ∈ rest
            ∨ ∃ k ∈ leader_cert :: rest, r < k.round
                ∧ (∀ k2 ∈ leader_cert :: rest, r < k2.round → k.round ≤ k2.round)
                ∧ TuskEngine.linked H k c dag = false) := by
  obtain ⟨j, hj⟩ : ∃ j, leader_cert.round = 2 * (j + 1) :=
    ⟨leader_cert.round / 2 - 1, by omega⟩
  have hstart : (leader_cert.round + 2 ^ 64 - 2) % 2 ^ 64 = 2 * j := by
    have e : leader_cert.round + 2 ^ 64 - 2 = 2 * j + 2 ^ 64 := by omega
    rw [e, Nat.add_mod_right, Nat.mod_eq_of_lt (by omega)]
  obtain ⟨ha, hb, hc, hd⟩ := leader_chain_spec H state dag committee hdag j leader_cert
    (by omega)
  refine ⟨leader_chain H state dag committee j leader_cert, ?_, ?_, ?_, ?_, hc, ?_⟩
  · unfold TuskEngine.order_leaders
    rw [hstart, order_leaders_loop_chain H state dag committee j _ leader_cert [leader_cert]
      (by omega) (by omega)]
    rfl
  · rw [List.map_cons, List.pairwise_cons]
    refine ⟨?_, hb⟩
    intro x hx
    obtain ⟨c, hc, rfl⟩ := List.mem_map.mp hx
    have := (ha c hc).2.1
    show leader_cert.round > c.round
    omega
  · intro c hc
    rcases List.mem_cons.mp hc with h | h
    · rw [h]
      exact ⟨hlcr, rfl⟩
    · obtain ⟨h1, _, h3, _⟩ := ha c h
      exact ⟨h1, by omega⟩
  · intro c hc
    exact (ha c hc).2.2.2
  · intro r d c h1 h2 h3 h4
    exact hd r d c h1 (by omega) (by omega) h4

theorem order_leaders_chain_witness :
    ((toy_cert 4 4 0).round % 2 = 0
      ∧ (load_state toyHash 17).last_committed_round < (toy_cert 4 4 0).round
      ∧ (toy_cert 4 4 0).round < 2 ^ 64 ∧ DagRounds (load_state toyHash 17).dag)
    ∧ TuskEngine.order_leaders toyHash (0 + (toy_cert 4 4 0).round / 2) (toy_cert 4 4 0)
        (load_state toyHash 17) (load_state toyHash 17).dag committee4
      = some [toy_cert 4 4 0, toy_cert 4 2 2]
    ∧ ∃ rest, [toy_cert 4 4 0, toy_cert 4 2 2] = toy_cert 4 4 0 :: rest
        ∧ List.Chain' (fun a b => TuskEngine.linked toyHash a b (load_state toyHash 17).dag = true)
            (toy_cert 4 4 0 :: rest) := by
  refine ⟨⟨by decide, by decide, by decide, load_dagRounds toyHash 17⟩, by decide, ?_⟩
  obtain ⟨rest, h1, _, _, _, h5, _⟩ := order_leaders_chain toyHash 0 (toy_cert 4 4 0)
    (load_state toyHash 17) (load_state toyHash 17).dag committee4 (by decide) (by decide)
    (by decide) (load_dagRounds toyHash 17)
  have h2 : TuskEngine.order_leaders toyHash (0 + (toy_cert 4 4 0).round / 2) (toy_cert 4 4 0)
      (load_state toyHash 17) (load_state toyHash 17).dag committee4
      = some [toy_cert 4 4 0, toy_cert 4 2 2] := by decide
  rw [h2] at h1
  exact ⟨rest, Option.some.inj h1, h5⟩

theorem bump_lookup (committed : List Certificate) (reputation : List (PublicKey × Nat))
    (pk : PublicKey) :
    lookup (committed.foldl
        (fun rep cert =>
          assign rep cert.origin (((lookup rep cert.origin).getD 0 + 1) % 2 ^ 64))
        reputation) pk
      = if pk ∈ committed.map Certificate.origin
        then some ((rep_val reputation pk + (committed.map Certificate.origin).count pk) % 2 ^ 64)
        else lookup reputation pk := by
  induction committed generalizing reputation with
  | nil => simp
  | cons x t ih =>
    simp only [List.foldl_cons, List.map_cons, List.mem_cons]
    rw [ih]
    have hrep : rep_val (assign reputation x.origin
          (((lookup reputation x.origin).getD 0 + 1) % 2 ^ 64)) pk
        = if x.origin = pk then (rep_val reputation pk + 1) % 2 ^ 64
          else rep_val reputation pk := by
      unfold rep_val
      rw [lookup_assign]
      split
      · rename_i e
        rw [e]
        rfl
      · rfl
    by_cases hx : x.origin = pk
    · have hc : (x.origin :: t.map Certificate.origin).count pk
          = (t.map Certificate.origin).count pk + 1 := by
        rw [hx, List.count_cons_self]
      rw [hrep, if_pos hx, hc, if_pos (Or.inl hx.symm)]
      by_cases ht : pk ∈ t.map Certificate.origin
      · rw [if_pos ht]
        exact congrArg some (by omega)
      · rw [if_neg ht, lookup_assign, if_pos hx, List.count_eq_zero_of_not_mem ht]
        unfold rep_val
        rw [hx]
    · have hc : (x.origin :: t.map Certificate.origin).count pk
          = (t.map Certificate.origin).count pk := by
        simp [List.count_cons, hx]
      rw [hrep, if_neg hx, hc]
      have hiff : (pk = x.origin ∨ pk ∈ t.map Certificate.origin)
          ↔ pk ∈ t.map Certificate.origin :=
        ⟨fun h => h.resolve_left (fun e => hx e.symm), Or.inr⟩
      by_cases ht : pk ∈ t.map Certificate.origin
      · rw [if_pos ht, if_pos (hiff.mpr ht)]
      · rw [if_neg ht, if_neg (fun h => ht (hiff.mp h)), lookup_assign, if_neg hx]

theorem bump_keys (committed : List Certificate) (reputation : List (PublicKey × Nat))
    (hnd : (reputation.map Prod.fst).Nodup) :
    ((committed.foldl
        (fun rep cert =>
          assign rep cert.origin (((lookup rep cert.origin).getD 0 + 1) % 2 ^ 64))
        reputation).map Prod.fst).Nodup
    ∧ ((committed.foldl
        (fun rep cert =>
          assign rep cert.origin (((lookup rep cert.origin).getD 0 + 1) % 2 ^ 64))
        reputation).map Prod.fst).toFinset
      = (reputation.map Prod.fst).toFinset ∪ (committed.map Certificate.origin).toFinset := by
  induction committed generalizing reputation with
  | nil => simp [hnd]
  | cons x t ih =>
    simp only [List.foldl_cons]
    obtain ⟨h1, h2⟩ := ih _ (assign_keys_nodup reputation x.origin
      (((lookup reputation x.origin).getD 0 + 1) % 2 ^ 64) hnd)
    refine ⟨h1, ?_⟩
    rw [h2, assign_keys]
    ext pk
    by_cases hm : x.origin ∈ reputation.map Prod.fst
    · rw [if_pos hm]
      simp only [List.map_cons, List.toFinset_cons, Finset.mem_union, List.mem_toFinset,
        Finset.mem_insert]
      constructor
      · rintro (h | h)
        · exact Or.inl h
        · exact Or.inr (Or.inr h)
      · rintro (h | h | h)
        · exact Or.inl h
        · exact Or.inl (h ▸ hm)
        · exact Or.inr h
    · rw [if_neg hm]
      simp only [List.map_cons, List.toFinset_cons, Finset.mem_union, List.mem_toFinset,
        Finset.mem_insert, List.mem_append, List.mem_singleton]
      tauto

theorem lookup_map_value {κ α β : Type} [DecidableEq κ] (l : List (κ × α)) (f : α → β) (k : κ) :
    lookup (l.map (fun p => (p.1, f p.2))) k = (lookup l k).map f := by
  induction l with
  | nil => rfl
  | cons p t ih =>
    simp only [List.map_cons, lookup]
    split
    · rfl
    · exact ih

theorem init_entries_key (H : HashFn) (certs : List Certificate)
    (acc : RoundMap × List (PublicKey × Nat)) (P : PublicKey × Digest × Certificate → Prop)
    (hacc : ∀ p ∈ acc.1, P p) (hcerts : ∀ c ∈ certs, P (c.origin, c.digest H, c)) :
    ∀ p ∈ (certs.foldl
        (fun (acc : RoundMap × List (PublicKey × Nat)) cert =>
          (assign acc.1 cert.origin (cert.digest H, cert),
            assign acc.2 cert.origin cert.round)) acc).1, P p := by
  induction certs generalizing acc with
  | nil => exact hacc
  | cons c t ih =>
    simp only [List.foldl_cons]
    apply ih
    · intro p hp
      rcases mem_assign _ _ _ _ hp with h | h
      · exact hacc p h
      · rw [h]
        exact hcerts c (List.mem_cons_self _ _)
    · exact fun x hx => hcerts x (List.mem_cons_of_mem _ hx)

theorem init_dagEntries (H : HashFn) (committee : Committee) :
    DagEntries H (State.init H (Consensus.genesis committee)).dag := by
  intro r m hm p hp
  unfold State.init at hm
  dsimp only at hm
  simp only [assignOrd, lookup] at hm
  by_cases hr : 0 = r
  · rw [if_pos hr, Option.some.injEq] at hm
    subst hm
    subst hr
    refine init_entries_key H (Consensus.genesis committee) ([], [])
      (fun p => p.2.2.round = 0 ∧ p.2.2.origin = p.1 ∧ p.2.1 = p.2.2.digest H)
      (fun p hp => by cases hp) ?_ p hp
    intro c hc
    simp only [Consensus.genesis, List.mem_map] at hc
    obtain ⟨q, _, rfl⟩ := hc
    exact ⟨rfl, rfl, rfl⟩
  · rw [if_neg hr] at hm
    cases hm

theorem insert_dagEntries (H : HashFn) (state : State) (certificate : Certificate)
    (h : DagEntries H state.dag) : DagEntries H (Consensus.insert H state certificate).dag := by
  intro r m hm p hp
  unfold Consensus.insert dag_insert at hm
  rw [lookup_assignOrd] at hm
  by_cases hr : certificate.round = r
  · rw [if_pos hr, Option.some.injEq] at hm
    subst hm
    rcases mem_assign _ _ _ _ hp with h1 | h1
    · cases hl : lookup state.dag certificate.round with
      | none =>
        rw [hl] at h1
        cases h1
      | some m0 =>
        rw [hl] at h1
        rw [← hr]
        exact h _ m0 hl p h1
    · rw [h1]
      exact ⟨hr, rfl, rfl⟩
  · rw [if_neg hr] at hm
    exact h r m hm p hp

theorem lookup_update_dag (s : State) (c : Certificate) (gc_depth : Nat) (r : Nat)
    (m : RoundMap) (h : lookup (s.update c gc_depth).dag r = some m) :
    lookup s.dag r = some m := by
  have hf := lookup_filter s.dag
    (fun r => decide (¬ ((r + gc_depth) % 2 ^ 64
      < (s.update c gc_depth).last_committed_round))) r
  have hd : lookup (s.update c gc_depth).dag r
      = if decide (¬ ((r + gc_depth) % 2 ^ 64 < (s.update c gc_depth).last_committed_round))
          = true
        then lookup s.dag r else none := hf
  rw [hd] at h
  split at h
  · exact h
  · cases h

theorem update_dagEntries (H : HashFn) (s : State) (c : Certificate) (gc_depth : Nat)
    (h : DagEntries H s.dag) : DagEntries H (s.update c gc_depth).dag :=
  fun r m hm => h r m (lookup_update_dag s c gc_depth r m hm)

theorem updates_dagEntries (H : HashFn) (s : State) (sequence : List Certificate)
    (gc_depth : Nat) (h : DagEntries H s.dag) :
    DagEntries H (sequence.foldl (fun s x => s.update x gc_depth) s).dag := by
  induction sequence generalizing s with
  | nil => exact h
  | cons x t ih => exact ih _ (update_dagEntries H s x gc_depth h)

theorem apply_dagEntries (H : HashFn) (s : State) (ops : List StateOp)
    (h : DagEntries H s.dag) : DagEntries H (s.apply H ops).dag := by
  induction ops generalizing s with
  | nil => exact h
  | cons op t ih =>
    cases op with
    | insert certificate => exact ih _ (insert_dagEntries H s certificate h)
    | update certificate gc_depth => exact ih _ (update_dagEntries H s certificate gc_depth h)

theorem dagEntries_get (H : HashFn) (dag : dag_t) (h : DagEntries H dag) (r : Nat)
    (a : PublicKey) (d : Digest) (c : Certificate) (he : dag_get dag r a = some (d, c)) :
    c.round = r ∧ c.origin = a ∧ d = c.digest H := by
  unfold dag_get at he
  cases hm : lookup dag r with
  | none =>
    rw [hm] at he
    cases he
  | some m =>
    rw [hm, Option.some_bind] at he
    exact h r m hm (a, (d, c)) (mem_of_lookup _ _ _ he)

theorem step_dagEntries (H : HashFn) (S : RoundSorter) (fuel : Nat) (committee : Committee)
    (gc_depth : Nat) (d : Driver) (certificate : Certificate) (d2 : Driver)
    (hs : Consensus.step H S fuel committee gc_depth d certificate = some d2)
    (h : DagEntries H d.state.dag) : DagEntries H d2.state.dag := by
  obtain ⟨sequence, _, _, hst, _⟩ := step_state H S fuel committee gc_depth d certificate d2 hs
  rw [hst]
  exact updates_dagEntries H _ sequence gc_depth (insert_dagEntries H d.state certificate h)

theorem run_loop_dagEntries (H : HashFn) (S : RoundSorter) (fuel : Nat) (committee : Committee)
    (gc_depth : Nat) (received : List Certificate) (d d2 : Driver)
    (hr : Consensus.run_loop H S fuel committee gc_depth received d = some d2)
    (h : DagEntries H d.state.dag) : DagEntries H d2.state.dag := by
  induction received generalizing d with
  | nil =>
    simp only [Consensus.run_loop, Option.some.injEq] at hr
    rw [← hr]
    exact h
  | cons x t ih =>
    simp only [Consensus.run_loop] at hr
    cases hs : Consensus.step H S fuel committee gc_depth d x with
    | none =>
      rw [hs] at hr
      cases hr
    | some d1 =>
      rw [hs] at hr
      exact ih d1 hr (step_dagEntries H S fuel committee gc_depth d x d1 hs h)

theorem inserts_dagEntries (H : HashFn) (state : State) (received : List Certificate)
    (h : DagEntries H state.dag) :
    DagEntries H (received.foldl (Consensus.insert H) state).dag := by
  induction received generalizing state with
  | nil => exact h
  | cons x t ih => exact ih _ (insert_dagEntries H state x h)

theorem dag_digests_length (dag : dag_t) : (dag_digests dag).length = dag_size dag := by
  unfold dag_digests dag_size
  induction dag with
  | nil => rfl
  | cons p t ih =>
    simp only [List.flatMap_cons, List.length_append, List.length_map, List.map_cons,
      List.sum_cons, ih]

theorem mem_dag_digests (dag : dag_t) (r : Nat) (m : RoundMap) (hm : lookup dag r = some m)
    (p : PublicKey × Digest × Certificate) (hp : p ∈ m) : p.2.1 ∈ dag_digests dag := by
  unfold dag_digests
  rw [List.mem_flatMap]
  exact ⟨(r, m), mem_of_lookup _ _ _ hm, List.mem_map.mpr ⟨p, hp, rfl⟩⟩

theorem visit_parent_cases (state : State) (m : RoundMap)
    (acc : List Certificate × List Digest) (p_digest : Digest) :
    TuskEngine.visit_parent state m acc p_digest = acc
    ∨ ∃ p ∈ m, p.2.1 = p_digest ∧ p_digest ∉ acc.2
        ∧ lookup state.last_committed p.2.2.origin ≠ some p.2.2.round
        ∧ m.find? (fun q => decide (q.2.1 = p_digest)) = some p
        ∧ TuskEngine.visit_parent state m acc p_digest = (p.2.2 :: acc.1, p_digest :: acc.2) := by
  unfold TuskEngine.visit_parent
  cases hf : m.find? (fun q => decide (q.2.1 = p_digest)) with
  | none => exact Or.inl rfl
  | some p =>
    dsimp only
    by_cases h1 : p_digest ∈ acc.2
    · left
      simp [h1]
    · by_cases h2 : lookup state.last_committed p.2.2.origin = some p.2.2.round
      · left
        simp [h2]
      · right
        refine ⟨p, List.mem_of_find?_eq_some hf, ?_, h1, h2, rfl, ?_⟩
        · simpa using List.find?_some hf
        · simp [h1, h2]

/-- The loop over the parents of one certificate in `order_dag`: what it pushes are
certificates of entries of the round map, each pushed with a digest that was not
seen before. -/
theorem visit_parents (state : State) (m : RoundMap) (parents : List Digest)
    (acc : List Certificate × List Digest) :
    ∃ pushed : List (PublicKey × Digest × Certificate),
      (parents.foldl (TuskEngine.visit_parent state m) acc).1
          = (pushed.map (fun p => p.2.2)) ++ acc.1
      ∧ (parents.foldl (TuskEngine.visit_parent state m) acc).2
          = (pushed.map (fun p => p.2.1)) ++ acc.2
      ∧ (∀ p ∈ pushed, p ∈ m ∧ p.2.1 ∈ parents
          ∧ lookup state.last_committed p.2.2.origin ≠ some p.2.2.round)
      ∧ (acc.2.Nodup → ((pushed.map (fun p => p.2.1)) ++ acc.2).Nodup) := by
  induction parents generalizing acc with
  | nil => exact ⟨[], rfl, rfl, fun p hp => absurd hp (List.not_mem_nil p), fun h => h⟩
  | cons x t ih =>
    simp only [List.foldl_cons]
    rcases visit_parent_cases state m acc x with h | ⟨p, hp, hd, hseen, hlc, _, h⟩
    · rw [h]
      obtain ⟨pushed, h1, h2, h3, h4⟩ := ih acc
      exact ⟨pushed, h1, h2,
        fun q hq => ⟨(h3 q hq).1, List.mem_cons_of_mem _ (h3 q hq).2.1, (h3 q hq).2.2⟩, h4⟩
    · rw [h]
      obtain ⟨pushed, h1, h2, h3, h4⟩ := ih (p.2.2 :: acc.1, x :: acc.2)
      refine ⟨pushed ++ [p], ?_, ?_, ?_, ?_⟩
      · rw [h1]
        simp
      · rw [h2]
        simp [hd]
      · intro q hq
        rcases List.mem_append.mp hq with hq | hq
        · exact ⟨(h3 q hq).1, List.mem_cons_of_mem _ (h3 q hq).2.1, (h3 q hq).2.2⟩
        · rw [List.mem_singleton.mp hq]
          exact ⟨hp, hd ▸ List.mem_cons_self _ _, hlc⟩
      · intro hnd
        have := h4 (List.nodup_cons.mpr ⟨hseen, hnd⟩)
        simpa [hd] using this

theorem seen_length_le (dag : dag_t) (seen : List Digest) (hnd : seen.Nodup)
    (hsub : ∀ d ∈ seen, d ∈ dag_digests dag) :
    seen.length ≤ (dag_digests dag).toFinset.card := by
  rw [← List.toFinset_card_of_nodup hnd]
  apply Finset.card_le_card
  intro d hd
  rw [List.mem_toFinset] at hd ⊢
  exact hsub d hd

/-- The loop of `order_dag` ends: every pass pops one certificate, and a certificate is
pushed only with a digest stored in the DAG that was not seen before. -/
theorem order_dag_loop_returns (state : State) (fuel : Nat) (buffer : List Certificate)
    (seen : List Digest) (ordered : List Certificate) (hnd : seen.Nodup)
    (hsub : ∀ d ∈ seen, d ∈ dag_digests state.dag)
    (hfuel : buffer.length + (dag_digests state.dag).toFinset.card ≤ fuel + seen.length) :
    ∃ (out : List Certificate) (seen2 : List Digest),
      TuskEngine.order_dag_loop state fuel buffer seen ordered = some out
      ∧ seen2.Nodup ∧ (∀ d ∈ seen2, d ∈ dag_digests state.dag)
      ∧ out.length + seen.length = ordered.length + buffer.length + seen2.length := by
  induction fuel generalizing buffer seen ordered with
  | zero =>
    cases buffer with
    | nil => exact ⟨ordered, seen, rfl, hnd, hsub, by simp⟩
    | cons x b =>
      exfalso
      have := seen_length_le state.dag seen hnd hsub
      simp only [List.length_cons] at hfuel
      omega
  | succ fuel ih =>
    cases buffer with
    | nil => exact ⟨ordered, seen, rfl, hnd, hsub, by simp⟩
    | cons x b =>
      rw [order_dag_loop_succ]
      simp only [List.length_cons] at hfuel
      by_cases h0 : x.round = 0
      · rw [if_pos h0]
        obtain ⟨out, seen2, h1, h2, h3, h4⟩ := ih b seen (ordered ++ [x]) hnd hsub (by omega)
        refine ⟨out, seen2, h1, h2, h3, ?_⟩
        simp only [List.length_append, List.length_cons, List.length_nil] at h4 ⊢
        omega
      · rw [if_neg h0]
        cases hm : lookup state.dag (x.round - 1) with
        | none =>
          dsimp only
          obtain ⟨out, seen2, h1, h2, h3, h4⟩ := ih b seen (ordered ++ [x]) hnd hsub (by omega)
          refine ⟨out, seen2, h1, h2, h3, ?_⟩
          simp only [List.length_append, List.length_cons, List.length_nil] at h4 ⊢
          omega
        | some m =>
          dsimp only
          obtain ⟨pushed, hp1, hp2, hp3, hp4⟩ := visit_parents state m x.header.parents (b, seen)
          rw [hp1, hp2]
          have hnd2 := hp4 hnd
          have hsub2 : ∀ d ∈ pushed.map (fun p => p.2.1) ++ seen, d ∈ dag_digests state.dag := by
            intro d hd
            rcases List.mem_append.mp hd with hd | hd
            · obtain ⟨p, hp, rfl⟩ := List.mem_map.mp hd
              exact mem_dag_digests state.dag _ m hm p (hp3 p hp).1
            · exact hsub d hd
          obtain ⟨out, seen2, h1, h2, h3, h4⟩ := ih (pushed.map (fun p => p.2.2) ++ b)
            (pushed.map (fun p => p.2.1) ++ seen) (ordered ++ [x]) hnd2 hsub2
            (by simp only [List.length_append, List.length_map]; omega)
          refine ⟨out, seen2, h1, h2, h3, ?_⟩
          simp only [List.length_append, List.length_cons, List.length_nil, List.length_map]
            at h4 ⊢
          omega

theorem dagKeyed_of_entries (H : HashFn) (dag : dag_t) (h : DagEntries H dag) : DagKeyed dag :=
  fun r m hm p hp => (h r m hm p hp).1

theorem order_dag_loop_rounds (state : State) (hdag : DagKeyed state.dag) (B : Nat)
    (fuel : Nat) (buffer : List Certificate) (seen : List Digest) (ordered : List Certificate)
    (out : List Certificate) (hb : ∀ c ∈ buffer, c.round ≤ B)
    (h : TuskEngine.order_dag_loop state fuel buffer seen ordered = some out) :
    ∃ rest, out = ordered ++ rest ∧ ∀ c ∈ rest, c.round ≤ B := by
  induction fuel generalizing buffer seen ordered with
  | zero =>
    cases buffer with
    | nil =>
      rw [order_dag_loop_nil] at h
      exact ⟨[], by simpa using (Option.some.inj h).symm, fun c hc => absurd hc (List.not_mem_nil c)⟩
    | cons x b => cases h
  | succ fuel ih =>
    cases buffer with
    | nil =>
      rw [order_dag_loop_nil] at h
      exact ⟨[], by simpa using (Option.some.inj h).symm, fun c hc => absurd hc (List.not_mem_nil c)⟩
    | cons x b =>
      rw [order_dag_loop_succ] at h
      have hx : x.round ≤ B := hb x (List.mem_cons_self _ _)
      have hb2 : ∀ c ∈ b, c.round ≤ B := fun c hc => hb c (List.mem_cons_of_mem _ hc)
      have hfin : ∀ (buffer2 : List Certificate) (seen2 : List Digest),
          (∀ c ∈ buffer2, c.round ≤ B) →
          TuskEngine.order_dag_loop state fuel buffer2 seen2 (ordered ++ [x]) = some out →
          ∃ rest, out = ordered ++ rest ∧ ∀ c ∈ rest, c.round ≤ B := by
        intro buffer2 seen2 hb3 h2
        obtain ⟨rest, e, hr⟩ := ih buffer2 seen2 (ordered ++ [x]) hb3 h2
        refine ⟨x :: rest, by rw [e, List.append_assoc]; rfl, ?_⟩
        intro c hc
        rcases List.mem_cons.mp hc with h3 | h3
        · rw [h3]
          exact hx
        · exact hr c h3
      by_cases h0 : x.round = 0
      · rw [if_pos h0] at h
        exact hfin b seen hb2 h
      · rw [if_neg h0] at h
        cases hm : lookup state.dag (x.round - 1) with
        | none =>
          rw [hm] at h
          exact hfin b seen hb2 h
        | some m =>
          rw [hm] at h
          dsimp only at h
          obtain ⟨pushed, hp1, hp2, hp3, _⟩ := visit_parents state m x.header.parents (b, seen)
          refine hfin _ _ ?_ h
          rw [hp1]
          intro c hc
          rcases List.mem_append.mp hc with h3 | h3
          · obtain ⟨p, hp, rfl⟩ := List.mem_map.mp h3
            have := hdag _ m hm p (hp3 p hp).1
            omega
          · exact hb2 c h3

/-- The list that the loop of `order_dag` collects in a DAG keyed by round: the leader,
then certificates of rounds below the leader's. -/
theorem order_dag_loop_leader (state : State) (hdag : DagKeyed state.dag) (fuel : Nat)
    (leader : Certificate) (out : List Certificate)
    (h : TuskEngine.order_dag_loop state fuel [leader] [] [] = some out) :
    ∃ rest, out = leader :: rest ∧ ∀ c ∈ rest, c.round < leader.round := by
  cases fuel with
  | zero => cases h
  | succ fuel =>
    rw [order_dag_loop_succ] at h
    by_cases h0 : leader.round = 0
    · rw [if_pos h0, order_dag_loop_nil] at h
      exact ⟨[], (Option.some.inj h).symm, fun c hc => absurd hc (List.not_mem_nil c)⟩
    · rw [if_neg h0] at h
      cases hm : lookup state.dag (leader.round - 1) with
      | none =>
        rw [hm] at h
        dsimp only at h
        rw [order_dag_loop_nil] at h
        exact ⟨[], (Option.some.inj h).symm, fun c hc => absurd hc (List.not_mem_nil c)⟩
      | some m =>
        rw [hm] at h
        dsimp only at h
        obtain ⟨pushed, hp1, hp2, hp3, _⟩ :=
          visit_parents state m leader.header.parents ([], [])
        obtain ⟨rest, e, hr⟩ := order_dag_loop_rounds state hdag (leader.round - 1) fuel _ _ _
          out (by
            rw [hp1]
            intro c hc
            rcases List.mem_append.mp hc with h3 | h3
            · obtain ⟨p, hp, rfl⟩ := List.mem_map.mp h3
              exact le_of_eq (hdag _ m hm p (hp3 p hp).1)
            · cases h3) h
        refine ⟨rest, e, ?_⟩
        intro c hc
        have := hr c hc
        omega

theorem parentEdge_round (state : State) (hk : DagKeyed state.dag) (x c : Certificate)
    (h : ParentEdge state x c) : c.round + 1 = x.round := by
  obtain ⟨h0, m, hm, p, hp, _, hc, _⟩ := h
  have := hk _ m hm p hp
  rw [hc] at this
  omega

theorem reach_round (state : State) (hk : DagKeyed state.dag) (L c : Certificate)
    (h : Relation.TransGen (ParentEdge state) L c) : c.round < L.round := by
  induction h with
  | single h => have := parentEdge_round state hk _ _ h; omega
  | tail _ h ih => have := parentEdge_round state hk _ _ h; omega

theorem reach_not_committed (state : State) (L c : Certificate)
    (h : Relation.TransGen (ParentEdge state) L c) :
    lookup state.last_committed c.origin ≠ some c.round := by
  cases h with
  | single h => exact h.2.choose_spec.2.choose_spec.2.2.2
  | tail _ h => exact h.2.choose_spec.2.choose_spec.2.2.2

theorem visit_parent_seen (state : State) (m : RoundMap)
    (acc : List Certificate × List Digest) (d : Digest) :
    ∀ x ∈ acc.2, x ∈ (TuskEngine.visit_parent state m acc d).2 := by
  intro x hx
  rcases visit_parent_cases state m acc d with h | ⟨_, _, _, _, _, _, h⟩
  · rw [h]
    exact hx
  · rw [h]
    exact List.mem_cons_of_mem _ hx

theorem visit_parents_seen (state : State) (m : RoundMap) (parents : List Digest)
    (acc : List Certificate × List Digest) :
    ∀ x ∈ acc.2, x ∈ (parents.foldl (TuskEngine.visit_parent state m) acc).2 := by
  induction parents generalizing acc with
  | nil => exact fun x hx => hx
  | cons d t ih =>
    intro x hx
    simp only [List.foldl_cons]
    exact ih _ x (visit_parent_seen state m acc d x hx)

/-- After the loop over the parents of one certificate, the digest of every parent that is
found in the round map and not marked committed is in `seen`. -/
theorem visit_parents_complete (state : State) (m : RoundMap) (parents : List Digest)
    (acc : List Certificate × List Digest) (d : Digest) (hd : d ∈ parents)
    (q : PublicKey × Digest × Certificate)
    (hq : m.find? (fun e => decide (e.2.1 = d)) = some q)
    (hc : lookup state.last_committed q.2.2.origin ≠ some q.2.2.round) :
    d ∈ (parents.foldl (TuskEngine.visit_parent state m) acc).2 := by
  induction parents generalizing acc with
  | nil => cases hd
  | cons x t ih =>
    simp only [List.foldl_cons]
    rcases List.mem_cons.mp hd with h | h
    · subst h
      apply visit_parents_seen
      unfold TuskEngine.visit_parent
      rw [hq]
      dsimp only
      by_cases h1 : d ∈ acc.2
      · simp [h1]
      · simp [h1, hc]
    · exact ih _ h

theorem find_digest (m : RoundMap) (p : PublicKey × Digest × Certificate) (hp : p ∈ m) :
    ∃ q, m.find? (fun e => decide (e.2.1 = p.2.1)) = some q ∧ q ∈ m ∧ q.2.1 = p.2.1 := by
  cases hf : m.find? (fun e => decide (e.2.1 = p.2.1)) with
  | none =>
    have := List.find?_eq_none.mp hf p hp
    simp at this
  | some q =>
    exact ⟨q, rfl, List.mem_of_find?_eq_some hf, by simpa using List.find?_some hf⟩

theorem dfsInv_init (state : State) (L : Certificate) : DfsInv state L [L] [] [] where
  nodup := by simp
  seen_nodup := List.nodup_nil
  leader_mem := by simp
  sound := by
    intro c hc
    left
    simpa using hc
  seen_of := by
    intro c hc hne
    exact absurd (by simpa using hc) hne
  of_seen := fun d hd => absurd hd (List.not_mem_nil d)
  closed := fun x hx => absurd hx (List.not_mem_nil x)

/-- The loop of `order_dag` takes `x` from the buffer and finds nothing to visit: `x` has
no parent edge. -/
theorem dfsInv_skip (state : State) (L x : Certificate) (rest : List Certificate)
    (seen : List Digest) (ordered : List Certificate)
    (hinv : DfsInv state L (x :: rest) seen ordered)
    (hx : ∀ c, ¬ ParentEdge state x c) : DfsInv state L rest seen (ordered ++ [x]) := by
  have hmem : ∀ c, c ∈ (ordered ++ [x]) ++ rest ↔ c ∈ ordered ++ x :: rest := by
    intro c
    simp only [List.mem_append, List.mem_cons, List.mem_singleton, List.not_mem_nil]
    tauto
  have hperm : ((ordered ++ [x]) ++ rest).Perm (ordered ++ x :: rest) := by
    rw [List.append_assoc, List.singleton_append]
  exact {
    nodup := hperm.nodup_iff.mpr hinv.nodup
    seen_nodup := hinv.seen_nodup
    leader_mem := (hmem L).mpr hinv.leader_mem
    sound := fun c hc => hinv.sound c ((hmem c).mp hc)
    seen_of := fun c hc hne => hinv.seen_of c ((hmem c).mp hc) hne
    of_seen := fun d hd r m p hm hp hpd => (hmem _).mpr (hinv.of_seen d hd r m p hm hp hpd)
    closed := by
      intro y hy c hE
      rcases List.mem_append.mp hy with h | h
      · exact (hmem c).mpr (hinv.closed y h c hE)
      · rw [List.mem_singleton.mp h] at hE
        exact absurd hE (hx c) }

/-- The loop of `order_dag` takes `x` from the buffer and visits its parents in the round
map `m` of the round below. -/
theorem dfsInv_visit (state : State) (hk : DagKeyed state.dag) (hd : DagDistinct state.dag)
    (L x : Certificate) (rest : List Certificate) (seen : List Digest)
    (ordered : List Certificate) (m : RoundMap)
    (hinv : DfsInv state L (x :: rest) seen ordered) (hx0 : x.round ≠ 0)
    (hm : lookup state.dag (x.round - 1) = some m) :
    DfsInv state L (x.header.parents.foldl (TuskEngine.visit_parent state m) (rest, seen)).1
      (x.header.parents.foldl (TuskEngine.visit_parent state m) (rest, seen)).2
      (ordered ++ [x]) := by
  obtain ⟨pushed, h1, h2, h3, h4⟩ := visit_parents state m x.header.parents (rest, seen)
  have hcomplete := visit_parents_complete state m x.header.parents (rest, seen)
  rw [h1, h2]
  rw [h2] at hcomplete
  dsimp only at h4 hcomplete ⊢
  have hnd2 := h4 hinv.seen_nodup
  have hmem : ∀ c, c ∈ (ordered ++ [x]) ++ (pushed.map (fun p => p.2.2) ++ rest)
      ↔ c ∈ pushed.map (fun p => p.2.2) ∨ c ∈ ordered ++ x :: rest := by
    intro c
    simp only [List.mem_append, List.mem_cons, List.mem_singleton, List.not_mem_nil]
    tauto
  have hperm : ((ordered ++ [x]) ++ (pushed.map (fun p => p.2.2) ++ rest)).Perm
      (pushed.map (fun p => p.2.2) ++ (ordered ++ x :: rest)) := by
    rw [List.perm_iff_count]
    intro a
    simp only [List.count_append, List.count_cons, List.count_nil]
    omega
  have hxV : x ∈ ordered ++ x :: rest :=
    List.mem_append_right _ (List.mem_cons_self _ _)
  have hxround : x.round ≤ L.round := by
    rcases hinv.sound x hxV with h | h
    · rw [h]
    · exact le_of_lt (reach_round state hk L x h)
  have hedge : ∀ p ∈ pushed, ParentEdge state x p.2.2 :=
    fun p hp => ⟨hx0, m, hm, p, (h3 p hp).1, (h3 p hp).2.1, rfl, (h3 p hp).2.2⟩
  have hreach : ∀ p ∈ pushed, Relation.TransGen (ParentEdge state) L p.2.2 := by
    intro p hp
    rcases hinv.sound x hxV with h | h
    · rw [← h]
      exact Relation.TransGen.single (hedge p hp)
    · exact Relation.TransGen.tail h (hedge p hp)
  have hnew : ∀ p ∈ pushed, p.2.2 ∉ ordered ++ x :: rest := by
    intro p hp hV
    have hr := reach_round state hk L _ (hreach p hp)
    have hne : p.2.2 ≠ L := by
      intro e
      rw [e] at hr
      omega
    obtain ⟨r, m2, q, hm2, hq, hqc, hqs⟩ := hinv.seen_of _ hV hne
    have hdig : q.2.1 = p.2.1 := (hd r m2 _ m hm2 hm q hq p (h3 p hp).1).mpr hqc
    have hdisj := (List.nodup_append.mp hnd2).2.2
    exact hdisj (List.mem_map.mpr ⟨p, hp, rfl⟩) (hdig ▸ hqs)
  have hpnd : (pushed.map (fun p => p.2.2)).Nodup := by
    have hdn : (pushed.map (fun p => p.2.1)).Nodup := (List.nodup_append.mp hnd2).1
    refine List.Nodup.map_on ?_ (List.Nodup.of_map _ hdn)
    intro p hp q hq hpq
    exact List.inj_on_of_nodup_map hdn hp hq
      ((hd _ m _ m hm hm p (h3 p hp).1 q (h3 q hq).1).mpr hpq)
  exact {
    nodup := by
      rw [hperm.nodup_iff, List.nodup_append]
      refine ⟨hpnd, hinv.nodup, ?_⟩
      intro c hc hV
      obtain ⟨p, hp, rfl⟩ := List.mem_map.mp hc
      exact hnew p hp hV
    seen_nodup := hnd2
    leader_mem := (hmem L).mpr (Or.inr hinv.leader_mem)
    sound := by
      intro c hc
      rcases (hmem c).mp hc with h | h
      · obtain ⟨p, hp, rfl⟩ := List.mem_map.mp h
        exact Or.inr (hreach p hp)
      · exact hinv.sound c h
    seen_of := by
      intro c hc hne
      rcases (hmem c).mp hc with h | h
      · obtain ⟨p, hp, rfl⟩ := List.mem_map.mp h
        exact ⟨_, m, p, hm, (h3 p hp).1, rfl,
          List.mem_append_left _ (List.mem_map.mpr ⟨p, hp, rfl⟩)⟩
      · obtain ⟨r, m2, q, hm2, hq, hqc, hqs⟩ := hinv.seen_of c h hne
        exact ⟨r, m2, q, hm2, hq, hqc, List.mem_append_right _ hqs⟩
    of_seen := by
      intro d hds r m2 q hm2 hq hqd
      rcases List.mem_append.mp hds with h | h
      · obtain ⟨p, hp, hpd⟩ := List.mem_map.mp h
        have hc : q.2.2 = p.2.2 :=
          (hd r m2 _ m hm2 hm q hq p (h3 p hp).1).mp (by rw [hqd]; exact hpd.symm)
        rw [hc]
        exact (hmem _).mpr (Or.inl (List.mem_map.mpr ⟨p, hp, rfl⟩))
      · exact (hmem _).mpr (Or.inr (hinv.of_seen d h r m2 q hm2 hq hqd))
    closed := by
      intro y hy c hE
      rcases List.mem_append.mp hy with h | h
      · exact (hmem c).mpr (Or.inr (hinv.closed y h c hE))
      · rw [List.mem_singleton.mp h] at hE
        obtain ⟨_, m2, hm2, p, hp, hpar, hpc, hnc⟩ := hE
        rw [hm] at hm2
        cases hm2
        obtain ⟨q, hfind, hqm, hqd⟩ := find_digest m p hp
        have hqc : q.2.2 = p.2.2 := (hd _ m _ m hm hm q hqm p hp).mp hqd
        have hseen := hcomplete p.2.1 hpar q hfind (by rw [hqc, hpc]; exact hnc)
        rw [← hpc]
        rcases List.mem_append.mp hseen with h | h
        · obtain ⟨p2, hp2, hpd⟩ := List.mem_map.mp h
          have hc2 : p2.2.2 = p.2.2 :=
            (hd _ m _ m hm hm p2 (h3 p2 hp2).1 p hp).mp hpd
          rw [← hc2]
          exact (hmem _).mpr (Or.inl (List.mem_map.mpr ⟨p2, hp2, rfl⟩))
        · exact (hmem _).mpr (Or.inr (hinv.of_seen _ h _ m p hm hp rfl)) }

/-- The invariant of the loop of `order_dag` holds when the loop ends. -/
theorem order_dag_loop_inv (state : State) (hk : DagKeyed state.dag)
    (hd : DagDistinct state.dag) (L : Certificate) (fuel : Nat) (buffer : List Certificate)
    (seen : List Digest) (ordered out : List Certificate)
    (hinv : DfsInv state L buffer seen ordered)
    (h : TuskEngine.order_dag_loop state fuel buffer seen ordered = some out) :
    ∃ seen2, DfsInv state L [] seen2 out := by
  induction fuel generalizing buffer seen ordered with
  | zero =>
    cases buffer with
    | nil =>
      rw [order_dag_loop_nil] at h
      cases h
      exact ⟨seen, hinv⟩
    | cons x rest => cases h
  | succ f ih =>
    cases buffer with
    | nil =>
      rw [order_dag_loop_nil] at h
      cases h
      exact ⟨seen, hinv⟩
    | cons x rest =>
      rw [order_dag_loop_succ] at h
      by_cases hx0 : x.round = 0
      · rw [if_pos hx0] at h
        exact ih rest seen (ordered ++ [x])
          (dfsInv_skip state L x rest seen ordered hinv (fun c hE => hE.1 hx0)) h
      · rw [if_neg hx0] at h
        cases hm : lookup state.dag (x.round - 1) with
        | none =>
          rw [hm] at h
          refine ih rest seen (ordered ++ [x])
            (dfsInv_skip state L x rest seen ordered hinv ?_) h
          rintro c ⟨_, m, hm2, _⟩
          rw [hm] at hm2
          cases hm2
        | some m =>
          rw [hm] at h
          exact ih _ _ (ordered ++ [x])
            (dfsInv_visit state hk hd L x rest seen ordered m hinv hx0 hm) h

theorem dagDistinct_of_nodup (dag : dag_t) (h1 : (dag_digests dag).Nodup)
    (h2 : (dag_certificates dag).Nodup) : DagDistinct dag := by
  have e1 : dag_digests dag = (dag.flatMap (fun p => p.2)).map (fun e => e.2.1) := by
    unfold dag_digests
    rw [List.map_flatMap]
  have e2 : dag_certificates dag = (dag.flatMap (fun p => p.2)).map (fun e => e.2.2) := by
    unfold dag_certificates
    rw [List.map_flatMap]
  rw [e1] at h1
  rw [e2] at h2
  intro r1 m1 r2 m2 hm1 hm2 p hp q hq
  have hpE : p ∈ dag.flatMap (fun p => p.2) :=
    List.mem_flatMap.mpr ⟨(r1, m1), mem_of_lookup _ _ _ hm1, hp⟩
  have hqE : q ∈ dag.flatMap (fun p => p.2) :=
    List.mem_flatMap.mpr ⟨(r2, m2), mem_of_lookup _ _ _ hm2, hq⟩
  constructor
  · intro h
    rw [List.inj_on_of_nodup_map h1 hpE hqE h]
  · intro h
    rw [List.inj_on_of_nodup_map h2 hpE hqE h]

theorem first_exceeding_iff (w : PublicKey → Nat) (keys : List PublicKey) (running choice : Nat)
    (pk : PublicKey) (hr : running ≤ choice) :
    first_exceeding w keys running choice = some pk
      ↔ ∃ pre post, keys = pre ++ pk :: post ∧ running + (pre.map w).sum ≤ choice
          ∧ choice < running + (pre.map w).sum + w pk := by
  induction keys generalizing running with
  | nil =>
    simp only [first_exceeding]
    constructor
    · intro h
      cases h
    · rintro ⟨pre, post, h, _⟩
      cases pre <;> cases h
  | cons k rest ih =>
    unfold first_exceeding
    by_cases hk : running + w k > choice
    · rw [if_pos hk]
      constructor
      · intro h
        cases h
        exact ⟨[], rest, rfl, by simpa using hr, by simpa using hk⟩
      · rintro ⟨pre, post, h, h1, h2⟩
        cases pre with
        | nil =>
          simp only [List.nil_append, List.cons.injEq] at h
          rw [h.1]
        | cons a pre2 =>
          simp only [List.cons_append, List.cons.injEq] at h
          simp only [List.map_cons, List.sum_cons] at h1
          rw [← h.1] at h1
          omega
    · rw [if_neg hk, ih (running + w k) (by omega)]
      constructor
      · rintro ⟨pre, post, h, h1, h2⟩
        refine ⟨k :: pre, post, by rw [h]; rfl, ?_, ?_⟩
        · simp only [List.map_cons, List.sum_cons]
          omega
        · simp only [List.map_cons, List.sum_cons]
          omega
      · rintro ⟨pre, post, h, h1, h2⟩
        cases pre with
        | nil =>
          simp only [List.nil_append, List.cons.injEq] at h
          simp only [List.map_nil, List.sum_nil] at h2
          rw [← h.1] at h2
          omega
        | cons a pre2 =>
          simp only [List.cons_append, List.cons.injEq] at h
          simp only [List.map_cons, List.sum_cons] at h1 h2
          rw [← h.1] at h1 h2
          exact ⟨pre2, post, h.2, by omega, by omega⟩

theorem first_exceeding_some (w : PublicKey → Nat) (keys : List PublicKey)
    (running choice : Nat) (hr : running ≤ choice) (h : choice < running + (keys.map w).sum) :
    ∃ pk ∈ keys, first_exceeding w keys running choice = some pk := by
  induction keys generalizing running with
  | nil =>
    simp only [List.map_nil, List.sum_nil] at h
    omega
  | cons k rest ih =>
    unfold first_exceeding
    by_cases hk : running + w k > choice
    · rw [if_pos hk]
      exact ⟨k, List.mem_cons_self _ _, rfl⟩
    · rw [if_neg hk]
      simp only [List.map_cons, List.sum_cons] at h
      obtain ⟨pk, hpk, he⟩ := ih (running + w k) (by omega) (by omega)
      exact ⟨pk, List.mem_cons_of_mem _ hpk, he⟩

theorem pick_first_exceeding (m : RoundMap) (choice : Nat) (keys : List PublicKey)
    (current : Nat) (r : List (PublicKey × Nat))
    (h : current + (keys.map (fun pk => rep_val r pk + 1)).sum < 2 ^ 64) :
    (ShoalPlusPlusEngine.pick m choice keys current r).1
      = (first_exceeding (fun pk => rep_val r pk + 1) keys current choice).bind (lookup m) := by
  induction keys generalizing current r with
  | nil => rfl
  | cons x rest ih =>
    simp only [List.map_cons, List.sum_cons] at h
    have hx : (lookup (ShoalPlusPlusEngine.touch r x) x).getD 0 = rep_val r x :=
      rep_val_touch r x x
    have hw : (fun pk => rep_val (ShoalPlusPlusEngine.touch r x) pk + 1)
        = (fun pk => rep_val r pk + 1) := by
      funext pk
      rw [rep_val_touch]
    simp only [ShoalPlusPlusEngine.pick, first_exceeding]
    rw [hx, Nat.mod_eq_of_lt (by omega), Nat.mod_eq_of_lt (by omega)]
    by_cases hk : current + (rep_val r x + 1) > choice
    · rw [if_pos hk, if_pos hk]
      rfl
    · rw [if_neg hk, if_neg hk, ih _ _ (by rw [hw]; omega), hw]

/-- The method `select_anchor` at a round that is present with the entries `m`, not empty,
when the weights sum below 2^64: it returns the entry of the first key, in ascending
order, whose running weight sum exceeds `round % W`. -/
theorem select_anchor_first_exceeding (reputation : List (PublicKey × Nat)) (round : Nat)
    (dag : dag_t) (committee : Committee) (m : RoundMap) (keys : List PublicKey)
    (hm : lookup dag round = some m) (hne : m ≠ [])
    (hperm : keys.Perm (m.map Prod.fst)) (hsorted : keys.Sorted (· ≤ ·))
    (h : (keys.map (fun pk => rep_val reputation pk + 1)).sum < 2 ^ 64) :
    1 ≤ (keys.map (fun pk => rep_val reputation pk + 1)).sum
    ∧ ∃ pk e rep2, pk ∈ keys
      ∧ first_exceeding (fun pk => rep_val reputation pk + 1) keys 0
          (round % (keys.map (fun pk => rep_val reputation pk + 1)).sum) = some pk
      ∧ lookup m pk = some e
      ∧ ShoalPlusPlusEngine.select_anchor reputation round dag committee
          = some (some e, rep2) := by
  have hkeys : (m.map Prod.fst).insertionSort (· ≤ ·) = keys :=
    sorted_keys_unique _ _ hperm hsorted
  have hpos : 1 ≤ (keys.map (fun pk => rep_val reputation pk + 1)).sum := by
    cases keys with
    | nil =>
      have := hperm.length_eq
      cases m with
      | nil => exact absurd rfl hne
      | cons p t => simp at this
    | cons k t =>
      simp only [List.map_cons, List.sum_cons]
      omega
  refine ⟨hpos, ?_⟩
  have htot := total_eq_sum keys reputation 0 (by omega)
  rw [Nat.zero_add] at htot
  obtain ⟨pk, hpk, hfe⟩ := first_exceeding_some (fun pk => rep_val reputation pk + 1) keys 0
    (round % (keys.map (fun pk => rep_val reputation pk + 1)).sum) (Nat.zero_le _)
    (by rw [Nat.zero_add]; exact Nat.mod_lt _ hpos)
  obtain ⟨e, he⟩ := lookup_isSome_of_mem m pk (hperm.mem_iff.mp hpk)
  have hemp : m.isEmpty = false := by
    cases m with
    | nil => exact absurd rfl hne
    | cons p t => rfl
  have hw : (fun pk => rep_val (keys.foldl
        (fun (acc : Nat × List (PublicKey × Nat)) pk =>
          ((acc.1 + ((lookup (ShoalPlusPlusEngine.touch acc.2 pk) pk).getD 0 + 1) % 2 ^ 64)
              % 2 ^ 64, ShoalPlusPlusEngine.touch acc.2 pk)) (0, reputation)).2 pk + 1)
      = (fun pk => rep_val reputation pk + 1) := by
    funext pk
    rw [total_rep]
  have hpick := pick_first_exceeding m
    (round % (keys.map (fun pk => rep_val reputation pk + 1)).sum) keys 0
    (keys.foldl
        (fun (acc : Nat × List (PublicKey × Nat)) pk =>
          ((acc.1 + ((lookup (ShoalPlusPlusEngine.touch acc.2 pk) pk).getD 0 + 1) % 2 ^ 64)
              % 2 ^ 64, ShoalPlusPlusEngine.touch acc.2 pk)) (0, reputation)).2
    (by rw [hw]; omega)
  rw [hw, hfe] at hpick
  simp only [Option.some_bind] at hpick
  rw [he] at hpick
  refine ⟨pk, e, (ShoalPlusPlusEngine.pick m
    (round % (keys.map (fun pk => rep_val reputation pk + 1)).sum) keys 0
    (keys.foldl
        (fun (acc : Nat × List (PublicKey × Nat)) pk =>
          ((acc.1 + ((lookup (ShoalPlusPlusEngine.touch acc.2 pk) pk).getD 0 + 1) % 2 ^ 64)
              % 2 ^ 64, ShoalPlusPlusEngine.touch acc.2 pk)) (0, reputation)).2).2,
    hpk, hfe, he, ?_⟩
  rw [← hpick]
  unfold ShoalPlusPlusEngine.select_anchor
  rw [hm]
  dsimp only
  rw [hemp, hkeys, htot]
  simp only [Bool.false_eq_true, if_false]
  rw [if_neg (by omega)]

theorem count_first_exceeding (w : PublicKey → Nat) (keys : List PublicKey) (pk : PublicKey)
    (hnd : keys.Nodup) (hpk : pk ∈ keys) :
    ((Finset.range (keys.map w).sum).filter
        (fun c => first_exceeding w keys 0 c = some pk)).card = w pk := by
  obtain ⟨pre, post, hk⟩ := List.append_of_mem hpk
  have hpre : pk ∉ pre := by
    intro hmem
    rw [hk] at hnd
    exact (List.nodup_append.mp hnd).2.2 hmem (List.mem_cons_self _ _)
  have hpost : pk ∉ post := by
    intro hmem
    rw [hk] at hnd
    exact (List.nodup_cons.mp (List.nodup_append.mp hnd).2.1).1 hmem
  have hset : (Finset.range (keys.map w).sum).filter
        (fun c => first_exceeding w keys 0 c = some pk)
      = Finset.Ico (pre.map w).sum ((pre.map w).sum + w pk) := by
    ext c
    simp only [Finset.mem_filter, Finset.mem_range, Finset.mem_Ico]
    rw [first_exceeding_iff w keys 0 c pk (Nat.zero_le _)]
    constructor
    · rintro ⟨_, pre2, post2, hk2, h1, h2⟩
      have hpre2 : pre2 = pre := by
        rw [hk] at hk2
        exact ((List.append_cons_inj_of_not_mem hpre hpost).mp hk2).1.symm
      rw [hpre2] at h1 h2
      omega
    · rintro ⟨h1, h2⟩
      refine ⟨?_, pre, post, hk, by omega, by omega⟩
      rw [hk]
      simp only [List.map_append, List.map_cons, List.sum_append, List.sum_cons]
      omega
  rw [hset, Nat.card_Ico]
  omega

theorem count_window (W start : Nat) (P : Nat → Prop) [DecidablePred P] :
    ((Finset.Ico start (start + W)).filter (fun r => P (r % W))).card
      = ((Finset.range W).filter P).card := by
  rw [Nat.filter_Ico_card_eq_of_periodic start W (fun r => P (r % W))
    (fun r => by simp only [Nat.add_mod_right]), Nat.count_eq_card_filter_range]
  congr 1
  apply Finset.filter_congr
  intro c hc
  rw [Nat.mod_eq_of_lt (Finset.mem_range.mp hc)]

theorem present_rounds_le (dag : dag_t) (start W : Nat)
    (h : ∀ r, start ≤ r → r < start + W → ∃ m, lookup dag r = some m) : W ≤ dag.length := by
  have hsub : Finset.Ico start (start + W) ⊆ (dag.map Prod.fst).toFinset := by
    intro r hr
    obtain ⟨h1, h2⟩ := Finset.mem_Ico.mp hr
    obtain ⟨m, hm⟩ := h r h1 h2
    rw [List.mem_toFinset]
    exact List.mem_map.mpr ⟨(r, m), mem_of_lookup _ _ _ hm, rfl⟩
  have h1 := Finset.card_le_card hsub
  rw [Nat.card_Ico] at h1
  have h2 := List.toFinset_card_le (dag.map Prod.fst)
  rw [List.length_map] at h2
  omega

theorem load_round_keys :
    ∀ r < 6, (lookup (load_state toyHash 20).dag r).map (fun m => m.map Prod.fst)
      = some [key4 0, key4 1, key4 2, key4 3] := by
  decide

theorem dagRounds_of_entries (H : HashFn) (dag : dag_t) (h : DagEntries H dag) : DagRounds dag :=
  fun r pk e he => (dagEntries_get H dag h r pk e.1 e.2 he).1

theorem init_lc_values (H : HashFn) (certs : List Certificate)
    (acc : RoundMap × List (PublicKey × Nat)) (hacc : ∀ p ∈ acc.2, p.2 = 0)
    (hcerts : ∀ c ∈ certs, c.round = 0) :
    ∀ p ∈ (certs.foldl
        (fun (acc : RoundMap × List (PublicKey × Nat)) cert =>
          (assign acc.1 cert.origin (cert.digest H, cert),
            assign acc.2 cert.origin cert.round)) acc).2, p.2 = 0 := by
  induction certs generalizing acc with
  | nil => exact hacc
  | cons c t ih =>
    simp only [List.foldl_cons]
    apply ih
    · intro p hp
      rcases mem_assign _ _ _ _ hp with h | h
      · exact hacc p h
      · rw [h]
        exact hcerts c (List.mem_cons_self _ _)
    · exact fun x hx => hcerts x (List.mem_cons_of_mem _ hx)

theorem init_lcBound (H : HashFn) (committee : Committee) :
    LcBound (State.init H (Consensus.genesis committee)) := by
  intro p hp
  have h0 := init_lc_values H (Consensus.genesis committee) ([], [])
    (fun p hp => absurd hp (List.not_mem_nil p))
    (fun c hc => by
      simp only [Consensus.genesis, List.mem_map] at hc
      obtain ⟨q, _, rfl⟩ := hc
      rfl) p hp
  rw [h0]
  exact Nat.zero_le _

theorem update_lcBound (s : State) (c : Certificate) (gc_depth : Nat) :
    LcBound (s.update c gc_depth) :=
  fun p hp => ((fold_max_le _ 0 _).mp (le_refl _)).2 p hp

theorem updates_lcBound (s : State) (sequence : List Certificate) (gc_depth : Nat)
    (h : LcBound s) : LcBound (sequence.foldl (fun s x => s.update x gc_depth) s) := by
  induction sequence generalizing s with
  | nil => exact h
  | cons x t ih => exact ih _ (update_lcBound s x gc_depth)

theorem step_lcBound (H : HashFn) (S : RoundSorter) (fuel : Nat) (committee : Committee)
    (gc_depth : Nat) (d : Driver) (certificate : Certificate) (d2 : Driver)
    (hs : Consensus.step H S fuel committee gc_depth d certificate = some d2)
    (h : LcBound d.state) : LcBound d2.state := by
  obtain ⟨sequence, _, _, hst, _⟩ := step_state H S fuel committee gc_depth d certificate d2 hs
  rw [hst]
  exact updates_lcBound _ sequence gc_depth h

theorem run_loop_lcBound (H : HashFn) (S : RoundSorter) (fuel : Nat) (committee : Committee)
    (gc_depth : Nat) (received : List Certificate) (d d2 : Driver)
    (hr : Consensus.run_loop H S fuel committee gc_depth received d = some d2)
    (h : LcBound d.state) : LcBound d2.state := by
  induction received generalizing d with
  | nil =>
    simp only [Consensus.run_loop, Option.some.injEq] at hr
    rw [← hr]
    exact h
  | cons x t ih =>
    simp only [Consensus.run_loop] at hr
    cases hs : Consensus.step H S fuel committee gc_depth d x with
    | none =>
      rw [hs] at hr
      cases hr
    | some d1 =>
      rw [hs] at hr
      exact ih d1 hr (step_lcBound H S fuel committee gc_depth d x d1 hs h)

/-- The state after the updates for a sequence of certificates of rounds up to `R`, one of
them of round `R`, when no value of `last_committed` was above `R`: `last_committed_round`
is `R`. -/
theorem updates_lcr (s : State) (sequence : List Certificate) (gc_depth R : Nat)
    (hs : ∀ p ∈ s.last_committed, p.2 ≤ R) (hseq : ∀ c ∈ sequence, c.round ≤ R)
    (c0 : Certificate) (hc0 : c0 ∈ sequence) (hR : c0.round = R) :
    (sequence.foldl (fun s x => s.update x gc_depth) s).last_committed_round = R := by
  have hP : ∀ (l : List Certificate), (∀ c ∈ l, c.round ≤ R) →
      ∀ p ∈ (l.foldl (fun s x => s.update x gc_depth) s).last_committed, p.2 ≤ R := by
    intro l
    induction l using List.reverseRecOn with
    | nil => exact fun _ => hs
    | append_singleton l x ih =>
      intro hl p hp
      rw [List.foldl_append] at hp
      simp only [List.foldl_cons, List.foldl_nil] at hp
      have ih2 := ih (fun c hc => hl c (List.mem_append_left _ hc))
      generalize l.foldl (fun s x => s.update x gc_depth) s = st at hp ih2
      have e : (st.update x gc_depth).last_committed
          = assign st.last_committed x.origin
              (max ((lookup st.last_committed x.origin).getD 0) x.round) := rfl
      rw [e] at hp
      rcases mem_assign _ _ _ _ hp with h | h
      · exact ih2 p h
      · rw [h]
        apply max_le
        · cases hlk : lookup st.last_committed x.origin with
          | none => exact Nat.zero_le _
          | some v => exact ih2 (x.origin, v) (mem_of_lookup _ _ _ hlk)
        · exact hl x (List.mem_append_right _ (List.mem_singleton.mpr rfl))
  have hge : ∀ (l : List Certificate), c0 ∈ l →
      R ≤ (l.foldl (fun s x => s.update x gc_depth) s).last_committed_round
      ∧ (l.foldl (fun s x => s.update x gc_depth) s).last_committed_round
        ≤ (l.foldl (fun s x => s.update x gc_depth) s).last_committed.foldl
            (fun m p => max m p.2) 0 := by
    intro l
    induction l using List.reverseRecOn with
    | nil => exact fun h => absurd h (List.not_mem_nil c0)
    | append_singleton l x ih =>
      intro hmem
      rw [List.foldl_append]
      simp only [List.foldl_cons, List.foldl_nil]
      refine ⟨?_, le_of_eq rfl⟩
      rcases List.mem_append.mp hmem with h | h
      · obtain ⟨h1, h2⟩ := ih h
        exact le_trans h1 (update_lcr_mono _ x gc_depth h2)
      · rw [List.mem_singleton.mp h] at hR
        rw [← hR]
        exact update_lcr_ge_round _ x gc_depth
  apply le_antisymm
  · obtain ⟨_, h2⟩ := hge sequence hc0
    refine le_trans h2 ?_
    rw [fold_max_le]
    exact ⟨Nat.zero_le _, hP sequence hseq⟩
  · exact (hge sequence hc0).1

theorem order_leaders_loop_some (H : HashFn) (state : State) (dag : dag_t)
    (committee : Committee) (fuel j : Nat) (current : Certificate)
    (to_commit leaders : List Certificate) (hj : 2 * j < 2 ^ 64)
    (h : TuskEngine.order_leaders_loop H state dag committee fuel (2 * j) current to_commit
      = some leaders) :
    leaders = to_commit ++ leader_chain H state dag committee j current := by
  induction fuel generalizing j current to_commit with
  | zero => cases h
  | succ f ih =>
    rw [order_leaders_loop_succ] at h
    cases j with
    | zero =>
      rw [if_neg (by omega)] at h
      simp only [Option.some.injEq] at h
      rw [← h]
      simp [leader_chain]
    | succ j =>
      have hwrap : (2 * (j + 1) + 2 ^ 64 - 2) % 2 ^ 64 = 2 * j := by
        have e : 2 * (j + 1) + 2 ^ 64 - 2 = 2 * j + 2 ^ 64 := by omega
        rw [e, Nat.add_mod_right, Nat.mod_eq_of_lt (by omega)]
      unfold leader_chain
      by_cases hl : 2 * (j + 1) > state.last_committed_round
      · rw [if_pos hl, hwrap] at h
        rw [if_pos hl]
        cases hlead : TuskEngine.leader (2 * (j + 1)) dag committee with
        | none =>
          rw [hlead] at h
          dsimp only at h ⊢
          exact ih j current to_commit (by omega) h
        | some prev =>
          rw [hlead] at h
          dsimp only at h ⊢
          rw [if_neg (by omega)] at h
          by_cases hlink : TuskEngine.linked H current prev.2 dag = true
          · rw [if_pos hlink] at h ⊢
            dsimp only at h
            rw [ih j prev.2 (to_commit ++ [prev.2]) (by omega) h]
            simp
          · rw [if_neg hlink] at h ⊢
            dsimp only at h
            exact ih j current to_commit (by omega) h
      · rw [if_neg hl] at h
        rw [if_neg hl]
        simp only [Option.some.injEq] at h
        rw [← h]
        simp

theorem flatten_leaders_mem (S : RoundSorter) (fuel : Nat) (state : State)
    (leaders sequence : List Certificate)
    (h : TuskEngine.flatten_leaders S fuel state leaders = some sequence) :
    (∀ c ∈ sequence, ∃ l ∈ leaders, ∃ out, TuskEngine.order_dag S fuel l state = some out
      ∧ c ∈ out)
    ∧ (∀ l ∈ leaders, ∃ out, TuskEngine.order_dag S fuel l state = some out
      ∧ ∀ c ∈ out, c ∈ sequence) := by
  induction leaders generalizing sequence with
  | nil =>
    simp only [TuskEngine.flatten_leaders, Option.some.injEq] at h
    rw [← h]
    exact ⟨fun c hc => absurd hc (List.not_mem_nil c),
      fun l hl => absurd hl (List.not_mem_nil l)⟩
  | cons l ls ih =>
    unfold TuskEngine.flatten_leaders at h
    cases ho : TuskEngine.order_dag S fuel l state with
    | none =>
      rw [ho] at h
      cases h
    | some xs =>
      rw [ho] at h
      dsimp only at h
      cases hf : TuskEngine.flatten_leaders S fuel state ls with
      | none =>
        rw [hf] at h
        cases h
      | some rest =>
        rw [hf] at h
        simp only [Option.some.injEq] at h
        obtain ⟨h1, h2⟩ := ih rest hf
        rw [← h]
        constructor
        · intro c hc
          rcases List.mem_append.mp hc with hx | hx
          · exact ⟨l, List.mem_cons_self _ _, xs, ho, hx⟩
          · obtain ⟨l2, hl2, out, hout, hcout⟩ := h1 c hx
            exact ⟨l2, List.mem_cons_of_mem _ hl2, out, hout, hcout⟩
        · intro l2 hl2
          rcases List.mem_cons.mp hl2 with hx | hx
          · rw [hx]
            exact ⟨xs, ho, fun c hc => List.mem_append_left _ hc⟩
          · obtain ⟨out, hout, hsub⟩ := h2 l2 hx
            exact ⟨out, hout, fun c hc => List.mem_append_right _ (hsub c hc)⟩

theorem order_dag_mem (S : RoundSorter) (fuel : Nat) (leader : Certificate) (state : State)
    (hdag : DagKeyed state.dag) (out : List Certificate)
    (h : TuskEngine.order_dag S fuel leader state = some out) :
    leader ∈ out ∧ ∀ c ∈ out, c.round ≤ leader.round := by
  unfold TuskEngine.order_dag at h
  simp only [Option.map_eq_some'] at h
  obtain ⟨l, hl, rfl⟩ := h
  obtain ⟨rest, rfl, hrest⟩ := order_dag_loop_leader state hdag fuel leader l hl
  constructor
  · exact (S.perm _).mem_iff.mpr (List.mem_cons_self _ _)
  · intro c hc
    rcases List.mem_cons.mp ((S.perm _).mem_iff.mp hc) with hx | hx
    · rw [hx]
    · exact le_of_lt (hrest c hx)

/-- What a call of `TuskEngine::process_round` that returns a non-empty sequence went
through, in a DAG whose entries are stored under their own round. -/
theorem process_round_commits (H : HashFn) (S : RoundSorter) (fuel round : Nat) (dag : dag_t)
    (state : State) (committee : Committee) (sequence : List Certificate)
    (dag2 : dag_t) (state2 : State) (hround : round < 2 ^ 64) (hdag : DagRounds dag)
    (h : TuskEngine.process_round H S fuel round dag state committee
      = some (sequence, dag2, state2))
    (hne : sequence ≠ []) :
    5 ≤ round ∧ round % 2 = 1 ∧ state.last_committed_round < round - 3
    ∧ ∃ ld lc, TuskEngine.leader (round - 3) dag committee = some (ld, lc)
      ∧ lc.round = round - 3
      ∧ committee.validity_threshold ≤ support committee (lookup dag (round - 2)) ld
      ∧ TuskEngine.order_leaders H fuel lc state dag committee
          = some (lc :: leader_chain H state dag committee ((round - 3) / 2 - 1) lc)
      ∧ TuskEngine.flatten_leaders S fuel state
          (lc :: leader_chain H state dag committee ((round - 3) / 2 - 1) lc).reverse
        = some sequence := by
  unfold TuskEngine.process_round at h
  by_cases h1 : round < 4 ∨ (round - 1) % 2 ≠ 0
  · rw [if_pos h1] at h
    simp only [Option.some.injEq, Prod.mk.injEq] at h
    exact absurd h.1.symm hne
  rw [if_neg h1] at h
  dsimp only at h
  have e3 : round - 1 - 2 = round - 3 := by omega
  have e2 : round - 1 - 1 = round - 2 := by omega
  rw [e3, e2] at h
  by_cases h2 : round - 3 ≤ state.last_committed_round
  · rw [if_pos h2] at h
    simp only [Option.some.injEq, Prod.mk.injEq] at h
    exact absurd h.1.symm hne
  rw [if_neg h2] at h
  cases hlead : TuskEngine.leader (round - 3) dag committee with
  | none =>
    rw [hlead] at h
    simp only [Option.some.injEq, Prod.mk.injEq] at h
    exact absurd h.1.symm hne
  | some e =>
    obtain ⟨ld, lc⟩ := e
    rw [hlead] at h
    dsimp only at h
    by_cases h3 : support committee (lookup dag (round - 2)) ld < committee.validity_threshold
    · rw [if_pos h3] at h
      simp only [Option.some.injEq, Prod.mk.injEq] at h
      exact absurd h.1.symm hne
    rw [if_neg h3] at h
    obtain ⟨k0, hk0⟩ := leader_entry _ dag committee _ hlead
    have hlr : lc.round = round - 3 := hdag _ _ _ hk0
    cases hord : TuskEngine.order_leaders H fuel lc state dag committee with
    | none =>
      rw [hord] at h
      cases h
    | some leaders =>
      rw [hord] at h
      dsimp only at h
      have hstart : (lc.round + 2 ^ 64 - 2) % 2 ^ 64 = 2 * ((round - 3) / 2 - 1) := by
        have e : lc.round + 2 ^ 64 - 2 = (round - 5) + 2 ^ 64 := by omega
        rw [e, Nat.add_mod_right, Nat.mod_eq_of_lt (by omega)]
        omega
      have hl := hord
      unfold TuskEngine.order_leaders at hl
      rw [hstart] at hl
      have hleaders := order_leaders_loop_some H state dag committee fuel _ lc [lc] leaders
        (by omega) hl
      rw [List.singleton_append] at hleaders
      subst hleaders
      cases hfl : TuskEngine.flatten_leaders S fuel state
          (lc :: leader_chain H state dag committee ((round - 3) / 2 - 1) lc).reverse with
      | none =>
        rw [hfl] at h
        cases h
      | some sq =>
        rw [hfl] at h
        simp only [Option.some.injEq, Prod.mk.injEq] at h
        rw [← h.1]
        exact ⟨by omega, by omega, by omega, ld, lc, rfl, hlr, by omega, hord, hfl⟩

theorem step_engine_tusk (H : HashFn) (S : RoundSorter) (fuel : Nat) (committee : Committee)
    (gc_depth : Nat) (d : Driver) (certificate : Certificate) (d2 : Driver)
    (hs : Consensus.step H S fuel committee gc_depth d certificate = some d2)
    (h : d.engine = Engine.tusk) : d2.engine = Engine.tusk := by
  obtain ⟨sequence, engine, hp, _, _, _, he⟩ :=
    step_state H S fuel committee gc_depth d certificate d2 hs
  rw [h] at hp
  simp only [Engine.process_round, Option.map_eq_some', Prod.mk.injEq] at hp
  obtain ⟨_, _, _, h2, _⟩ := hp
  rw [he, ← h2]

theorem run_loop_engine_tusk (H : HashFn) (S : RoundSorter) (fuel : Nat)
    (committee : Committee) (gc_depth : Nat) (received : List Certificate) (d d2 : Driver)
    (hr : Consensus.run_loop H S fuel committee gc_depth received d = some d2)
    (h : d.engine = Engine.tusk) : d2.engine = Engine.tusk := by
  induction received generalizing d with
  | nil =>
    simp only [Consensus.run_loop, Option.some.injEq] at hr
    rw [← hr]
    exact h
  | cons x t ih =>
    simp only [Consensus.run_loop] at hr
    cases hs : Consensus.step H S fuel committee gc_depth d x with
    | none =>
      rw [hs] at hr
      cases hr
    | some d1 =>
      rw [hs] at hr
      exact ih d1 hr (step_engine_tusk H S fuel committee gc_depth d x d1 hs h)

theorem order_leaders_trace_fst (H : HashFn) (state : State) (dag : dag_t)
    (committee : Committee) (fuel r : Nat) (current : Certificate)
    (to_commit : List Certificate) (trace : List Nat) :
    (order_leaders_trace H state dag committee fuel r current to_commit trace).map Prod.fst
      = TuskEngine.order_leaders_loop H state dag committee fuel r current to_commit := by
  induction fuel generalizing r current to_commit trace with
  | zero => rfl
  | succ f ih =>
    unfold order_leaders_trace
    rw [order_leaders_loop_succ]
    by_cases hl : r > state.last_committed_round
    · rw [if_pos hl, if_pos hl]
      cases hlead : TuskEngine.leader r dag committee with
      | none =>
        dsimp only
        exact ih _ _ _ _
      | some prev =>
        dsimp only
        by_cases hr : r < 2
        · rw [if_pos hr, if_pos hr]
          rfl
        · rw [if_neg hr, if_neg hr]
          exact ih _ _ _ _
    · rw [if_neg hl, if_neg hl]
      rfl

theorem order_leaders_trace_chain (H : HashFn) (state : State) (dag : dag_t)
    (committee : Committee) (j fuel : Nat) (current : Certificate)
    (to_commit : List Certificate) (trace : List Nat) (hj : 2 * j < 2 ^ 64)
    (hfuel : j < fuel) :
    order_leaders_trace H state dag committee fuel (2 * j) current to_commit trace
      = some (to_commit ++ leader_chain H state dag committee j current,
          trace ++ (List.range (j - state.last_committed_round / 2)).map
            (fun i => 2 * j - 2 * i)) := by
  induction j generalizing fuel current to_commit trace with
  | zero =>
    obtain ⟨f, rfl⟩ : ∃ f, fuel = f + 1 := ⟨fuel - 1, by omega⟩
    unfold order_leaders_trace
    rw [if_neg (by omega)]
    simp [leader_chain]
  | succ j ih =>
    obtain ⟨f, rfl⟩ : ∃ f, fuel = f + 1 := ⟨fuel - 1, by omega⟩
    unfold order_leaders_trace
    have hwrap : (2 * (j + 1) + 2 ^ 64 - 2) % 2 ^ 64 = 2 * j := by
      have e : 2 * (j + 1) + 2 ^ 64 - 2 = 2 * j + 2 ^ 64 := by omega
      rw [e, Nat.add_mod_right, Nat.mod_eq_of_lt (by omega)]
    unfold leader_chain
    by_cases hl : 2 * (j + 1) > state.last_committed_round
    · have hn : j + 1 - state.last_committed_round / 2
          = (j - state.last_committed_round / 2) + 1 := by omega
      have htr : ∀ tr : List Nat,
          tr ++ [2 * (j + 1)] ++ (List.range (j - state.last_committed_round / 2)).map
              (fun i => 2 * j - 2 * i)
            = tr ++ (List.range (j + 1 - state.last_committed_round / 2)).map
              (fun i => 2 * (j + 1) - 2 * i) := by
        intro tr
        have e : (List.range (j - state.last_committed_round / 2)).map
              (fun i => 2 * j - 2 * i)
            = (List.range (j - state.last_committed_round / 2)).map
              ((fun i => 2 * (j + 1) - 2 * i) ∘ Nat.succ) := by
          apply List.map_congr_left
          intro i _
          show 2 * j - 2 * i = 2 * (j + 1) - 2 * (i + 1)
          omega
        rw [hn, List.range_succ_eq_map, List.map_cons, List.map_map, List.append_assoc,
          List.singleton_append, e]
        rfl
      rw [if_pos hl, if_pos hl, hwrap]
      cases hlead : TuskEngine.leader (2 * (j + 1)) dag committee with
      | none =>
        dsimp only
        rw [ih f current to_commit _ (by omega) (by omega), htr]
      | some prev =>
        dsimp only
        rw [if_neg (by omega)]
        by_cases hlink : TuskEngine.linked H current prev.2 dag = true
        · rw [if_pos hlink, if_pos hlink]
          dsimp only
          rw [ih f prev.2 (to_commit ++ [prev.2]) _ (by omega) (by omega), htr]
          simp
        · rw [if_neg hlink, if_neg hlink]
          dsimp only
          rw [ih f current to_commit _ (by omega) (by omega), htr]
    · rw [if_neg hl, if_neg hl]
      have hn : j + 1 - state.last_committed_round / 2 = 0 := by omega
      rw [hn]
      simp

theorem load_run_16 :
    Consensus.run toyHash stableSorter 5 committee4 50 Engine.tusk
        ((load_generator toyHash committee4 5).take 16)
      = some { state := load_state toyHash 16, engine := Engine.tusk, tx_primary := [],
               tx_output := [] } := by
  decide

/-- C31: in a state whose DAG stores every entry under the round of its certificate and
in which two entries hold the same digest exactly when they hold the same certificate,
`order_dag(L, state)` returns (with fuel for the entries of the DAG) a list without
repetition that holds `L`, once, and besides `L` exactly the certificates reached from `L`
by a chain of parent edges, each to the entry of the round directly below that holds a
parent digest and is not marked committed; no certificate other than `L` with
`last_committed[origin] = round` is in the list. -/
theorem order_dag_contents (S : RoundSorter) (fuel : Nat) (leader : Certificate)
    (state : State) (hk : DagKeyed state.dag) (hd : DagDistinct state.dag) :
    ∃ out, TuskEngine.order_dag S (fuel + dag_size state.dag + 1) leader state = some out
      ∧ out.Nodup ∧ out.count leader = 1
      ∧ (∀ c, c ∈ out ↔ c = leader ∨ Relation.TransGen (ParentEdge state) leader c)
      ∧ (∀ c ∈ out, c ≠ leader →
          lookup state.last_committed c.origin ≠ some c.round) := by
  have hcard : (dag_digests state.dag).toFinset.card ≤ dag_size state.dag := by
    rw [← dag_digests_length]
    exact List.toFinset_card_le _
  obtain ⟨out, _, h1, _⟩ := order_dag_loop_returns state
    (fuel + dag_size state.dag + 1) [leader] [] [] List.nodup_nil
    (fun d hd => absurd hd (List.not_mem_nil d))
    (by simp only [List.length_cons, List.length_nil]; omega)
  obtain ⟨seen2, hinv⟩ := order_dag_loop_inv state hk hd leader _ [leader] [] [] out
    (dfsInv_init state leader) h1
  have hnd : out.Nodup := by simpa using hinv.nodup
  have hL : leader ∈ out := by simpa using hinv.leader_mem
  have hsound : ∀ c ∈ out, c = leader ∨ Relation.TransGen (ParentEdge state) leader c :=
    fun c hc => hinv.sound c (by simpa using hc)
  have hclosed : ∀ c, Relation.TransGen (ParentEdge state) leader c → c ∈ out := by
    intro c h
    induction h with
    | single h => simpa using hinv.closed leader hL _ h
    | tail _ h ih => simpa using hinv.closed _ ih _ h
  have hmem : ∀ c, c ∈ S.sort out ↔ c ∈ out := fun c => (S.perm out).mem_iff
  refine ⟨S.sort out, ?_, (S.perm out).nodup_iff.mpr hnd, ?_, ?_, ?_⟩
  · unfold TuskEngine.order_dag
    rw [h1]
    rfl
  · exact List.count_eq_one_of_mem ((S.perm out).nodup_iff.mpr hnd) ((hmem _).mpr hL)
  · intro c
    rw [hmem]
    constructor
    · exact hsound c
    · rintro (h | h)
      · rw [h]
        exact hL
      · exact hclosed c h
  · intro c hc hne
    rcases hsound c ((hmem c).mp hc) with h | h
    · exact absurd h hne
    · exact reach_not_committed state leader c h

theorem order_dag_contents_witness :
    (DagKeyed (load_state toyHash 17).dag ∧ DagDistinct (load_state toyHash 17).dag)
    ∧ TuskEngine.order_dag stableSorter (0 + dag_size (load_state toyHash 17).dag + 1)
        (toy_cert 4 2 2) (load_state toyHash 17)
      = some [toy_cert 4 1 3, toy_cert 4 1 2, toy_cert 4 1 1, toy_cert 4 1 0, toy_cert 4 2 2]
    ∧ ∃ out, TuskEngine.order_dag stableSorter (0 + dag_size (load_state toyHash 17).dag + 1)
          (toy_cert 4 2 2) (load_state toyHash 17) = some out
        ∧ out.Nodup ∧ out.count (toy_cert 4 2 2) = 1 := by
  have hk : DagKeyed (load_state toyHash 17).dag :=
    dagKeyed_of_entries toyHash _
      (inserts_dagEntries toyHash _ _ (init_dagEntries toyHash committee4))
  have hd : DagDistinct (load_state toyHash 17).dag :=
    dagDistinct_of_nodup _ (by decide) (by decide)
  obtain ⟨out, h1, h2, h3, _⟩ := order_dag_contents stableSorter 0 (toy_cert 4 2 2)
    (load_state toyHash 17) hk hd
  exact ⟨⟨hk, hd⟩, by decide, out, h1, h2, h3⟩

/-- C32: in a DAG whose entries are stored under the round of their certificate, the
list that `order_dag(L, state)` returns (given fuel for one pass more than the DAG has
entries) is sorted by non-decreasing round, every element other than L has a round
strictly below `L.round`, and L is the last element. -/
theorem order_dag_sorted (S : RoundSorter) (fuel : Nat) (leader : Certificate) (state : State)
    (hdag : DagKeyed state.dag) :
    ∃ out, TuskEngine.order_dag S (fuel + dag_size state.dag + 1) leader state = some out
      ∧ out.Pairwise (fun a b => a.round ≤ b.round)
      ∧ (∀ c ∈ out, c ≠ leader → c.round < leader.round)
      ∧ out.getLast? = some leader := by
  have hcard : (dag_digests state.dag).toFinset.card ≤ dag_size state.dag := by
    rw [← dag_digests_length]
    exact List.toFinset_card_le _
  obtain ⟨out, _, h1, _, _, _⟩ := order_dag_loop_returns state
    (fuel + dag_size state.dag + 1) [leader] [] [] List.nodup_nil
    (fun d hd => absurd hd (List.not_mem_nil d))
    (by simp only [List.length_cons, List.length_nil]; omega)
  obtain ⟨rest, e, hr⟩ := order_dag_loop_leader state hdag _ leader out h1
  obtain ⟨l, hl, hsort⟩ := sort_max_last S leader rest hr
  refine ⟨S.sort out, ?_, S.sorted out, ?_, ?_⟩
  · unfold TuskEngine.order_dag
    rw [h1]
    rfl
  · intro c hc hne
    rw [e, hsort] at hc
    rcases List.mem_append.mp hc with h3 | h3
    · exact hr c (hl.subset h3)
    · exact absurd (List.mem_singleton.mp h3) hne
  · rw [e, hsort]
    simp

theorem order_dag_sorted_witness :
    DagKeyed (load_state toyHash 17).dag
    ∧ TuskEngine.order_dag stableSorter (0 + dag_size (load_state toyHash 17).dag + 1)
        (toy_cert 4 2 2) (load_state toyHash 17)
      = some [toy_cert 4 1 3, toy_cert 4 1 2, toy_cert 4 1 1, toy_cert 4 1 0, toy_cert 4 2 2]
    ∧ ∃ out, TuskEngine.order_dag stableSorter (0 + dag_size (load_state toyHash 17).dag + 1)
          (toy_cert 4 2 2) (load_state toyHash 17) = some out
        ∧ out.getLast? = some (toy_cert 4 2 2) := by
  have hk : DagKeyed (load_state toyHash 17).dag :=
    dagKeyed_of_entries toyHash _
      (inserts_dagEntries toyHash _ _ (init_dagEntries toyHash committee4))
  obtain ⟨out, h1, _, _, h4⟩ := order_dag_sorted stableSorter 0 (toy_cert 4 2 2)
    (load_state toyHash 17) hk
  exact ⟨hk, by decide, out, h1, h4⟩

/-- C33 (counterexample): the DAG of the load generator holds the four authorities at
round 4. With reputation 2^64 − 4 for the first of them the weights are 2^64 − 3, 1, 1, 1:
their sum is 2^64, the 64-bit `total_reputation` is 0, and `select_anchor(4)` takes
`round % 0`: it returns neither an entry nor nothing. -/
theorem select_anchor_modulus_zero :
    ((lookup (load_state toyHash 20).dag 4).map (fun m => m.map Prod.fst)
      = some [key4 0, key4 1, key4 2, key4 3])
    ∧ ([key4 0, key4 1, key4 2, key4 3].map (fun pk => rep_val heavy_reputation pk + 1)).sum
      = 2 ^ 64
    ∧ ([key4 0, key4 1, key4 2, key4 3].foldl
        (fun total pk => (total + (rep_val heavy_reputation pk + 1) % 2 ^ 64) % 2 ^ 64) 0) = 0
    ∧ ShoalPlusPlusEngine.select_anchor heavy_reputation 4 (load_state toyHash 20).dag
        committee4 = none := by
  refine ⟨by decide, by decide, by decide, by decide⟩

/-- C33 (amended): let the weights `reputation[pk] + 1` of the keys present in `dag[L]`
sum below 2^64. Then `select_anchor(L)` returns nothing exactly when the DAG has no round
`L` or the round is empty. Otherwise, with `keys` the keys of `dag[L]` in ascending order
and `W` the sum of their weights, `W ≥ 1` and the call returns the entry of the first key
whose running weight sum exceeds `L mod W`: the key `pk` with
`keys = pre ++ pk :: post` and `sum(pre) ≤ L mod W < sum(pre) + weight(pk)`. The
reputation map keeps its values. -/
theorem select_anchor_choice (reputation : List (PublicKey × Nat)) (round : Nat) (dag : dag_t)
    (committee : Committee)
    (h : (((lookup dag round).getD []).map (fun p => rep_val reputation p.1 + 1)).sum
      < 2 ^ 64) :
    ((∃ rep2, ShoalPlusPlusEngine.select_anchor reputation round dag committee
        = some (none, rep2))
      ↔ (lookup dag round = none ∨ lookup dag round = some []))
    ∧ (∀ m keys, lookup dag round = some m → m ≠ [] → keys.Perm (m.map Prod.fst) →
        keys.Sorted (· ≤ ·) →
        1 ≤ (keys.map (fun pk => rep_val reputation pk + 1)).sum
        ∧ ∃ pre pk post e rep2, keys = pre ++ pk :: post
          ∧ (pre.map (fun pk => rep_val reputation pk + 1)).sum
              ≤ round % (keys.map (fun pk => rep_val reputation pk + 1)).sum
          ∧ round % (keys.map (fun pk => rep_val reputation pk + 1)).sum
              < (pre.map (fun pk => rep_val reputation pk + 1)).sum
                + (rep_val reputation pk + 1)
          ∧ first_exceeding (fun pk => rep_val reputation pk + 1) keys 0
              (round % (keys.map (fun pk => rep_val reputation pk + 1)).sum) = some pk
          ∧ dag_get dag round pk = some e
          ∧ ShoalPlusPlusEngine.select_anchor reputation round dag committee
              = some (some e, rep2)
          ∧ ∀ k, rep_val rep2 k = rep_val reputation k) := by
  have hsecond : ∀ m keys, lookup dag round = some m → m ≠ [] → keys.Perm (m.map Prod.fst) →
      keys.Sorted (· ≤ ·) →
      1 ≤ (keys.map (fun pk => rep_val reputation pk + 1)).sum
      ∧ ∃ pre pk post e rep2, keys = pre ++ pk :: post
        ∧ (pre.map (fun pk => rep_val reputation pk + 1)).sum
            ≤ round % (keys.map (fun pk => rep_val reputation pk + 1)).sum
        ∧ round % (keys.map (fun pk => rep_val reputation pk + 1)).sum
            < (pre.map (fun pk => rep_val reputation pk + 1)).sum
              + (rep_val reputation pk + 1)
        ∧ first_exceeding (fun pk => rep_val reputation pk + 1) keys 0
            (round % (keys.map (fun pk => rep_val reputation pk + 1)).sum) = some pk
        ∧ dag_get dag round pk = some e
        ∧ ShoalPlusPlusEngine.select_anchor reputation round dag committee
            = some (some e, rep2)
        ∧ ∀ k, rep_val rep2 k = rep_val reputation k := by
    intro m keys hm hne hperm hsorted
    have hsum : (keys.map (fun pk => rep_val reputation pk + 1)).sum < 2 ^ 64 := by
      rw [hm] at h
      simp only [Option.getD_some] at h
      rw [(hperm.map _).sum_eq, List.map_map]
      exact h
    obtain ⟨hpos, pk, e, rep2, hpk, hfe, he, hsel⟩ :=
      select_anchor_first_exceeding reputation round dag committee m keys hm hne hperm
        hsorted hsum
    obtain ⟨pre, post, hk, h1, h2⟩ :=
      (first_exceeding_iff _ keys 0 _ pk (Nat.zero_le _)).mp hfe
    refine ⟨hpos, pre, pk, post, e, rep2, hk, by omega, by omega, hfe, ?_, hsel, ?_⟩
    · unfold dag_get
      rw [hm]
      exact he
    · exact select_anchor_rep reputation round dag committee _ hsel
  refine ⟨?_, hsecond⟩
  constructor
  · rintro ⟨rep2, hsel⟩
    cases hm : lookup dag round with
    | none => exact Or.inl rfl
    | some m =>
      right
      by_cases hne : m = []
      · rw [hne]
      · exfalso
        obtain ⟨_, _, _, _, e, rep3, _, _, _, _, _, hsel2, _⟩ :=
          hsecond m ((m.map Prod.fst).insertionSort (· ≤ ·)) hm hne
            (List.perm_insertionSort _ _) (List.sorted_insertionSort _ _)
        rw [hsel] at hsel2
        cases hsel2
  · intro hm
    unfold ShoalPlusPlusEngine.select_anchor
    rcases hm with hm | hm
    · rw [hm]
      exact ⟨_, rfl⟩
    · rw [hm]
      exact ⟨_, rfl⟩

theorem select_anchor_choice_witness :
    (((lookup (load_state toyHash 20).dag 4).getD []).map
        (fun p => rep_val [(key4 1, 2)] p.1 + 1)).sum < 2 ^ 64
    ∧ lookup (load_state toyHash 20).dag 4
        = some [(key4 0, (toy_digest 4 0, toy_cert 4 4 0)),
            (key4 1, (toy_digest 4 1, toy_cert 4 4 1)),
            (key4 2, (toy_digest 4 2, toy_cert 4 4 2)),
            (key4 3, (toy_digest 4 3, toy_cert 4 4 3))]
    ∧ 1 ≤ ([key4 0, key4 1, key4 2, key4 3].map (fun pk => rep_val [(key4 1, 2)] pk + 1)).sum
    ∧ ((ShoalPlusPlusEngine.select_anchor [(key4 1, 2)] 4 (load_state toyHash 20).dag
        committee4).map Prod.fst = some (some (toy_digest 4 2, toy_cert 4 4 2))) := by
  have hm : lookup (load_state toyHash 20).dag 4
        = some [(key4 0, (toy_digest 4 0, toy_cert 4 4 0)),
            (key4 1, (toy_digest 4 1, toy_cert 4 4 1)),
            (key4 2, (toy_digest 4 2, toy_cert 4 4 2)),
            (key4 3, (toy_digest 4 3, toy_cert 4 4 3))] := by decide
  have hw : (((lookup (load_state toyHash 20).dag 4).getD []).map
        (fun p => rep_val [(key4 1, 2)] p.1 + 1)).sum < 2 ^ 64 := by decide
  have h := (select_anchor_choice [(key4 1, 2)] 4 (load_state toyHash 20).dag committee4
    hw).2 _ [key4 0, key4 1, key4 2, key4 3] hm (by decide) (by decide) (by decide)
  exact ⟨hw, hm, h.1, by decide⟩

/-- C34: let the keys `keys` (ascending, not empty) be the keys present at each of the `W`
consecutive rounds from `start` on, where `W` is the sum of the weights
`reputation[pk] + 1` (0 reputation if absent); a DAG has fewer than 2^64 rounds. Then
`1 ≤ W < 2^64`; at each of these rounds `select_anchor`, run with a reputation map of
these values, returns the entry of the first key whose running weight sum exceeds
`round mod W`; each key `pk` is that key at exactly `reputation[pk] + 1` of the `W`
rounds; so a key of higher reputation is selected at least as often as one of lower
reputation. -/
theorem weighted_round_robin (reputation : List (PublicKey × Nat)) (dag : dag_t)
    (committee : Committee) (keys : List PublicKey) (start : Nat)
    (hlen : dag.length < 2 ^ 64) (hne : keys ≠ []) (hsorted : keys.Sorted (· < ·))
    (hpresent : ∀ r, start ≤ r →
      r < start + (keys.map (fun pk => rep_val reputation pk + 1)).sum →
      ∃ m, lookup dag r = some m ∧ (m.map Prod.fst).Perm keys) :
    1 ≤ (keys.map (fun pk => rep_val reputation pk + 1)).sum
    ∧ (keys.map (fun pk => rep_val reputation pk + 1)).sum < 2 ^ 64
    ∧ (∀ r, start ≤ r → r < start + (keys.map (fun pk => rep_val reputation pk + 1)).sum →
        ∀ rep1, (∀ k, rep_val rep1 k = rep_val reputation k) →
        ∃ pk e, pk ∈ keys
          ∧ first_exceeding (fun pk => rep_val reputation pk + 1) keys 0
              (r % (keys.map (fun pk => rep_val reputation pk + 1)).sum) = some pk
          ∧ dag_get dag r pk = some e
          ∧ (ShoalPlusPlusEngine.select_anchor rep1 r dag committee).map Prod.fst
              = some (some e))
    ∧ (∀ pk ∈ keys,
        ((Finset.Ico start (start + (keys.map (fun pk => rep_val reputation pk + 1)).sum)).filter
          (fun r => first_exceeding (fun pk => rep_val reputation pk + 1) keys 0
            (r % (keys.map (fun pk => rep_val reputation pk + 1)).sum) = some pk)).card
          = rep_val reputation pk + 1)
    ∧ (∀ pk1 ∈ keys, ∀ pk2 ∈ keys, rep_val reputation pk1 ≤ rep_val reputation pk2 →
        ((Finset.Ico start (start + (keys.map (fun pk => rep_val reputation pk + 1)).sum)).filter
          (fun r => first_exceeding (fun pk => rep_val reputation pk + 1) keys 0
            (r % (keys.map (fun pk => rep_val reputation pk + 1)).sum) = some pk1)).card
        ≤ ((Finset.Ico start
            (start + (keys.map (fun pk => rep_val reputation pk + 1)).sum)).filter
          (fun r => first_exceeding (fun pk => rep_val reputation pk + 1) keys 0
            (r % (keys.map (fun pk => rep_val reputation pk + 1)).sum) = some pk2)).card) := by
  have hW : (keys.map (fun pk => rep_val reputation pk + 1)).sum < 2 ^ 64 := by
    have := present_rounds_le dag start _ (fun r h1 h2 => by
      obtain ⟨m, hm, _⟩ := hpresent r h1 h2
      exact ⟨m, hm⟩)
    omega
  have hpos : 1 ≤ (keys.map (fun pk => rep_val reputation pk + 1)).sum := by
    cases keys with
    | nil => exact absurd rfl hne
    | cons k t =>
      simp only [List.map_cons, List.sum_cons]
      omega
  have hcount : ∀ pk ∈ keys,
      ((Finset.Ico start (start + (keys.map (fun pk => rep_val reputation pk + 1)).sum)).filter
        (fun r => first_exceeding (fun pk => rep_val reputation pk + 1) keys 0
          (r % (keys.map (fun pk => rep_val reputation pk + 1)).sum) = some pk)).card
        = rep_val reputation pk + 1 := by
    intro pk hpk
    rw [count_window _ start
      (fun c => first_exceeding (fun pk => rep_val reputation pk + 1) keys 0 c = some pk)]
    exact count_first_exceeding (fun pk => rep_val reputation pk + 1) keys pk hsorted.nodup hpk
  refine ⟨hpos, hW, ?_, hcount, ?_⟩
  · intro r h1 h2 rep1 hrep
    obtain ⟨m, hm, hperm⟩ := hpresent r h1 h2
    have hmne : m ≠ [] := by
      intro e
      rw [e] at hperm
      exact hne (List.perm_nil.mp hperm.symm)
    obtain ⟨_, pk, e, rep2, hpk, hfe, he, hsel⟩ :=
      select_anchor_first_exceeding reputation r dag committee m keys hm hmne hperm.symm
        hsorted.le_of_lt hW
    refine ⟨pk, e, hpk, hfe, ?_, ?_⟩
    · unfold dag_get
      rw [hm]
      exact he
    · rw [select_anchor_congr rep1 reputation r dag committee hrep, hsel]
      rfl
  · intro pk1 h1 pk2 h2 hle
    rw [hcount pk1 h1, hcount pk2 h2]
    omega

theorem weighted_round_robin_witness :
    ((load_state toyHash 20).dag.length < 2 ^ 64
      ∧ [key4 0, key4 1, key4 2, key4 3].Sorted (· < ·)
      ∧ ([key4 0, key4 1, key4 2, key4 3].map (fun pk => rep_val [(key4 1, 2)] pk + 1)).sum
        = 6)
    ∧ ((Finset.Ico 0 (0 + ([key4 0, key4 1, key4 2, key4 3].map
            (fun pk => rep_val [(key4 1, 2)] pk + 1)).sum)).filter
          (fun r => first_exceeding (fun pk => rep_val [(key4 1, 2)] pk + 1)
            [key4 0, key4 1, key4 2, key4 3] 0
            (r % ([key4 0, key4 1, key4 2, key4 3].map
              (fun pk => rep_val [(key4 1, 2)] pk + 1)).sum) = some (key4 1))).card
        = rep_val [(key4 1, 2)] (key4 1) + 1
    ∧ rep_val [(key4 1, 2)] (key4 1) + 1 = 3 := by
  have hs : [key4 0, key4 1, key4 2, key4 3].Sorted (· < ·) := by decide
  have hl : (load_state toyHash 20).dag.length < 2 ^ 64 := by decide
  have hsum : ([key4 0, key4 1, key4 2, key4 3].map
      (fun pk => rep_val [(key4 1, 2)] pk + 1)).sum = 6 := by decide
  have h := weighted_round_robin [(key4 1, 2)] (load_state toyHash 20).dag committee4
    [key4 0, key4 1, key4 2, key4 3] 0 hl (by decide) hs
    (fun r _ h2 => by
      rw [hsum] at h2
      have hk := load_round_keys r (by omega)
      cases hm : lookup (load_state toyHash 20).dag r with
      | none =>
        rw [hm] at hk
        cases hk
      | some m =>
        rw [hm] at hk
        simp only [Option.map_some', Option.some.injEq] at hk
        exact ⟨m, rfl, by rw [hk]⟩)
  exact ⟨⟨hl, hs, hsum⟩, h.2.2.2.1 (key4 1) (by decide), by decide⟩

/-- C35: for a reputation map (distinct keys) and a list of committed certificates,
`update_reputation` leaves a map whose keys are the old keys and the origins of the
committed certificates; with at most 100 such keys the value of an origin is its old
value (0 when absent) plus the number of committed certificates of that origin, in
64-bit unsigned arithmetic, and every other entry is as before; with more than 100
keys every value is halved after that, rounding down. -/
theorem reputation_update (reputation : List (PublicKey × Nat)) (committed : List Certificate)
    (hnd : (reputation.map Prod.fst).Nodup) :
    ((ShoalPlusPlusEngine.update_reputation reputation committed).map Prod.fst).Nodup
    ∧ ((ShoalPlusPlusEngine.update_reputation reputation committed).map Prod.fst).toFinset
        = (reputation.map Prod.fst).toFinset ∪ (committed.map Certificate.origin).toFinset
    ∧ (ShoalPlusPlusEngine.update_reputation reputation committed).length
        = ((reputation.map Prod.fst).toFinset
            ∪ (committed.map Certificate.origin).toFinset).card
    ∧ (((reputation.map Prod.fst).toFinset
          ∪ (committed.map Certificate.origin).toFinset).card ≤ 100 →
        ∀ pk, lookup (ShoalPlusPlusEngine.update_reputation reputation committed) pk
          = if pk ∈ committed.map Certificate.origin
            then some ((rep_val reputation pk
              + (committed.map Certificate.origin).count pk) % 2 ^ 64)
            else lookup reputation pk)
    ∧ (100 < ((reputation.map Prod.fst).toFinset
          ∪ (committed.map Certificate.origin).toFinset).card →
        ∀ pk, lookup (ShoalPlusPlusEngine.update_reputation reputation committed) pk
          = if pk ∈ committed.map Certificate.origin
            then some ((rep_val reputation pk
              + (committed.map Certificate.origin).count pk) % 2 ^ 64 / 2)
            else (lookup reputation pk).map (fun v => v / 2))
    ∧ (∀ pk, rep_val reputation pk + (committed.map Certificate.origin).count pk < 2 ^ 64 →
        (rep_val reputation pk + (committed.map Certificate.origin).count pk) % 2 ^ 64
          = rep_val reputation pk + (committed.map Certificate.origin).count pk) := by
  obtain ⟨hk1, hk2⟩ := bump_keys committed reputation hnd
  have hlen : (committed.foldl
        (fun rep cert =>
          assign rep cert.origin (((lookup rep cert.origin).getD 0 + 1) % 2 ^ 64))
        reputation).length
      = ((reputation.map Prod.fst).toFinset
          ∪ (committed.map Certificate.origin).toFinset).card := by
    rw [← hk2, List.toFinset_card_of_nodup hk1, List.length_map]
  unfold ShoalPlusPlusEngine.update_reputation
  dsimp only
  rw [hlen]
  by_cases hn : ((reputation.map Prod.fst).toFinset
      ∪ (committed.map Certificate.origin).toFinset).card > 100
  · rw [if_pos hn]
    have hmap : ∀ l : List (PublicKey × Nat),
        (l.map (fun p => (p.1, p.2 / 2))).map Prod.fst = l.map Prod.fst := by
      intro l
      rw [List.map_map]
      rfl
    refine ⟨by rw [hmap]; exact hk1, by rw [hmap]; exact hk2, by rw [List.length_map, hlen],
      fun h => absurd hn (by omega), ?_, fun pk h => Nat.mod_eq_of_lt h⟩
    intro _ pk
    have hl := lookup_map_value (committed.foldl
        (fun rep cert =>
          assign rep cert.origin (((lookup rep cert.origin).getD 0 + 1) % 2 ^ 64))
        reputation) (fun v => v / 2) pk
    rw [bump_lookup] at hl
    rw [hl]
    split <;> rfl
  · rw [if_neg hn]
    refine ⟨hk1, hk2, hlen, ?_, fun h => absurd h hn, fun pk h => Nat.mod_eq_of_lt h⟩
    intro _ pk
    exact bump_lookup committed reputation pk

theorem reputation_update_witness :
    ([(key4 0, 5), (key4 1, 0)].map Prod.fst).Nodup
    ∧ lookup (ShoalPlusPlusEngine.update_reputation [(key4 0, 5), (key4 1, 0)]
        [toy_cert 4 4 0, toy_cert 4 4 3, toy_cert 4 3 0]) (key4 0)
      = some 7
    ∧ lookup (ShoalPlusPlusEngine.update_reputation [(key4 0, 5), (key4 1, 0)]
        [toy_cert 4 4 0, toy_cert 4 4 3, toy_cert 4 3 0]) (key4 3)
      = some 1
    ∧ lookup (ShoalPlusPlusEngine.update_reputation [(key4 0, 5), (key4 1, 0)]
        [toy_cert 4 4 0, toy_cert 4 4 3, toy_cert 4 3 0]) (key4 1)
      = some 0 :=
  ⟨by decide,
    ((reputation_update [(key4 0, 5), (key4 1, 0)]
      [toy_cert 4 4 0, toy_cert 4 4 3, toy_cert 4 3 0] (by decide)).2.2.2.1 (by decide)
      (key4 0)).trans (by decide),
    ((reputation_update [(key4 0, 5), (key4 1, 0)]
      [toy_cert 4 4 0, toy_cert 4 4 3, toy_cert 4 3 0] (by decide)).2.2.2.1 (by decide)
      (key4 3)).trans (by decide),
    ((reputation_update [(key4 0, 5), (key4 1, 0)]
      [toy_cert 4 4 0, toy_cert 4 4 3, toy_cert 4 3 0] (by decide)).2.2.2.1 (by decide)
      (key4 1)).trans (by decide)⟩

/-- C36: in every state reached from the genesis state by insert steps of the driver and
calls of `State::update`, in any order, every entry `dag[r][a] = (d, c)` has
`c.round = r`, `c.origin = a` and `d = c.digest()`; so it is in every state of a
driver run, whatever the engine. -/
theorem driver_dag_wellformed (H : HashFn) (committee : Committee) (ops : List StateOp) :
    (∀ r a d c,
      dag_get ((State.init H (Consensus.genesis committee)).apply H ops).dag r a = some (d, c) →
      c.round = r ∧ c.origin = a ∧ d = c.digest H)
    ∧ DagEntries H ((State.init H (Consensus.genesis committee)).apply H ops).dag
    ∧ (∀ (S : RoundSorter) (fuel gc_depth : Nat) (engine : Engine)
        (received : List Certificate) (driver : Driver),
        Consensus.run H S fuel committee gc_depth engine received = some driver →
        ∀ r a d c, dag_get driver.state.dag r a = some (d, c) →
          c.round = r ∧ c.origin = a ∧ d = c.digest H) := by
  have h := apply_dagEntries H _ ops (init_dagEntries H committee)
  refine ⟨fun r a d c he => dagEntries_get H _ h r a d c he, h, ?_⟩
  intro S fuel gc_depth engine received driver hr r a d c he
  exact dagEntries_get H _
    (run_loop_dagEntries H S fuel committee gc_depth received _ driver hr
      (init_dagEntries H committee)) r a d c he

theorem driver_dag_wellformed_witness :
    dag_get ((State.init toyHash (Consensus.genesis committee4)).apply toyHash
        [.insert (toy_cert 4 1 0), .insert (toy_cert 4 2 1), .update (toy_cert 4 1 0) 0,
          .insert (toy_cert 4 2 3)]).dag 2 (key4 3) = some (toy_digest 2 3, toy_cert 4 2 3)
    ∧ ((toy_cert 4 2 3).round = 2 ∧ (toy_cert 4 2 3).origin = key4 3
      ∧ toy_digest 2 3 = (toy_cert 4 2 3).digest toyHash) :=
  ⟨by decide,
    (driver_dag_wellformed toyHash committee4
      [.insert (toy_cert 4 1 0), .insert (toy_cert 4 2 1), .update (toy_cert 4 1 0) 0,
        .insert (toy_cert 4 2 3)]).1 2 (key4 3) (toy_digest 2 3) (toy_cert 4 2 3) (by decide)⟩

/-- C37: in a run of the driver with the Tusk engine from the genesis state, let
`process_round` return a non-empty sequence for a received certificate of round `round`
(after the insert step). Then `round ≥ 5`, every certificate of the sequence has a round
of at most `round − 3`, the elected leader of round `round − 3` is in the sequence, and
after `State::update` was applied to all of them `last_committed_round` is `round − 3`;
this is the state that the step of the driver ends in. -/
theorem tusk_commit_rounds (H : HashFn) (S : RoundSorter) (fuel : Nat) (committee : Committee)
    (gc_depth : Nat) (received : List Certificate) (d : Driver) (certificate : Certificate)
    (sequence : List Certificate) (dag2 : dag_t) (state2 : State)
    (hrun : Consensus.run H S fuel committee gc_depth Engine.tusk received = some d)
    (hround : certificate.round < 2 ^ 64)
    (hp : TuskEngine.process_round H S fuel certificate.round
        (Consensus.insert H d.state certificate).dag (Consensus.insert H d.state certificate)
        committee = some (sequence, dag2, state2))
    (hne : sequence ≠ []) :
    5 ≤ certificate.round
    ∧ (∀ c ∈ sequence, c.round ≤ certificate.round - 3)
    ∧ (∃ ld lc, TuskEngine.leader (certificate.round - 3)
          (Consensus.insert H d.state certificate).dag committee = some (ld, lc)
        ∧ lc.round = certificate.round - 3 ∧ lc ∈ sequence)
    ∧ (sequence.foldl (fun s x => s.update x gc_depth) state2).last_committed_round
        = certificate.round - 3
    ∧ ∃ d2, Consensus.step H S fuel committee gc_depth d certificate = some d2
        ∧ d2.tx_output = d.tx_output ++ sequence
        ∧ d2.state = sequence.foldl (fun s x => s.update x gc_depth) state2
        ∧ d2.state.last_committed_round = certificate.round - 3 := by
  unfold Consensus.run at hrun
  have hE : DagEntries H d.state.dag :=
    run_loop_dagEntries H S fuel committee gc_depth received _ d hrun
      (init_dagEntries H committee)
  have hB : LcBound d.state :=
    run_loop_lcBound H S fuel committee gc_depth received _ d hrun (init_lcBound H committee)
  have hT : d.engine = Engine.tusk :=
    run_loop_engine_tusk H S fuel committee gc_depth received _ d hrun rfl
  have hEi := insert_dagEntries H d.state certificate hE
  have hfr := tusk_frame H S fuel _ _ _ _ _ hp
  simp only [Prod.mk.injEq] at hfr
  obtain ⟨hd2, hs2⟩ := hfr
  subst hd2
  subst hs2
  obtain ⟨h5, _, hlcr, ld, lc, hlead, hlr, _, hord, hfl⟩ :=
    process_round_commits H S fuel certificate.round _ _ committee sequence _ _ hround
      (dagRounds_of_entries H _ hEi) hp hne
  obtain ⟨hseq1, hseq2⟩ := flatten_leaders_mem S fuel _ _ sequence hfl
  obtain ⟨hch, _, _, _⟩ := leader_chain_spec H (Consensus.insert H d.state certificate)
    (Consensus.insert H d.state certificate).dag committee (dagRounds_of_entries H _ hEi)
    ((certificate.round - 3) / 2 - 1) lc (by omega)
  have hK := dagKeyed_of_entries H _ hEi
  have hrounds : ∀ c ∈ sequence, c.round ≤ certificate.round - 3 := by
    intro c hc
    obtain ⟨l, hl, out, hout, hcout⟩ := hseq1 c hc
    have h1 := (order_dag_mem S fuel l _ hK out hout).2 c hcout
    rcases List.mem_cons.mp (List.mem_reverse.mp hl) with hx | hx
    · rw [hx, hlr] at h1
      exact h1
    · have := (hch l hx).2.1
      omega
  have hmem : lc ∈ sequence := by
    obtain ⟨out, hout, hsub⟩ := hseq2 lc (List.mem_reverse.mpr (List.mem_cons_self _ _))
    exact hsub lc (order_dag_mem S fuel lc _ hK out hout).1
  have hfin : (sequence.foldl (fun s x => s.update x gc_depth)
      (Consensus.insert H d.state certificate)).last_committed_round
        = certificate.round - 3 := by
    refine updates_lcr _ sequence gc_depth _ ?_ hrounds lc hmem hlr
    intro p hp2
    exact le_trans (hB p hp2) (le_of_lt hlcr)
  refine ⟨h5, hrounds, ⟨ld, lc, hlead, hlr, hmem⟩, hfin, ?_⟩
  have hst := step_tusk H S fuel committee gc_depth d certificate sequence hT hp
  have hc := commit_state gc_depth sequence
    { d with state := Consensus.insert H d.state certificate }
  refine ⟨_, hst, hc.2.1, hc.1, ?_⟩
  rw [hc.1]
  exact hfin

theorem tusk_commit_rounds_witness :
    (Consensus.run toyHash stableSorter 5 committee4 50 Engine.tusk
        ((load_generator toyHash committee4 5).take 16)
      = some { state := load_state toyHash 16, engine := Engine.tusk, tx_primary := [],
               tx_output := [] }
      ∧ (toy_next 4).round = 5
      ∧ TuskEngine.process_round toyHash stableSorter 5 (toy_next 4).round
          (Consensus.insert toyHash (load_state toyHash 16) (toy_next 4)).dag
          (Consensus.insert toyHash (load_state toyHash 16) (toy_next 4)) committee4
        = some ([toy_cert 4 1 3, toy_cert 4 1 2, toy_cert 4 1 1, toy_cert 4 1 0,
              toy_cert 4 2 2],
            (Consensus.insert toyHash (load_state toyHash 16) (toy_next 4)).dag,
            Consensus.insert toyHash (load_state toyHash 16) (toy_next 4)))
    ∧ (∀ c ∈ [toy_cert 4 1 3, toy_cert 4 1 2, toy_cert 4 1 1, toy_cert 4 1 0,
          toy_cert 4 2 2], c.round ≤ 5 - 3)
    ∧ ([toy_cert 4 1 3, toy_cert 4 1 2, toy_cert 4 1 1, toy_cert 4 1 0,
          toy_cert 4 2 2].foldl (fun s x => s.update x 50)
        (Consensus.insert toyHash (load_state toyHash 16) (toy_next 4))).last_committed_round
      = 5 - 3 := by
  have hrun := load_run_16
  have hp : TuskEngine.process_round toyHash stableSorter 5 (toy_next 4).round
          (Consensus.insert toyHash (load_state toyHash 16) (toy_next 4)).dag
          (Consensus.insert toyHash (load_state toyHash 16) (toy_next 4)) committee4
        = some ([toy_cert 4 1 3, toy_cert 4 1 2, toy_cert 4 1 1, toy_cert 4 1 0,
              toy_cert 4 2 2],
            (Consensus.insert toyHash (load_state toyHash 16) (toy_next 4)).dag,
            Consensus.insert toyHash (load_state toyHash 16) (toy_next 4)) := by decide
  have h := tusk_commit_rounds toyHash stableSorter 5 committee4 50
    ((load_generator toyHash committee4 5).take 16) _ (toy_next 4) _ _ _ hrun (by decide) hp
    (by decide)
  exact ⟨⟨hrun, rfl, hp⟩, h.2.1, h.2.2.2.1⟩

/-- C38: `order_dag` ends on every DAG, state and leader, whatever the parent digests
point to: given fuel for one pass more than the DAG has entries, it returns a list;
a certificate is pushed only with a digest stored in the DAG that was not pushed
before, so the list has one element for the leader and one for each of these
distinct digests, at most `1 + (number of DAG entries)` elements. -/
theorem order_dag_terminates (S : RoundSorter) (fuel : Nat) (leader : Certificate)
    (state : State) :
    ∃ (out : List Certificate) (pushed_digests : List Digest),
      TuskEngine.order_dag S (fuel + dag_size state.dag + 1) leader state = some out
      ∧ pushed_digests.Nodup ∧ (∀ d ∈ pushed_digests, d ∈ dag_digests state.dag)
      ∧ out.length = 1 + pushed_digests.length
      ∧ out.length ≤ 1 + dag_size state.dag := by
  have hcard : (dag_digests state.dag).toFinset.card ≤ dag_size state.dag := by
    rw [← dag_digests_length]
    exact List.toFinset_card_le _
  obtain ⟨out, seen2, h1, h2, h3, h4⟩ := order_dag_loop_returns state
    (fuel + dag_size state.dag + 1) [leader] [] [] List.nodup_nil
    (fun d hd => absurd hd (List.not_mem_nil d))
    (by simp only [List.length_cons, List.length_nil]; omega)
  simp only [List.length_nil, List.length_cons, Nat.add_zero, Nat.zero_add] at h4
  have hlen : (S.sort out).length = out.length := (S.perm out).length_eq
  have hle := seen_length_le state.dag seen2 h2 h3
  refine ⟨S.sort out, seen2, ?_, h2, h3, by omega, by omega⟩
  unfold TuskEngine.order_dag
  rw [h1]
  rfl

theorem order_dag_terminates_witness :
    TuskEngine.order_dag stableSorter (0 + dag_size cycle_state.dag + 1) cycle_cert cycle_state
      = some [cycle_cert, cycle_cert]
    ∧ ∃ (out : List Certificate) (pushed_digests : List Digest),
        TuskEngine.order_dag stableSorter (0 + dag_size cycle_state.dag + 1) cycle_cert
          cycle_state = some out
        ∧ out.length = 1 + pushed_digests.length ∧ out.length ≤ 1 + dag_size cycle_state.dag := by
  obtain ⟨out, pushed, h1, _, _, h4, h5⟩ :=
    order_dag_terminates stableSorter 0 cycle_cert cycle_state
  exact ⟨by decide, out, pushed, h1, h4, h5⟩

/-- In `odd_leader_state` the loop of `order_leaders` never ends from an odd counter: no
odd round but 3 is in the DAG, so the counter steps from 1 to 2^64 − 1. -/
theorem odd_leader_loop (fuel r : Nat) (current : Certificate) (to_commit : List Certificate)
    (hodd : r % 2 = 1) (hr : r < 2 ^ 64) :
    TuskEngine.order_leaders_loop toyHash odd_leader_state odd_leader_state.dag committee4
      fuel r current to_commit = none := by
  induction fuel generalizing r current to_commit with
  | zero => rfl
  | succ f ih =>
    rw [order_leaders_loop_succ]
    have hl : r > odd_leader_state.last_committed_round := by
      show r > 0
      omega
    have hodd2 : ((r + 2 ^ 64 - 2) % 2 ^ 64) % 2 = 1 := by omega
    have hlt : (r + 2 ^ 64 - 2) % 2 ^ 64 < 2 ^ 64 := by omega
    rw [if_pos hl]
    by_cases h1 : r = 1
    · subst h1
      have hnone : TuskEngine.leader 1 odd_leader_state.dag committee4 = none := by decide
      rw [hnone]
      exact ih _ _ _ hodd2 hlt
    · cases hlead : TuskEngine.leader r odd_leader_state.dag committee4 with
      | none => exact ih _ _ _ hodd2 hlt
      | some prev =>
        dsimp only
        rw [if_neg (by omega)]
        exact ih _ _ _ hodd2 hlt

/-- C39 (counterexample): a DAG that is not keyed by round. `dag[2]` holds the round-1
certificate of authority 0 and `dag[3]` two certificates that list its digest, so
`process_round(5, …)` passes its round test, elects that certificate as the leader of
round 2 with stake 200 against the threshold 134, and calls `order_leaders` with it. The
round of the leader is 1, the counter starts at `1 − 2`, which is 2^64 − 1 in 64-bit
unsigned arithmetic, and stays odd: the entry of the body at counter 1 finds no
certificate and steps to 2^64 − 1 again. Neither `order_leaders` nor `process_round`
returns, whatever the fuel. -/
theorem order_leaders_underflow :
    (¬ (5 < 4 ∨ (5 - 1) % 2 ≠ 0)
      ∧ odd_leader_state.last_committed_round < 5 - 1 - 2
      ∧ TuskEngine.leader (5 - 1 - 2) odd_leader_state.dag committee4
          = some (toy_digest 1 0, toy_cert 4 1 0)
      ∧ committee4.validity_threshold
          ≤ support committee4 (lookup odd_leader_state.dag (5 - 1 - 1)) (toy_digest 1 0))
    ∧ (toy_cert 4 1 0).round = 1
    ∧ ((toy_cert 4 1 0).round + 2 ^ 64 - 2) % 2 ^ 64 = 2 ^ 64 - 1
    ∧ TuskEngine.leader 1 odd_leader_state.dag committee4 = none
    ∧ (1 + 2 ^ 64 - 2) % 2 ^ 64 = 2 ^ 64 - 1
    ∧ (∀ fuel, TuskEngine.order_leaders toyHash fuel (toy_cert 4 1 0) odd_leader_state
        odd_leader_state.dag committee4 = none)
    ∧ (∀ (S : RoundSorter) (fuel : Nat), TuskEngine.process_round toyHash S fuel 5
        odd_leader_state.dag odd_leader_state committee4 = none) := by
  have hlead : TuskEngine.leader (5 - 1 - 2) odd_leader_state.dag committee4
      = some (toy_digest 1 0, toy_cert 4 1 0) := by decide
  have hsup : committee4.validity_threshold
      ≤ support committee4 (lookup odd_leader_state.dag (5 - 1 - 1)) (toy_digest 1 0) := by
    decide
  have hord : ∀ fuel, TuskEngine.order_leaders toyHash fuel (toy_cert 4 1 0) odd_leader_state
      odd_leader_state.dag committee4 = none := by
    intro fuel
    unfold TuskEngine.order_leaders
    exact odd_leader_loop fuel _ _ _ (by decide) (by decide)
  refine ⟨⟨by decide, by decide, hlead, hsup⟩, rfl, by decide, by decide, by decide, hord, ?_⟩
  intro S fuel
  unfold TuskEngine.process_round
  rw [if_neg (by decide)]
  dsimp only
  rw [if_neg (by decide), hlead]
  dsimp only
  rw [if_neg (by omega), hord]

/-- C39 (amended): let `process_round(round, …)` be called on a DAG whose entries are
stored under the round of their certificate (as in every run of the driver), pass its
round test and elect the leader certificate `lc`. Then the round of `lc` is `round − 3`,
even and at least 2, so the counter of `order_leaders` starts at `lc.round − 2` without
wrapping; with fuel for `lc.round / 2` loop tests the call returns, and the values of the
counter for which the body was entered are `lc.round − 2, lc.round − 4, …`, each even, at
least 2 (so `r -= 2` never wraps) and above `last_committed_round`; there are at most
`lc.round / 2` of them, whether or not `leader` finds a certificate at each of them. -/
theorem order_leaders_terminates (H : HashFn) (committee : Committee) (round : Nat)
    (dag : dag_t) (state : State) (ld : Digest) (lc : Certificate)
    (hdag : DagRounds dag) (hround : round < 2 ^ 64)
    (hguard : ¬ (round < 4 ∨ (round - 1) % 2 ≠ 0))
    (hlead : TuskEngine.leader (round - 1 - 2) dag committee = some (ld, lc)) :
    lc.round = round - 3 ∧ lc.round % 2 = 0 ∧ 2 ≤ lc.round
    ∧ (lc.round + 2 ^ 64 - 2) % 2 ^ 64 = lc.round - 2
    ∧ (∀ fuel, lc.round / 2 ≤ fuel →
        order_leaders_trace H state dag committee fuel
            ((lc.round + 2 ^ 64 - 2) % 2 ^ 64) lc [lc] []
          = some (lc :: leader_chain H state dag committee (lc.round / 2 - 1) lc,
              (List.range (lc.round / 2 - 1 - state.last_committed_round / 2)).map
                (fun i => lc.round - 2 - 2 * i))
        ∧ TuskEngine.order_leaders H fuel lc state dag committee
          = some (lc :: leader_chain H state dag committee (lc.round / 2 - 1) lc))
    ∧ (∀ r ∈ (List.range (lc.round / 2 - 1 - state.last_committed_round / 2)).map
          (fun i => lc.round - 2 - 2 * i),
        r % 2 = 0 ∧ 2 ≤ r ∧ r ≤ lc.round - 2 ∧ state.last_committed_round < r
          ∧ (r + 2 ^ 64 - 2) % 2 ^ 64 = r - 2)
    ∧ ((List.range (lc.round / 2 - 1 - state.last_committed_round / 2)).map
          (fun i => lc.round - 2 - 2 * i)).length ≤ lc.round / 2
    ∧ (∀ (S : RoundSorter) (fuel0 gc_depth : Nat) (received : List Certificate) (d : Driver)
        (certificate : Certificate),
        Consensus.run H S fuel0 committee gc_depth Engine.tusk received = some d →
        DagRounds (Consensus.insert H d.state certificate).dag) := by
  obtain ⟨k0, hk0⟩ := leader_entry _ _ committee _ hlead
  have hlr : lc.round = round - 1 - 2 := hdag _ _ _ hk0
  have hstart : (lc.round + 2 ^ 64 - 2) % 2 ^ 64 = lc.round - 2 := by
    have e : lc.round + 2 ^ 64 - 2 = (lc.round - 2) + 2 ^ 64 := by omega
    rw [e, Nat.add_mod_right, Nat.mod_eq_of_lt (by omega)]
  have h2j : lc.round - 2 = 2 * (lc.round / 2 - 1) := by omega
  refine ⟨by omega, by omega, by omega, hstart, ?_, ?_, ?_, ?_⟩
  · intro fuel hfuel
    have htr := order_leaders_trace_chain H state dag committee (lc.round / 2 - 1) fuel lc [lc]
      [] (by omega) (by omega)
    have hfst := order_leaders_trace_fst H state dag committee fuel (2 * (lc.round / 2 - 1))
      lc [lc] []
    rw [htr] at hfst
    rw [hstart, h2j]
    constructor
    · rw [htr]
      rfl
    · unfold TuskEngine.order_leaders
      rw [hstart, h2j, ← hfst]
      rfl
  · intro r hr
    obtain ⟨i, hi, rfl⟩ := List.mem_map.mp hr
    have hi2 := List.mem_range.mp hi
    have e : lc.round - 2 - 2 * i + 2 ^ 64 - 2 = (lc.round - 2 - 2 * i - 2) + 2 ^ 64 := by
      omega
    refine ⟨by omega, by omega, by omega, by omega, ?_⟩
    rw [e, Nat.add_mod_right, Nat.mod_eq_of_lt (by omega)]
  · rw [List.length_map, List.length_range]
    omega
  · intro S fuel0 gc_depth received d certificate hrun
    unfold Consensus.run at hrun
    exact dagRounds_of_entries H _ (insert_dagEntries H d.state certificate
      (run_loop_dagEntries H S fuel0 committee gc_depth received _ d hrun
        (init_dagEntries H committee)))

theorem sparse_run :
    Consensus.run toyHash stableSorter 3 committee4 50 Engine.tusk sparse_certs
      = some { state := sparse_state, engine := Engine.tusk, tx_primary := [],
               tx_output := [] } := by
  decide

theorem sparse_leader :
    TuskEngine.leader (9 - 1 - 2) (Consensus.insert toyHash sparse_state (toy_next 8)).dag
      committee4 = some (toy_digest 6 2, toy_cert 7 6 2) := by
  decide

theorem order_leaders_terminates_witness :
    (DagRounds (Consensus.insert toyHash sparse_state (toy_next 8)).dag
      ∧ Consensus.run toyHash stableSorter 3 committee4 50 Engine.tusk sparse_certs
        = some { state := sparse_state, engine := Engine.tusk, tx_primary := [],
                 tx_output := [] }
      ∧ (toy_next 8).round = 9
      ∧ TuskEngine.leader (9 - 1 - 2) (Consensus.insert toyHash sparse_state (toy_next 8)).dag
          committee4 = some (toy_digest 6 2, toy_cert 7 6 2))
    ∧ (TuskEngine.leader 4 (Consensus.insert toyHash sparse_state (toy_next 8)).dag committee4
        = some (toy_digest 4 0, toy_cert 7 4 0)
      ∧ TuskEngine.leader 2 (Consensus.insert toyHash sparse_state (toy_next 8)).dag committee4
        = none)
    ∧ order_leaders_trace toyHash (Consensus.insert toyHash sparse_state (toy_next 8))
        (Consensus.insert toyHash sparse_state (toy_next 8)).dag committee4 3
        (((toy_cert 7 6 2).round + 2 ^ 64 - 2) % 2 ^ 64) (toy_cert 7 6 2) [toy_cert 7 6 2] []
      = some ([toy_cert 7 6 2, toy_cert 7 4 0], [4, 2])
    ∧ TuskEngine.order_leaders toyHash 3 (toy_cert 7 6 2)
        (Consensus.insert toyHash sparse_state (toy_next 8))
        (Consensus.insert toyHash sparse_state (toy_next 8)).dag committee4
      = some [toy_cert 7 6 2, toy_cert 7 4 0] := by
  have hdag : DagRounds (Consensus.insert toyHash sparse_state (toy_next 8)).dag :=
    insert_dagRounds toyHash _ _ (inserts_dagRounds toyHash _ _ (init_dagRounds toyHash committee4))
  have h := order_leaders_terminates toyHash committee4 9
    (Consensus.insert toyHash sparse_state (toy_next 8)).dag
    (Consensus.insert toyHash sparse_state (toy_next 8)) _ _ hdag (by decide) (by decide)
    sparse_leader
  have h3 := h.2.2.2.2.1 3 (by decide)
  exact ⟨⟨hdag, sparse_run, rfl, sparse_leader⟩, ⟨by decide, by decide⟩,
    h3.1.trans (by decide), h3.2.trans (by decide)⟩

/-- C40: stake arithmetic is 32-bit unsigned and wraps. For the committee of one authority
of stake 2^31, `quorum_threshold()` is `(2^32 mod 2^32) / 3 + 1 = 1` and
`validity_threshold()` is 715827883; for every committee whose stakes sum to S with
`2^31 ≤ S ≤ 2^32 − 4`, `quorum_threshold()` is `(2·S − 2^32) / 3 + 1` and is strictly
smaller than `validity_threshold()`. -/
theorem stake_wrap :
    heavy_committee.stake_sum = 2 ^ 31
    ∧ heavy_committee.total_stake = 2 ^ 31
    ∧ heavy_committee.quorum_threshold = 1
    ∧ heavy_committee.validity_threshold = 715827883
    ∧ heavy_committee.quorum_threshold < heavy_committee.validity_threshold
    ∧ (∀ c : Committee, 2 ^ 31 ≤ c.stake_sum → c.stake_sum + 4 ≤ 2 ^ 32 →
        c.quorum_threshold = (c.stake_sum * 2 % 2 ^ 32) / 3 + 1
        ∧ c.quorum_threshold = (2 * c.stake_sum - 2 ^ 32) / 3 + 1
        ∧ c.validity_threshold = (c.stake_sum - 1) / 3 + 1
        ∧ c.quorum_threshold < c.validity_threshold) := by
  refine ⟨by decide, by decide, by decide, by decide, by decide, ?_⟩
  intro c h1 h2
  have ht := total_stake_eq_sum c (by omega)
  have hq : c.quorum_threshold = (c.stake_sum * 2 % 2 ^ 32) / 3 + 1 := by
    unfold Committee.quorum_threshold
    rw [ht]
  have hv : c.validity_threshold = (c.stake_sum - 1) / 3 + 1 := by
    unfold Committee.validity_threshold
    rw [ht]
    have : (c.stake_sum + 2 ^ 32 - 1) % 2 ^ 32 = c.stake_sum - 1 := by omega
    rw [this]
  have hw : c.stake_sum * 2 % 2 ^ 32 = 2 * c.stake_sum - 2 ^ 32 := by omega
  refine ⟨hq, by rw [hq, hw], hv, ?_⟩
  rw [hq, hv, hw]
  omega

theorem stake_wrap_witness :
    (2 ^ 31 ≤ heavy_committee.stake_sum ∧ heavy_committee.stake_sum + 4 ≤ 2 ^ 32)
    ∧ heavy_committee.quorum_threshold < heavy_committee.validity_threshold :=
  ⟨⟨by decide, by decide⟩, (stake_wrap.2.2.2.2.2 heavy_committee (by decide) (by decide)).2.2.2⟩

end narwhal
